import Mathlib

/-!
# sheep: partitioning engine of `lib/partition.h`

A shallow embedding of the `Partition` class and a verification of its
balance model, forest-guided forward bin-packing, streaming (FENNEL-style)
partitioner, index remapping and evaluation engine, followed by the backward
critical-path and naive sequential partitioners, the output writer and the
file-backed streaming variant.

Conventions of the embedding.

* `size_t` values (weights, part sizes, capacities) are natural numbers. The
  counters of `evaluate`, which subtract 1 from a set size, are reduced modulo
  `2 ^ 64` explicitly (`wrap64`); the one subtraction of `forwardPartition`
  (`component_below.at(id) -= component_below.at(kid)`) never goes below zero
  on a forest (`kid_weight_le`).
* `short` values (part identifiers, the sentinel `INVALID_PART`) are integers
  of the `short` range; conversions to `short` go through `toShort`.
* `jnid_t`/`vid_t` identifiers are natural numbers (their declarations live in
  headers outside `partition.h`); `INVALID_JNID` is `none`.
* `std::vector::at` raises `Err.outOfRange` when the index is out of range, a
  failed `assert` raises `Err.assertFailed`; loops without an a-priori bound
  take a fuel argument and raise `Err.outOfFuel` when it is used up; an
  unchecked `operator[]` out of range or `*std::max_element` of an empty range
  is `Err.undefinedBehaviour`.
* `double` values are rationals. The capacity `max_component` is computed in
  binary64 arithmetic: `roundDouble` rounds a rational to the nearest `double`
  (ties to even), and every operand and the product of
  `(count / num_parts) * balance_factor` go through it. The cost function of
  the streaming partitioners is a parameter with rational values; running part
  sizes and tallies (whole numbers in the source) are naturals.
* A function whose name ends in `Traced` is the function of the same name that
  reports, with a failure, the number of parts open at that moment
  (`dropTrace` forgets the report).
* An output stream is the list of the lines written to it, the line `X Y`
  being the pair `(X, Y)`; a binary edge file is the list of the `(tail, head)`
  pairs of its records.
-/

namespace Sheep

/-! ## Basic vocabulary -/

/-- The ways a run can stop without a result. -/
inductive Err where
  | outOfRange
  | assertFailed
  | outOfFuel
  | undefinedBehaviour
  deriving DecidableEq, Repr

/-- The sentinel `#define INVALID_PART (short)-1`. -/
abbrev INVALID_PART : Int := -1

/-- Conversion of an integer value to `short` (two's complement, 16 bits). -/
def toShort (z : Int) : Int := (z + 32768) % 65536 - 32768

/-- Number of iterations after which a `short` counter has taken every value. -/
@[irreducible] def shortPeriod : Nat := 65537

/-- The forest interface `JNodeTable` used by the partitioners (`jnode.h` is
not part of `partition.h`): node count, parent (`none` for `INVALID_JNID`),
ordered kid list and precomputed spanning-tree weight of every node id. -/
structure JNodeTable where
  size : Nat
  parent : Nat → Option Nat
  kids : Nat → List Nat
  pst_weight : Nat → Nat

/-- The weight a node contributes itself:
`edge_balanced ? jnodes.pst_weight(id) : 1`. -/
def ownWeight (jnodes : JNodeTable) (edge_balanced : Bool) (id : Nat) : Nat :=
  if edge_balanced then jnodes.pst_weight id else 1

/-- Read `v.at(i)` for a `short` index `i` (converted to `size_t`, so a negative
index is out of range). -/
def atShort (v : List Nat) (i : Int) : Option Nat :=
  if 0 ≤ i then v[i.toNat]? else none

/-! ## Forward bin-packing partitioner (`forwardPartition`) -/

/-- Mutable state of `forwardPartition`: the member `parts` and the locals
`component_below` and `part_size`. -/
structure FwdState where
  parts : List Int
  component_below : List Nat
  part_size : List Nat
  deriving DecidableEq, Repr

/-- Lines 167-175: `for (short cur_part = 0; cur_part != (short) part_size.size();
++cur_part)`, packing `kid` into the first part it fits in. -/
def packScan (max_component id kid : Nat) : Nat → Int → FwdState → Except Err FwdState
  | 0, _, _ => .error .outOfFuel
  | fuel + 1, cur_part, s =>
    if cur_part = toShort s.part_size.length then .ok s
    else
      match atShort s.part_size cur_part, s.component_below[kid]?, s.component_below[id]? with
      | some ps, some cbk, some cbid =>
        if ps + cbk ≤ max_component then
          let cb1 := s.component_below.set id (cbid - cbk)
          .ok { parts := s.parts.set kid cur_part
                component_below := cb1
                part_size := s.part_size.set cur_part.toNat (ps + cb1.getD kid 0) }
        else packScan max_component id kid fuel (toShort (cur_part + 1)) s
      | _, _, _ => .error .outOfRange

/-- Lines 159-176: one pass over the (sorted) kids of `id`, as long as
`component_below.at(id) > max_component`. -/
def packKids (max_component id : Nat) : List Nat → FwdState → Except Err FwdState
  | [], s =>
    match s.component_below[id]? with
    | none => .error .outOfRange
    | some _ => .ok s
  | kid :: rest, s =>
    match s.component_below[id]? with
    | none => .error .outOfRange
    | some cbid =>
      if cbid > max_component then
        match s.component_below[kid]? with
        | none => .error .outOfRange
        | some cbk =>
          if ¬ cbk ≤ max_component then .error .assertFailed
          else
            match s.parts[kid]? with
            | none => .error .outOfRange
            | some pk =>
              if pk ≠ INVALID_PART then packKids max_component id rest s
              else
                match packScan max_component id kid shortPeriod 0 s with
                | .error e => .error e
                | .ok s1 => packKids max_component id rest s1
      else .ok s

/-- Lines 157-180: the `do { ... } while (component_below.at(id) > max_component)`
loop; every iteration that leaves `id` too heavy opens a new part. -/
def packLoop (max_component id : Nat) (kids : List Nat) : Nat → FwdState → Except Err FwdState
  | 0, _ => .error .outOfFuel
  | fuel + 1, s =>
    match packKids max_component id kids s with
    | .error e => .error e
    | .ok s1 =>
      match s1.component_below[id]? with
      | none => .error .outOfRange
      | some cbid =>
        if cbid > max_component then
          packLoop max_component id kids fuel { s1 with part_size := s1.part_size ++ [0] }
        else .ok s1

/-- Lines 151-181: `if (component_below.at(id) > max_component)`, sort the kids
and pack them. `sortKids key l` stands for `std::sort` of the kid list `l` by
descending `key`; its comparator reads `component_below.at` of the kids it
compares. -/
def packPhase (sortKids : (Nat → Nat) → List Nat → List Nat) (jnodes : JNodeTable)
    (max_component fuel id : Nat) (s : FwdState) : Except Err FwdState :=
  match s.component_below[id]? with
  | none => .error .outOfRange
  | some cbid =>
    if cbid > max_component then
      if 2 ≤ (jnodes.kids id).length ∧
          (jnodes.kids id).any (fun k => decide (s.component_below.length ≤ k)) then
        .error .outOfRange
      else
        packLoop max_component id
          (sortKids (fun k => s.component_below.getD k 0) (jnodes.kids id)) fuel s
    else .ok s

/-- Lines 182-184: the assertion on the finished weight of `id` and its
addition to the weight of the parent. -/
def foldPhase (jnodes : JNodeTable) (max_component id : Nat) (s : FwdState) : Except Err FwdState :=
  match s.component_below[id]? with
  | none => .error .outOfRange
  | some cbid =>
    if ¬ cbid ≤ max_component then .error .assertFailed
    else
      match jnodes.parent id with
      | none => .ok s
      | some p =>
        match s.component_below[p]? with
        | none => .error .outOfRange
        | some cbp => .ok { s with component_below := s.component_below.set p (cbp + cbid) }

/-- Lines 148-184: the body of the first loop for node `id`. -/
def forwardStep (sortKids : (Nat → Nat) → List Nat → List Nat) (jnodes : JNodeTable)
    (edge_balanced : Bool) (max_component fuel id : Nat) (s : FwdState) : Except Err FwdState :=
  match s.component_below[id]? with
  | none => .error .outOfRange
  | some cb0 =>
    match packPhase sortKids jnodes max_component fuel id
        { s with component_below := s.component_below.set id (cb0 + ownWeight jnodes edge_balanced id) } with
    | .error e => .error e
    | .ok s2 => foldPhase jnodes max_component id s2

/-- Lines 147-185: `for (jnid_t id = 0; id != jnodes.size(); ++id)`, with `k`
iterations left starting at `id`. -/
def firstPass (sortKids : (Nat → Nat) → List Nat → List Nat) (jnodes : JNodeTable)
    (edge_balanced : Bool) (max_component fuel : Nat) : Nat → Nat → FwdState → Except Err FwdState
  | 0, _, s => .ok s
  | k + 1, id, s =>
    match forwardStep sortKids jnodes edge_balanced max_component fuel id s with
    | .error e => .error e
    | .ok s1 => firstPass sortKids jnodes edge_balanced max_component fuel k (id + 1) s1

/-- Lines 192-198: `for (short cur_part = part_size.size() - 1; cur_part != -1;
--cur_part)`, placing `id` into the last-opened part it fits in. -/
def placeScan (max_component id : Nat) : Nat → Int → FwdState → Except Err FwdState
  | 0, _, _ => .error .outOfFuel
  | fuel + 1, cur_part, s =>
    if cur_part = -1 then .ok s
    else
      match atShort s.part_size cur_part, s.component_below[id]? with
      | some ps, some cbid =>
        if ps + cbid ≤ max_component then
          .ok { s with part_size := s.part_size.set cur_part.toNat (ps + cbid)
                       parts := s.parts.set id cur_part }
        else placeScan max_component id fuel (toShort (cur_part - 1)) s
      | _, _ => .error .outOfRange

/-- Lines 191-201: `while (parts.at(id) == INVALID_PART)`, opening a new part
whenever the scan placed nothing. -/
def placeLoop (max_component id : Nat) : Nat → FwdState → Except Err FwdState
  | 0, _ => .error .outOfFuel
  | fuel + 1, s =>
    match s.parts[id]? with
    | none => .error .outOfRange
    | some pid =>
      if pid = INVALID_PART then
        match placeScan max_component id shortPeriod (toShort ((s.part_size.length : Int) - 1)) s with
        | .error e => .error e
        | .ok s1 =>
          match s1.parts[id]? with
          | none => .error .outOfRange
          | some pid1 =>
            if pid1 = INVALID_PART then
              placeLoop max_component id fuel { s1 with part_size := s1.part_size ++ [0] }
            else .ok s1
      else .ok s

/-- Lines 188-201: the body of the second loop for node `id`. -/
def backfillStep (jnodes : JNodeTable) (max_component fuel id : Nat) (s : FwdState) :
    Except Err FwdState :=
  match s.parts[id]? with
  | none => .error .outOfRange
  | some pid =>
    let inherited : Except Err FwdState :=
      if pid = INVALID_PART then
        match jnodes.parent id with
        | none => .ok s
        | some p =>
          match s.parts[p]? with
          | none => .error .outOfRange
          | some pp => .ok { s with parts := s.parts.set id pp }
      else .ok s
    match inherited with
    | .error e => .error e
    | .ok s1 => placeLoop max_component id fuel s1

/-- Lines 187-202: `for (jnid_t id = jnodes.size() - 1; id != (jnid_t)-1; --id)`,
with the ids below the argument still to visit. -/
def secondPass (jnodes : JNodeTable) (max_component fuel : Nat) : Nat → FwdState → Except Err FwdState
  | 0, s => .ok s
  | id + 1, s =>
    match backfillStep jnodes max_component fuel id s with
    | .error e => .error e
    | .ok s1 => secondPass jnodes max_component fuel id s1

/-- The method `Partition::forwardPartition`, run on the member `parts` as the
constructor leaves it (`jnodes.size()` entries, all `INVALID_PART`). -/
def forwardPartition (sortKids : (Nat → Nat) → List Nat → List Nat) (jnodes : JNodeTable)
    (edge_balanced : Bool) (max_component fuel : Nat) : Except Err FwdState :=
  let s0 : FwdState :=
    { parts := List.replicate jnodes.size INVALID_PART
      component_below := List.replicate jnodes.size 0
      part_size := [] }
  match firstPass sortKids jnodes edge_balanced max_component fuel jnodes.size 0 s0 with
  | .error e => .error e
  | .ok s1 => secondPass jnodes max_component fuel jnodes.size s1

/-- The outcome of a run that records, with a failure, the number of parts
open (`part_size.size()`) at the moment of the failure, without that record. -/
def dropTrace (r : Except (Err × Nat) FwdState) : Except Err FwdState :=
  match r with
  | .ok s => .ok s
  | .error e => .error e.1

/-- Lines 157-180 as `packLoop`; a failure is reported together with
`part_size.size()` at that moment. -/
def packLoopTraced (max_component id : Nat) (kids : List Nat) :
    Nat → FwdState → Except (Err × Nat) FwdState
  | 0, s => .error (.outOfFuel, s.part_size.length)
  | fuel + 1, s =>
    match packKids max_component id kids s with
    | .error e => .error (e, s.part_size.length)
    | .ok s1 =>
      match s1.component_below[id]? with
      | none => .error (.outOfRange, s1.part_size.length)
      | some cbid =>
        if cbid > max_component then
          packLoopTraced max_component id kids fuel { s1 with part_size := s1.part_size ++ [0] }
        else .ok s1

/-- Lines 151-181 as `packPhase`, with the failures of `packLoopTraced`. -/
def packPhaseTraced (sortKids : (Nat → Nat) → List Nat → List Nat) (jnodes : JNodeTable)
    (max_component fuel id : Nat) (s : FwdState) : Except (Err × Nat) FwdState :=
  match s.component_below[id]? with
  | none => .error (.outOfRange, s.part_size.length)
  | some cbid =>
    if cbid > max_component then
      if 2 ≤ (jnodes.kids id).length ∧
          (jnodes.kids id).any (fun k => decide (s.component_below.length ≤ k)) then
        .error (.outOfRange, s.part_size.length)
      else
        packLoopTraced max_component id
          (sortKids (fun k => s.component_below.getD k 0) (jnodes.kids id)) fuel s
    else .ok s

/-- Lines 148-184 as `forwardStep`, with the failures of `packPhaseTraced`. -/
def forwardStepTraced (sortKids : (Nat → Nat) → List Nat → List Nat) (jnodes : JNodeTable)
    (edge_balanced : Bool) (max_component fuel id : Nat) (s : FwdState) :
    Except (Err × Nat) FwdState :=
  match s.component_below[id]? with
  | none => .error (.outOfRange, s.part_size.length)
  | some cb0 =>
    match packPhaseTraced sortKids jnodes max_component fuel id
        { s with component_below := s.component_below.set id (cb0 + ownWeight jnodes edge_balanced id) } with
    | .error e => .error e
    | .ok s2 =>
      match foldPhase jnodes max_component id s2 with
      | .error e => .error (e, s2.part_size.length)
      | .ok s3 => .ok s3

/-- Lines 147-185 as `firstPass`, with the failures of `forwardStepTraced`. -/
def firstPassTraced (sortKids : (Nat → Nat) → List Nat → List Nat) (jnodes : JNodeTable)
    (edge_balanced : Bool) (max_component fuel : Nat) :
    Nat → Nat → FwdState → Except (Err × Nat) FwdState
  | 0, _, s => .ok s
  | k + 1, id, s =>
    match forwardStepTraced sortKids jnodes edge_balanced max_component fuel id s with
    | .error e => .error e
    | .ok s1 => firstPassTraced sortKids jnodes edge_balanced max_component fuel k (id + 1) s1

/-- Lines 191-201 as `placeLoop`; a failure is reported together with
`part_size.size()` at that moment. -/
def placeLoopTraced (max_component id : Nat) : Nat → FwdState → Except (Err × Nat) FwdState
  | 0, s => .error (.outOfFuel, s.part_size.length)
  | fuel + 1, s =>
    match s.parts[id]? with
    | none => .error (.outOfRange, s.part_size.length)
    | some pid =>
      if pid = INVALID_PART then
        match placeScan max_component id shortPeriod (toShort ((s.part_size.length : Int) - 1)) s with
        | .error e => .error (e, s.part_size.length)
        | .ok s1 =>
          match s1.parts[id]? with
          | none => .error (.outOfRange, s1.part_size.length)
          | some pid1 =>
            if pid1 = INVALID_PART then
              placeLoopTraced max_component id fuel { s1 with part_size := s1.part_size ++ [0] }
            else .ok s1
      else .ok s

/-- Lines 188-201 as `backfillStep`, with the failures of `placeLoopTraced`. -/
def backfillStepTraced (jnodes : JNodeTable) (max_component fuel id : Nat) (s : FwdState) :
    Except (Err × Nat) FwdState :=
  match s.parts[id]? with
  | none => .error (.outOfRange, s.part_size.length)
  | some pid =>
    let inherited : Except (Err × Nat) FwdState :=
      if pid = INVALID_PART then
        match jnodes.parent id with
        | none => .ok s
        | some p =>
          match s.parts[p]? with
          | none => .error (.outOfRange, s.part_size.length)
          | some pp => .ok { s with parts := s.parts.set id pp }
      else .ok s
    match inherited with
    | .error e => .error e
    | .ok s1 => placeLoopTraced max_component id fuel s1

/-- Lines 187-202 as `secondPass`, with the failures of `backfillStepTraced`. -/
def secondPassTraced (jnodes : JNodeTable) (max_component fuel : Nat) :
    Nat → FwdState → Except (Err × Nat) FwdState
  | 0, s => .ok s
  | id + 1, s =>
    match backfillStepTraced jnodes max_component fuel id s with
    | .error e => .error e
    | .ok s1 => secondPassTraced jnodes max_component fuel id s1

/-- The method `Partition::forwardPartition` as `forwardPartition`; a failure
is reported together with the number of parts open (`part_size.size()`) at the
moment of the failure. -/
def forwardPartitionTraced (sortKids : (Nat → Nat) → List Nat → List Nat) (jnodes : JNodeTable)
    (edge_balanced : Bool) (max_component fuel : Nat) : Except (Err × Nat) FwdState :=
  let s0 : FwdState :=
    { parts := List.replicate jnodes.size INVALID_PART
      component_below := List.replicate jnodes.size 0
      part_size := [] }
  match firstPassTraced sortKids jnodes edge_balanced max_component fuel jnodes.size 0 s0 with
  | .error e => .error e
  | .ok s1 => secondPassTraced jnodes max_component fuel jnodes.size s1

/-- The running weight `component_below` of node `k` (0 outside the vector). -/
def cbAt (s : FwdState) (k : Nat) : Nat := s.component_below.getD k 0

/-- The part of node `k` (the sentinel outside the vector). -/
def partAt (s : FwdState) (k : Nat) : Int := s.parts.getD k INVALID_PART

/-- The running size of part `p` (0 for a part not opened). -/
def psAt (s : FwdState) (p : Nat) : Nat := s.part_size.getD p 0

/-- What the forest builder guarantees: ids are ordered child before parent,
parents are nodes, and the kid list of a node lists exactly its children. -/
structure IsForest (jnodes : JNodeTable) : Prop where
  child_before_parent : ∀ id p, jnodes.parent id = some p → id < p
  parent_lt : ∀ id p, id < jnodes.size → jnodes.parent id = some p → p < jnodes.size
  kids_parent : ∀ id k, id < jnodes.size → k ∈ jnodes.kids id → jnodes.parent k = some id
  kids_complete : ∀ id k, k < jnodes.size → jnodes.parent k = some id → k ∈ jnodes.kids id

/-- Invariant of the first loop of `forwardPartition`: the nodes below `a` have
received their own weight, the nodes below `b` have been folded into their
parents. `component_below` of a node is its own weight plus the weight of its
kids that are not packed; the size of a part is the weight of the nodes packed
into it; sizes and finished weights respect `max_component`. -/
structure FwdInv (jnodes : JNodeTable) (edge_balanced : Bool) (max_component a b : Nat)
    (s : FwdState) : Prop where
  len_parts : s.parts.length = jnodes.size
  len_cb : s.component_below.length = jnodes.size
  cb_eq : ∀ k, k < jnodes.size →
    cbAt s k = (if k < a then ownWeight jnodes edge_balanced k else 0) +
      ∑ c ∈ Finset.range b,
        if jnodes.parent c = some k ∧ partAt s c = INVALID_PART then cbAt s c else 0
  ps_eq : ∀ p, p < s.part_size.length →
    psAt s p = ∑ c ∈ Finset.range jnodes.size, if partAt s c = (p : Int) then cbAt s c else 0
  ps_le : ∀ p, p < s.part_size.length → psAt s p ≤ max_component
  part_rng : ∀ c, c < jnodes.size →
    partAt s c = INVALID_PART ∨ (0 ≤ partAt s c ∧ partAt s c < s.part_size.length ∧ c < b)
  cb_le : ∀ k, k < b → cbAt s k ≤ max_component

/-- The number of nodes that have a part. -/
def assignedCount (jnodes : JNodeTable) (s : FwdState) : Nat :=
  ∑ c ∈ Finset.range jnodes.size, if partAt s c = INVALID_PART then 0 else 1

/-- Some opened part is empty. -/
def HasEmptyPart (s : FwdState) : Prop := ∃ p, p < s.part_size.length ∧ psAt s p = 0

/-- Parts are opened on demand: there is at most one more part than nodes with
a part, and one more only while some part is empty. -/
structure PartsBound (jnodes : JNodeTable) (s : FwdState) : Prop where
  le_succ : s.part_size.length ≤ assignedCount jnodes s + 1
  le_of_full : ¬ HasEmptyPart s → s.part_size.length ≤ assignedCount jnodes s

/-- The weight by which node `c` counts towards part `p` while the second loop
of `forwardPartition` has visited the nodes from `j` on: a visited node counts
with its own weight, a packed node not yet visited with `component_below`, and
so does an unpacked node whose parent is visited and lies in `p`. -/
def shareOf (jnodes : JNodeTable) (edge_balanced : Bool) (j : Nat) (s : FwdState) (p c : Nat) : Nat :=
  if j ≤ c then (if partAt s c = (p : Int) then ownWeight jnodes edge_balanced c else 0)
  else if partAt s c = (p : Int) then cbAt s c
  else if partAt s c = INVALID_PART then
    match jnodes.parent c with
    | some q => if j ≤ q ∧ partAt s q = (p : Int) then cbAt s c else 0
    | none => 0
  else 0

/-- Invariant of the second loop of `forwardPartition` with the nodes from `j`
on visited: these nodes have a part, and the size of every part is the sum of
the shares of all nodes. -/
structure SndInv (jnodes : JNodeTable) (edge_balanced : Bool) (max_component j : Nat)
    (s : FwdState) : Prop where
  len_parts : s.parts.length = jnodes.size
  len_cb : s.component_below.length = jnodes.size
  cb_eq : ∀ k, k < j →
    cbAt s k = ownWeight jnodes edge_balanced k +
      ∑ c ∈ Finset.range j,
        if jnodes.parent c = some k ∧ partAt s c = INVALID_PART then cbAt s c else 0
  cb_le : ∀ k, k < jnodes.size → cbAt s k ≤ max_component
  resolved : ∀ c, j ≤ c → c < jnodes.size → 0 ≤ partAt s c ∧ partAt s c < s.part_size.length
  part_rng : ∀ c, c < jnodes.size →
    partAt s c = INVALID_PART ∨ (0 ≤ partAt s c ∧ partAt s c < s.part_size.length)
  ps_eq : ∀ p, p < s.part_size.length →
    psAt s p = ∑ c ∈ Finset.range jnodes.size, shareOf jnodes edge_balanced j s p c
  ps_le : ∀ p, p < s.part_size.length → psAt s p ≤ max_component

/-- A `std::sort` by descending key: insertion sort, the order libstdc++
produces on short ranges. -/
def sortDesc (key : Nat → Nat) (l : List Nat) : List Nat :=
  l.insertionSort (fun a b => key b ≤ key a)

/-- A forest given by the list of its nodes `(parent, kids, pst_weight)`. -/
def JNodeTable.ofList (l : List (Option Nat × List Nat × Nat)) : JNodeTable where
  size := l.length
  parent := fun id => (l.getD id (none, [], 0)).1
  kids := fun id => (l.getD id (none, [], 0)).2.1
  pst_weight := fun id => (l.getD id (none, [], 0)).2.2

/-- A forest of `n` roots without kids, every weight 1. -/
def isolatedForest (n : Nat) : JNodeTable where
  size := n
  parent := fun _ => none
  kids := fun _ => []
  pst_weight := fun _ => 1

/-- The second loop on `isolatedForest n` with capacity 1, the nodes from `j`
on visited: every visited node has opened a part of its own. -/
structure IsoInv (n j : Nat) (s : FwdState) : Prop where
  len_parts : s.parts.length = n
  len_cb : s.component_below.length = n
  cb_one : ∀ c, c < n → cbAt s c = 1
  unvisited : ∀ c, c < j → partAt s c = INVALID_PART
  len_ps : s.part_size.length + j = n
  ps_one : ∀ p, p < s.part_size.length → psAt s p = 1

/-- Scenario A: a root (id 2) with two kids (ids 0 and 1), every weight 1. -/
def scenarioA : JNodeTable :=
  JNodeTable.ofList [(some 2, [], 1), (some 2, [], 1), (none, [0, 1], 1)]

/-! ## Balance model and constructors -/

/-- Rounding of a rational to a neighbouring integer: the nearest one, and the
even one of the two when both are equally near (the IEEE 754 default rounding
of a significand). -/
def roundHalfEven (y : ℚ) : Int :=
  if y - ⌊y⌋ < 1 / 2 then ⌊y⌋
  else if 1 / 2 < y - ⌊y⌋ then ⌊y⌋ + 1
  else if ⌊y⌋ % 2 = 0 then ⌊y⌋ else ⌊y⌋ + 1

/-- The exponent of the last place of the 53-bit significand of a `double` of
the magnitude of `x > 0`: `floor (log2 x) - 52`, and `-1074` in the subnormal
range. -/
def ulpExponent (x : ℚ) : Int := max (-1074) (Int.log 2 x - 52)

/-- The `double` nearest to the rational `x` (binary64, round to nearest, ties
to even), as a rational. Values beyond the largest finite `double` are outside
the model. -/
def roundDouble (x : ℚ) : ℚ :=
  if x = 0 then 0
  else if 0 < x then (roundHalfEven (x / 2 ^ ulpExponent x) : ℚ) * 2 ^ ulpExponent x
  else -((roundHalfEven (-x / 2 ^ ulpExponent (-x)) : ℚ) * 2 ^ ulpExponent (-x))

/-- The `double` value of `(count / num_parts) * balance_factor` (lines 54, 87
and 502): `count` is a `size_t` and `num_parts` a `short`, so the quotient is
the integer quotient; it is converted to `double`, and multiplied in `double`
arithmetic by the `double` slack. -/
def capacityProduct (count num_parts : Nat) (balance_factor : ℚ) : ℚ :=
  roundDouble (roundDouble ((count / num_parts : Nat) : ℚ) * roundDouble balance_factor)

/-- Lines 54, 87 and 502: the value assigned to the `size_t` member
`max_component`, the `double` product truncated towards zero (for
`num_parts ≠ 0` and a product in the range of `size_t`, see
`computeMaxComponent`). -/
def maxComponent (count num_parts : Nat) (balance_factor : ℚ) : Nat :=
  ⌊capacityProduct count num_parts balance_factor⌋₊

/-- The statement `max_component = (count / num_parts) * balance_factor;` with
its undefined cases: the integer division by `num_parts = 0`, and the
conversion to `size_t` of a `double` that is `-1` or less, or `2 ^ 64` or
more. -/
def computeMaxComponent (count num_parts : Nat) (balance_factor : ℚ) : Except Err Nat :=
  if num_parts = 0 then .error .undefinedBehaviour
  else if capacityProduct count num_parts balance_factor ≤ -1 ∨
      2 ^ 64 ≤ capacityProduct count num_parts balance_factor then .error .undefinedBehaviour
  else .ok (maxComponent count num_parts balance_factor)

/-- The data members of `class Partition`. -/
structure Partition where
  num_parts : Int
  parts : List Int
  edge_balanced : Bool
  balance_factor : ℚ
  max_component : Nat

/-- Dereferenced `std::max_element(seq.cbegin(), seq.cend())`; `none` on an
empty sequence, where the source dereferences the end iterator. -/
def maxElement : List Nat → Option Nat
  | [] => none
  | x :: xs => some (xs.foldl max x)

/-- Lines 62-63 and 75-76: `for (i = 0; i != seq.size(); ++i)
tmp.at(seq.at(i)) = parts.at(i);` from index `i` on, the rest of `seq` given. -/
def remapLoop (parts : List Int) : List Nat → Nat → List Int → Except Err (List Int)
  | [], _, tmp => .ok tmp
  | v :: rest, i, tmp =>
    match parts[i]? with
    | none => .error .outOfRange
    | some p =>
      if v < tmp.length then remapLoop parts rest (i + 1) (tmp.set v p)
      else .error .outOfRange

/-- Lines 61-64 and 74-77: conversion of the `jnid_t`-indexed `parts` to
`vid_t`-indexed parts through `seq`. -/
def remap (seq : List Nat) (parts : List Int) : Except Err (List Int) :=
  match maxElement seq with
  | none => .error .undefinedBehaviour
  | some m => remapLoop parts seq 0 (List.replicate (m + 1) INVALID_PART)

/-- Lines 48-53: the total weight the forest constructor divides among the
parts. -/
def forestCount (jnodes : JNodeTable) (edge_balanced : Bool) : Nat :=
  if edge_balanced then ((List.range jnodes.size).map jnodes.pst_weight).sum else jnodes.size

/-- Lines 43-65: `Partition(seq, jnodes, np, eb, bf)`. -/
def Partition.ofForest (sortKids : (Nat → Nat) → List Nat → List Nat) (fuel : Nat)
    (seq : List Nat) (jnodes : JNodeTable) (np : Nat) (eb : Bool) (bf : ℚ) :
    Except Err Partition :=
  match computeMaxComponent (forestCount jnodes eb) np bf with
  | .error e => .error e
  | .ok max_component =>
    match forwardPartition sortKids jnodes eb max_component fuel with
    | .error e => .error e
    | .ok s =>
      match remap seq s.parts with
      | .error e => .error e
      | .ok tmp =>
        .ok { num_parts := np, parts := tmp, edge_balanced := eb, balance_factor := bf
              max_component := max_component }

/-- Lines 67-78: `Partition(seq, filename)`; `loaded` is the list of `short`
values `readPartition` extracts from the file. -/
def Partition.ofFile (seq : List Nat) (loaded : List Int) : Except Err Partition :=
  match loaded with
  | [] => .error .undefinedBehaviour
  | p :: ps =>
    match remap seq loaded with
    | .error e => .error e
    | .ok tmp =>
      .ok { num_parts := ps.foldl max p, parts := tmp, edge_balanced := false
            balance_factor := 0, max_component := 0 }

/-! ## Streaming partitioner (`fennel(graph, seq)`) -/

/-- The graph capabilities `partition.h` uses (`graph_wrapper.h` is not part
of it): node iteration order, neighbour iteration of a node, degree, node
count, undirected edge count and largest vertex id. -/
structure GraphWrapper where
  nodeItr : List Nat
  edgeItr : Nat → List Nat
  getDeg : Nat → Nat
  getNodes : Nat
  getEdges : Nat
  getMaxVid : Nat

/-- State of the streaming partitioner: member `parts`, local `part_size`. -/
structure FennelState where
  parts : List Int
  part_size : List Nat
  deriving DecidableEq, Repr

/-- Lines 447-453: the neighbour tally `part_value` of a vertex with
neighbours `nbrs`, starting from the tally `pv`. -/
def tally (parts : List Int) : List Nat → List Nat → Except Err (List Nat)
  | [], pv => .ok pv
  | Y :: rest, pv =>
    match parts[Y]? with
    | none => .error .undefinedBehaviour
    | some q =>
      if q ≠ INVALID_PART then
        if 0 ≤ q ∧ q.toNat < pv.length then
          tally parts rest (pv.set q.toNat (pv.getD q.toNat 0 + 1))
        else .error .undefinedBehaviour
      else tally parts rest pv

/-- Line 462: `p_value = part_value[p] - p_cost`, where `cost s w` stands for
`a * pow(s + w, y) - a * pow(s, y)`. -/
def score (cost : Nat → Nat → ℚ) (part_value part_size : List Nat) (X_weight p : Nat) : ℚ :=
  (part_value.getD p 0 : ℚ) - cost (part_size.getD p 0) X_weight

/-- Line 463: `p_value > max_value`, where `max_value = none` is the initial
`std::numeric_limits<double>::lowest()`. -/
def beats (p_value : ℚ) : Option ℚ → Bool
  | none => true
  | some v => decide (p_value > v)

/-- Lines 457-469: `for (short p = 0; p != num_parts; ++p)` with `k` iterations
left at part `p`. -/
def fennelScan (cost : Nat → Nat → ℚ) (max_component X_weight : Nat)
    (part_value part_size : List Nat) : Nat → Nat → Nat → Option ℚ → Nat
  | 0, _, max_part, _ => max_part
  | k + 1, p, max_part, max_value =>
    if part_size.getD p 0 + X_weight > max_component then
      fennelScan cost max_component X_weight part_value part_size k (p + 1) max_part max_value
    else if part_size.getD p 0 = 0 then
      if beats (score cost part_value part_size X_weight p) max_value then p else max_part
    else
      fennelScan cost max_component X_weight part_value part_size k (p + 1)
        (if beats (score cost part_value part_size X_weight p) max_value then p else max_part)
        (if beats (score cost part_value part_size X_weight p) max_value
          then some (score cost part_value part_size X_weight p) else max_value)

/-- The part chosen for a vertex of weight `X_weight` and tally `part_value`
(lines 455-469). -/
def choosePart (cost : Nat → Nat → ℚ) (num_parts max_component X_weight : Nat)
    (part_value part_size : List Nat) : Nat :=
  fennelScan cost max_component X_weight part_value part_size num_parts 0 0 none

/-- Line 445: `edge_balanced ? graph.getDeg(X) : 1.0`. -/
def vertexWeight (graph : GraphWrapper) (edge_balanced : Bool) (X : Nat) : Nat :=
  if edge_balanced then graph.getDeg X else 1

/-- Lines 444-471: the loop body for vertex `X`. -/
def fennelStep (cost : Nat → Nat → ℚ) (graph : GraphWrapper) (num_parts : Nat)
    (edge_balanced : Bool) (max_component : Nat) (s : FennelState) (X : Nat) :
    Except Err FennelState :=
  match tally s.parts (graph.edgeItr X) (List.replicate num_parts 0) with
  | .error e => .error e
  | .ok part_value =>
    let X_weight := vertexWeight graph edge_balanced X
    let max_part := choosePart cost num_parts max_component X_weight part_value s.part_size
    if X < s.parts.length ∧ max_part < s.part_size.length then
      .ok { parts := s.parts.set X (max_part : Int)
            part_size := s.part_size.set max_part (s.part_size.getD max_part 0 + X_weight) }
    else .error .undefinedBehaviour

/-- Lines 443-472: `for (auto nitr = graph.getNodeItr(); !nitr.isEnd(); ++nitr)`
over the vertices still to come. -/
def fennelLoop (cost : Nat → Nat → ℚ) (graph : GraphWrapper) (num_parts : Nat)
    (edge_balanced : Bool) (max_component : Nat) : List Nat → FennelState → Except Err FennelState
  | [], s => .ok s
  | X :: rest, s =>
    match fennelStep cost graph num_parts edge_balanced max_component s X with
    | .error e => .error e
    | .ok s1 => fennelLoop cost graph num_parts edge_balanced max_component rest s1

/-- Lines 428-473: `fennel(graph, seq)` on the member `parts` as the constructor
leaves it. The loop header over `seq` is commented out in the source (line
442); the loop runs over the node iterator of the graph. -/
def fennel (cost : Nat → Nat → ℚ) (graph : GraphWrapper) (_seq : List Nat) (num_parts : Nat)
    (edge_balanced : Bool) (max_component : Nat) : Except Err FennelState :=
  fennelLoop cost graph num_parts edge_balanced max_component graph.nodeItr
    { parts := List.replicate (graph.getMaxVid + 1) INVALID_PART
      part_size := List.replicate num_parts 0 }

/-- Invariant of the streaming run: `part_size` has `num_parts` entries, the
non-empty parts come first among the part indices, and every part in front of
an assigned part is non-empty. -/
def FennelInv (num_parts : Nat) (s : FennelState) : Prop :=
  s.part_size.length = num_parts ∧
  (∀ q r, q < r → s.part_size.getD q 0 = 0 → s.part_size.getD r 0 = 0) ∧
  (∀ (v r : Nat), s.parts[v]? = some (r : Int) → ∀ q, q < r → s.part_size.getD q 0 ≠ 0)

/-- Lines 80-89: `Partition(graph, seq, np, eb, bf)`. -/
def Partition.ofGraph (cost : Nat → Nat → ℚ) (graph : GraphWrapper) (seq : List Nat) (np : Nat)
    (eb : Bool) (bf : ℚ) : Except Err Partition :=
  let count := if eb then 2 * graph.getEdges else graph.getNodes
  match computeMaxComponent count np bf with
  | .error e => .error e
  | .ok max_component =>
    match fennel cost graph seq np eb max_component with
    | .error e => .error e
    | .ok s =>
      .ok { num_parts := np, parts := s.parts, edge_balanced := eb, balance_factor := bf
            max_component := max_component }

/-- One greedy streaming step on the outcome so far: a failed run stays failed,
otherwise vertex `X` is assigned by `fennelStep`. -/
def greedyStep (cost : Nat → Nat → ℚ) (graph : GraphWrapper) (num_parts : Nat)
    (edge_balanced : Bool) (max_component : Nat) (acc : Except Err FennelState) (X : Nat) :
    Except Err FennelState :=
  match acc with
  | .error e => .error e
  | .ok s => fennelStep cost graph num_parts edge_balanced max_component s X

/-- The greedy streaming assignment applied to the vertices of `order`, one
after the other (the process the design describes for a caller-supplied
traversal order). -/
def greedyAlong (cost : Nat → Nat → ℚ) (graph : GraphWrapper) (order : List Nat) (num_parts : Nat)
    (edge_balanced : Bool) (max_component : Nat) : Except Err FennelState :=
  order.foldl (greedyStep cost graph num_parts edge_balanced max_component)
    (.ok { parts := List.replicate (graph.getMaxVid + 1) INVALID_PART
           part_size := List.replicate num_parts 0 })

/-- An undirected graph on the vertices `0, ..., adj.length - 1` given by its
adjacency lists. -/
def GraphWrapper.ofAdj (adj : List (List Nat)) : GraphWrapper where
  nodeItr := List.range adj.length
  edgeItr := fun X => adj.getD X []
  getDeg := fun X => (adj.getD X []).length
  getNodes := adj.length
  getEdges := (adj.map List.length).sum / 2
  getMaxVid := adj.length - 1

/-- Scenario B: the 4-cycle 0-1-2-3-0. -/
def cycle4 : GraphWrapper := GraphWrapper.ofAdj [[1, 3], [0, 2], [1, 3], [2, 0]]

/-- Three vertices without edges. -/
def isolated3 : GraphWrapper := GraphWrapper.ofAdj [[], [], []]

/-- Two vertices without edges. -/
def isolated2 : GraphWrapper := GraphWrapper.ofAdj [[], []]

/-! ## Evaluation engine (`evaluate(graph)`) -/

/-- Lines 19-22: `knuth_hash`, a multiplication of 32-bit unsigned values. -/
def knuth_hash (k : Nat) : Nat := (k % 4294967296) * 2654435761 % 4294967296

/-- Arithmetic of `size_t`: reduction modulo `2 ^ 64`. -/
def wrap64 (z : Int) : Nat := (z % 18446744073709551616).toNat

/-- The counters `evaluate(graph)` prints (`ECV_rand`, which consumes the
ambient `rand()` stream, is left out). -/
structure Metrics where
  edges_cut : Nat
  Vcom_vol : Nat
  ECV_hash : Nat
  deriving DecidableEq, Repr

/-- The per-vertex locals of `evaluate`: the running cut count and the two sets
`Vcom_vol_nbrs` and `ECV_hash_nbrs`. -/
structure VertexAcc where
  edges_cut : Nat
  Vcom_vol_nbrs : Finset Int
  ECV_hash_nbrs : Finset Int
  deriving DecidableEq

/-- Lines 322-332: the loop over the neighbours `Y` of `X`. -/
def evalEdges (parts : List Int) (X : Nat) (X_part : Int) : List Nat → VertexAcc → Except Err VertexAcc
  | [], acc => .ok acc
  | Y :: rest, acc =>
    match parts[Y]? with
    | none => .error .outOfRange
    | some Y_part =>
      if Y_part = INVALID_PART then .error .assertFailed
      else
        evalEdges parts X X_part rest
          { edges_cut := if X < Y ∧ X_part ≠ Y_part then acc.edges_cut + 1 else acc.edges_cut
            Vcom_vol_nbrs := insert Y_part acc.Vcom_vol_nbrs
            ECV_hash_nbrs :=
              insert (if knuth_hash X < knuth_hash Y then X_part else Y_part) acc.ECV_hash_nbrs }

/-- Lines 314-332: the locals after the neighbour loop of vertex `X`, entered
with `edges_cut` cut edges counted so far. -/
def evalVertex (graph : GraphWrapper) (parts : List Int) (edges_cut X : Nat) : Except Err VertexAcc :=
  match parts[X]? with
  | none => .error .outOfRange
  | some X_part =>
    if X_part = INVALID_PART then .error .assertFailed
    else
      evalEdges parts X X_part (graph.edgeItr X)
        { edges_cut := edges_cut, Vcom_vol_nbrs := {X_part}, ECV_hash_nbrs := ∅ }

/-- Lines 313-336: the loop over the vertices still to come. -/
def evalNodes (graph : GraphWrapper) (parts : List Int) : List Nat → Metrics → Except Err Metrics
  | [], m => .ok m
  | X :: rest, m =>
    match evalVertex graph parts m.edges_cut X with
    | .error e => .error e
    | .ok acc =>
      evalNodes graph parts rest
        { edges_cut := acc.edges_cut
          Vcom_vol := wrap64 (m.Vcom_vol + wrap64 ((acc.Vcom_vol_nbrs.card : Int) - 1))
          ECV_hash := wrap64 (m.ECV_hash + wrap64 ((acc.ECV_hash_nbrs.card : Int) - 1)) }

/-- Lines 305-343: `evaluate(graph)`, returning the counters it prints. -/
def evaluate (graph : GraphWrapper) (parts : List Int) : Except Err Metrics :=
  evalNodes graph parts graph.nodeItr { edges_cut := 0, Vcom_vol := 0, ECV_hash := 0 }

/-- The cut edges as unordered pairs: the pairs `{X, Y}` of vertices with `Y` a
neighbour of `X` whose parts differ. -/
def cutEdgeSet (graph : GraphWrapper) (parts : List Int) : Finset (Sym2 Nat) :=
  ((graph.nodeItr.toFinset ×ˢ graph.nodeItr.toFinset).filter
    (fun e => e.2 ∈ graph.edgeItr e.1 ∧ parts.getD e.1 INVALID_PART ≠ parts.getD e.2 INVALID_PART)).image
    (fun e => s(e.1, e.2))

/-- Scenario C: the path 0-1-2. -/
def path3 : GraphWrapper := GraphWrapper.ofAdj [[1], [0, 2], [1]]

/-! ## Backward critical-path partitioner (`backwardPartition`) -/

/-- Lines 99-104: the subtree weights `component_below`, `k` iterations left
starting at node `id`. -/
def subtreeWeights (jnodes : JNodeTable) (edge_balanced : Bool) :
    Nat → Nat → List Nat → Except Err (List Nat)
  | 0, _, cb => .ok cb
  | k + 1, id, cb =>
    match cb[id]? with
    | none => .error .outOfRange
    | some c0 =>
      let cb1 := cb.set id (c0 + ownWeight jnodes edge_balanced id)
      match jnodes.parent id with
      | none => subtreeWeights jnodes edge_balanced k (id + 1) cb1
      | some p =>
        match cb1[p]? with
        | none => .error .outOfRange
        | some cp =>
          subtreeWeights jnodes edge_balanced k (id + 1) (cb1.set p (cp + cb1.getD id 0))

/-- Dereferenced `std::max_element` of the range `l` under the comparison of
the keys: the first element whose key is largest; `none` on an empty range. -/
def argMax (key : Nat → Nat) : List Nat → Option Nat
  | [] => none
  | x :: xs => some (xs.foldl (fun best y => if key best < key y then y else best) x)

/-- Lines 109-114: `while (jnodes.kids(critical).size() != 0)`, the descent
from `critical` along the heaviest kids; the weight of the kid stepped to is
taken off its parent (on a forest it is part of the weight of the parent, so
the subtraction does not wrap). The comparator reads `component_below.at` of
the kids it compares. -/
def descend (jnodes : JNodeTable) : Nat → Nat → List Nat → Except Err (Nat × List Nat)
  | 0, _, _ => .error .outOfFuel
  | fuel + 1, critical, cb =>
    match argMax (fun k => cb.getD k 0) (jnodes.kids critical) with
    | none => .ok (critical, cb)
    | some c =>
      if 2 ≤ (jnodes.kids critical).length ∧
          (jnodes.kids critical).any (fun k => decide (cb.length ≤ k)) then
        .error .outOfRange
      else
        match jnodes.parent c with
        | none => .error .outOfRange
        | some p =>
          match cb[p]?, cb[c]? with
          | some cp, some cc => descend jnodes fuel c (cb.set p (cp - cc))
          | _, _ => .error .outOfRange

/-- Lines 116-127: `while (critical != INVALID_JNID)`, the walk from the end
of the critical chain to the root, filling the running part `cur_part` of
size `part_size`. Returns `parts` and the last `cur_part`. -/
def chainWalk (jnodes : JNodeTable) (max_component : Nat) (cb : List Nat) :
    Nat → Option Nat → Int → Nat → List Int → Except Err (List Int × Int)
  | _, none, cur_part, _, parts => .ok (parts, cur_part)
  | 0, some _, _, _, _ => .error .outOfFuel
  | fuel + 1, some critical, cur_part, part_size, parts =>
    match cb[critical]? with
    | none => .error .outOfRange
    | some w =>
      if critical < parts.length then
        if part_size + w < max_component then
          chainWalk jnodes max_component cb fuel (jnodes.parent critical) cur_part (part_size + w)
            (parts.set critical cur_part)
        else
          chainWalk jnodes max_component cb fuel (jnodes.parent critical) (toShort (cur_part + 1)) w
            (parts.set critical (toShort (cur_part + 1)))
      else .error .outOfRange

/-- Lines 129-132: `for (jnid_t id = jnodes.size() - 1; id != (jnid_t)-1; --id)`,
with the ids below the argument still to visit: a node without a part takes
the part of its parent, a root without a part takes `cur_part`. -/
def inheritSweep (jnodes : JNodeTable) (cur_part : Int) : Nat → List Int → Except Err (List Int)
  | 0, parts => .ok parts
  | id + 1, parts =>
    match parts[id]? with
    | none => .error .outOfRange
    | some pid =>
      if pid = INVALID_PART then
        match jnodes.parent id with
        | none => inheritSweep jnodes cur_part id (parts.set id cur_part)
        | some q =>
          match parts[q]? with
          | none => .error .outOfRange
          | some pq => inheritSweep jnodes cur_part id (parts.set id pq)
      else inheritSweep jnodes cur_part id parts

/-- Lines 99-127 of `backwardPartition`: the subtree weights, the descent along
the critical chain and the walk back up, on the member `parts` as the
constructor leaves it. Returns `parts` and `cur_part` as the walk leaves
them. -/
def criticalChain (jnodes : JNodeTable) (edge_balanced : Bool) (max_component fuel : Nat) :
    Except Err (List Int × Int) :=
  match subtreeWeights jnodes edge_balanced jnodes.size 0 (List.replicate jnodes.size 0) with
  | .error e => .error e
  | .ok cb0 =>
    match argMax (fun k => cb0.getD k 0) (List.range jnodes.size) with
    | none => .error .undefinedBehaviour
    | some critical =>
      match descend jnodes fuel critical cb0 with
      | .error e => .error e
      | .ok (leaf, cb1) =>
        chainWalk jnodes max_component cb1 fuel (some leaf) 0 0
          (List.replicate jnodes.size INVALID_PART)

/-- The method `Partition::backwardPartition` (lines 98-133). On an empty
forest `critical` is 0 and `jnodes.kids(0)` reads a node that does not
exist. -/
def backwardPartition (jnodes : JNodeTable) (edge_balanced : Bool) (max_component fuel : Nat) :
    Except Err (List Int) :=
  match criticalChain jnodes edge_balanced max_component fuel with
  | .error e => .error e
  | .ok (parts, cur_part) => inheritSweep jnodes cur_part jnodes.size parts

/-- Invariant of the first loop of `backwardPartition` with the nodes below `b`
visited: the weight of a node is its own weight, once visited, plus the
weights of its visited children. -/
def SubtreeInv (jnodes : JNodeTable) (edge_balanced : Bool) (b : Nat) (cb : List Nat) : Prop :=
  cb.length = jnodes.size ∧
  ∀ k, k < jnodes.size →
    cb.getD k 0 = (if k < b then ownWeight jnodes edge_balanced k else 0) +
      ∑ c ∈ Finset.range b, if jnodes.parent c = some k then cb.getD c 0 else 0

/-- The sum of the own weights of the nodes that `parts` puts into part `p`. -/
def partWeight (jnodes : JNodeTable) (edge_balanced : Bool) (parts : List Int) (p : Int) : Nat :=
  ∑ c ∈ Finset.range jnodes.size,
    if parts.getD c INVALID_PART = p then ownWeight jnodes edge_balanced c else 0

/-- The relation `Above jnodes c a`: the node `a` is `c` or an ancestor of `c`,
that is one of the nodes the walk of lines 118-127 visits from `c` on. -/
inductive Above (jnodes : JNodeTable) : Nat → Nat → Prop
  | refl (c : Nat) : Above jnodes c c
  | step (c q a : Nat) : jnodes.parent c = some q → Above jnodes q a → Above jnodes c a

/-- The sum of the chain weights `cb` (`component_below` as the descent leaves
it) of the nodes that `parts` puts into part `p`. -/
def chainLoad (jnodes : JNodeTable) (cb : List Nat) (parts : List Int) (p : Int) : Nat :=
  ∑ c ∈ Finset.range jnodes.size, if parts.getD c INVALID_PART = p then cb.getD c 0 else 0

/-- The sum of the subtree weights `cb0` of the roots the walk has given no
part. -/
def strayLoad (jnodes : JNodeTable) (cb0 : List Nat) (parts : List Int) : Nat :=
  ∑ c ∈ Finset.range jnodes.size,
    if jnodes.parent c = none ∧ parts.getD c INVALID_PART = INVALID_PART then cb0.getD c 0
    else 0

/-- Invariant of the walk up the critical chain, about to visit `critical`,
while the `short` counter `cur_part` has not overflowed: the parts in use are
`0, ..., cur_part`; `part_size` is the sum of the chain weights of the nodes in
the running part; the chain weights in a part sum to less than `max_component`,
unless the part is empty or holds one node; the nodes from `critical` on have no
part yet. -/
structure WalkAcc (jnodes : JNodeTable) (max_component : Nat) (cb : List Nat)
    (critical : Option Nat) (cur_part : Int) (part_size : Nat) (parts : List Int) : Prop where
  len : parts.length = jnodes.size
  cur_nonneg : 0 ≤ cur_part
  cur_le : cur_part ≤ 32767
  range : ∀ c, c < jnodes.size → parts.getD c INVALID_PART = INVALID_PART ∨
    (0 ≤ parts.getD c INVALID_PART ∧ parts.getD c INVALID_PART ≤ cur_part)
  load_cur : chainLoad jnodes cb parts cur_part = part_size
  loads : ∀ p : Int, p ≠ INVALID_PART →
    chainLoad jnodes cb parts p < max_component ∨ chainLoad jnodes cb parts p = 0 ∨
      ∃ c, c < jnodes.size ∧ parts.getD c INVALID_PART = p ∧
        chainLoad jnodes cb parts p = cb.getD c 0
  untouched : ∀ q, critical = some q → ∀ c, q ≤ c → c < jnodes.size →
    parts.getD c INVALID_PART = INVALID_PART

/-- The weight that node `c` stands for in part `p` while the sweep of lines
129-132 still has to visit the ids below `j`: a visited node its own weight; a
node of the chain its chain weight; a node without a part whose parent is
visited (or that is a root) its subtree weight, in the part it will inherit. -/
def sweepShare (jnodes : JNodeTable) (edge_balanced : Bool) (cb0 cb1 : List Nat)
    (parts1 : List Int) (cur_part p : Int) (j : Nat) (parts : List Int) (c : Nat) : Nat :=
  if j ≤ c then (if parts.getD c INVALID_PART = p then ownWeight jnodes edge_balanced c else 0)
  else if parts1.getD c INVALID_PART ≠ INVALID_PART then
    (if parts1.getD c INVALID_PART = p then cb1.getD c 0 else 0)
  else
    match jnodes.parent c with
    | none => if cur_part = p then cb0.getD c 0 else 0
    | some q => if j ≤ q ∧ parts.getD q INVALID_PART = p then cb0.getD c 0 else 0

/-- A path of `n` nodes: node `i` is the only kid of node `i + 1`, the last
node is the root; every weight is 1. -/
def pathForest (n : Nat) : JNodeTable where
  size := n
  parent := fun i => if i + 1 < n then some (i + 1) else none
  kids := fun i => if 0 < i ∧ i < n then [i - 1] else []
  pst_weight := fun _ => 1

/-- A chain of two nodes: the leaf (id 0) below the root (id 1), weights 1. -/
def chain2 : JNodeTable := JNodeTable.ofList [(some 1, [], 1), (none, [0], 1)]

/-! ## Naive sequential partitioner (`naivePartition`) -/

/-- Lines 256-263: `for (jnid_t id = 0; id != jnodes.size(); ++id)` with `k`
iterations left at node `id`. The running size receives the weight of the
node (line 258) and is incremented once more inside the test
`++cur_size == max_component` (line 259). -/
def naiveLoop (jnodes : JNodeTable) (edge_balanced : Bool) (max_component : Nat) :
    Nat → Nat → Int → Nat → List Int → Except Err (List Int)
  | 0, _, _, _, parts => .ok parts
  | k + 1, id, cur_part, cur_size, parts =>
    if id < parts.length then
      if cur_size + ownWeight jnodes edge_balanced id + 1 = max_component then
        naiveLoop jnodes edge_balanced max_component k (id + 1) (toShort (cur_part + 1)) 0
          (parts.set id cur_part)
      else
        naiveLoop jnodes edge_balanced max_component k (id + 1) cur_part
          (cur_size + ownWeight jnodes edge_balanced id + 1) (parts.set id cur_part)
    else .error .outOfRange

/-- The method `Partition::naivePartition` (lines 253-264), run on the member
`parts` as the constructor leaves it. -/
def naivePartition (jnodes : JNodeTable) (edge_balanced : Bool) (max_component : Nat) :
    Except Err (List Int) :=
  naiveLoop jnodes edge_balanced max_component jnodes.size 0 0 0
    (List.replicate jnodes.size INVALID_PART)

/-! ## Partitioned-output writer (`writePartitionedGraph`) -/

/-- Dereferenced `std::max_element(parts.cbegin(), parts.cend())`; `none` on an
empty vector. -/
def maxPart : List Int → Option Int
  | [] => none
  | p :: ps => some (ps.foldl max p)

/-- The content of an output stream: the lines written to it, the line
`X << " " << Y << std::endl` being the pair `(X, Y)`. -/
abbrev EdgeLines := List (Nat × Nat)

/-- The text of a line: `X << " " << Y`. -/
def lineText (e : Nat × Nat) : String := toString e.1 ++ " " ++ toString e.2

/-- Lines 390-395: `for (short p = 0; p != max_part + 1; ++p)`, opening one
stream per iteration. -/
def openStreams (max_part : Int) : Nat → Int → List EdgeLines → Except Err (List EdgeLines)
  | 0, _, _ => .error .outOfFuel
  | fuel + 1, p, streams =>
    if p = max_part + 1 then .ok streams
    else openStreams max_part fuel (toShort (p + 1)) (streams ++ [[]])

/-- Lines 399-400: `for (size_t i = 0; i != seq.size(); ++i) pos[seq[i]] = i;`
from index `i` on, the rest of `seq` given. -/
def posLoop : List Nat → Nat → List (Option Nat) → List (Option Nat)
  | [], _, pos => pos
  | v :: rest, i, pos => posLoop rest (i + 1) (pos.set v (some i))

/-- Lines 398-400: the vector `pos` of positions in `seq`, `none` standing for
`INVALID_JNID`. -/
def buildPos (seq : List Nat) : Except Err (List (Option Nat)) :=
  match maxElement seq with
  | none => .error .undefinedBehaviour
  | some m => .ok (posLoop seq 0 (List.replicate (m + 1) none))

/-- The comparison `X_pos < Y_pos` of two `jnid_t` values. `INVALID_JNID`
(`none`) is taken to be `(jnid_t)-1`, the value line 129 compares with and the
largest of the type (`jnode.h` is not part of `partition.h`). -/
def posLt : Option Nat → Option Nat → Bool
  | some a, some b => decide (a < b)
  | some _, none => true
  | none, _ => false

/-- Lines 407-418: the loop over the neighbours `Y` of `X`. -/
def writeEdges (parts : List Int) (pos : List (Option Nat)) (X : Nat) (X_pos : Option Nat)
    (X_part : Int) : List Nat → List EdgeLines → Except Err (List EdgeLines)
  | [], streams => .ok streams
  | Y :: rest, streams =>
    if X ≥ Y then writeEdges parts pos X X_pos X_part rest streams
    else
      match pos[Y]? with
      | none => .error .outOfRange
      | some Y_pos =>
        match parts[Y]? with
        | none => .error .outOfRange
        | some Y_part =>
          if Y_part = INVALID_PART then .error .assertFailed
          else
            let edge_part := if posLt X_pos Y_pos then X_part else Y_part
            if 0 ≤ edge_part ∧ edge_part.toNat < streams.length then
              writeEdges parts pos X X_pos X_part rest
                (streams.set edge_part.toNat (streams.getD edge_part.toNat [] ++ [(X, Y)]))
            else .error .outOfRange

/-- Lines 402-419: the loop over the vertices still to come. -/
def writeNodes (graph : GraphWrapper) (parts : List Int) (pos : List (Option Nat)) :
    List Nat → List EdgeLines → Except Err (List EdgeLines)
  | [], streams => .ok streams
  | X :: rest, streams =>
    match pos[X]? with
    | none => .error .outOfRange
    | some X_pos =>
      match parts[X]? with
      | none => .error .outOfRange
      | some X_part =>
        if X_part = INVALID_PART then .error .assertFailed
        else
          match writeEdges parts pos X X_pos X_part (graph.edgeItr X) streams with
          | .error e => .error e
          | .ok streams1 => writeNodes graph parts pos rest streams1

/-- The method `Partition::writePartitionedGraph` (lines 386-424): the content
of the output streams, stream `p` being the file written for part `p`. -/
def writePartitionedGraph (graph : GraphWrapper) (seq : List Nat) (parts : List Int) :
    Except Err (List EdgeLines) :=
  match maxPart parts with
  | none => .error .undefinedBehaviour
  | some max_part =>
    if ¬ max_part < 100 then .error .assertFailed
    else
      match openStreams max_part shortPeriod 0 [] with
      | .error e => .error e
      | .ok streams =>
        match buildPos seq with
        | .error e => .error e
        | .ok pos => writeNodes graph parts pos graph.nodeItr streams

/-- The part owning the edge between `X` and `Y` as the design describes it:
the part of the endpoint that comes first in `seq`. -/
def ownerPart (seq : List Nat) (parts : List Int) (X Y : Nat) : Int :=
  if seq.indexOf X < seq.indexOf Y then parts.getD X INVALID_PART else parts.getD Y INVALID_PART

/-- The lines the design puts into stream `p`: the edges `(X, Y)` with `X < Y`
owned by part `p`, in the order of the node and neighbour iterators. -/
def linesOf (graph : GraphWrapper) (seq : List Nat) (parts : List Int) (p : Nat) : EdgeLines :=
  graph.nodeItr.flatMap (fun X =>
    ((graph.edgeItr X).filter (fun Y => decide (X < Y ∧ ownerPart seq parts X Y = (p : Int)))).map
      (fun Y => (X, Y)))

/-- The complete graph on the vertices 0, 1, 2. -/
def complete3 : GraphWrapper := GraphWrapper.ofAdj [[1, 2], [0, 2], [0, 1]]

/-! ## File-backed streaming partitioner (`fennel(filename)`) -/

/-- The constant `max_vid` of line 478. -/
def fileMaxVid : Nat := 4036529

/-- The constant `edge_count` of line 479. -/
def fileEdgeCount : Nat := 34681189

/-- State of the file-backed streaming partitioner: member `parts` (one entry
per edge record), locals `part_size` and `touches_part`. -/
structure FileState where
  parts : List Int
  part_size : List Nat
  touches_part : List Bool

/-- Read `touches_part.at(num_parts * V + p)` for a `short` part index `p`. -/
def touchedAt (touches_part : List Bool) (num_parts V : Nat) (p : Int) : Option Bool :=
  if 0 ≤ (num_parts * V : Int) + p then touches_part[((num_parts * V : Int) + p).toNat]? else none

/-- Lines 521-527: `for (short p = 0; k != num_parts; ++p)`, the affinity tally
of the record `(X, Y)`. The loop is governed by the comparison of the constant
`k` with `num_parts`, not by `p`. -/
def fileTally (touches_part : List Bool) (k num_parts X Y : Nat) :
    Nat → Int → List Nat → Except Err (List Nat)
  | 0, _, _ => .error .outOfFuel
  | fuel + 1, p, part_value =>
    if k ≠ num_parts then
      match touchedAt touches_part num_parts X p with
      | none => .error .outOfRange
      | some tx =>
        if tx ∧ ¬ (0 ≤ p ∧ p.toNat < part_value.length) then .error .undefinedBehaviour
        else
          let pv1 := if tx then part_value.set p.toNat (part_value.getD p.toNat 0 + 1) else part_value
          match touchedAt touches_part num_parts Y p with
          | none => .error .outOfRange
          | some ty =>
            if ty ∧ ¬ (0 ≤ p ∧ p.toNat < pv1.length) then .error .undefinedBehaviour
            else
              fileTally touches_part k num_parts X Y fuel (toShort (p + 1))
                (if ty then pv1.set p.toNat (pv1.getD p.toNat 0 + 1) else pv1)
    else .ok part_value

/-- Lines 516-547: the loop body for the record `(X, Y)` with index `eid`. `k`
is the constant `double const k = num_parts` of line 505. -/
def fileStep (cost : Nat → Nat → ℚ) (k num_parts max_component : Nat) (s : FileState)
    (eid : Nat) (r : Nat × Nat) : Except Err FileState :=
  match fileTally s.touches_part k num_parts r.1 r.2 shortPeriod 0 (List.replicate num_parts 0) with
  | .error e => .error e
  | .ok part_value =>
    let max_part := choosePart cost num_parts max_component 1 part_value s.part_size
    if eid < s.parts.length ∧ max_part < s.part_size.length then
      if num_parts * r.1 + max_part < s.touches_part.length then
        .ok { parts := s.parts.set eid (max_part : Int)
              part_size := s.part_size.set max_part (s.part_size.getD max_part 0 + 1)
              touches_part :=
                (s.touches_part.set (num_parts * r.1 + max_part) true).set
                  (num_parts * r.1 + max_part) true }
      else .error .outOfRange
    else .error .undefinedBehaviour

/-- Lines 516-548: the loop over the records still to come, the next one having
index `eid`. -/
def fileLoop (cost : Nat → Nat → ℚ) (k num_parts max_component : Nat) :
    List (Nat × Nat) → Nat → FileState → Except Err FileState
  | [], _, s => .ok s
  | r :: rest, eid, s =>
    match fileStep cost k num_parts max_component s eid r with
    | .error e => .error e
    | .ok s1 => fileLoop cost k num_parts max_component rest (eid + 1) s1

/-- The records the loop `for (eid = 0; !stream.eof(); ++eid)` processes for a
file holding `records`: `eof()` turns true only when a read has failed, so the
loop runs once more after the last record, with `buf` still holding it. With no
record at all `buf` is read uninitialised. -/
def recordsRead (records : List (Nat × Nat)) : Option (List (Nat × Nat)) :=
  match records.getLast? with
  | none => none
  | some last => some (records ++ [last])

/-- The method `Partition::fennel(filename)` (lines 475-549) on the `(tail,
head)` pairs of the records of the file, for a partition built by
`Partition(filename, np)` (slack 1.03). `cost s w` stands for
`a * pow(s + w, y) - a * pow(s, y)`. -/
def fennelFile (cost : Nat → Nat → ℚ) (num_parts : Nat) (records : List (Nat × Nat)) :
    Except Err FileState :=
  match computeMaxComponent fileEdgeCount num_parts (103 / 100) with
  | .error e => .error e
  | .ok max_component =>
    match recordsRead records with
    | none => .error .undefinedBehaviour
    | some recs =>
      fileLoop cost num_parts num_parts max_component recs 0
        { parts := List.replicate (fileEdgeCount + 1) INVALID_PART
          part_size := List.replicate num_parts 0
          touches_part := List.replicate (num_parts * (fileMaxVid + 1)) false }

/-- The tally the design describes for part `p` and the record `(X, Y)`: the
number of endpoints whose touched-bit for `p` is set. -/
def touchedCount (touches_part : List Bool) (num_parts X Y p : Nat) : Nat :=
  (if touches_part.getD (num_parts * X + p) false then 1 else 0) +
  (if touches_part.getD (num_parts * Y + p) false then 1 else 0)

/-! ## Evaluation along a sequence (`evaluate(graph, seq)`) -/

/-- The counters `evaluate(graph, seq)` prints after those of
`evaluate(graph)`. -/
structure OrderMetrics where
  ECV_down : Nat
  ECV_up : Nat
  deriving DecidableEq, Repr

/-- The per-vertex locals of the second loop: the sets `ECV_down_nbrs` and
`ECV_up_nbrs`. -/
structure OrderAcc where
  ECV_down_nbrs : Finset Int
  ECV_up_nbrs : Finset Int
  deriving DecidableEq

/-- Lines 366-375: the loop over the neighbours `Y` of `X`. -/
def orderEdges (parts : List Int) (pos : List (Option Nat)) (X_pos : Option Nat) (X_part : Int) :
    List Nat → OrderAcc → Except Err OrderAcc
  | [], acc => .ok acc
  | Y :: rest, acc =>
    match pos[Y]? with
    | none => .error .outOfRange
    | some Y_pos =>
      match parts[Y]? with
      | none => .error .outOfRange
      | some Y_part =>
        if Y_part = INVALID_PART then .error .assertFailed
        else
          orderEdges parts pos X_pos X_part rest
            { ECV_down_nbrs :=
                insert (if posLt X_pos Y_pos then X_part else Y_part) acc.ECV_down_nbrs
              ECV_up_nbrs :=
                insert (if posLt Y_pos X_pos then X_part else Y_part) acc.ECV_up_nbrs }

/-- Lines 357-378: the loop over the vertices still to come; both sets start
empty for every vertex. -/
def orderNodes (graph : GraphWrapper) (parts : List Int) (pos : List (Option Nat)) :
    List Nat → OrderMetrics → Except Err OrderMetrics
  | [], m => .ok m
  | X :: rest, m =>
    match pos[X]? with
    | none => .error .outOfRange
    | some X_pos =>
      match parts[X]? with
      | none => .error .outOfRange
      | some X_part =>
        if X_part = INVALID_PART then .error .assertFailed
        else
          match orderEdges parts pos X_pos X_part (graph.edgeItr X) { ECV_down_nbrs := ∅, ECV_up_nbrs := ∅ } with
          | .error e => .error e
          | .ok acc =>
            orderNodes graph parts pos rest
              { ECV_down := wrap64 (m.ECV_down + wrap64 ((acc.ECV_down_nbrs.card : Int) - 1))
                ECV_up := wrap64 (m.ECV_up + wrap64 ((acc.ECV_up_nbrs.card : Int) - 1)) }

/-- Lines 346-384: `evaluate(graph, seq)`, returning the counters of
`evaluate(graph)`, which it runs first, and its own two. -/
def evaluateSeq (graph : GraphWrapper) (seq : List Nat) (parts : List Int) :
    Except Err (Metrics × OrderMetrics) :=
  match evaluate graph parts with
  | .error e => .error e
  | .ok m =>
    match buildPos seq with
    | .error e => .error e
    | .ok pos =>
      match orderNodes graph parts pos graph.nodeItr { ECV_down := 0, ECV_up := 0 } with
      | .error e => .error e
      | .ok om => .ok (m, om)

/-- The number of vertices without incident edge. -/
def lonerCount (graph : GraphWrapper) (nodes : List Nat) : Nat :=
  (nodes.filter (fun X => (graph.edgeItr X).isEmpty)).length

/-- An edge between the vertices 0 and 1, and the vertex 2 without incident
edge. -/
def edgeAndLoner : GraphWrapper := GraphWrapper.ofAdj [[1], [0], []]

/-! ### Vector access -/

theorem getD_of_getElem? {α : Type} (l : List α) (i : Nat) (a d : α) (h : l[i]? = some a) :
    l.getD i d = a := by
  simp [List.getD_eq_getElem?_getD, h]

theorem getElem?_some_lt {α : Type} (l : List α) (i : Nat) (a : α) (h : l[i]? = some a) :
    i < l.length := by
  by_contra hlt
  rw [List.getElem?_eq_none (by omega)] at h
  exact absurd h (by simp)

theorem getD_set_self' {α : Type} (l : List α) (i : Nat) (a d : α) (h : i < l.length) :
    (l.set i a).getD i d = a := by
  simp [List.getD_eq_getElem?_getD, List.getElem?_set_self h]

theorem getD_set_ne' {α : Type} (l : List α) (i j : Nat) (a d : α) (h : i ≠ j) :
    (l.set i a).getD j d = l.getD j d := by
  simp [List.getD_eq_getElem?_getD, List.getElem?_set_ne h]

theorem getD_append_zero (l : List Nat) (p : Nat) : (l ++ [0]).getD p 0 = l.getD p 0 := by
  simp only [List.getD_eq_getElem?_getD]
  by_cases h : p < l.length
  · rw [List.getElem?_append_left h]
  · rw [List.getElem?_append_right (by omega)]
    rw [List.getElem?_eq_none (l := l) (by omega)]
    cases hp : p - l.length <;> simp

theorem atShort_some (v : List Nat) (i : Int) (a : Nat) (h : atShort v i = some a) :
    0 ≤ i ∧ i.toNat < v.length ∧ v.getD i.toNat 0 = a := by
  unfold atShort at h
  split at h
  · rename_i h0
    exact ⟨h0, getElem?_some_lt _ _ _ h, getD_of_getElem? _ _ _ _ h⟩
  · exact absurd h (by simp)

/-! ### Sums over node ids -/

theorem sum_range_update (n j : Nat) (f g : Nat → Nat) (hj : j < n)
    (h : ∀ c, c < n → c ≠ j → g c = f c) :
    ∑ c ∈ Finset.range n, g c + f j = ∑ c ∈ Finset.range n, f c + g j := by
  have hmem : j ∈ Finset.range n := Finset.mem_range.mpr hj
  rw [← Finset.sum_erase_add _ g hmem, ← Finset.sum_erase_add _ f hmem]
  have : ∑ c ∈ (Finset.range n).erase j, g c = ∑ c ∈ (Finset.range n).erase j, f c := by
    apply Finset.sum_congr rfl
    intro c hc
    rw [Finset.mem_erase, Finset.mem_range] at hc
    exact h c hc.2 hc.1
  omega

theorem sum_range_congr (n : Nat) (f g : Nat → Nat) (h : ∀ c, c < n → g c = f c) :
    ∑ c ∈ Finset.range n, g c = ∑ c ∈ Finset.range n, f c :=
  Finset.sum_congr rfl (fun c hc => h c (Finset.mem_range.mp hc))

theorem sum_range_zero (n : Nat) (f : Nat → Nat) (h : ∀ c, c < n → f c = 0) :
    ∑ c ∈ Finset.range n, f c = 0 :=
  Finset.sum_eq_zero (fun c hc => h c (Finset.mem_range.mp hc))

theorem single_le_sum_range (n j : Nat) (f : Nat → Nat) (hj : j < n) :
    f j ≤ ∑ c ∈ Finset.range n, f c :=
  Finset.single_le_sum (f := f) (fun _ _ => Nat.zero_le _) (Finset.mem_range.mpr hj)

/-! ### First loop of `forwardPartition` -/

theorem fwdInv_init (jn : JNodeTable) (eb : Bool) (mc : Nat) :
    FwdInv jn eb mc 0 0
      { parts := List.replicate jn.size INVALID_PART
        component_below := List.replicate jn.size 0
        part_size := [] } where
  len_parts := by simp
  len_cb := by simp
  cb_eq := by
    intro k _
    simp [cbAt, List.getD_eq_getElem?_getD, List.getElem?_replicate]
    split <;> simp
  ps_eq := by intro p hp; simp at hp
  ps_le := by intro p hp; simp at hp
  part_rng := by
    intro c hc
    left
    simp [partAt, List.getD_eq_getElem?_getD, List.getElem?_replicate, hc]
  cb_le := by intro k hk; omega

/-- Opening a new, empty part keeps the invariant of the first loop. -/
theorem fwdInv_push (jn : JNodeTable) (eb : Bool) (mc a b : Nat) (s : FwdState)
    (inv : FwdInv jn eb mc a b s) :
    FwdInv jn eb mc a b { s with part_size := s.part_size ++ [0] } where
  len_parts := inv.len_parts
  len_cb := inv.len_cb
  cb_eq := inv.cb_eq
  ps_eq := by
    intro p hp
    simp only [List.length_append, List.length_singleton] at hp
    show (s.part_size ++ [0]).getD p 0 = _
    rw [getD_append_zero]
    by_cases hlt : p < s.part_size.length
    · exact inv.ps_eq p hlt
    · have hp' : p = s.part_size.length := by omega
      rw [List.getD_eq_default _ _ (by omega)]
      symm
      apply sum_range_zero
      intro c hc
      have hne : partAt s c ≠ (p : Int) := by
        rcases inv.part_rng c hc with h | ⟨_, h, _⟩
        · rw [h]; simp only [INVALID_PART]; omega
        · omega
      show (if partAt s c = (p : Int) then cbAt s c else 0) = 0
      rw [if_neg hne]
  ps_le := by
    intro p hp
    simp only [List.length_append, List.length_singleton] at hp
    show (s.part_size ++ [0]).getD p 0 ≤ mc
    rw [getD_append_zero]
    by_cases hlt : p < s.part_size.length
    · exact inv.ps_le p hlt
    · rw [List.getD_eq_default _ _ (by omega)]; omega
  part_rng := by
    intro c hc
    rcases inv.part_rng c hc with h | ⟨h1, h2, h3⟩
    · left; exact h
    · right
      refine ⟨h1, ?_, h3⟩
      show partAt s c < ((s.part_size ++ [0]).length : Int)
      simp only [List.length_append, List.length_singleton, Nat.cast_add, Nat.cast_one]
      omega
  cb_le := inv.cb_le

theorem natCast_ne_invalid (p : Nat) : ((p : Int) = INVALID_PART) = False := by
  simp only [INVALID_PART, eq_iff_iff, iff_false]; omega

theorem invalid_ne_natCast (p : Nat) : (INVALID_PART = (p : Int)) = False := by
  simp only [INVALID_PART, eq_iff_iff, iff_false]; omega

/-- The weight of an unpacked kid is part of the weight of its parent, so the
subtraction of line 170 does not wrap. -/
theorem kid_weight_le (jn : JNodeTable) (eb : Bool) (mc id kid : Nat) (s : FwdState)
    (hF : IsForest jn) (hid : id < jn.size) (hkid : jn.parent kid = some id)
    (hINV : partAt s kid = INVALID_PART) (inv : FwdInv jn eb mc (id + 1) id s) :
    cbAt s kid ≤ cbAt s id := by
  have hlt : kid < id := hF.child_before_parent kid id hkid
  have hsum := single_le_sum_range id kid
    (fun c => if jn.parent c = some id ∧ partAt s c = INVALID_PART then cbAt s c else 0) hlt
  simp only [hkid, hINV, and_self, if_true] at hsum
  have hcb := inv.cb_eq id hid
  omega

/-- Packing the unpacked kid `kid` of `id` into part `cur`, where it fits, keeps
the invariant of the first loop. -/
theorem fwdInv_pack (jn : JNodeTable) (eb : Bool) (mc id kid cur : Nat) (s s' : FwdState)
    (hF : IsForest jn) (hid : id < jn.size) (hkid : jn.parent kid = some id)
    (hINV : partAt s kid = INVALID_PART) (hcur : cur < s.part_size.length)
    (hfit : psAt s cur + cbAt s kid ≤ mc) (inv : FwdInv jn eb mc (id + 1) id s)
    (hs1 : s'.parts = s.parts.set kid (cur : Int))
    (hs2 : s'.component_below = s.component_below.set id (cbAt s id - cbAt s kid))
    (hs3 : s'.part_size = s.part_size.set cur (psAt s cur + cbAt s kid)) :
    FwdInv jn eb mc (id + 1) id s' := by
  have hkid_lt : kid < id := hF.child_before_parent kid id hkid
  have hkn : kid < jn.size := by omega
  have hcb : ∀ k, cbAt s' k =
      if k = id then cbAt s id - cbAt s kid else cbAt s k := by
    intro k
    show s'.component_below.getD k 0 = _
    rw [hs2]
    by_cases h : k = id
    · subst h
      rw [if_pos rfl, getD_set_self' _ _ _ _ (by rw [inv.len_cb]; exact hid)]
    · rw [if_neg h, getD_set_ne' _ _ _ _ _ (Ne.symm h)]; rfl
  have hpart : ∀ c, partAt s' c =
      if c = kid then (cur : Int) else partAt s c := by
    intro c
    show s'.parts.getD c INVALID_PART = _
    rw [hs1]
    by_cases h : c = kid
    · subst h
      rw [if_pos rfl, getD_set_self' _ _ _ _ (by rw [inv.len_parts]; exact hkn)]
    · rw [if_neg h, getD_set_ne' _ _ _ _ _ (Ne.symm h)]; rfl
  have hps : ∀ p, psAt s' p =
      if p = cur then psAt s cur + cbAt s kid else psAt s p := by
    intro p
    show s'.part_size.getD p 0 = _
    rw [hs3]
    by_cases h : p = cur
    · subst h
      rw [if_pos rfl, getD_set_self' _ _ _ _ hcur]
    · rw [if_neg h, getD_set_ne' _ _ _ _ _ (Ne.symm h)]; rfl
  have hidINV : partAt s id = INVALID_PART := by
    rcases inv.part_rng id hid with h | ⟨_, _, h⟩
    · exact h
    · omega
  refine ⟨by rw [hs1]; simpa using inv.len_parts, by rw [hs2]; simpa using inv.len_cb, ?_, ?_, ?_, ?_, ?_⟩
  · -- cb_eq
    intro k hk
    rw [hcb]
    by_cases hkid' : k = id
    · subst hkid'
      rw [if_pos rfl]
      have hold := inv.cb_eq k hk
      have hsum := sum_range_update k kid
        (fun c => if jn.parent c = some k ∧ partAt s c = INVALID_PART then cbAt s c else 0)
        (fun c => if jn.parent c = some k ∧ partAt s' c = INVALID_PART
          then cbAt s' c else 0)
        hkid_lt (by
          intro c hc hne
          simp only [hpart, hcb, if_neg hne, if_neg (show c ≠ k by omega)])
      simp only [hpart, hcb, if_true, natCast_ne_invalid, and_false, if_false, hkid, hINV, and_self] at hsum
      simp only [hpart, hcb]
      simp only [if_pos (Nat.lt_succ_self k)] at hold ⊢
      omega
    · rw [if_neg hkid']
      rw [inv.cb_eq k hk]
      congr 1
      apply sum_range_congr
      intro c hc
      by_cases hck : c = kid
      · subst hck
        have : ¬ (jn.parent c = some k) := by
          rw [hkid]; intro h; exact hkid' (Option.some.inj h).symm
        simp only [this, false_and, if_false]
      · simp only [hpart, hcb, if_neg hck, if_neg (show c ≠ id by omega)]
  · -- ps_eq
    intro p hp
    have hp' : p < s.part_size.length := by rw [hs3] at hp; simpa using hp
    rw [hps]
    have hsum := sum_range_update jn.size kid
      (fun c => if partAt s c = (p : Int) then cbAt s c else 0)
      (fun c => if partAt s' c = (p : Int)
          then cbAt s' c else 0)
      hkn (by
        intro c hc hne
        simp only [hpart, hcb, if_neg hne]
        by_cases hci : c = id
        · subst hci
          simp only [hidINV, invalid_ne_natCast, if_false]
        · simp only [if_neg hci])
    simp only [hpart, hcb, if_true, hINV, invalid_ne_natCast, if_false,
      if_neg (show kid ≠ id by omega)] at hsum
    simp only [hpart, hcb]
    have hold := inv.ps_eq p hp'
    by_cases hpc : p = cur
    · subst hpc
      simp only [if_true] at hsum ⊢
      omega
    · have : ¬ ((cur : Int) = (p : Int)) := by omega
      simp only [if_neg hpc, if_neg this] at hsum ⊢
      omega
  · -- ps_le
    intro p hp
    have hp' : p < s.part_size.length := by rw [hs3] at hp; simpa using hp
    rw [hps]
    by_cases hpc : p = cur
    · rw [if_pos hpc]; exact hfit
    · rw [if_neg hpc]; exact inv.ps_le p hp'
  · -- part_rng
    intro c hc
    rw [hpart]
    by_cases hck : c = kid
    · subst hck
      right
      rw [if_pos rfl, hs3]
      simp only [List.length_set]
      omega
    · rw [if_neg hck, hs3]
      simpa using inv.part_rng c hc
  · -- cb_le
    intro k hk
    rw [hcb, if_neg (show k ≠ id by omega)]
    exact inv.cb_le k hk

/-- The shape of a successful `packScan`: nothing changed, or `kid` went into a
part `p` in which it fits. -/
theorem packScan_shape (mc id kid : Nat) (hne : kid ≠ id) (s : FwdState) :
    ∀ (fuel : Nat) (cur : Int) (s' : FwdState), packScan mc id kid fuel cur s = .ok s' →
      s' = s ∨ ∃ p : Nat, p < s.part_size.length ∧ psAt s p + cbAt s kid ≤ mc ∧
        s'.parts = s.parts.set kid (p : Int) ∧
        s'.component_below = s.component_below.set id (cbAt s id - cbAt s kid) ∧
        s'.part_size = s.part_size.set p (psAt s p + cbAt s kid) := by
  intro fuel
  induction fuel with
  | zero => intro cur s' h; simp [packScan] at h
  | succ fuel ih =>
    intro cur s' h
    rw [packScan] at h
    split at h
    · left; simp only [Except.ok.injEq] at h; exact h.symm
    · split at h
      · rename_i ps cbk cbid hps hcbk hcbid
        obtain ⟨h0, hlt, hpsv⟩ := atShort_some _ _ _ hps
        have hcbk' : cbAt s kid = cbk := getD_of_getElem? _ _ _ _ hcbk
        have hcbid' : cbAt s id = cbid := getD_of_getElem? _ _ _ _ hcbid
        split at h
        · rename_i hfit
          right
          simp only [Except.ok.injEq] at h
          have hcb1 : (s.component_below.set id (cbid - cbk)).getD kid 0 = cbk := by
            rw [getD_set_ne' _ _ _ _ _ (Ne.symm hne)]; exact hcbk'
          refine ⟨cur.toNat, hlt, ?_, ?_, ?_, ?_⟩
          · show s.part_size.getD cur.toNat 0 + cbAt s kid ≤ mc
            rw [hpsv, hcbk']; exact hfit
          · rw [← h, Int.toNat_of_nonneg h0]
          · rw [← h, hcbk', hcbid']
          · rw [← h]
            show _ = s.part_size.set cur.toNat (s.part_size.getD cur.toNat 0 + cbAt s kid)
            rw [hpsv, hcbk', hcb1]
        · exact ih _ _ h
      · simp at h

/-- What one pass over the kids keeps: the invariant of the first loop and the
number of parts; parts are only given to nodes that had none. -/
theorem packKids_inv (jn : JNodeTable) (eb : Bool) (mc id : Nat) (hF : IsForest jn)
    (hid : id < jn.size) (kids : List Nat) (hkids : ∀ k ∈ kids, jn.parent k = some id) :
    ∀ (s s' : FwdState), FwdInv jn eb mc (id + 1) id s → packKids mc id kids s = .ok s' →
      FwdInv jn eb mc (id + 1) id s' ∧ s'.part_size.length = s.part_size.length ∧
        (∀ c, partAt s c ≠ INVALID_PART → partAt s' c = partAt s c) := by
  induction kids with
  | nil =>
    intro s s' inv h
    rw [packKids] at h
    split at h
    · simp at h
    · simp only [Except.ok.injEq] at h; subst h; exact ⟨inv, rfl, fun _ _ => rfl⟩
  | cons kid rest ih =>
    intro s s' inv h
    have ih' := ih (fun k hk => hkids k (List.mem_cons_of_mem _ hk))
    have hkid := hkids kid (List.mem_cons_self _ _)
    have hkid_lt : kid < id := hF.child_before_parent kid id hkid
    rw [packKids] at h
    split at h
    · simp at h
    · split at h
      · split at h
        · simp at h
        · split at h
          · simp at h
          · split at h
            · simp at h
            · rename_i pk hpk
              have hpk' : partAt s kid = pk := getD_of_getElem? _ _ _ _ hpk
              split at h
              · exact ih' s s' inv h
              · rename_i hpkINV
                have hINV : partAt s kid = INVALID_PART := by
                  rw [hpk']; exact not_not.mp hpkINV
                split at h
                · simp at h
                · rename_i s1 hscan
                  rcases packScan_shape mc id kid (by omega) s _ _ _ hscan with hs1 | ⟨p, hp, hfit, h1, h2, h3⟩
                  · subst hs1; exact ih' _ s' inv h
                  · have inv1 := fwdInv_pack jn eb mc id kid p s s1 hF hid hkid hINV hp hfit inv h1 h2 h3
                    obtain ⟨r1, r2, r3⟩ := ih' s1 s' inv1 h
                    refine ⟨r1, by rw [r2, h3]; simp, fun c hc => ?_⟩
                    have hck : c ≠ kid := fun hck => hc (hck ▸ hINV)
                    have hs1c : partAt s1 c = partAt s c := by
                      show s1.parts.getD c INVALID_PART = _
                      rw [h1, getD_set_ne' _ _ _ _ _ (Ne.symm hck)]; rfl
                    rw [r3 c (by rw [hs1c]; exact hc), hs1c]
      · simp only [Except.ok.injEq] at h; subst h; exact ⟨inv, rfl, fun _ _ => rfl⟩

theorem packLoop_inv (jn : JNodeTable) (eb : Bool) (mc id : Nat) (hF : IsForest jn)
    (hid : id < jn.size) (kids : List Nat) (hkids : ∀ k ∈ kids, jn.parent k = some id) :
    ∀ (fuel : Nat) (s s' : FwdState), FwdInv jn eb mc (id + 1) id s →
      packLoop mc id kids fuel s = .ok s' →
      FwdInv jn eb mc (id + 1) id s' ∧ s.part_size.length ≤ s'.part_size.length ∧
        (∀ c, partAt s c ≠ INVALID_PART → partAt s' c = partAt s c) := by
  intro fuel
  induction fuel with
  | zero => intro s s' _ h; simp [packLoop] at h
  | succ fuel ih =>
    intro s s' inv h
    rw [packLoop] at h
    split at h
    · simp at h
    · rename_i s1 hpass
      obtain ⟨inv1, hlen1, hext1⟩ := packKids_inv jn eb mc id hF hid kids hkids s s1 inv hpass
      split at h
      · simp at h
      · split at h
        · obtain ⟨r1, r2, r3⟩ := ih _ s' (fwdInv_push jn eb mc _ _ s1 inv1) h
          refine ⟨r1, ?_, fun c hc => ?_⟩
          · simp only [List.length_append, List.length_singleton] at r2; omega
          · have := r3 c (by rw [show partAt { s1 with part_size := s1.part_size ++ [0] } c = partAt s1 c from rfl, hext1 c hc]; exact hc)
            rw [this]; exact hext1 c hc
        · simp only [Except.ok.injEq] at h; subst h
          exact ⟨inv1, by omega, hext1⟩

/-- Adding the own weight of `id` (line 148) keeps the invariant, with `id`
now counted among the nodes that have their weight. -/
theorem fwdInv_addOwn (jn : JNodeTable) (eb : Bool) (mc id : Nat) (s s' : FwdState)
    (hid : id < jn.size) (inv : FwdInv jn eb mc id id s)
    (hs1 : s'.parts = s.parts)
    (hs2 : s'.component_below = s.component_below.set id (cbAt s id + ownWeight jn eb id))
    (hs3 : s'.part_size = s.part_size) :
    FwdInv jn eb mc (id + 1) id s' := by
  have hcb : ∀ k, cbAt s' k = if k = id then cbAt s id + ownWeight jn eb id else cbAt s k := by
    intro k
    show s'.component_below.getD k 0 = _
    rw [hs2]
    by_cases h : k = id
    · subst h
      rw [if_pos rfl, getD_set_self' _ _ _ _ (by rw [inv.len_cb]; exact hid)]
    · rw [if_neg h, getD_set_ne' _ _ _ _ _ (Ne.symm h)]; rfl
  have hpart : ∀ c, partAt s' c = partAt s c := by
    intro c; show s'.parts.getD c INVALID_PART = _; rw [hs1]; rfl
  have hps : ∀ p, psAt s' p = psAt s p := by
    intro p; show s'.part_size.getD p 0 = _; rw [hs3]; rfl
  have hidINV : partAt s id = INVALID_PART := by
    rcases inv.part_rng id hid with h | ⟨_, _, h⟩
    · exact h
    · omega
  refine ⟨by rw [hs1]; exact inv.len_parts, by rw [hs2]; simpa using inv.len_cb, ?_, ?_, ?_, ?_, ?_⟩
  · intro k hk
    have hold := inv.cb_eq k hk
    have hsum : ∑ c ∈ Finset.range id,
          (if jn.parent c = some k ∧ partAt s' c = INVALID_PART then cbAt s' c else 0) =
        ∑ c ∈ Finset.range id,
          (if jn.parent c = some k ∧ partAt s c = INVALID_PART then cbAt s c else 0) := by
      apply sum_range_congr
      intro c hc
      rw [hpart, hcb, if_neg (show c ≠ id by omega)]
    rw [hsum, hcb]
    by_cases h : k = id
    · subst h
      rw [if_pos rfl, hold, if_neg (lt_irrefl k), if_pos (Nat.lt_succ_self k)]
      omega
    · rw [if_neg h, hold]
      by_cases hlt : k < id
      · rw [if_pos hlt, if_pos (show k < id + 1 by omega)]
      · rw [if_neg hlt, if_neg (show ¬ k < id + 1 by omega)]
  · intro p hp
    rw [hs3] at hp
    rw [hps, inv.ps_eq p hp]
    symm
    apply sum_range_congr
    intro c hc
    rw [hpart, hcb]
    by_cases h : c = id
    · subst h
      rw [hidINV]
      simp only [invalid_ne_natCast, if_false]
    · rw [if_neg h]
  · intro p hp
    rw [hs3] at hp
    rw [hps]; exact inv.ps_le p hp
  · intro c hc
    rw [hpart, hs3]; exact inv.part_rng c hc
  · intro k hk
    rw [hcb, if_neg (show k ≠ id by omega)]; exact inv.cb_le k hk

/-- Folding the finished weight of `id` into its parent (lines 183-184) keeps
the invariant, with `id` now counted among the folded nodes. -/
theorem fwdInv_fold (jn : JNodeTable) (eb : Bool) (mc id : Nat) (s s' : FwdState)
    (hF : IsForest jn) (hid : id < jn.size) (inv : FwdInv jn eb mc (id + 1) id s)
    (hle : cbAt s id ≤ mc) (hs1 : s'.parts = s.parts) (hs3 : s'.part_size = s.part_size)
    (hs2 : (jn.parent id = none ∧ s'.component_below = s.component_below) ∨
      ∃ p, jn.parent id = some p ∧ p < jn.size ∧
        s'.component_below = s.component_below.set p (cbAt s p + cbAt s id)) :
    FwdInv jn eb mc (id + 1) (id + 1) s' := by
  have hpart : ∀ c, partAt s' c = partAt s c := by
    intro c; show s'.parts.getD c INVALID_PART = _; rw [hs1]; rfl
  have hps : ∀ p, psAt s' p = psAt s p := by
    intro p; show s'.part_size.getD p 0 = _; rw [hs3]; rfl
  have hINV : ∀ c, id ≤ c → c < jn.size → partAt s c = INVALID_PART := by
    intro c hc hcn
    rcases inv.part_rng c hcn with h | ⟨_, _, h⟩
    · exact h
    · omega
  -- the weights after folding
  obtain ⟨q, hq⟩ : ∃ q : Option Nat, jn.parent id = q := ⟨_, rfl⟩
  have hcb : ∀ k, cbAt s' k = if jn.parent id = some k then cbAt s k + cbAt s id else cbAt s k := by
    intro k
    show s'.component_below.getD k 0 = _
    rcases hs2 with ⟨hnone, h2⟩ | ⟨p, hp, hpn, h2⟩
    · rw [h2, hnone, if_neg (by simp)]; rfl
    · rw [h2, hp]
      by_cases h : p = k
      · subst h
        rw [if_pos rfl, getD_set_self' _ _ _ _ (by rw [inv.len_cb]; exact hpn)]
      · rw [if_neg (fun hh => h (Option.some.inj hh)), getD_set_ne' _ _ _ _ _ h]; rfl
  have hcb_low : ∀ c, c ≤ id → cbAt s' c = cbAt s c := by
    intro c hc
    rw [hcb, if_neg]
    intro h
    have := hF.child_before_parent id c h
    omega
  refine ⟨by rw [hs1]; exact inv.len_parts, ?_, ?_, ?_, ?_, ?_, ?_⟩
  · rcases hs2 with ⟨_, h2⟩ | ⟨p, _, _, h2⟩
    · rw [h2]; exact inv.len_cb
    · rw [h2]; simpa using inv.len_cb
  · intro k hk
    rw [Finset.sum_range_succ]
    have hsum : ∑ c ∈ Finset.range id,
          (if jn.parent c = some k ∧ partAt s' c = INVALID_PART then cbAt s' c else 0) =
        ∑ c ∈ Finset.range id,
          (if jn.parent c = some k ∧ partAt s c = INVALID_PART then cbAt s c else 0) := by
      apply sum_range_congr
      intro c hc
      rw [hpart, hcb_low c (by omega)]
    rw [hsum, hpart, hcb_low id (le_refl _), hINV id (le_refl _) hid, hcb, inv.cb_eq k hk]
    by_cases h : jn.parent id = some k
    · simp only [h, true_and, if_true]; omega
    · simp only [h, false_and, if_false]; omega
  · intro p hp
    rw [hs3] at hp
    rw [hps, inv.ps_eq p hp]
    symm
    apply sum_range_congr
    intro c hc
    rw [hpart, hcb]
    by_cases h : jn.parent id = some c
    · have hlt := hF.child_before_parent id c h
      rw [hINV c (by omega) hc]
      simp only [invalid_ne_natCast, if_false]
    · rw [if_neg h]
  · intro p hp
    rw [hs3] at hp
    rw [hps]; exact inv.ps_le p hp
  · intro c hc
    rw [hpart, hs3]
    rcases inv.part_rng c hc with h | ⟨h1, h2, h3⟩
    · left; exact h
    · right; exact ⟨h1, h2, by omega⟩
  · intro k hk
    rw [hcb_low k (by omega)]
    by_cases h : k = id
    · subst h; exact hle
    · exact inv.cb_le k (by omega)

theorem packPhase_inv (sortKids : (Nat → Nat) → List Nat → List Nat)
    (hsort : ∀ key l, (sortKids key l).Perm l) (jn : JNodeTable) (eb : Bool) (mc fuel id : Nat)
    (hF : IsForest jn) (hid : id < jn.size) (s s' : FwdState)
    (inv : FwdInv jn eb mc (id + 1) id s)
    (h : packPhase sortKids jn mc fuel id s = .ok s') :
    FwdInv jn eb mc (id + 1) id s' ∧ s.part_size.length ≤ s'.part_size.length ∧
      (∀ c, partAt s c ≠ INVALID_PART → partAt s' c = partAt s c) := by
  unfold packPhase at h
  split at h
  · simp at h
  · split at h
    · split at h
      · simp at h
      · have hkids : ∀ k ∈ sortKids (fun k => s.component_below.getD k 0) (jn.kids id),
            jn.parent k = some id := by
          intro k hk
          exact hF.kids_parent id k hid ((hsort _ _).mem_iff.mp hk)
        exact packLoop_inv jn eb mc id hF hid _ hkids fuel s s' inv h
    · simp only [Except.ok.injEq] at h
      subst h
      exact ⟨inv, le_refl _, fun _ _ => rfl⟩

theorem foldPhase_inv (jn : JNodeTable) (eb : Bool) (mc id : Nat)
    (hF : IsForest jn) (hid : id < jn.size) (s s' : FwdState)
    (inv : FwdInv jn eb mc (id + 1) id s) (h : foldPhase jn mc id s = .ok s') :
    FwdInv jn eb mc (id + 1) (id + 1) s' ∧ s'.parts = s.parts ∧ s'.part_size = s.part_size := by
  unfold foldPhase at h
  split at h
  · simp at h
  · rename_i cbid hcbid
    have hcbid' : cbAt s id = cbid := getD_of_getElem? _ _ _ _ hcbid
    split at h
    · simp at h
    · rename_i hle
      have hle' : cbAt s id ≤ mc := by rw [hcbid']; exact not_not.mp hle
      split at h
      · rename_i hpar
        simp only [Except.ok.injEq] at h
        subst h
        exact ⟨fwdInv_fold jn eb mc id s s hF hid inv hle' rfl rfl (Or.inl ⟨hpar, rfl⟩), rfl, rfl⟩
      · rename_i p hpar
        split at h
        · simp at h
        · rename_i cbp hcbp
          have hcbp' : cbAt s p = cbp := getD_of_getElem? _ _ _ _ hcbp
          have hpn : p < jn.size := by
            have := getElem?_some_lt _ _ _ hcbp
            rw [inv.len_cb] at this; exact this
          simp only [Except.ok.injEq] at h
          subst h
          exact ⟨fwdInv_fold jn eb mc id s _ hF hid inv hle' rfl rfl
            (Or.inr ⟨p, hpar, hpn, by rw [hcbp', hcbid']⟩), rfl, rfl⟩

theorem forwardStep_inv (sortKids : (Nat → Nat) → List Nat → List Nat)
    (hsort : ∀ key l, (sortKids key l).Perm l) (jn : JNodeTable) (eb : Bool) (mc fuel id : Nat)
    (hF : IsForest jn) (hid : id < jn.size) (s s' : FwdState) (inv : FwdInv jn eb mc id id s)
    (h : forwardStep sortKids jn eb mc fuel id s = .ok s') :
    FwdInv jn eb mc (id + 1) (id + 1) s' ∧ s.part_size.length ≤ s'.part_size.length ∧
      (∀ c, partAt s c ≠ INVALID_PART → partAt s' c = partAt s c) := by
  unfold forwardStep at h
  split at h
  · simp at h
  · rename_i cb0 hcb0
    have hcb0' : cbAt s id = cb0 := getD_of_getElem? _ _ _ _ hcb0
    have inv1 : FwdInv jn eb mc (id + 1) id
        { s with component_below := s.component_below.set id (cb0 + ownWeight jn eb id) } :=
      fwdInv_addOwn jn eb mc id s _ hid inv rfl (by rw [hcb0']) rfl
    split at h
    · simp at h
    · rename_i s2 hpacked
      obtain ⟨inv2, hlen2, hext2⟩ := packPhase_inv sortKids hsort jn eb mc fuel id hF hid _ s2
        inv1 hpacked
      obtain ⟨inv3, hp3, hs3⟩ := foldPhase_inv jn eb mc id hF hid s2 s' inv2 h
      refine ⟨inv3, by rw [hs3]; exact hlen2, fun c hc => ?_⟩
      have : partAt s' c = partAt s2 c := by
        show s'.parts.getD c INVALID_PART = _
        rw [hp3]; rfl
      rw [this]
      exact hext2 c hc

theorem firstPass_inv (sortKids : (Nat → Nat) → List Nat → List Nat)
    (hsort : ∀ key l, (sortKids key l).Perm l) (jn : JNodeTable) (eb : Bool) (mc fuel : Nat)
    (hF : IsForest jn) :
    ∀ (k id : Nat) (s s' : FwdState), id + k = jn.size → FwdInv jn eb mc id id s →
      firstPass sortKids jn eb mc fuel k id s = .ok s' →
      FwdInv jn eb mc jn.size jn.size s' := by
  intro k
  induction k with
  | zero =>
    intro id s s' hk inv h
    simp only [firstPass, Except.ok.injEq] at h
    subst h
    have : id = jn.size := by omega
    subst this; exact inv
  | succ k ih =>
    intro id s s' hk inv h
    rw [firstPass] at h
    split at h
    · simp at h
    · rename_i s1 hstep
      exact ih (id + 1) s1 s' (by omega)
        (forwardStep_inv sortKids hsort jn eb mc fuel id hF (by omega) s s1 inv hstep).1 h

/-! ### Second loop of `forwardPartition` -/

theorem sum_range_shrink (m n : Nat) (f : Nat → Nat) (hmn : m ≤ n)
    (h : ∀ c, m ≤ c → c < n → f c = 0) :
    ∑ c ∈ Finset.range n, f c = ∑ c ∈ Finset.range m, f c := by
  symm
  apply Finset.sum_subset
  · intro c hc
    rw [Finset.mem_range] at hc ⊢
    omega
  · intro c hc hnc
    rw [Finset.mem_range] at hc hnc
    exact h c (by omega) hc

theorem partAt_of_ge (s : FwdState) (c : Nat) (h : s.parts.length ≤ c) :
    partAt s c = INVALID_PART :=
  List.getD_eq_default _ _ h

theorem set_getD_self (l : List Int) (i : Nat) (d : Int) (h : i < l.length) :
    l.set i (l.getD i d) = l := by
  apply List.ext_getElem?
  intro k
  by_cases hk : i = k
  · subst hk
    rw [List.getElem?_set_self h, List.getD_eq_getElem?_getD, List.getElem?_eq_getElem h]
    rfl
  · rw [List.getElem?_set_ne hk]

theorem sndInv_start (jn : JNodeTable) (eb : Bool) (mc : Nat) (s : FwdState)
    (inv : FwdInv jn eb mc jn.size jn.size s) : SndInv jn eb mc jn.size s where
  len_parts := inv.len_parts
  len_cb := inv.len_cb
  cb_eq := by
    intro k hk
    rw [inv.cb_eq k hk, if_pos hk]
  cb_le := inv.cb_le
  resolved := by intro c h1 h2; exact absurd h2 (by omega)
  part_rng := by
    intro c hc
    rcases inv.part_rng c hc with h | ⟨h1, h2, _⟩
    · left; exact h
    · right; exact ⟨h1, h2⟩
  ps_eq := by
    intro p hp
    rw [inv.ps_eq p hp]
    symm
    apply sum_range_congr
    intro c hc
    unfold shareOf
    rw [if_neg (show ¬ jn.size ≤ c by omega)]
    by_cases h1 : partAt s c = (p : Int)
    · rw [if_pos h1, if_pos h1]
    · rw [if_neg h1, if_neg h1]
      by_cases h2 : partAt s c = INVALID_PART
      · rw [if_pos h2]
        cases hq : jn.parent c with
        | none => rfl
        | some q =>
          simp only
          by_cases h3 : jn.size ≤ q
          · rw [partAt_of_ge s q (by rw [inv.len_parts]; exact h3)]
            simp only [invalid_ne_natCast, and_false, if_false]
          · simp only [h3, false_and, if_false]
      · rw [if_neg h2]
  ps_le := inv.ps_le

theorem sndInv_partAt_ne_len (jn : JNodeTable) (eb : Bool) (mc j : Nat) (s : FwdState)
    (inv : SndInv jn eb mc j s) (q : Nat) : partAt s q ≠ (s.part_size.length : Int) := by
  by_cases hq : q < jn.size
  · rcases inv.part_rng q hq with h | ⟨_, h⟩
    · rw [h]; simp only [INVALID_PART]; omega
    · omega
  · rw [partAt_of_ge s q (by rw [inv.len_parts]; omega)]
    simp only [INVALID_PART]; omega

/-- Opening a new, empty part keeps the invariant of the second loop. -/
theorem sndInv_push (jn : JNodeTable) (eb : Bool) (mc j : Nat) (s : FwdState)
    (inv : SndInv jn eb mc j s) :
    SndInv jn eb mc j { s with part_size := s.part_size ++ [0] } where
  len_parts := inv.len_parts
  len_cb := inv.len_cb
  cb_eq := inv.cb_eq
  cb_le := inv.cb_le
  resolved := by
    intro c h1 h2
    obtain ⟨r1, r2⟩ := inv.resolved c h1 h2
    refine ⟨r1, ?_⟩
    show partAt s c < ((s.part_size ++ [0]).length : Int)
    simp only [List.length_append, List.length_singleton, Nat.cast_add, Nat.cast_one]
    omega
  part_rng := by
    intro c hc
    rcases inv.part_rng c hc with h | ⟨h1, h2⟩
    · left; exact h
    · right
      refine ⟨h1, ?_⟩
      show partAt s c < ((s.part_size ++ [0]).length : Int)
      simp only [List.length_append, List.length_singleton, Nat.cast_add, Nat.cast_one]
      omega
  ps_eq := by
    intro p hp
    simp only [List.length_append, List.length_singleton] at hp
    show (s.part_size ++ [0]).getD p 0 =
      ∑ c ∈ Finset.range jn.size, shareOf jn eb j s p c
    rw [getD_append_zero]
    by_cases hlt : p < s.part_size.length
    · exact inv.ps_eq p hlt
    · have hp' : p = s.part_size.length := by omega
      rw [List.getD_eq_default _ _ (by omega)]
      symm
      apply sum_range_zero
      intro c _
      have hne : ∀ q, partAt s q ≠ (p : Int) := by
        intro q; rw [hp']; exact sndInv_partAt_ne_len jn eb mc j s inv q
      unfold shareOf
      simp only [hne, if_false, and_false]
      split
      · rfl
      · split
        · split <;> rfl
        · rfl
  ps_le := by
    intro p hp
    simp only [List.length_append, List.length_singleton] at hp
    show (s.part_size ++ [0]).getD p 0 ≤ mc
    rw [getD_append_zero]
    by_cases hlt : p < s.part_size.length
    · exact inv.ps_le p hlt
    · rw [List.getD_eq_default _ _ (by omega)]; omega

/-- The second loop gives node `j` the part `P`: either `j` keeps the part it
was packed into or inherits the part of its parent (part sizes unchanged), or
`j` is a root placed into `P`, whose size grows by `component_below` of `j`. -/
theorem sndInv_advance (jn : JNodeTable) (eb : Bool) (mc j P : Nat) (s s' : FwdState)
    (hF : IsForest jn) (hj : j < jn.size) (inv : SndInv jn eb mc (j + 1) s)
    (hP : P < s.part_size.length)
    (hs1 : s'.parts = s.parts.set j (P : Int)) (hs2 : s'.component_below = s.component_below)
    (hcase : (s'.part_size = s.part_size ∧
        (partAt s j = (P : Int) ∨
          (partAt s j = INVALID_PART ∧ ∃ q, jn.parent j = some q ∧ partAt s q = (P : Int)))) ∨
      (partAt s j = INVALID_PART ∧ jn.parent j = none ∧
        s'.part_size = s.part_size.set P (psAt s P + cbAt s j) ∧ psAt s P + cbAt s j ≤ mc)) :
    SndInv jn eb mc j s' := by
  have hlen : s'.part_size.length = s.part_size.length := by
    rcases hcase with ⟨h, _⟩ | ⟨_, _, h, _⟩
    · rw [h]
    · rw [h]; simp
  have hcb : ∀ k, cbAt s' k = cbAt s k := by
    intro k; show s'.component_below.getD k 0 = _; rw [hs2]; rfl
  have hpart : ∀ c, partAt s' c = if c = j then (P : Int) else partAt s c := by
    intro c
    show s'.parts.getD c INVALID_PART = _
    rw [hs1]
    by_cases h : c = j
    · subst h
      rw [if_pos rfl, getD_set_self' _ _ _ _ (by rw [inv.len_parts]; exact hj)]
    · rw [if_neg h, getD_set_ne' _ _ _ _ _ (Ne.symm h)]; rfl
  have hnoself : ∀ c, j ≤ c → jn.parent c ≠ some j := by
    intro c hc h
    have := hF.child_before_parent c j h
    omega
  -- the weight of `j` splits into its own weight and the weight of its unpacked kids
  have hkids : cbAt s j = ownWeight jn eb j +
      ∑ c ∈ Finset.range jn.size,
        (if jn.parent c = some j ∧ partAt s c = INVALID_PART then cbAt s c else 0) := by
    rw [inv.cb_eq j (by omega)]
    congr 1
    symm
    apply sum_range_shrink _ _ _ (by omega)
    intro c hc _
    rw [if_neg (fun h => hnoself c (by omega) h.1)]
  -- the shares of every part after the step
  have hshare : ∀ p, ∑ c ∈ Finset.range jn.size, shareOf jn eb j s' p c +
        shareOf jn eb (j + 1) s p j =
      ∑ c ∈ Finset.range jn.size, shareOf jn eb (j + 1) s p c +
        (if P = p then cbAt s j else 0) := by
    intro p
    have hpt : ∀ c, c < jn.size → c ≠ j →
        shareOf jn eb j s' p c = shareOf jn eb (j + 1) s p c +
          (if jn.parent c = some j ∧ partAt s c = INVALID_PART ∧ P = p then cbAt s c else 0) := by
      intro c _ hcj
      unfold shareOf
      rw [hpart c, if_neg hcj, hcb c]
      by_cases hlt : j ≤ c
      · have he : (if jn.parent c = some j ∧ partAt s c = INVALID_PART ∧ P = p
            then cbAt s c else 0) = 0 := if_neg (fun h => hnoself c hlt h.1)
        rw [if_pos hlt, if_pos (show j + 1 ≤ c by omega), he]
        rfl
      · rw [if_neg hlt, if_neg (show ¬ j + 1 ≤ c by omega)]
        by_cases h1 : partAt s c = (p : Int)
        · have h1' : partAt s c ≠ INVALID_PART := by
            rw [h1]; simp only [INVALID_PART]; omega
          have he : (if jn.parent c = some j ∧ partAt s c = INVALID_PART ∧ P = p
              then cbAt s c else 0) = 0 := if_neg (fun h => h1' h.2.1)
          rw [if_pos h1, if_pos h1, he]
          rfl
        · rw [if_neg h1, if_neg h1]
          by_cases h2 : partAt s c = INVALID_PART
          · rw [if_pos h2, if_pos h2]
            cases hq : jn.parent c with
            | none => simp
            | some q =>
              simp only
              by_cases hqj : q = j
              · subst hqj
                rw [hpart q, if_pos rfl]
                have : ¬ (q + 1 ≤ q ∧ partAt s q = (p : Int)) := fun h => by omega
                rw [if_neg this]
                by_cases hPp : P = p
                · subst hPp; simp [h2]
                · have : ¬ ((P : Int) = (p : Int)) := by omega
                  simp [hPp, this]
              · rw [hpart q, if_neg hqj]
                have hne : ¬ (some q = some j ∧ partAt s c = INVALID_PART ∧ P = p) :=
                  fun h => hqj (Option.some.inj h.1)
                rw [if_neg hne, Nat.add_zero]
                by_cases hq1 : j ≤ q
                · have : j + 1 ≤ q := by omega
                  simp only [hq1, this, true_and]
                · have : ¬ j + 1 ≤ q := by omega
                  simp only [hq1, this, false_and]
          · have he : (if jn.parent c = some j ∧ partAt s c = INVALID_PART ∧ P = p
                then cbAt s c else 0) = 0 := if_neg (fun h => h2 h.2.1)
            rw [if_neg h2, if_neg h2, he]
    have hupd := sum_range_update jn.size j
      (fun c => shareOf jn eb (j + 1) s p c +
        (if jn.parent c = some j ∧ partAt s c = INVALID_PART ∧ P = p then cbAt s c else 0))
      (fun c => shareOf jn eb j s' p c) hj hpt
    simp only [Finset.sum_add_distrib] at hupd
    rw [if_neg (fun h => hnoself j (le_refl _) h.1), Nat.add_zero] at hupd
    have hj' : shareOf jn eb j s' p j = if P = p then ownWeight jn eb j else 0 := by
      unfold shareOf
      rw [if_pos (le_refl _), hpart j, if_pos rfl]
      by_cases hPp : P = p
      · subst hPp; simp
      · have : ¬ ((P : Int) = (p : Int)) := by omega
        rw [if_neg this, if_neg hPp]
    rw [hj'] at hupd
    by_cases hPp : P = p
    · subst hPp
      simp only [and_true, if_true] at hupd ⊢
      omega
    · have hz : ∑ c ∈ Finset.range jn.size,
          (if jn.parent c = some j ∧ partAt s c = INVALID_PART ∧ P = p then cbAt s c else 0) = 0 := by
        apply sum_range_zero
        intro c _
        rw [if_neg (fun h => hPp h.2.2)]
      rw [hz] at hupd
      simp only [hPp, if_false] at hupd ⊢
      omega
  refine ⟨by rw [hs1]; simpa using inv.len_parts, by rw [hs2]; exact inv.len_cb, ?_, ?_, ?_, ?_, ?_, ?_⟩
  · -- cb_eq
    intro k hk
    rw [hcb k, inv.cb_eq k (by omega), Finset.sum_range_succ,
      if_neg (fun h => by have := hF.child_before_parent j k h.1; omega), Nat.add_zero]
    congr 1
    apply sum_range_congr
    intro c hc
    rw [hpart c, if_neg (show c ≠ j by omega), hcb c]
  · intro k hk; rw [hcb k]; exact inv.cb_le k hk
  · -- resolved
    intro c hc hcn
    rw [hpart c, hlen]
    by_cases h : c = j
    · rw [if_pos h]; omega
    · rw [if_neg h]; exact inv.resolved c (by omega) hcn
  · -- part_rng
    intro c hc
    rw [hpart c, hlen]
    by_cases h : c = j
    · rw [if_pos h]; right; omega
    · rw [if_neg h]; exact inv.part_rng c hc
  · -- ps_eq
    intro p hp
    rw [hlen] at hp
    have hold := inv.ps_eq p hp
    have hsh := hshare p
    rcases hcase with ⟨h3, hkeep⟩ | ⟨hINV, hnone, h3, _⟩
    · have hshj : shareOf jn eb (j + 1) s p j = if P = p then cbAt s j else 0 := by
        unfold shareOf
        rw [if_neg (show ¬ j + 1 ≤ j by omega)]
        rcases hkeep with hk | ⟨hINV, q, hq, hqP⟩
        · rw [hk]
          by_cases hPp : P = p
          · subst hPp; simp
          · have : ¬ ((P : Int) = (p : Int)) := by omega
            rw [if_neg this, if_neg hPp, if_neg (by simp only [INVALID_PART]; omega)]
        · rw [hINV, hq]
          have hqj := hF.child_before_parent j q hq
          simp only [invalid_ne_natCast, if_false, if_true, hqP]
          by_cases hPp : P = p
          · subst hPp; simp; omega
          · have : ¬ ((P : Int) = (p : Int)) := by omega
            simp [hPp, this]
      show s'.part_size.getD p 0 = _
      rw [h3]
      show psAt s p = _
      rw [hshj] at hsh
      omega
    · have hshj : shareOf jn eb (j + 1) s p j = 0 := by
        unfold shareOf
        rw [if_neg (show ¬ j + 1 ≤ j by omega), hINV, hnone]
        simp only [invalid_ne_natCast, if_false, if_true]
      show s'.part_size.getD p 0 = _
      rw [h3]
      rw [hshj] at hsh
      by_cases hPp : P = p
      · subst hPp
        rw [getD_set_self' _ _ _ _ hP]
        simp only [if_true] at hsh
        omega
      · rw [getD_set_ne' _ _ _ _ _ hPp]
        simp only [hPp, if_false] at hsh
        show psAt s p = _
        omega
  · -- ps_le
    intro p hp
    rw [hlen] at hp
    show s'.part_size.getD p 0 ≤ mc
    rcases hcase with ⟨h3, _⟩ | ⟨_, _, h3, hfit⟩
    · rw [h3]; exact inv.ps_le p hp
    · rw [h3]
      by_cases hPp : P = p
      · subst hPp; rw [getD_set_self' _ _ _ _ hP]; exact hfit
      · rw [getD_set_ne' _ _ _ _ _ hPp]; exact inv.ps_le p hp

/-- The shape of a successful `placeScan`: nothing changed, or `id` went into a
part `p` in which it fits. -/
theorem placeScan_shape (mc id : Nat) (s : FwdState) :
    ∀ (fuel : Nat) (cur : Int) (s' : FwdState), placeScan mc id fuel cur s = .ok s' →
      s' = s ∨ ∃ p : Nat, p < s.part_size.length ∧ psAt s p + cbAt s id ≤ mc ∧
        s'.parts = s.parts.set id (p : Int) ∧
        s'.component_below = s.component_below ∧
        s'.part_size = s.part_size.set p (psAt s p + cbAt s id) := by
  intro fuel
  induction fuel with
  | zero => intro cur s' h; simp [placeScan] at h
  | succ fuel ih =>
    intro cur s' h
    rw [placeScan] at h
    split at h
    · left; simp only [Except.ok.injEq] at h; exact h.symm
    · split at h
      · rename_i ps cbid hps hcbid
        obtain ⟨h0, hlt, hpsv⟩ := atShort_some _ _ _ hps
        have hcbid' : cbAt s id = cbid := getD_of_getElem? _ _ _ _ hcbid
        split at h
        · rename_i hfit
          right
          simp only [Except.ok.injEq] at h
          refine ⟨cur.toNat, hlt, ?_, ?_, ?_, ?_⟩
          · show s.part_size.getD cur.toNat 0 + cbAt s id ≤ mc
            rw [hpsv, hcbid']; exact hfit
          · rw [← h, Int.toNat_of_nonneg h0]
          · rw [← h]
          · rw [← h]
            show _ = s.part_size.set cur.toNat (s.part_size.getD cur.toNat 0 + cbAt s id)
            rw [hpsv, hcbid']
        · exact ih _ _ h
      · simp at h

theorem partAt_eq_of_getElem? (s : FwdState) (c : Nat) (z : Int) (h : s.parts[c]? = some z) :
    partAt s c = z := getD_of_getElem? _ _ _ _ h

theorem placeLoop_inv (jn : JNodeTable) (eb : Bool) (mc j : Nat) (hF : IsForest jn)
    (hj : j < jn.size) (hroot : jn.parent j = none) :
    ∀ (fuel : Nat) (s s' : FwdState), SndInv jn eb mc (j + 1) s → partAt s j = INVALID_PART →
      placeLoop mc j fuel s = .ok s' → SndInv jn eb mc j s' := by
  intro fuel
  induction fuel with
  | zero => intro s s' _ _ h; simp [placeLoop] at h
  | succ fuel ih =>
    intro s s' inv hINV h
    rw [placeLoop] at h
    split at h
    · simp at h
    · rename_i pid hpid
      have hpid' : partAt s j = pid := partAt_eq_of_getElem? _ _ _ hpid
      rw [if_pos (by rw [← hpid']; exact hINV)] at h
      split at h
      · simp at h
      · rename_i s1 hscan
        rcases placeScan_shape mc j s _ _ _ hscan with hs1 | ⟨p, hp, hfit, h1, h2, h3⟩
        · subst hs1
          rw [hpid] at h
          simp only at h
          rw [if_pos (by rw [← hpid']; exact hINV)] at h
          exact ih _ s' (sndInv_push jn eb mc _ s1 inv) hINV h
        · have hs1j : s1.parts[j]? = some (p : Int) := by
            rw [h1, List.getElem?_set_self (by rw [inv.len_parts]; exact hj)]
          rw [hs1j] at h
          simp only at h
          rw [if_neg (by simp only [INVALID_PART]; omega)] at h
          simp only [Except.ok.injEq] at h
          subst h
          exact sndInv_advance jn eb mc j p s s1 hF hj inv hp h1 h2
            (Or.inr ⟨hINV, hroot, h3, hfit⟩)

theorem backfillStep_inv (jn : JNodeTable) (eb : Bool) (mc fuel j : Nat) (hF : IsForest jn)
    (hj : j < jn.size) (s s' : FwdState) (inv : SndInv jn eb mc (j + 1) s)
    (h : backfillStep jn mc fuel j s = .ok s') : SndInv jn eb mc j s' := by
  unfold backfillStep at h
  split at h
  · simp at h
  · rename_i pid hpid
    have hpid' : partAt s j = pid := partAt_eq_of_getElem? _ _ _ hpid
    simp only at h
    split at h
    · simp at h
    · rename_i s1 hinh
      by_cases hINV : pid = INVALID_PART
      · rw [if_pos hINV] at hinh
        split at hinh
        · -- a root without a part: the fallback places it
          rename_i hroot
          simp only [Except.ok.injEq] at hinh
          subst hinh
          exact placeLoop_inv jn eb mc j hF hj hroot fuel s s' inv (by rw [hpid']; exact hINV) h
        · -- the part of the parent is inherited
          rename_i q hq
          split at hinh
          · simp at hinh
          · rename_i pp hpp
            have hpp' : partAt s q = pp := partAt_eq_of_getElem? _ _ _ hpp
            have hqn : q < jn.size := by
              have := getElem?_some_lt _ _ _ hpp
              rw [inv.len_parts] at this; exact this
            have hqj : j < q := hF.child_before_parent j q hq
            obtain ⟨r1, r2⟩ := inv.resolved q (by omega) hqn
            rw [hpp'] at r1 r2
            simp only [Except.ok.injEq] at hinh
            have hs1j : s1.parts[j]? = some pp := by
              rw [← hinh]
              show (s.parts.set j pp)[j]? = _
              rw [List.getElem?_set_self (by rw [inv.len_parts]; exact hj)]
            cases fuel with
            | zero => simp [placeLoop] at h
            | succ fuel =>
              rw [placeLoop, hs1j] at h
              simp only at h
              rw [if_neg (by simp only [INVALID_PART]; omega)] at h
              simp only [Except.ok.injEq] at h
              subst h
              have hppn : ((pp.toNat : Nat) : Int) = pp := Int.toNat_of_nonneg r1
              refine sndInv_advance jn eb mc j pp.toNat s s1 hF hj inv (by omega)
                (by rw [← hinh, hppn]) (by rw [← hinh])
                (Or.inl ⟨by rw [← hinh], Or.inr ⟨by rw [hpid']; exact hINV, q, hq, ?_⟩⟩)
              rw [hpp', hppn]
      · rw [if_neg hINV] at hinh
        simp only [Except.ok.injEq] at hinh
        subst hinh
        cases fuel with
        | zero => simp [placeLoop] at h
        | succ fuel =>
          rw [placeLoop, hpid] at h
          simp only at h
          rw [if_neg hINV] at h
          simp only [Except.ok.injEq] at h
          subst h
          rcases inv.part_rng j hj with hbad | ⟨r1, r2⟩
          · exact absurd (hpid'.symm.trans hbad) hINV
          · have hppn : ((pid.toNat : Nat) : Int) = pid := by
              rw [← hpid']; exact Int.toNat_of_nonneg r1
            refine sndInv_advance jn eb mc j pid.toNat s s hF hj inv (by omega) ?_ rfl
              (Or.inl ⟨rfl, Or.inl (by rw [hppn, hpid'])⟩)
            rw [hppn, ← hpid']
            exact (set_getD_self _ _ _ (by rw [inv.len_parts]; exact hj)).symm

theorem secondPass_inv (jn : JNodeTable) (eb : Bool) (mc fuel : Nat) (hF : IsForest jn) :
    ∀ (j : Nat) (s s' : FwdState), j ≤ jn.size → SndInv jn eb mc j s →
      secondPass jn mc fuel j s = .ok s' → SndInv jn eb mc 0 s' := by
  intro j
  induction j with
  | zero =>
    intro s s' _ inv h
    simp only [secondPass, Except.ok.injEq] at h
    subst h; exact inv
  | succ j ih =>
    intro s s' hj inv h
    rw [secondPass] at h
    split at h
    · simp at h
    · rename_i s1 hstep
      exact ih s1 s' (by omega) (backfillStep_inv jn eb mc fuel j hF (by omega) s s1 inv hstep) h

/-- After a completed run every node has a part that was opened, and the size
of every part is the total own weight of the nodes assigned to it. -/
theorem forwardPartition_final (sortKids : (Nat → Nat) → List Nat → List Nat)
    (hsort : ∀ key l, (sortKids key l).Perm l) (jn : JNodeTable) (eb : Bool) (mc fuel : Nat)
    (hF : IsForest jn) (s : FwdState) (h : forwardPartition sortKids jn eb mc fuel = .ok s) :
    SndInv jn eb mc 0 s := by
  unfold forwardPartition at h
  simp only at h
  split at h
  · simp at h
  · rename_i s1 hfirst
    have inv1 := firstPass_inv sortKids hsort jn eb mc fuel hF jn.size 0 _ s1 (by omega)
      (fwdInv_init jn eb mc) hfirst
    exact secondPass_inv jn eb mc fuel hF jn.size s1 s (le_refl _)
      (sndInv_start jn eb mc s1 inv1) h

theorem part_weight_le_capacity (sortKids : (Nat → Nat) → List Nat → List Nat)
    (hsort : ∀ key l, (sortKids key l).Perm l) (jn : JNodeTable) (eb : Bool) (mc fuel : Nat)
    (hF : IsForest jn) (s : FwdState) (h : forwardPartition sortKids jn eb mc fuel = .ok s)
    (p : Int) :
    (∑ c ∈ Finset.range jn.size,
      if s.parts.getD c INVALID_PART = p then ownWeight jn eb c else 0) ≤ mc := by
  have inv := forwardPartition_final sortKids hsort jn eb mc fuel hF s h
  by_cases hp : 0 ≤ p ∧ p.toNat < s.part_size.length
  · have hpp : ((p.toNat : Nat) : Int) = p := Int.toNat_of_nonneg hp.1
    have h1 := inv.ps_eq p.toNat hp.2
    have h2 := inv.ps_le p.toNat hp.2
    have h3 : ∑ c ∈ Finset.range jn.size, shareOf jn eb 0 s p.toNat c =
        ∑ c ∈ Finset.range jn.size,
          if s.parts.getD c INVALID_PART = p then ownWeight jn eb c else 0 := by
      apply sum_range_congr
      intro c _
      unfold shareOf
      rw [if_pos (Nat.zero_le c), hpp]
      rfl
    omega
  · have hz : ∑ c ∈ Finset.range jn.size,
        (if s.parts.getD c INVALID_PART = p then ownWeight jn eb c else 0) = 0 := by
      apply sum_range_zero
      intro c hc
      obtain ⟨r1, r2⟩ := inv.resolved c (Nat.zero_le c) hc
      rw [if_neg]
      intro heq
      apply hp
      have heq' : partAt s c = p := heq
      rw [heq'] at r1 r2
      exact ⟨r1, by omega⟩
    omega

/-! ### `short` counters -/

theorem toShort_of_lt (i : Nat) (h : i < 32768) : toShort (i : Int) = (i : Int) := by
  unfold toShort; omega

theorem toShort_32768 : toShort ((32768 : Nat) : Int) = -32768 := by
  unfold toShort; omega

theorem toShort_len_ne (i len : Nat) (hi : i < len) (hlen : len ≤ 32768) :
    (i : Int) ≠ toShort (len : Int) := by
  unfold toShort; omega

theorem toShort_pred (i : Nat) (hi : i ≤ 32768) :
    toShort ((i : Int) - 1) = (i : Int) - 1 := by
  unfold toShort; omega

/-! ### Counting the nodes that have a part -/

theorem assignedCount_set (jn : JNodeTable) (s s' : FwdState) (k : Nat) (P : Nat)
    (hk : k < jn.size) (hlen : s.parts.length = jn.size) (hINV : partAt s k = INVALID_PART)
    (hs1 : s'.parts = s.parts.set k (P : Int)) :
    assignedCount jn s' = assignedCount jn s + 1 := by
  unfold assignedCount
  have hpart : ∀ c, partAt s' c = if c = k then (P : Int) else partAt s c := by
    intro c
    show s'.parts.getD c INVALID_PART = _
    rw [hs1]
    by_cases h : c = k
    · subst h
      rw [if_pos rfl, getD_set_self' _ _ _ _ (by rw [hlen]; exact hk)]
    · rw [if_neg h, getD_set_ne' _ _ _ _ _ (Ne.symm h)]; rfl
  have hupd := sum_range_update jn.size k
    (fun c => if partAt s c = INVALID_PART then 0 else 1)
    (fun c => if partAt s' c = INVALID_PART then 0 else 1) hk
    (by intro c _ hne; simp only [hpart c, if_neg hne])
  simp only [hpart k, if_true, hINV, natCast_ne_invalid, if_false] at hupd
  omega

theorem assignedCount_congr (jn : JNodeTable) (s s' : FwdState) (h : s'.parts = s.parts) :
    assignedCount jn s' = assignedCount jn s := by
  unfold assignedCount partAt; rw [h]

theorem assignedCount_lt (jn : JNodeTable) (s : FwdState) (k : Nat) (hk : k < jn.size)
    (hINV : partAt s k = INVALID_PART) : assignedCount jn s + 1 ≤ jn.size := by
  unfold assignedCount
  have h1 : ∑ c ∈ Finset.range jn.size, (if partAt s c = INVALID_PART then 0 else 1) ≤
      ∑ c ∈ Finset.range jn.size, (if c = k then 0 else 1) := by
    apply Finset.sum_le_sum
    intro c _
    by_cases h : c = k
    · subst h; simp [hINV]
    · rw [if_neg h]; split <;> omega
  have h2 := sum_range_update jn.size k (fun _ => 1) (fun c => if c = k then 0 else 1) hk
    (by intro c _ hne; simp only [if_neg hne])
  simp only [if_true, Finset.sum_const, Finset.card_range, smul_eq_mul, mul_one] at h2
  omega

theorem shortPeriod_eq : shortPeriod = 65537 := by
  with_unfolding_all rfl

theorem getElem?_of_lt_getD (l : List Nat) (i : Nat) (h : i < l.length) :
    l[i]? = some (l.getD i 0) := by
  rw [List.getD_eq_getElem?_getD, List.getElem?_eq_getElem h]; rfl

theorem atShort_natCast (v : List Nat) (i : Nat) (h : i < v.length) :
    atShort v (i : Int) = some (v.getD i 0) := by
  unfold atShort
  rw [if_pos (by omega), Int.toNat_ofNat]
  exact getElem?_of_lt_getD v i h

/-- With at most 32768 parts the upward scan visits the parts `i, i + 1, ...`
in turn: it packs `kid` into the first part it fits in and changes nothing when
there is none. -/
theorem packScan_total (mc id kid : Nat) (hne : kid ≠ id) (s : FwdState)
    (hlen : s.part_size.length ≤ 32768) (hk : kid < s.component_below.length)
    (hid : id < s.component_below.length) :
    ∀ (fuel i : Nat), i ≤ s.part_size.length → s.part_size.length - i < fuel →
      ((∀ p, i ≤ p → p < s.part_size.length → ¬ psAt s p + cbAt s kid ≤ mc) →
        packScan mc id kid fuel (toShort (i : Int)) s = .ok s) ∧
      ((∃ p, i ≤ p ∧ p < s.part_size.length ∧ psAt s p + cbAt s kid ≤ mc) →
        ∃ s' P, packScan mc id kid fuel (toShort (i : Int)) s = .ok s' ∧
          P < s.part_size.length ∧ psAt s P + cbAt s kid ≤ mc ∧
          s'.parts = s.parts.set kid (P : Int) ∧
          s'.component_below = s.component_below.set id (cbAt s id - cbAt s kid) ∧
          s'.part_size = s.part_size.set P (psAt s P + cbAt s kid)) := by
  intro fuel
  induction fuel with
  | zero => intro i _ h; omega
  | succ fuel ih =>
    intro i hi hfuel
    by_cases hil : i = s.part_size.length
    · -- the counter has reached `(short) part_size.size()`
      have hstop : packScan mc id kid (fuel + 1) (toShort (i : Int)) s = .ok s := by
        rw [packScan, if_pos (by rw [hil])]
      refine ⟨fun _ => hstop, ?_⟩
      rintro ⟨p, h1, h2, _⟩
      omega
    · have hi' : i < s.part_size.length := by omega
      have hcur : toShort (i : Int) = (i : Int) := toShort_of_lt i (by omega)
      have hnext : toShort ((i : Int) + 1) = toShort ((i + 1 : Nat) : Int) := by
        rw [Nat.cast_add, Nat.cast_one]
      have hstep : packScan mc id kid (fuel + 1) (toShort (i : Int)) s =
          if psAt s i + cbAt s kid ≤ mc then
            .ok { parts := s.parts.set kid (i : Int)
                  component_below := s.component_below.set id (cbAt s id - cbAt s kid)
                  part_size := s.part_size.set i (psAt s i + cbAt s kid) }
          else packScan mc id kid fuel (toShort ((i + 1 : Nat) : Int)) s := by
        rw [packScan, hcur, if_neg (toShort_len_ne i _ hi' hlen), atShort_natCast _ _ hi',
          getElem?_of_lt_getD _ _ hk, getElem?_of_lt_getD _ _ hid]
        simp only [Int.toNat_ofNat, hnext]
        rw [getD_set_ne' _ _ _ _ _ (Ne.symm hne)]
        rfl
      obtain ⟨ihA, ihB⟩ := ih (i + 1) (by omega) (by omega)
      by_cases hfit : psAt s i + cbAt s kid ≤ mc
      · rw [hstep, if_pos hfit]
        refine ⟨fun hno => absurd hfit (hno i (le_refl _) hi'), fun _ => ?_⟩
        exact ⟨_, i, rfl, hi', hfit, rfl, rfl, rfl⟩
      · rw [hstep, if_neg hfit]
        refine ⟨fun hno => ihA (fun p hp hpl => hno p (by omega) hpl), ?_⟩
        rintro ⟨p, h1, h2, h3⟩
        have hpi : p ≠ i := fun h => hfit (h ▸ h3)
        exact ihB ⟨p, by omega, h2, h3⟩

/-- With at most 32768 parts the downward scan visits the parts `i - 1, i - 2,
...` in turn: it places `id` into the first part it fits in and changes nothing
when there is none. -/
theorem placeScan_total (mc id : Nat) (s : FwdState)
    (hlen : s.part_size.length ≤ 32768) (hid : id < s.component_below.length) :
    ∀ (fuel i : Nat), i ≤ s.part_size.length → i < fuel →
      ((∀ p, p < i → ¬ psAt s p + cbAt s id ≤ mc) →
        placeScan mc id fuel (toShort ((i : Int) - 1)) s = .ok s) ∧
      ((∃ p, p < i ∧ psAt s p + cbAt s id ≤ mc) →
        ∃ s' P, placeScan mc id fuel (toShort ((i : Int) - 1)) s = .ok s' ∧
          P < s.part_size.length ∧ psAt s P + cbAt s id ≤ mc ∧
          s'.parts = s.parts.set id (P : Int) ∧
          s'.component_below = s.component_below ∧
          s'.part_size = s.part_size.set P (psAt s P + cbAt s id)) := by
  intro fuel
  induction fuel with
  | zero => intro i _ h; omega
  | succ fuel ih =>
    intro i hi hfuel
    have hcur : toShort ((i : Int) - 1) = (i : Int) - 1 := toShort_pred i (by omega)
    cases i with
    | zero =>
      have hstop : placeScan mc id (fuel + 1) (toShort (((0 : Nat) : Int) - 1)) s = .ok s := by
        rw [placeScan, hcur, if_pos (by simp)]
      refine ⟨fun _ => hstop, ?_⟩
      rintro ⟨p, h1, _⟩
      omega
    | succ i =>
      have hi' : i < s.part_size.length := by omega
      have hci : ((i + 1 : Nat) : Int) - 1 = (i : Int) := by omega
      have hstep : placeScan mc id (fuel + 1) (toShort (((i + 1 : Nat) : Int) - 1)) s =
          if psAt s i + cbAt s id ≤ mc then
            .ok { s with part_size := s.part_size.set i (psAt s i + cbAt s id)
                         parts := s.parts.set id (i : Int) }
          else placeScan mc id fuel (toShort ((i : Int) - 1)) s := by
        rw [placeScan, hcur, hci, if_neg (by omega), atShort_natCast _ _ hi',
          getElem?_of_lt_getD _ _ hid]
        simp only [Int.toNat_ofNat]
        rfl
      obtain ⟨ihA, ihB⟩ := ih i (by omega) (by omega)
      by_cases hfit : psAt s i + cbAt s id ≤ mc
      · rw [hstep, if_pos hfit]
        refine ⟨fun hno => absurd hfit (hno i (by omega)), fun _ => ?_⟩
        exact ⟨_, i, rfl, hi', hfit, rfl, rfl, rfl⟩
      · rw [hstep, if_neg hfit]
        refine ⟨fun hno => ihA (fun p hp => hno p (by omega)), ?_⟩
        rintro ⟨p, h1, h3⟩
        have hpi : p ≠ i := fun h => hfit (h ▸ h3)
        exact ihB ⟨p, by omega, h3⟩

theorem fwdInv_id_unassigned (jn : JNodeTable) (eb : Bool) (mc a id : Nat) (s : FwdState)
    (inv : FwdInv jn eb mc a id s) (c : Nat) (hc : c < jn.size) (hic : id ≤ c) :
    partAt s c = INVALID_PART := by
  rcases inv.part_rng c hc with h | ⟨_, _, h⟩
  · exact h
  · omega

/-- One pass over the kids of `id` runs to its end without a failure when at
most 32768 nodes exist; it never takes a part away, it changes nothing unless it
packs a kid, and it packs a kid when `id` is too heavy, a part is empty and an
unpacked kid is in the list. -/
theorem packKids_total (jn : JNodeTable) (eb : Bool) (mc id : Nat) (hF : IsForest jn)
    (hn : jn.size ≤ 32768) (hid : id < jn.size) (kids : List Nat)
    (hkids : ∀ k ∈ kids, jn.parent k = some id) :
    ∀ (s : FwdState), FwdInv jn eb mc (id + 1) id s →
      s.part_size.length ≤ assignedCount jn s + 1 →
      ∃ s', packKids mc id kids s = .ok s' ∧ assignedCount jn s ≤ assignedCount jn s' ∧
        (assignedCount jn s' = assignedCount jn s → s' = s) ∧
        (mc < cbAt s id → HasEmptyPart s → (∃ k ∈ kids, partAt s k = INVALID_PART) →
          assignedCount jn s < assignedCount jn s') := by
  induction kids with
  | nil =>
    intro s inv _
    refine ⟨s, ?_, le_refl _, fun _ => rfl, ?_⟩
    · rw [packKids, getElem?_of_lt_getD _ _ (by rw [inv.len_cb]; exact hid)]
    · rintro _ _ ⟨k, hk, _⟩
      simp at hk
  | cons kid rest ih =>
    intro s inv hb
    have ih' := ih (fun k hk => hkids k (List.mem_cons_of_mem _ hk))
    have hkid := hkids kid (List.mem_cons_self _ _)
    have hkid_lt : kid < id := hF.child_before_parent kid id hkid
    have hidINV := fwdInv_id_unassigned jn eb mc _ id s inv id hid (le_refl _)
    have hlen32 : s.part_size.length ≤ 32768 := by
      have := assignedCount_lt jn s id hid hidINV
      omega
    have hparts : s.parts[kid]? = some (partAt s kid) := by
      show s.parts[kid]? = some (s.parts.getD kid INVALID_PART)
      rw [List.getD_eq_getElem?_getD, List.getElem?_eq_getElem (by rw [inv.len_parts]; omega)]
      rfl
    rw [packKids, getElem?_of_lt_getD _ _ (by rw [inv.len_cb]; exact hid)]
    simp only
    by_cases hheavy : s.component_below.getD id 0 > mc
    · rw [if_pos hheavy, getElem?_of_lt_getD _ _ (by rw [inv.len_cb]; omega)]
      simp only
      have hcbk : s.component_below.getD kid 0 ≤ mc := inv.cb_le kid hkid_lt
      rw [if_neg (not_not.mpr hcbk), hparts]
      simp only
      by_cases hINV : partAt s kid = INVALID_PART
      · rw [if_neg (not_not.mpr hINV)]
        obtain ⟨scanA, scanB⟩ := packScan_total mc id kid (by omega) s hlen32
          (by rw [inv.len_cb]; omega) (by rw [inv.len_cb]; exact hid) shortPeriod 0
          (Nat.zero_le _) (by rw [shortPeriod_eq]; omega)
        have h0 : toShort ((0 : Nat) : Int) = 0 := by unfold toShort; omega
        rw [h0] at scanA scanB
        by_cases hex : ∃ p, 0 ≤ p ∧ p < s.part_size.length ∧ psAt s p + cbAt s kid ≤ mc
        · obtain ⟨s1, P, hscan, hP, hfit, h1, h2, h3⟩ := scanB hex
          rw [hscan]
          simp only
          have inv1 := fwdInv_pack jn eb mc id kid P s s1 hF hid hkid hINV hP hfit inv h1 h2 h3
          have hcnt := assignedCount_set jn s s1 kid P (by omega) inv.len_parts hINV h1
          obtain ⟨s', hs', hmono, _, _⟩ := ih' s1 inv1 (by rw [h3]; simp; omega)
          exact ⟨s', hs', by omega, fun h => by omega, fun _ _ _ => by omega⟩
        · rw [scanA (fun p hp hpl hfit => hex ⟨p, hp, hpl, hfit⟩)]
          simp only
          obtain ⟨s', hs', hmono, hsame, hprog⟩ := ih' s inv hb
          refine ⟨s', hs', hmono, hsame, ?_⟩
          rintro _ ⟨p, hp, hp0⟩ _
          exfalso
          apply hex
          refine ⟨p, Nat.zero_le _, hp, ?_⟩
          rw [hp0]
          have := inv.cb_le kid hkid_lt
          omega
      · rw [if_pos hINV]
        obtain ⟨s', hs', hmono, hsame, hprog⟩ := ih' s inv hb
        refine ⟨s', hs', hmono, hsame, ?_⟩
        rintro h1 h2 ⟨k, hk, hkINV⟩
        apply hprog h1 h2
        rcases List.mem_cons.mp hk with rfl | hk'
        · exact absurd hkINV hINV
        · exact ⟨k, hk', hkINV⟩
    · rw [if_neg hheavy]
      refine ⟨s, rfl, le_refl _, fun _ => rfl, ?_⟩
      intro h1
      exact absurd h1 hheavy

/-- A node that is too heavy although its own weight fits has an unpacked kid. -/
theorem exists_unpacked_kid (jn : JNodeTable) (eb : Bool) (mc id : Nat) (s : FwdState)
    (hid : id < jn.size) (hw : ownWeight jn eb id ≤ mc) (inv : FwdInv jn eb mc (id + 1) id s)
    (hheavy : mc < cbAt s id) :
    ∃ k, k < jn.size ∧ jn.parent k = some id ∧ partAt s k = INVALID_PART := by
  have hcb := inv.cb_eq id hid
  rw [if_pos (Nat.lt_succ_self id)] at hcb
  by_contra hno
  have hz : ∑ c ∈ Finset.range id,
      (if jn.parent c = some id ∧ partAt s c = INVALID_PART then cbAt s c else 0) = 0 := by
    apply sum_range_zero
    intro c hc
    rw [if_neg]
    intro h
    exact hno ⟨c, by omega, h.1, h.2⟩
  omega

theorem hasEmptyPart_push (s : FwdState) :
    HasEmptyPart { s with part_size := s.part_size ++ [0] } := by
  refine ⟨s.part_size.length, by simp, ?_⟩
  show (s.part_size ++ [0]).getD s.part_size.length 0 = 0
  rw [getD_append_zero, List.getD_eq_default _ _ (le_refl _)]

/-- The `do ... while` loop of node `id` ends without a failure: each round
after the first packs a kid, and a node whose kids are all packed is as heavy
as its own weight. -/
theorem packLoop_total (jn : JNodeTable) (eb : Bool) (mc id : Nat) (hF : IsForest jn)
    (hn : jn.size ≤ 32768) (hid : id < jn.size) (hw : ownWeight jn eb id ≤ mc)
    (kids : List Nat) (hkids : ∀ k ∈ kids, jn.parent k = some id)
    (hall : ∀ k, k < jn.size → jn.parent k = some id → k ∈ kids) :
    ∀ (fuel : Nat) (s : FwdState), FwdInv jn eb mc (id + 1) id s → PartsBound jn s →
      mc < cbAt s id →
      (HasEmptyPart s → jn.size - assignedCount jn s + 1 ≤ fuel) →
      (¬ HasEmptyPart s → jn.size - assignedCount jn s + 2 ≤ fuel) →
      ∃ s', packLoop mc id kids fuel s = .ok s' ∧ PartsBound jn s' ∧ cbAt s' id ≤ mc := by
  intro fuel
  induction fuel with
  | zero =>
    intro s _ _ _ h1 h2
    by_cases he : HasEmptyPart s
    · have := h1 he; omega
    · have := h2 he; omega
  | succ fuel ih =>
    intro s inv hb hheavy h1 h2
    obtain ⟨s1, hpass, hmono, hsame, hprog⟩ :=
      packKids_total jn eb mc id hF hn hid kids hkids s inv hb.le_succ
    obtain ⟨inv1, hlen1, _⟩ := packKids_inv jn eb mc id hF hid kids hkids s s1 inv hpass
    have hid1 := fwdInv_id_unassigned jn eb mc _ id s1 inv1 id hid (le_refl _)
    have hcnt1 := assignedCount_lt jn s1 id hid hid1
    rw [packLoop, hpass]
    simp only
    rw [getElem?_of_lt_getD _ _ (by rw [inv1.len_cb]; exact hid)]
    simp only
    -- the number of parts after the pass
    have hgrow : HasEmptyPart s → assignedCount jn s < assignedCount jn s1 := by
      intro he
      obtain ⟨k, hk, hpar, hkINV⟩ := exists_unpacked_kid jn eb mc id s hid hw inv hheavy
      exact hprog hheavy he ⟨k, hall k hk hpar, hkINV⟩
    by_cases hheavy1 : s1.component_below.getD id 0 > mc
    · rw [if_pos hheavy1]
      have hfull : s1.part_size.length ≤ assignedCount jn s1 := by
        by_cases he : HasEmptyPart s
        · have := hgrow he; have := hb.le_succ; omega
        · have := hb.le_of_full he; omega
      apply ih _ (fwdInv_push jn eb mc _ _ s1 inv1)
      · refine ⟨?_, fun hne => absurd (hasEmptyPart_push s1) hne⟩
        show (s1.part_size ++ [0]).length ≤ assignedCount jn s1 + 1
        simp only [List.length_append, List.length_singleton]
        omega
      · exact hheavy1
      · intro _
        show jn.size - assignedCount jn s1 + 1 ≤ fuel
        by_cases he : HasEmptyPart s
        · have := hgrow he; have := h1 he; omega
        · have := h2 he; omega
      · intro hne
        exact absurd (hasEmptyPart_push s1) hne
    · rw [if_neg hheavy1]
      refine ⟨s1, rfl, ⟨?_, ?_⟩, Nat.le_of_not_lt hheavy1⟩
      · have := hb.le_succ; omega
      · intro hne
        by_cases hc : assignedCount jn s1 = assignedCount jn s
        · have hs := hsame hc
          subst hs
          have := hb.le_of_full hne; omega
        · have := hb.le_succ; omega

theorem partsBound_congr (jn : JNodeTable) (s s' : FwdState) (hb : PartsBound jn s)
    (h1 : s'.parts = s.parts) (h3 : s'.part_size = s.part_size) : PartsBound jn s' := by
  have hcnt := assignedCount_congr jn s s' h1
  refine ⟨by rw [h3, hcnt]; exact hb.le_succ, fun hne => ?_⟩
  rw [h3, hcnt]
  apply hb.le_of_full
  rintro ⟨p, hp, hp0⟩
  apply hne
  refine ⟨p, by rw [h3]; exact hp, ?_⟩
  show s'.part_size.getD p 0 = 0
  rw [h3]; exact hp0

theorem packPhase_total (sortKids : (Nat → Nat) → List Nat → List Nat)
    (hsort : ∀ key l, (sortKids key l).Perm l) (jn : JNodeTable) (eb : Bool) (mc fuel id : Nat)
    (hF : IsForest jn) (hn : jn.size ≤ 32768) (hid : id < jn.size)
    (hw : ownWeight jn eb id ≤ mc) (hfuel : jn.size + 2 ≤ fuel)
    (s : FwdState) (inv : FwdInv jn eb mc (id + 1) id s) (hb : PartsBound jn s) :
    ∃ s', packPhase sortKids jn mc fuel id s = .ok s' ∧ PartsBound jn s' ∧ cbAt s' id ≤ mc := by
  unfold packPhase
  rw [getElem?_of_lt_getD _ _ (by rw [inv.len_cb]; exact hid)]
  simp only
  by_cases hheavy : s.component_below.getD id 0 > mc
  · rw [if_pos hheavy]
    have hrange : ¬ (2 ≤ (jn.kids id).length ∧
        (jn.kids id).any (fun k => decide (s.component_below.length ≤ k)) = true) := by
      rintro ⟨_, hany⟩
      rw [List.any_eq_true] at hany
      obtain ⟨k, hk, hdec⟩ := hany
      have hkl := of_decide_eq_true hdec
      have := hF.child_before_parent k id (hF.kids_parent id k hid hk)
      rw [inv.len_cb] at hkl
      omega
    rw [if_neg hrange]
    have hkids : ∀ k ∈ sortKids (fun k => s.component_below.getD k 0) (jn.kids id),
        jn.parent k = some id := by
      intro k hk
      exact hF.kids_parent id k hid ((hsort _ _).mem_iff.mp hk)
    have hall : ∀ k, k < jn.size → jn.parent k = some id →
        k ∈ sortKids (fun k => s.component_below.getD k 0) (jn.kids id) := by
      intro k hk hpar
      exact (hsort _ _).mem_iff.mpr (hF.kids_complete id k hk hpar)
    exact packLoop_total jn eb mc id hF hn hid hw _ hkids hall fuel s inv hb hheavy
      (fun _ => by omega) (fun _ => by omega)
  · rw [if_neg hheavy]
    exact ⟨s, rfl, hb, Nat.le_of_not_lt hheavy⟩

theorem foldPhase_total (jn : JNodeTable) (eb : Bool) (mc id : Nat)
    (hF : IsForest jn) (hid : id < jn.size) (s : FwdState)
    (inv : FwdInv jn eb mc (id + 1) id s) (hb : PartsBound jn s) (hle : cbAt s id ≤ mc) :
    ∃ s', foldPhase jn mc id s = .ok s' ∧ PartsBound jn s' := by
  unfold foldPhase
  rw [getElem?_of_lt_getD _ _ (by rw [inv.len_cb]; exact hid)]
  simp only
  have hle' : s.component_below.getD id 0 ≤ mc := hle
  rw [if_neg (not_not.mpr hle')]
  cases hpar : jn.parent id with
  | none => exact ⟨s, rfl, hb⟩
  | some p =>
    simp only
    have hp := hF.parent_lt id p hid hpar
    rw [getElem?_of_lt_getD _ _ (by rw [inv.len_cb]; exact hp)]
    exact ⟨_, rfl, partsBound_congr jn s _ hb rfl rfl⟩

theorem forwardStep_total (sortKids : (Nat → Nat) → List Nat → List Nat)
    (hsort : ∀ key l, (sortKids key l).Perm l) (jn : JNodeTable) (eb : Bool) (mc fuel id : Nat)
    (hF : IsForest jn) (hn : jn.size ≤ 32768) (hid : id < jn.size)
    (hw : ownWeight jn eb id ≤ mc) (hfuel : jn.size + 2 ≤ fuel)
    (s : FwdState) (inv : FwdInv jn eb mc id id s) (hb : PartsBound jn s) :
    ∃ s', forwardStep sortKids jn eb mc fuel id s = .ok s' ∧ PartsBound jn s' := by
  have inv1 : FwdInv jn eb mc (id + 1) id
      { s with component_below := s.component_below.set id (cbAt s id + ownWeight jn eb id) } :=
    fwdInv_addOwn jn eb mc id s _ hid inv rfl rfl rfl
  have hb1 : PartsBound jn
      { s with component_below := s.component_below.set id (cbAt s id + ownWeight jn eb id) } :=
    partsBound_congr jn s _ hb rfl rfl
  obtain ⟨s2, hs2, hb2, hle2⟩ := packPhase_total sortKids hsort jn eb mc fuel id hF hn hid hw
    hfuel _ inv1 hb1
  have inv2 := (packPhase_inv sortKids hsort jn eb mc fuel id hF hid _ s2 inv1 hs2).1
  obtain ⟨s3, hs3, hb3⟩ := foldPhase_total jn eb mc id hF hid s2 inv2 hb2 hle2
  refine ⟨s3, ?_, hb3⟩
  unfold forwardStep
  rw [getElem?_of_lt_getD _ _ (by rw [inv.len_cb]; exact hid)]
  simp only
  have hs2' : packPhase sortKids jn mc fuel id
      { s with component_below :=
          s.component_below.set id (s.component_below.getD id 0 + ownWeight jn eb id) } = .ok s2 := hs2
  rw [hs2']
  exact hs3

theorem partsBound_init (jn : JNodeTable) :
    PartsBound jn
      { parts := List.replicate jn.size INVALID_PART
        component_below := List.replicate jn.size 0
        part_size := [] } := by
  refine ⟨by simp, fun _ => by simp⟩

theorem firstPass_total (sortKids : (Nat → Nat) → List Nat → List Nat)
    (hsort : ∀ key l, (sortKids key l).Perm l) (jn : JNodeTable) (eb : Bool) (mc fuel : Nat)
    (hF : IsForest jn) (hn : jn.size ≤ 32768)
    (hw : ∀ id, id < jn.size → ownWeight jn eb id ≤ mc) (hfuel : jn.size + 2 ≤ fuel) :
    ∀ (k id : Nat) (s : FwdState), id + k = jn.size → FwdInv jn eb mc id id s →
      PartsBound jn s →
      ∃ s', firstPass sortKids jn eb mc fuel k id s = .ok s' ∧
        FwdInv jn eb mc jn.size jn.size s' ∧ PartsBound jn s' := by
  intro k
  induction k with
  | zero =>
    intro id s hk inv hb
    have : id = jn.size := by omega
    subst this
    exact ⟨s, rfl, inv, hb⟩
  | succ k ih =>
    intro id s hk inv hb
    obtain ⟨s1, hstep, hb1⟩ := forwardStep_total sortKids hsort jn eb mc fuel id hF hn (by omega)
      (hw id (by omega)) hfuel s inv hb
    have inv1 := (forwardStep_inv sortKids hsort jn eb mc fuel id hF (by omega) s s1 inv hstep).1
    obtain ⟨s', hs', r1, r2⟩ := ih (id + 1) s1 (by omega) inv1 hb1
    exact ⟨s', by rw [firstPass, hstep]; exact hs', r1, r2⟩

theorem parts_getElem?_of_lt (s : FwdState) (c : Nat) (h : c < s.parts.length) :
    s.parts[c]? = some (partAt s c) := by
  show s.parts[c]? = some (s.parts.getD c INVALID_PART)
  rw [List.getD_eq_getElem?_getD, List.getElem?_eq_getElem h]; rfl

/-- Giving a part to a node that had none keeps the bound on the number of
parts. -/
theorem partsBound_assign (jn : JNodeTable) (s s' : FwdState) (k P : Nat) (hk : k < jn.size)
    (hlen : s.parts.length = jn.size) (hINV : partAt s k = INVALID_PART)
    (hs1 : s'.parts = s.parts.set k (P : Int))
    (hs3 : s'.part_size.length = s.part_size.length)
    (hb : s.part_size.length ≤ assignedCount jn s + 1) : PartsBound jn s' := by
  have hcnt := assignedCount_set jn s s' k P hk hlen hINV hs1
  exact ⟨by omega, fun _ => by omega⟩

/-- The fallback loop of an unassigned root ends after at most two rounds. -/
theorem placeLoop_total (jn : JNodeTable) (eb : Bool) (mc j : Nat)
    (hn : jn.size ≤ 32768) (hj : j < jn.size) (fuel : Nat) (hfuel : 2 ≤ fuel)
    (s : FwdState) (inv : SndInv jn eb mc (j + 1) s) (hINV : partAt s j = INVALID_PART)
    (hb : PartsBound jn s) :
    ∃ s', placeLoop mc j fuel s = .ok s' ∧ PartsBound jn s' := by
  have hcnt := assignedCount_lt jn s j hj hINV
  have hle : cbAt s j ≤ mc := inv.cb_le j hj
  have hlen32 : s.part_size.length ≤ 32768 := by have := hb.le_succ; omega
  obtain ⟨scanA, scanB⟩ := placeScan_total mc j s hlen32 (by rw [inv.len_cb]; exact hj)
    shortPeriod s.part_size.length (le_refl _) (by rw [shortPeriod_eq]; omega)
  obtain ⟨fuel, rfl⟩ : ∃ f, fuel = f + 2 := ⟨fuel - 2, by omega⟩
  rw [placeLoop, parts_getElem?_of_lt s j (by rw [inv.len_parts]; exact hj)]
  simp only
  rw [if_pos hINV]
  by_cases hex : ∃ p, p < s.part_size.length ∧ psAt s p + cbAt s j ≤ mc
  · obtain ⟨s1, P, hscan, hP, hfit, h1, h2, h3⟩ := scanB hex
    rw [hscan]
    simp only
    have hs1j : s1.parts[j]? = some (P : Int) := by
      rw [h1, List.getElem?_set_self (by rw [inv.len_parts]; exact hj)]
    rw [hs1j]
    simp only
    rw [if_neg (by simp only [INVALID_PART]; omega)]
    exact ⟨s1, rfl, partsBound_assign jn s s1 j P hj inv.len_parts hINV h1 (by rw [h3]; simp)
      hb.le_succ⟩
  · rw [scanA (fun p hp hfit => hex ⟨p, hp, hfit⟩)]
    simp only
    rw [parts_getElem?_of_lt s j (by rw [inv.len_parts]; exact hj)]
    simp only
    rw [if_pos hINV]
    -- no part is empty, so a part can be opened
    have hfull : ¬ HasEmptyPart s := by
      rintro ⟨p, hp, hp0⟩
      exact hex ⟨p, hp, by rw [hp0]; omega⟩
    have hlen := hb.le_of_full hfull
    have inv2 := sndInv_push jn eb mc _ s inv
    obtain ⟨_, scanB2⟩ := placeScan_total mc j { s with part_size := s.part_size ++ [0] }
      (by show (s.part_size ++ [0]).length ≤ 32768; simp; omega)
      (by rw [inv2.len_cb]; exact hj)
      shortPeriod (s.part_size ++ [0]).length (le_refl _)
      (by rw [shortPeriod_eq]; simp; omega)
    obtain ⟨s3, P, hscan, hP, hfit, h1, h2, h3⟩ := scanB2
      ⟨s.part_size.length, by simp, by
        show (s.part_size ++ [0]).getD s.part_size.length 0 + cbAt s j ≤ mc
        rw [getD_append_zero, List.getD_eq_default _ _ (le_refl _)]
        omega⟩
    rw [placeLoop, parts_getElem?_of_lt _ j (by rw [inv2.len_parts]; exact hj)]
    simp only
    have hINV2 : partAt { s with part_size := s.part_size ++ [0] } j = INVALID_PART := hINV
    rw [if_pos hINV2, hscan]
    simp only
    have hs3j : s3.parts[j]? = some (P : Int) := by
      rw [h1]
      exact List.getElem?_set_self (by rw [inv.len_parts]; exact hj)
    rw [hs3j]
    simp only
    rw [if_neg (by simp only [INVALID_PART]; omega)]
    refine ⟨s3, rfl, ?_⟩
    have hcnt3 := assignedCount_set jn s s3 j P hj inv.len_parts hINV h1
    have hl3 : s3.part_size.length = s.part_size.length + 1 := by
      rw [h3]; simp
    exact ⟨by omega, fun _ => by omega⟩

theorem backfillStep_total (jn : JNodeTable) (eb : Bool) (mc fuel j : Nat) (hF : IsForest jn)
    (hn : jn.size ≤ 32768) (hj : j < jn.size) (hfuel : 2 ≤ fuel) (s : FwdState)
    (inv : SndInv jn eb mc (j + 1) s) (hb : PartsBound jn s) :
    ∃ s', backfillStep jn mc fuel j s = .ok s' ∧ PartsBound jn s' := by
  obtain ⟨fuel', hf⟩ : ∃ f, fuel = f + 1 := ⟨fuel - 1, by omega⟩
  unfold backfillStep
  rw [parts_getElem?_of_lt s j (by rw [inv.len_parts]; exact hj)]
  simp only
  by_cases hINV : partAt s j = INVALID_PART
  · rw [if_pos hINV]
    cases hpar : jn.parent j with
    | none =>
      simp only
      exact placeLoop_total jn eb mc j hn hj fuel hfuel s inv hINV hb
    | some q =>
      simp only
      have hq := hF.parent_lt j q hj hpar
      have hqj := hF.child_before_parent j q hpar
      obtain ⟨r1, r2⟩ := inv.resolved q (by omega) hq
      rw [parts_getElem?_of_lt s q (by rw [inv.len_parts]; exact hq)]
      simp only
      have hppn : ((partAt s q).toNat : Int) = partAt s q := Int.toNat_of_nonneg r1
      have hs1j : (s.parts.set j (partAt s q))[j]? = some (partAt s q) :=
        List.getElem?_set_self (by rw [inv.len_parts]; exact hj)
      rw [hf, placeLoop]
      simp only
      rw [hs1j]
      simp only
      rw [if_neg (by simp only [INVALID_PART]; omega)]
      refine ⟨_, rfl, ?_⟩
      exact partsBound_assign jn s _ j (partAt s q).toNat hj inv.len_parts hINV
        (by rw [hppn]) rfl hb.le_succ
  · rw [if_neg hINV]
    simp only
    rw [hf, placeLoop, parts_getElem?_of_lt s j (by rw [inv.len_parts]; exact hj)]
    simp only
    rw [if_neg hINV]
    exact ⟨s, rfl, hb⟩

theorem secondPass_total (jn : JNodeTable) (eb : Bool) (mc fuel : Nat) (hF : IsForest jn)
    (hn : jn.size ≤ 32768) (hfuel : 2 ≤ fuel) :
    ∀ (j : Nat) (s : FwdState), j ≤ jn.size → SndInv jn eb mc j s → PartsBound jn s →
      ∃ s', secondPass jn mc fuel j s = .ok s' := by
  intro j
  induction j with
  | zero => intro s _ _ _; exact ⟨s, rfl⟩
  | succ j ih =>
    intro s hj inv hb
    obtain ⟨s1, hstep, hb1⟩ := backfillStep_total jn eb mc fuel j hF hn (by omega) hfuel s inv hb
    have inv1 := backfillStep_inv jn eb mc fuel j hF (by omega) s s1 inv hstep
    obtain ⟨s', hs'⟩ := ih s1 (by omega) inv1 hb1
    exact ⟨s', by rw [secondPass, hstep]; exact hs'⟩

/-- A forest of at most 32768 nodes whose nodes each fit into a part is
partitioned without a failure, given `jn.size + 2` rounds for every loop. -/
theorem forwardPartition_total (sortKids : (Nat → Nat) → List Nat → List Nat)
    (hsort : ∀ key l, (sortKids key l).Perm l) (jn : JNodeTable) (eb : Bool) (mc fuel : Nat)
    (hF : IsForest jn) (hn : jn.size ≤ 32768)
    (hw : ∀ id, id < jn.size → ownWeight jn eb id ≤ mc) (hfuel : jn.size + 2 ≤ fuel) :
    ∃ s, forwardPartition sortKids jn eb mc fuel = .ok s := by
  obtain ⟨s1, hfirst, inv1, hb1⟩ := firstPass_total sortKids hsort jn eb mc fuel hF hn hw hfuel
    jn.size 0 _ (by omega) (fwdInv_init jn eb mc) (partsBound_init jn)
  obtain ⟨s, hs⟩ := secondPass_total jn eb mc fuel hF hn (by omega) jn.size s1 (le_refl _)
    (sndInv_start jn eb mc s1 inv1) hb1
  refine ⟨s, ?_⟩
  unfold forwardPartition
  simp only
  rw [hfirst]
  exact hs

/-! ### Runs with any number of parts -/

theorem dropTrace_packLoop (mc id : Nat) (kids : List Nat) (fuel : Nat) (s : FwdState) :
    dropTrace (packLoopTraced mc id kids fuel s) = packLoop mc id kids fuel s := by
  induction fuel generalizing s with
  | zero => rfl
  | succ n ih =>
    rw [packLoopTraced, packLoop]
    cases h : packKids mc id kids s with
    | error e => rfl
    | ok s1 =>
      simp only
      cases h1 : s1.component_below[id]? with
      | none => rfl
      | some cbid =>
        simp only
        split
        · exact ih _
        · rfl

theorem dropTrace_packPhase (sortKids : (Nat → Nat) → List Nat → List Nat) (jn : JNodeTable)
    (mc fuel id : Nat) (s : FwdState) :
    dropTrace (packPhaseTraced sortKids jn mc fuel id s) = packPhase sortKids jn mc fuel id s := by
  unfold packPhaseTraced packPhase
  cases h : s.component_below[id]? with
  | none => rfl
  | some cbid =>
    simp only
    split
    · split
      · rfl
      · exact dropTrace_packLoop _ _ _ _ _
    · rfl

theorem dropTrace_forwardStep (sortKids : (Nat → Nat) → List Nat → List Nat) (jn : JNodeTable)
    (eb : Bool) (mc fuel id : Nat) (s : FwdState) :
    dropTrace (forwardStepTraced sortKids jn eb mc fuel id s) =
      forwardStep sortKids jn eb mc fuel id s := by
  unfold forwardStepTraced forwardStep
  cases h : s.component_below[id]? with
  | none => rfl
  | some cb0 =>
    simp only
    rw [← dropTrace_packPhase]
    cases h1 : packPhaseTraced sortKids jn mc fuel id
        { s with component_below := s.component_below.set id (cb0 + ownWeight jn eb id) } with
    | error e => rfl
    | ok s2 =>
      simp only [dropTrace]
      cases h2 : foldPhase jn mc id s2 <;> rfl

theorem dropTrace_firstPass (sortKids : (Nat → Nat) → List Nat → List Nat) (jn : JNodeTable)
    (eb : Bool) (mc fuel k id : Nat) (s : FwdState) :
    dropTrace (firstPassTraced sortKids jn eb mc fuel k id s) =
      firstPass sortKids jn eb mc fuel k id s := by
  induction k generalizing id s with
  | zero => rfl
  | succ n ih =>
    rw [firstPassTraced, firstPass, ← dropTrace_forwardStep]
    cases h : forwardStepTraced sortKids jn eb mc fuel id s with
    | error e => rfl
    | ok s1 =>
      simp only [dropTrace]
      exact ih _ _

theorem dropTrace_placeLoop (mc id fuel : Nat) (s : FwdState) :
    dropTrace (placeLoopTraced mc id fuel s) = placeLoop mc id fuel s := by
  induction fuel generalizing s with
  | zero => rfl
  | succ n ih =>
    rw [placeLoopTraced, placeLoop]
    cases h : s.parts[id]? with
    | none => rfl
    | some pid =>
      simp only
      split
      · cases h1 : placeScan mc id shortPeriod (toShort ((s.part_size.length : Int) - 1)) s with
        | error e => rfl
        | ok s1 =>
          simp only
          cases h2 : s1.parts[id]? with
          | none => rfl
          | some pid1 =>
            simp only
            split
            · exact ih _
            · rfl
      · rfl

theorem dropTrace_backfillStep (jn : JNodeTable) (mc fuel id : Nat) (s : FwdState) :
    dropTrace (backfillStepTraced jn mc fuel id s) = backfillStep jn mc fuel id s := by
  unfold backfillStepTraced backfillStep
  cases h : s.parts[id]? with
  | none => rfl
  | some pid =>
    simp only
    by_cases hpid : pid = INVALID_PART
    · simp only [hpid, if_true]
      cases hp : jn.parent id with
      | none => exact dropTrace_placeLoop _ _ _ _
      | some p =>
        simp only
        cases hq : s.parts[p]? with
        | none => rfl
        | some pp => exact dropTrace_placeLoop _ _ _ _
    · simp only [hpid, if_false]
      exact dropTrace_placeLoop _ _ _ _

theorem dropTrace_secondPass (jn : JNodeTable) (mc fuel id : Nat) (s : FwdState) :
    dropTrace (secondPassTraced jn mc fuel id s) = secondPass jn mc fuel id s := by
  induction id generalizing s with
  | zero => rfl
  | succ n ih =>
    rw [secondPassTraced, secondPass, ← dropTrace_backfillStep]
    cases h : backfillStepTraced jn mc fuel n s with
    | error e => rfl
    | ok s1 =>
      simp only [dropTrace]
      exact ih _

theorem dropTrace_forwardPartition (sortKids : (Nat → Nat) → List Nat → List Nat)
    (jn : JNodeTable) (eb : Bool) (mc fuel : Nat) :
    dropTrace (forwardPartitionTraced sortKids jn eb mc fuel) =
      forwardPartition sortKids jn eb mc fuel := by
  unfold forwardPartitionTraced forwardPartition
  simp only
  rw [← dropTrace_firstPass]
  cases h : firstPassTraced sortKids jn eb mc fuel jn.size 0
      { parts := List.replicate jn.size INVALID_PART
        component_below := List.replicate jn.size 0
        part_size := [] } with
  | error e => rfl
  | ok s1 =>
    simp only [dropTrace]
    exact dropTrace_secondPass _ _ _ _ _

theorem ok_of_traced {r : Except (Err × Nat) FwdState} {r0 : Except Err FwdState} {s : FwdState}
    (h : dropTrace r = r0) (hr : r = .ok s) : r0 = .ok s := by
  rw [← h, hr]
  rfl

/-- With 32769 parts open the upward scan packs `kid` into a part below 32768
or runs into `part_size.at((short) 32768)`. -/
theorem packScan_wide (mc id kid : Nat) (hne : kid ≠ id) (s : FwdState)
    (hL : s.part_size.length = 32769) (hk : kid < s.component_below.length)
    (hid : id < s.component_below.length) :
    ∀ (fuel i : Nat), i ≤ 32768 → 32768 - i < fuel →
      packScan mc id kid fuel (toShort (i : Int)) s = .error .outOfRange ∨
        ∃ s' P, packScan mc id kid fuel (toShort (i : Int)) s = .ok s' ∧
          P < s.part_size.length ∧ psAt s P + cbAt s kid ≤ mc ∧
          s'.parts = s.parts.set kid (P : Int) ∧
          s'.component_below = s.component_below.set id (cbAt s id - cbAt s kid) ∧
          s'.part_size = s.part_size.set P (psAt s P + cbAt s kid) := by
  intro fuel
  induction fuel with
  | zero => intro i _ h; omega
  | succ fuel ih =>
    intro i hi hfuel
    have hstopne : toShort (i : Int) ≠ toShort (s.part_size.length : Int) := by
      rw [hL]; unfold toShort; omega
    by_cases hil : i = 32768
    · left
      have hcur : toShort (i : Int) = -32768 := by rw [hil]; unfold toShort; omega
      rw [packScan, if_neg hstopne, hcur]
      have hat : atShort s.part_size (-32768) = none := by
        unfold atShort
        rw [if_neg (by omega)]
      rw [hat]
    · have hi' : i < s.part_size.length := by omega
      have hcur : toShort (i : Int) = (i : Int) := toShort_of_lt i (by omega)
      have hnext : toShort ((i : Int) + 1) = toShort ((i + 1 : Nat) : Int) := by
        rw [Nat.cast_add, Nat.cast_one]
      have hstep : packScan mc id kid (fuel + 1) (toShort (i : Int)) s =
          if psAt s i + cbAt s kid ≤ mc then
            .ok { parts := s.parts.set kid (i : Int)
                  component_below := s.component_below.set id (cbAt s id - cbAt s kid)
                  part_size := s.part_size.set i (psAt s i + cbAt s kid) }
          else packScan mc id kid fuel (toShort ((i + 1 : Nat) : Int)) s := by
        rw [packScan, if_neg hstopne, hcur, atShort_natCast _ _ hi',
          getElem?_of_lt_getD _ _ hk, getElem?_of_lt_getD _ _ hid]
        simp only [Int.toNat_ofNat, hnext]
        rw [getD_set_ne' _ _ _ _ _ (Ne.symm hne)]
        rfl
      by_cases hfit : psAt s i + cbAt s kid ≤ mc
      · right
        rw [hstep, if_pos hfit]
        exact ⟨_, i, rfl, hi', hfit, rfl, rfl, rfl⟩
      · rw [hstep, if_neg hfit]
        exact ih (i + 1) (by omega) (by omega)

/-- With 32769 parts open the downward scan starts at `(short) 32768` and runs
into `part_size.at` of a negative index. -/
theorem placeScan_wide (mc id : Nat) (s : FwdState) (hL : s.part_size.length = 32769)
    (fuel : Nat) :
    placeScan mc id (fuel + 1) (toShort ((s.part_size.length : Int) - 1)) s =
      .error .outOfRange := by
  have hcur : toShort ((s.part_size.length : Int) - 1) = -32768 := by
    rw [hL]; unfold toShort; omega
  rw [placeScan, hcur, if_neg (by omega)]
  have hat : atShort s.part_size (-32768) = none := by
    unfold atShort
    rw [if_neg (by omega)]
  rw [hat]

/-- One pass over the kids of `id` with at most 32769 parts open: it fails only
by `std::out_of_range` with more than 32768 parts open; otherwise it never
takes a part away, changes nothing unless it packs a kid, packs a kid when `id`
is too heavy and an unpacked kid is in the list (given an empty part, or more
than 32768 parts), and with more than 32768 parts leaves no kid unpacked while
`id` stays too heavy. -/
theorem packKids_any (jn : JNodeTable) (eb : Bool) (mc id : Nat) (hF : IsForest jn)
    (hid : id < jn.size) (kids : List Nat)
    (hkids : ∀ k ∈ kids, jn.parent k = some id) :
    ∀ (s : FwdState), FwdInv jn eb mc (id + 1) id s → s.part_size.length ≤ 32769 →
      (packKids mc id kids s = .error .outOfRange ∧ 32768 < s.part_size.length) ∨
      ∃ s', packKids mc id kids s = .ok s' ∧ assignedCount jn s ≤ assignedCount jn s' ∧
        (assignedCount jn s' = assignedCount jn s → s' = s) ∧
        (mc < cbAt s id → (HasEmptyPart s ∨ 32768 < s.part_size.length) →
          (∃ k ∈ kids, partAt s k = INVALID_PART) →
          assignedCount jn s < assignedCount jn s') ∧
        (32768 < s.part_size.length → mc < cbAt s' id →
          ∀ k ∈ kids, partAt s' k ≠ INVALID_PART) := by
  induction kids with
  | nil =>
    intro s inv _
    right
    refine ⟨s, ?_, le_refl _, fun _ => rfl, ?_, ?_⟩
    · rw [packKids, getElem?_of_lt_getD _ _ (by rw [inv.len_cb]; exact hid)]
    · rintro _ _ ⟨k, hk, _⟩
      simp at hk
    · intro _ _ k hk
      simp at hk
  | cons kid rest ih =>
    intro s inv hL
    have hrest : ∀ k ∈ rest, jn.parent k = some id :=
      fun k hk => hkids k (List.mem_cons_of_mem _ hk)
    have ih' := ih hrest
    have hkid := hkids kid (List.mem_cons_self _ _)
    have hkid_lt : kid < id := hF.child_before_parent kid id hkid
    have hparts : s.parts[kid]? = some (partAt s kid) := by
      show s.parts[kid]? = some (s.parts.getD kid INVALID_PART)
      rw [List.getD_eq_getElem?_getD, List.getElem?_eq_getElem (by rw [inv.len_parts]; omega)]
      rfl
    rw [packKids, getElem?_of_lt_getD _ _ (by rw [inv.len_cb]; exact hid)]
    simp only
    by_cases hheavy : s.component_below.getD id 0 > mc
    · rw [if_pos hheavy, getElem?_of_lt_getD _ _ (by rw [inv.len_cb]; omega)]
      simp only
      have hcbk : s.component_below.getD kid 0 ≤ mc := inv.cb_le kid hkid_lt
      rw [if_neg (not_not.mpr hcbk), hparts]
      simp only
      by_cases hINV : partAt s kid = INVALID_PART
      · rw [if_neg (not_not.mpr hINV)]
        -- the outcome of the scan: nothing fits, a failure, or a packed kid
        have hscan : (packScan mc id kid shortPeriod 0 s = .ok s ∧
              s.part_size.length ≤ 32768 ∧
              ¬ ∃ p, p < s.part_size.length ∧ psAt s p + cbAt s kid ≤ mc) ∨
            (packScan mc id kid shortPeriod 0 s = .error .outOfRange ∧
              32768 < s.part_size.length) ∨
            ∃ s1 P, packScan mc id kid shortPeriod 0 s = .ok s1 ∧
              P < s.part_size.length ∧ psAt s P + cbAt s kid ≤ mc ∧
              s1.parts = s.parts.set kid (P : Int) ∧
              s1.component_below = s.component_below.set id (cbAt s id - cbAt s kid) ∧
              s1.part_size = s.part_size.set P (psAt s P + cbAt s kid) := by
          have h0 : toShort ((0 : Nat) : Int) = 0 := by unfold toShort; omega
          by_cases hsmall : s.part_size.length ≤ 32768
          · obtain ⟨scanA, scanB⟩ := packScan_total mc id kid (by omega) s hsmall
              (by rw [inv.len_cb]; omega) (by rw [inv.len_cb]; exact hid) shortPeriod 0
              (Nat.zero_le _) (by rw [shortPeriod_eq]; omega)
            rw [h0] at scanA scanB
            by_cases hex : ∃ p, p < s.part_size.length ∧ psAt s p + cbAt s kid ≤ mc
            · obtain ⟨p, hp1, hp2⟩ := hex
              exact Or.inr (Or.inr (scanB ⟨p, Nat.zero_le _, hp1, hp2⟩))
            · exact Or.inl ⟨scanA (fun p _ hpl hfit => hex ⟨p, hpl, hfit⟩), hsmall, hex⟩
          · have hw := packScan_wide mc id kid (by omega) s (by omega)
              (by rw [inv.len_cb]; omega) (by rw [inv.len_cb]; exact hid) shortPeriod 0
              (Nat.zero_le _) (by rw [shortPeriod_eq]; omega)
            rw [h0] at hw
            rcases hw with hw | hw
            · exact Or.inr (Or.inl ⟨hw, by omega⟩)
            · exact Or.inr (Or.inr hw)
        rcases hscan with ⟨hsc, hsmall, hex⟩ | ⟨hsc, hwide⟩ | ⟨s1, P, hsc, hP, hfit, h1, h2, h3⟩
        · rw [hsc]
          simp only
          rcases ih' s inv hL with ⟨herr, hw⟩ | ⟨s', hs', hmono, hsame, hprog, _⟩
          · exact Or.inl ⟨herr, hw⟩
          · right
            refine ⟨s', hs', hmono, hsame, ?_, fun hw => absurd hw (by omega)⟩
            rintro _ (⟨p, hp, hp0⟩ | hw) _
            · exfalso
              apply hex
              refine ⟨p, hp, ?_⟩
              rw [hp0]
              have := inv.cb_le kid hkid_lt
              omega
            · omega
        · left
          rw [hsc]
          exact ⟨rfl, hwide⟩
        · rw [hsc]
          simp only
          have inv1 := fwdInv_pack jn eb mc id kid P s s1 hF hid hkid hINV hP hfit inv h1 h2 h3
          have hcnt := assignedCount_set jn s s1 kid P (by omega) inv.len_parts hINV h1
          have hL1 : s1.part_size.length = s.part_size.length := by rw [h3]; simp
          rcases ih' s1 inv1 (by omega) with ⟨herr, hw⟩ | ⟨s', hs', hmono, _, _, hfull⟩
          · exact Or.inl ⟨herr, by omega⟩
          · right
            refine ⟨s', hs', by omega, fun h => by omega, fun _ _ _ => by omega, ?_⟩
            intro hw hh k hk
            rcases List.mem_cons.mp hk with rfl | hk'
            · have hkeep := (packKids_inv jn eb mc id hF hid rest hrest s1 s' inv1 hs').2.2
              have hk1 : partAt s1 k = (P : Int) := by
                show s1.parts.getD k INVALID_PART = _
                rw [h1, getD_set_self' _ _ _ _ (by rw [inv.len_parts]; omega)]
              have hPne : (P : Int) ≠ INVALID_PART := by simp only [INVALID_PART]; omega
              rw [hkeep k (by rw [hk1]; exact hPne), hk1]
              exact hPne
            · exact hfull (by omega) hh k hk'
      · rw [if_pos hINV]
        rcases ih' s inv hL with ⟨herr, hw⟩ | ⟨s', hs', hmono, hsame, hprog, hfull⟩
        · exact Or.inl ⟨herr, hw⟩
        · right
          refine ⟨s', hs', hmono, hsame, ?_, ?_⟩
          · rintro h1 h2 ⟨k, hk, hkINV⟩
            apply hprog h1 h2
            rcases List.mem_cons.mp hk with rfl | hk'
            · exact absurd hkINV hINV
            · exact ⟨k, hk', hkINV⟩
          · intro hw hh k hk
            rcases List.mem_cons.mp hk with rfl | hk'
            · have hkeep := (packKids_inv jn eb mc id hF hid rest hrest s s' inv hs').2.2
              rw [hkeep k hINV]
              exact hINV
            · exact hfull hw hh k hk'
    · rw [if_neg hheavy]
      right
      refine ⟨s, rfl, le_refl _, fun _ => rfl, ?_, ?_⟩
      · intro h1
        exact absurd h1 hheavy
      · intro _ h1
        exact absurd h1 hheavy

/-- The `do ... while` loop of node `id` ends: with the node light enough, or
by `std::out_of_range` with more than 32768 parts open. -/
theorem packLoopTraced_any (jn : JNodeTable) (eb : Bool) (mc id : Nat) (hF : IsForest jn)
    (hid : id < jn.size) (hw : ownWeight jn eb id ≤ mc)
    (kids : List Nat) (hkids : ∀ k ∈ kids, jn.parent k = some id)
    (hall : ∀ k, k < jn.size → jn.parent k = some id → k ∈ kids) :
    ∀ (fuel : Nat) (s : FwdState), FwdInv jn eb mc (id + 1) id s →
      s.part_size.length ≤ 32769 → mc < cbAt s id →
      ((HasEmptyPart s ∨ 32768 < s.part_size.length) →
        jn.size - assignedCount jn s + 1 ≤ fuel) →
      (¬ (HasEmptyPart s ∨ 32768 < s.part_size.length) →
        jn.size - assignedCount jn s + 2 ≤ fuel) →
      (∃ s', packLoopTraced mc id kids fuel s = .ok s' ∧ s'.part_size.length ≤ 32769 ∧
        cbAt s' id ≤ mc) ∨
      ∃ P, packLoopTraced mc id kids fuel s = .error (.outOfRange, P) ∧ 32768 < P := by
  intro fuel
  induction fuel with
  | zero =>
    intro s _ _ _ h1 h2
    by_cases he : HasEmptyPart s ∨ 32768 < s.part_size.length
    · have := h1 he; omega
    · have := h2 he; omega
  | succ fuel ih =>
    intro s inv hL hheavy h1 h2
    rcases packKids_any jn eb mc id hF hid kids hkids s inv hL with
      ⟨herr, hwide⟩ | ⟨s1, hpass, hmono, hsame, hprog, hfull⟩
    · right
      refine ⟨s.part_size.length, ?_, hwide⟩
      rw [packLoopTraced, herr]
    · obtain ⟨inv1, hlen1, _⟩ := packKids_inv jn eb mc id hF hid kids hkids s s1 inv hpass
      have hid1 := fwdInv_id_unassigned jn eb mc _ id s1 inv1 id hid (le_refl _)
      have hcnt1 := assignedCount_lt jn s1 id hid hid1
      rw [packLoopTraced, hpass]
      simp only
      rw [getElem?_of_lt_getD _ _ (by rw [inv1.len_cb]; exact hid)]
      simp only
      have hgrow : (HasEmptyPart s ∨ 32768 < s.part_size.length) →
          assignedCount jn s < assignedCount jn s1 := by
        intro he
        obtain ⟨k, hk, hpar, hkINV⟩ := exists_unpacked_kid jn eb mc id s hid hw inv hheavy
        exact hprog hheavy he ⟨k, hall k hk hpar, hkINV⟩
      by_cases hheavy1 : s1.component_below.getD id 0 > mc
      · rw [if_pos hheavy1]
        have hsmall : s.part_size.length ≤ 32768 := by
          by_contra hwide
          obtain ⟨k, hk, hpar, hkINV⟩ := exists_unpacked_kid jn eb mc id s1 hid hw inv1 hheavy1
          exact hfull (by omega) hheavy1 k (hall k hk hpar) hkINV
        apply ih _ (fwdInv_push jn eb mc _ _ s1 inv1)
        · show (s1.part_size ++ [0]).length ≤ 32769
          simp only [List.length_append, List.length_singleton]
          omega
        · exact hheavy1
        · intro _
          show jn.size - assignedCount jn s1 + 1 ≤ fuel
          by_cases he : HasEmptyPart s ∨ 32768 < s.part_size.length
          · have := hgrow he; have := h1 he; omega
          · have := h2 he; omega
        · intro hne
          exact absurd (Or.inl (hasEmptyPart_push s1)) hne
      · rw [if_neg hheavy1]
        left
        exact ⟨s1, rfl, by omega, Nat.le_of_not_lt hheavy1⟩

theorem packPhaseTraced_any (sortKids : (Nat → Nat) → List Nat → List Nat)
    (hsort : ∀ key l, (sortKids key l).Perm l) (jn : JNodeTable) (eb : Bool) (mc fuel id : Nat)
    (hF : IsForest jn) (hid : id < jn.size)
    (hw : ownWeight jn eb id ≤ mc) (hfuel : jn.size + 2 ≤ fuel)
    (s : FwdState) (inv : FwdInv jn eb mc (id + 1) id s) (hL : s.part_size.length ≤ 32769) :
    (∃ s', packPhaseTraced sortKids jn mc fuel id s = .ok s' ∧ s'.part_size.length ≤ 32769 ∧
      cbAt s' id ≤ mc) ∨
    ∃ P, packPhaseTraced sortKids jn mc fuel id s = .error (.outOfRange, P) ∧ 32768 < P := by
  unfold packPhaseTraced
  rw [getElem?_of_lt_getD _ _ (by rw [inv.len_cb]; exact hid)]
  simp only
  by_cases hheavy : s.component_below.getD id 0 > mc
  · rw [if_pos hheavy]
    have hrange : ¬ (2 ≤ (jn.kids id).length ∧
        (jn.kids id).any (fun k => decide (s.component_below.length ≤ k)) = true) := by
      rintro ⟨_, hany⟩
      rw [List.any_eq_true] at hany
      obtain ⟨k, hk, hdec⟩ := hany
      have hkl := of_decide_eq_true hdec
      have := hF.child_before_parent k id (hF.kids_parent id k hid hk)
      rw [inv.len_cb] at hkl
      omega
    rw [if_neg hrange]
    have hkids : ∀ k ∈ sortKids (fun k => s.component_below.getD k 0) (jn.kids id),
        jn.parent k = some id := by
      intro k hk
      exact hF.kids_parent id k hid ((hsort _ _).mem_iff.mp hk)
    have hall : ∀ k, k < jn.size → jn.parent k = some id →
        k ∈ sortKids (fun k => s.component_below.getD k 0) (jn.kids id) := by
      intro k hk hpar
      exact (hsort _ _).mem_iff.mpr (hF.kids_complete id k hk hpar)
    exact packLoopTraced_any jn eb mc id hF hid hw _ hkids hall fuel s inv hL hheavy
      (fun _ => by omega) (fun _ => by omega)
  · rw [if_neg hheavy]
    left
    exact ⟨s, rfl, hL, Nat.le_of_not_lt hheavy⟩

theorem foldPhase_ok (jn : JNodeTable) (eb : Bool) (mc id : Nat)
    (hF : IsForest jn) (hid : id < jn.size) (s : FwdState)
    (inv : FwdInv jn eb mc (id + 1) id s) (hle : cbAt s id ≤ mc) :
    ∃ s', foldPhase jn mc id s = .ok s' ∧ s'.part_size = s.part_size := by
  unfold foldPhase
  rw [getElem?_of_lt_getD _ _ (by rw [inv.len_cb]; exact hid)]
  simp only
  have hle' : s.component_below.getD id 0 ≤ mc := hle
  rw [if_neg (not_not.mpr hle')]
  cases hpar : jn.parent id with
  | none => exact ⟨s, rfl, rfl⟩
  | some p =>
    simp only
    have hp := hF.parent_lt id p hid hpar
    rw [getElem?_of_lt_getD _ _ (by rw [inv.len_cb]; exact hp)]
    exact ⟨_, rfl, rfl⟩

theorem forwardStepTraced_any (sortKids : (Nat → Nat) → List Nat → List Nat)
    (hsort : ∀ key l, (sortKids key l).Perm l) (jn : JNodeTable) (eb : Bool) (mc fuel id : Nat)
    (hF : IsForest jn) (hid : id < jn.size)
    (hw : ownWeight jn eb id ≤ mc) (hfuel : jn.size + 2 ≤ fuel)
    (s : FwdState) (inv : FwdInv jn eb mc id id s) (hL : s.part_size.length ≤ 32769) :
    (∃ s', forwardStepTraced sortKids jn eb mc fuel id s = .ok s' ∧
      s'.part_size.length ≤ 32769) ∨
    ∃ P, forwardStepTraced sortKids jn eb mc fuel id s = .error (.outOfRange, P) ∧
      32768 < P := by
  have inv1 : FwdInv jn eb mc (id + 1) id
      { s with component_below := s.component_below.set id (cbAt s id + ownWeight jn eb id) } :=
    fwdInv_addOwn jn eb mc id s _ hid inv rfl rfl rfl
  unfold forwardStepTraced
  rw [getElem?_of_lt_getD _ _ (by rw [inv.len_cb]; exact hid)]
  simp only
  rcases packPhaseTraced_any sortKids hsort jn eb mc fuel id hF hid hw hfuel _ inv1 hL with
    ⟨s2, hs2, hL2, hle2⟩ | ⟨P, hP, hwide⟩
  · have hs2' : packPhaseTraced sortKids jn mc fuel id
        { s with component_below :=
            s.component_below.set id (s.component_below.getD id 0 + ownWeight jn eb id) } =
        .ok s2 := hs2
    have hun : packPhase sortKids jn mc fuel id
        { s with component_below := s.component_below.set id (cbAt s id + ownWeight jn eb id) } =
        .ok s2 := ok_of_traced (dropTrace_packPhase _ _ _ _ _ _) hs2
    have inv2 := (packPhase_inv sortKids hsort jn eb mc fuel id hF hid _ s2 inv1 hun).1
    obtain ⟨s3, hs3, hps3⟩ := foldPhase_ok jn eb mc id hF hid s2 inv2 hle2
    left
    refine ⟨s3, ?_, by rw [hps3]; exact hL2⟩
    rw [hs2']
    simp only [hs3]
  · right
    refine ⟨P, ?_, hwide⟩
    have hP' : packPhaseTraced sortKids jn mc fuel id
        { s with component_below :=
            s.component_below.set id (s.component_below.getD id 0 + ownWeight jn eb id) } =
        .error (.outOfRange, P) := hP
    rw [hP']

theorem firstPassTraced_any (sortKids : (Nat → Nat) → List Nat → List Nat)
    (hsort : ∀ key l, (sortKids key l).Perm l) (jn : JNodeTable) (eb : Bool) (mc fuel : Nat)
    (hF : IsForest jn)
    (hw : ∀ id, id < jn.size → ownWeight jn eb id ≤ mc) (hfuel : jn.size + 2 ≤ fuel) :
    ∀ (k id : Nat) (s : FwdState), id + k = jn.size → FwdInv jn eb mc id id s →
      s.part_size.length ≤ 32769 →
      (∃ s', firstPassTraced sortKids jn eb mc fuel k id s = .ok s' ∧
        FwdInv jn eb mc jn.size jn.size s' ∧ s'.part_size.length ≤ 32769) ∨
      ∃ P, firstPassTraced sortKids jn eb mc fuel k id s = .error (.outOfRange, P) ∧
        32768 < P := by
  intro k
  induction k with
  | zero =>
    intro id s hk inv hL
    have : id = jn.size := by omega
    subst this
    exact Or.inl ⟨s, rfl, inv, hL⟩
  | succ k ih =>
    intro id s hk inv hL
    rcases forwardStepTraced_any sortKids hsort jn eb mc fuel id hF (by omega)
      (hw id (by omega)) hfuel s inv hL with ⟨s1, hstep, hL1⟩ | ⟨P, hP, hwide⟩
    · have hun := ok_of_traced (dropTrace_forwardStep sortKids jn eb mc fuel id s) hstep
      have inv1 := (forwardStep_inv sortKids hsort jn eb mc fuel id hF (by omega) s s1 inv hun).1
      rcases ih (id + 1) s1 (by omega) inv1 hL1 with ⟨s', hs', r1, r2⟩ | ⟨P, hP, hwide⟩
      · exact Or.inl ⟨s', by rw [firstPassTraced, hstep]; exact hs', r1, r2⟩
      · exact Or.inr ⟨P, by rw [firstPassTraced, hstep]; exact hP, hwide⟩
    · exact Or.inr ⟨P, by rw [firstPassTraced, hP], hwide⟩

/-- The fallback loop of an unassigned root ends after at most two rounds: with
the root placed, or by `std::out_of_range` with more than 32768 parts open. -/
theorem placeLoopTraced_any (jn : JNodeTable) (eb : Bool) (mc j : Nat)
    (hj : j < jn.size) (fuel : Nat) (hfuel : 2 ≤ fuel)
    (s : FwdState) (inv : SndInv jn eb mc (j + 1) s) (hINV : partAt s j = INVALID_PART)
    (hL : s.part_size.length ≤ 32769) :
    (∃ s', placeLoopTraced mc j fuel s = .ok s' ∧ s'.part_size.length ≤ 32769) ∨
    ∃ P, placeLoopTraced mc j fuel s = .error (.outOfRange, P) ∧ 32768 < P := by
  have hle : cbAt s j ≤ mc := inv.cb_le j hj
  obtain ⟨fuel, rfl⟩ : ∃ f, fuel = f + 2 := ⟨fuel - 2, by omega⟩
  have hsp : shortPeriod = 65536 + 1 := by rw [shortPeriod_eq]
  rw [placeLoopTraced, parts_getElem?_of_lt s j (by rw [inv.len_parts]; exact hj)]
  simp only
  rw [if_pos hINV]
  by_cases hsmall : s.part_size.length ≤ 32768
  · obtain ⟨scanA, scanB⟩ := placeScan_total mc j s hsmall (by rw [inv.len_cb]; exact hj)
      shortPeriod s.part_size.length (le_refl _) (by rw [shortPeriod_eq]; omega)
    by_cases hex : ∃ p, p < s.part_size.length ∧ psAt s p + cbAt s j ≤ mc
    · obtain ⟨s1, P, hscan, hP, hfit, h1, h2, h3⟩ := scanB hex
      rw [hscan]
      simp only
      have hs1j : s1.parts[j]? = some (P : Int) := by
        rw [h1, List.getElem?_set_self (by rw [inv.len_parts]; exact hj)]
      rw [hs1j]
      simp only
      rw [if_neg (by simp only [INVALID_PART]; omega)]
      left
      exact ⟨s1, rfl, by rw [h3]; simp; omega⟩
    · rw [scanA (fun p hp hfit => hex ⟨p, hp, hfit⟩)]
      simp only
      rw [parts_getElem?_of_lt s j (by rw [inv.len_parts]; exact hj)]
      simp only
      rw [if_pos hINV]
      have inv2 := sndInv_push jn eb mc _ s inv
      have hINV2 : partAt { s with part_size := s.part_size ++ [0] } j = INVALID_PART := hINV
      rw [placeLoopTraced, parts_getElem?_of_lt _ j (by rw [inv2.len_parts]; exact hj)]
      simp only
      rw [if_pos hINV2]
      by_cases hsmall2 : s.part_size.length + 1 ≤ 32768
      · obtain ⟨_, scanB2⟩ := placeScan_total mc j { s with part_size := s.part_size ++ [0] }
          (by show (s.part_size ++ [0]).length ≤ 32768; simp; omega)
          (by rw [inv2.len_cb]; exact hj)
          shortPeriod (s.part_size ++ [0]).length (le_refl _)
          (by rw [shortPeriod_eq]; simp; omega)
        obtain ⟨s3, P, hscan, hP, hfit, h1, h2, h3⟩ := scanB2
          ⟨s.part_size.length, by simp, by
            show (s.part_size ++ [0]).getD s.part_size.length 0 + cbAt s j ≤ mc
            rw [getD_append_zero, List.getD_eq_default _ _ (le_refl _)]
            omega⟩
        rw [hscan]
        simp only
        have hs3j : s3.parts[j]? = some (P : Int) := by
          rw [h1]
          exact List.getElem?_set_self (by rw [inv.len_parts]; exact hj)
        rw [hs3j]
        simp only
        rw [if_neg (by simp only [INVALID_PART]; omega)]
        left
        refine ⟨s3, rfl, ?_⟩
        rw [h3]
        simp
        omega
      · right
        have hL2 : ({ s with part_size := s.part_size ++ [0] } : FwdState).part_size.length =
            32769 := by
          show (s.part_size ++ [0]).length = 32769
          simp
          omega
        rw [hsp, placeScan_wide mc j _ hL2 65536]
        exact ⟨_, rfl, by rw [hL2]; omega⟩
  · right
    have hL1 : s.part_size.length = 32769 := by omega
    rw [hsp, placeScan_wide mc j s hL1 65536]
    exact ⟨_, rfl, by omega⟩

theorem backfillStepTraced_any (jn : JNodeTable) (eb : Bool) (mc fuel j : Nat)
    (hF : IsForest jn) (hj : j < jn.size) (hfuel : 2 ≤ fuel) (s : FwdState)
    (inv : SndInv jn eb mc (j + 1) s) (hL : s.part_size.length ≤ 32769) :
    (∃ s', backfillStepTraced jn mc fuel j s = .ok s' ∧ s'.part_size.length ≤ 32769) ∨
    ∃ P, backfillStepTraced jn mc fuel j s = .error (.outOfRange, P) ∧ 32768 < P := by
  obtain ⟨fuel', hf⟩ : ∃ f, fuel = f + 1 := ⟨fuel - 1, by omega⟩
  unfold backfillStepTraced
  rw [parts_getElem?_of_lt s j (by rw [inv.len_parts]; exact hj)]
  simp only
  by_cases hINV : partAt s j = INVALID_PART
  · rw [if_pos hINV]
    cases hpar : jn.parent j with
    | none =>
      simp only
      exact placeLoopTraced_any jn eb mc j hj fuel hfuel s inv hINV hL
    | some q =>
      simp only
      have hq := hF.parent_lt j q hj hpar
      have hqj := hF.child_before_parent j q hpar
      obtain ⟨r1, r2⟩ := inv.resolved q (by omega) hq
      rw [parts_getElem?_of_lt s q (by rw [inv.len_parts]; exact hq)]
      simp only
      have hs1j : (s.parts.set j (partAt s q))[j]? = some (partAt s q) :=
        List.getElem?_set_self (by rw [inv.len_parts]; exact hj)
      rw [hf, placeLoopTraced]
      simp only
      rw [hs1j]
      simp only
      rw [if_neg (by simp only [INVALID_PART]; omega)]
      left
      exact ⟨_, rfl, hL⟩
  · rw [if_neg hINV]
    simp only
    rw [hf, placeLoopTraced, parts_getElem?_of_lt s j (by rw [inv.len_parts]; exact hj)]
    simp only
    rw [if_neg hINV]
    left
    exact ⟨s, rfl, hL⟩

theorem secondPassTraced_any (jn : JNodeTable) (eb : Bool) (mc fuel : Nat) (hF : IsForest jn)
    (hfuel : 2 ≤ fuel) :
    ∀ (j : Nat) (s : FwdState), j ≤ jn.size → SndInv jn eb mc j s →
      s.part_size.length ≤ 32769 →
      (∃ s', secondPassTraced jn mc fuel j s = .ok s') ∨
      ∃ P, secondPassTraced jn mc fuel j s = .error (.outOfRange, P) ∧ 32768 < P := by
  intro j
  induction j with
  | zero => intro s _ _ _; exact Or.inl ⟨s, rfl⟩
  | succ j ih =>
    intro s hj inv hL
    rcases backfillStepTraced_any jn eb mc fuel j hF (by omega) hfuel s inv hL with
      ⟨s1, hstep, hL1⟩ | ⟨P, hP, hwide⟩
    · have hun := ok_of_traced (dropTrace_backfillStep jn mc fuel j s) hstep
      have inv1 := backfillStep_inv jn eb mc fuel j hF (by omega) s s1 inv hun
      rcases ih s1 (by omega) inv1 hL1 with ⟨s', hs'⟩ | ⟨P, hP, hwide⟩
      · exact Or.inl ⟨s', by rw [secondPassTraced, hstep]; exact hs'⟩
      · exact Or.inr ⟨P, by rw [secondPassTraced, hstep]; exact hP, hwide⟩
    · exact Or.inr ⟨P, by rw [secondPassTraced, hP], hwide⟩

/-- Every run on a forest whose nodes each fit into a part ends, given
`jn.size + 2` rounds for every loop: it completes, or it fails by
`std::out_of_range` with more than 32768 parts open. -/
theorem forwardPartitionTraced_any (sortKids : (Nat → Nat) → List Nat → List Nat)
    (hsort : ∀ key l, (sortKids key l).Perm l) (jn : JNodeTable) (eb : Bool) (mc fuel : Nat)
    (hF : IsForest jn)
    (hw : ∀ id, id < jn.size → ownWeight jn eb id ≤ mc) (hfuel : jn.size + 2 ≤ fuel) :
    (∃ s, forwardPartitionTraced sortKids jn eb mc fuel = .ok s) ∨
    ∃ P, forwardPartitionTraced sortKids jn eb mc fuel = .error (.outOfRange, P) ∧
      32768 < P := by
  unfold forwardPartitionTraced
  simp only
  rcases firstPassTraced_any sortKids hsort jn eb mc fuel hF hw hfuel jn.size 0 _ (by omega)
    (fwdInv_init jn eb mc) (by simp) with ⟨s1, hfirst, inv1, hL1⟩ | ⟨P, hP, hwide⟩
  · rw [hfirst]
    simp only
    exact secondPassTraced_any jn eb mc fuel hF (by omega) jn.size s1 (le_refl _)
      (sndInv_start jn eb mc s1 inv1) hL1
  · right
    refine ⟨P, ?_, hwide⟩
    rw [hP]

/-! ### More than 32768 parts: the forest of isolated roots -/

theorem ownWeight_isolated (n : Nat) (eb : Bool) (id : Nat) :
    ownWeight (isolatedForest n) eb id = 1 := by
  unfold ownWeight isolatedForest
  split <;> rfl

theorem isForest_isolated (n : Nat) : IsForest (isolatedForest n) where
  child_before_parent := by intro id p h; simp [isolatedForest] at h
  parent_lt := by intro id p _ h; simp [isolatedForest] at h
  kids_parent := by intro id k _ h; simp [isolatedForest] at h
  kids_complete := by intro id k _ h; simp [isolatedForest] at h

theorem iso_forwardStep (sortKids : (Nat → Nat) → List Nat → List Nat) (n : Nat) (eb : Bool)
    (fuel id : Nat) (s : FwdState) (hlen : s.component_below.length = n) (hid : id < n)
    (h0 : cbAt s id = 0) :
    forwardStep sortKids (isolatedForest n) eb 1 fuel id s =
      .ok { s with component_below := s.component_below.set id 1 } := by
  have hget : s.component_below[id]? = some 0 := by
    rw [getElem?_of_lt_getD _ _ (by omega)]; exact congrArg some h0
  have hget1 : (s.component_below.set id 1)[id]? = some 1 :=
    List.getElem?_set_self (by omega)
  unfold forwardStep
  rw [hget]
  simp only [ownWeight_isolated, Nat.zero_add]
  unfold packPhase
  simp only [hget1]
  rw [if_neg (by omega)]
  simp only
  unfold foldPhase
  simp only [hget1]
  rw [if_neg (by omega)]
  rfl

theorem iso_firstPass (sortKids : (Nat → Nat) → List Nat → List Nat) (n : Nat) (eb : Bool)
    (fuel : Nat) :
    ∀ (k id : Nat) (s : FwdState), id + k = n → s.component_below.length = n →
      (∀ c, c < id → cbAt s c = 1) → (∀ c, id ≤ c → c < n → cbAt s c = 0) →
      ∃ s', firstPass sortKids (isolatedForest n) eb 1 fuel k id s = .ok s' ∧
        s'.parts = s.parts ∧ s'.part_size = s.part_size ∧ s'.component_below.length = n ∧
        ∀ c, c < n → cbAt s' c = 1 := by
  intro k
  induction k with
  | zero =>
    intro id s hk hlen h1 _
    exact ⟨s, rfl, rfl, rfl, hlen, fun c hc => h1 c (by omega)⟩
  | succ k ih =>
    intro id s hk hlen h1 h0
    have hstep := iso_forwardStep sortKids n eb fuel id s hlen (by omega) (h0 id (le_refl _) (by omega))
    obtain ⟨s', hs', r1, r2, r3, r4⟩ := ih (id + 1)
      { s with component_below := s.component_below.set id 1 } (by omega)
      (by simpa using hlen)
      (by
        intro c hc
        show (s.component_below.set id 1).getD c 0 = 1
        by_cases h : c = id
        · subst h; exact getD_set_self' _ _ _ _ (by omega)
        · rw [getD_set_ne' _ _ _ _ _ (Ne.symm h)]; exact h1 c (by omega))
      (by
        intro c hc hcn
        show (s.component_below.set id 1).getD c 0 = 0
        rw [getD_set_ne' _ _ _ _ _ (by omega)]; exact h0 c (by omega) hcn)
    exact ⟨s', by rw [firstPass, hstep]; exact hs', r1, r2, r3, r4⟩

theorem iso_scan_none (n j : Nat) (s : FwdState) (inv : IsoInv n (j + 1) s)
    (hlen : s.part_size.length ≤ 32768) :
    placeScan 1 j shortPeriod (toShort ((s.part_size.length : Int) - 1)) s = .ok s := by
  have hj : j < n := by have := inv.len_ps; omega
  refine (placeScan_total 1 j s hlen (by rw [inv.len_cb]; exact hj) shortPeriod
    s.part_size.length (le_refl _) (by rw [shortPeriod_eq]; omega)).1 ?_
  intro p hp
  rw [inv.ps_one p hp, inv.cb_one j hj]
  omega

/-- While fewer than 32768 parts exist, the second loop gives the next root a
new part of its own. -/
theorem iso_backfillStep_ok (n j fuel : Nat) (s : FwdState) (inv : IsoInv n (j + 1) s)
    (hlen : s.part_size.length ≤ 32767) (hfuel : 2 ≤ fuel) :
    ∃ s', backfillStep (isolatedForest n) 1 fuel j s = .ok s' ∧ IsoInv n j s' := by
  have hj : j < n := by have := inv.len_ps; omega
  have hINV : partAt s j = INVALID_PART := inv.unvisited j (by omega)
  have hparts : s.parts[j]? = some (partAt s j) :=
    parts_getElem?_of_lt s j (by rw [inv.len_parts]; exact hj)
  obtain ⟨fuel, rfl⟩ : ∃ f, fuel = f + 2 := ⟨fuel - 2, by omega⟩
  have hpar : (isolatedForest n).parent j = none := rfl
  unfold backfillStep
  rw [hparts]
  simp only
  rw [if_pos hINV, hpar]
  simp only
  rw [placeLoop, hparts]
  simp only
  rw [if_pos hINV, iso_scan_none n j s inv (by omega)]
  simp only
  rw [hparts]
  simp only
  rw [if_pos hINV]
  -- the scan of the parts including the new one
  obtain ⟨_, scanB⟩ := placeScan_total 1 j { s with part_size := s.part_size ++ [0] }
    (by show (s.part_size ++ [0]).length ≤ 32768; simp; omega)
    (by show j < s.component_below.length; rw [inv.len_cb]; exact hj)
    shortPeriod (s.part_size ++ [0]).length (le_refl _)
    (by rw [shortPeriod_eq]; simp; omega)
  have hlast : (s.part_size ++ [0]).getD s.part_size.length 0 = 0 := by
    rw [getD_append_zero, List.getD_eq_default _ _ (le_refl _)]
  obtain ⟨s3, P, hscan, hP, hfit, h1, h2, h3⟩ := scanB
    ⟨s.part_size.length, by simp, by
      show (s.part_size ++ [0]).getD s.part_size.length 0 + cbAt s j ≤ 1
      rw [hlast, inv.cb_one j hj]⟩
  have hP' : P < s.part_size.length + 1 := by simpa using hP
  have hcbj : cbAt { s with part_size := s.part_size ++ [0] } j = 1 := inv.cb_one j hj
  have hPlast : P = s.part_size.length := by
    by_contra hne
    have hlt : P < s.part_size.length := by omega
    have : psAt { s with part_size := s.part_size ++ [0] } P = 1 := by
      show (s.part_size ++ [0]).getD P 0 = 1
      rw [getD_append_zero]; exact inv.ps_one P hlt
    rw [this, hcbj] at hfit
    omega
  have hpsP : psAt { s with part_size := s.part_size ++ [0] } P = 0 := by
    show (s.part_size ++ [0]).getD P 0 = 0
    rw [hPlast]; exact hlast
  rw [hpsP, hcbj] at h3
  rw [placeLoop]
  simp only
  rw [hparts]
  simp only
  rw [if_pos hINV]
  have hscan' : placeScan 1 j shortPeriod (toShort (((s.part_size ++ [0]).length : Int) - 1))
      { s with part_size := s.part_size ++ [0] } = .ok s3 := hscan
  rw [hscan']
  simp only
  have hs3j : s3.parts[j]? = some (P : Int) := by
    rw [h1]; exact List.getElem?_set_self (by rw [inv.len_parts]; exact hj)
  rw [hs3j]
  simp only
  rw [if_neg (by simp only [INVALID_PART]; omega)]
  refine ⟨s3, rfl, ?_⟩
  refine ⟨by rw [h1]; simpa using inv.len_parts, by rw [h2]; exact inv.len_cb, ?_, ?_, ?_, ?_⟩
  · intro c hc
    show s3.component_below.getD c 0 = 1
    rw [h2]; exact inv.cb_one c hc
  · intro c hc
    show s3.parts.getD c INVALID_PART = INVALID_PART
    rw [h1]
    show (s.parts.set j (P : Int)).getD c INVALID_PART = INVALID_PART
    rw [getD_set_ne' _ _ _ _ _ (by omega)]
    exact inv.unvisited c (by omega)
  · rw [h3]
    have := inv.len_ps
    simp only [List.length_set, List.length_append, List.length_singleton]
    omega
  · intro p hp
    rw [h3] at hp
    simp only [List.length_set, List.length_append, List.length_singleton] at hp
    show s3.part_size.getD p 0 = 1
    rw [h3]
    by_cases hpP : P = p
    · subst hpP
      exact getD_set_self' _ _ _ _ (by simp; omega)
    · show ((s.part_size ++ [0]).set P (0 + 1)).getD p 0 = 1
      rw [getD_set_ne' _ _ _ _ _ hpP, getD_append_zero]
      exact inv.ps_one p (by omega)

/-- With 32768 parts, all full, the next part index no longer fits a `short`:
the scan after `push_back` starts at `cur_part = -32768` and
`part_size.at(cur_part)` throws. -/
theorem iso_backfillStep_err (n j fuel : Nat) (s : FwdState) (inv : IsoInv n (j + 1) s)
    (hlen : s.part_size.length = 32768) (hfuel : 2 ≤ fuel) :
    backfillStep (isolatedForest n) 1 fuel j s = .error .outOfRange := by
  have hj : j < n := by have := inv.len_ps; omega
  have hINV : partAt s j = INVALID_PART := inv.unvisited j (by omega)
  have hparts : s.parts[j]? = some (partAt s j) :=
    parts_getElem?_of_lt s j (by rw [inv.len_parts]; exact hj)
  obtain ⟨fuel, rfl⟩ : ∃ f, fuel = f + 2 := ⟨fuel - 2, by omega⟩
  have hpar : (isolatedForest n).parent j = none := rfl
  unfold backfillStep
  rw [hparts]
  simp only
  rw [if_pos hINV, hpar]
  simp only
  rw [placeLoop, hparts]
  simp only
  rw [if_pos hINV, iso_scan_none n j s inv (by omega)]
  simp only
  rw [hparts]
  simp only
  rw [if_pos hINV, placeLoop]
  simp only
  rw [hparts]
  simp only
  rw [if_pos hINV]
  have hcur : toShort (((s.part_size ++ [0]).length : Int) - 1) = -32768 := by
    simp only [List.length_append, List.length_singleton, hlen]
    unfold toShort
    omega
  rw [hcur, shortPeriod_eq, placeScan]
  rw [if_neg (by omega)]
  have hat : atShort (s.part_size ++ [0]) (-32768) = none := by
    unfold atShort
    rw [if_neg (by omega)]
  rw [hat]

theorem iso_backfillStep_lowfuel (n j fuel : Nat) (s : FwdState) (inv : IsoInv n (j + 1) s)
    (hlen : s.part_size.length = 0) (hfuel : fuel < 2) :
    backfillStep (isolatedForest n) 1 fuel j s = .error .outOfFuel := by
  have hj : j < n := by have := inv.len_ps; omega
  have hINV : partAt s j = INVALID_PART := inv.unvisited j (by omega)
  have hparts : s.parts[j]? = some (partAt s j) :=
    parts_getElem?_of_lt s j (by rw [inv.len_parts]; exact hj)
  have hpar : (isolatedForest n).parent j = none := rfl
  unfold backfillStep
  rw [hparts]
  simp only
  rw [if_pos hINV, hpar]
  simp only
  rcases Nat.lt_succ_iff_lt_or_eq.mp hfuel with h | h
  · have : fuel = 0 := by omega
    subst this
    rfl
  · subst h
    rw [placeLoop, hparts]
    simp only
    rw [if_pos hINV, iso_scan_none n j s inv (by omega)]
    simp only
    rw [hparts]
    simp only
    rw [if_pos hINV]
    rfl

theorem iso_secondPass_err (n fuel : Nat) (hn : 32769 ≤ n) (hfuel : 2 ≤ fuel) :
    ∀ (j : Nat) (s : FwdState), IsoInv n j s → s.part_size.length ≤ 32768 →
      secondPass (isolatedForest n) 1 fuel j s = .error .outOfRange := by
  intro j
  induction j with
  | zero =>
    intro s inv hlen
    have := inv.len_ps
    omega
  | succ j ih =>
    intro s inv hlen
    rw [secondPass]
    by_cases hfull : s.part_size.length = 32768
    · rw [iso_backfillStep_err n j fuel s inv hfull hfuel]
    · obtain ⟨s', hs', inv'⟩ := iso_backfillStep_ok n j fuel s inv (by omega) hfuel
      rw [hs']
      simp only
      apply ih s' inv'
      have h1 := inv.len_ps
      have h2 := inv'.len_ps
      omega

/-- On more than 32768 isolated unit-weight roots with capacity 1 the run ends
in `std::out_of_range`, and it returns a result for no amount of fuel. -/
theorem forwardPartition_isolated_fails (sortKids : (Nat → Nat) → List Nat → List Nat)
    (n : Nat) (eb : Bool) (hn : 32769 ≤ n) (fuel : Nat) :
    (2 ≤ fuel → forwardPartition sortKids (isolatedForest n) eb 1 fuel = .error .outOfRange) ∧
      ∀ s, forwardPartition sortKids (isolatedForest n) eb 1 fuel ≠ .ok s := by
  obtain ⟨s1, hfirst, hp1, hs1, hl1, hc1⟩ := iso_firstPass sortKids n eb fuel n 0
    { parts := List.replicate n INVALID_PART
      component_below := List.replicate n 0
      part_size := [] } (by omega) (by simp) (fun c hc => absurd hc (Nat.not_lt_zero c))
    (by
      intro c _ hc
      show (List.replicate n 0).getD c 0 = 0
      simp [List.getD_eq_getElem?_getD, List.getElem?_replicate, hc])
  have inv1 : IsoInv n n s1 := by
    refine ⟨by rw [hp1]; simp, hl1, hc1, ?_, by rw [hs1]; simp, by rw [hs1]; simp⟩
    intro c hc
    show s1.parts.getD c INVALID_PART = INVALID_PART
    rw [hp1]
    simp [List.getD_eq_getElem?_getD, List.getElem?_replicate, hc]
  have hrun : forwardPartition sortKids (isolatedForest n) eb 1 fuel =
      secondPass (isolatedForest n) 1 fuel n s1 := by
    unfold forwardPartition
    simp only
    have hsz : (isolatedForest n).size = n := rfl
    rw [hsz, hfirst]
  have herr : 2 ≤ fuel →
      forwardPartition sortKids (isolatedForest n) eb 1 fuel = .error .outOfRange := by
    intro hfuel
    rw [hrun]
    exact iso_secondPass_err n fuel hn hfuel n s1 inv1 (by rw [hs1]; simp)
  refine ⟨herr, fun s hs => ?_⟩
  by_cases hfuel : 2 ≤ fuel
  · rw [herr hfuel] at hs
    exact absurd hs (by simp)
  · rw [hrun] at hs
    obtain ⟨m, rfl⟩ : ∃ m, n = m + 1 := ⟨n - 1, by omega⟩
    rw [secondPass, iso_backfillStep_lowfuel (m + 1) m fuel s1 inv1 (by rw [hs1]; simp) (by omega)] at hs
    exact absurd hs (by simp)

theorem roundHalfEven_floor_le (y : ℚ) : ⌊y⌋ ≤ roundHalfEven y := by
  unfold roundHalfEven
  split_ifs <;> omega

theorem roundHalfEven_le_floor_succ (y : ℚ) : roundHalfEven y ≤ ⌊y⌋ + 1 := by
  unfold roundHalfEven
  split_ifs <;> omega

theorem roundHalfEven_of_frac_lt (y : ℚ) (h : y - ⌊y⌋ < 1 / 2) : roundHalfEven y = ⌊y⌋ := by
  unfold roundHalfEven
  rw [if_pos h]

theorem roundHalfEven_eq_of_lt (y : ℚ) (f : Int) (h1 : (f : ℚ) ≤ y) (h2 : y < f + 1 / 2) :
    roundHalfEven y = f := by
  have hf : ⌊y⌋ = f := by
    rw [Int.floor_eq_iff]
    constructor
    · exact h1
    · linarith
  unfold roundHalfEven
  rw [hf, if_pos (by linarith)]

theorem roundHalfEven_eq_of_gt (y : ℚ) (f : Int) (h1 : (f : ℚ) + 1 / 2 < y) (h2 : y < f + 1) :
    roundHalfEven y = f + 1 := by
  have hf : ⌊y⌋ = f := by
    rw [Int.floor_eq_iff]
    constructor
    · linarith
    · exact h2
  unfold roundHalfEven
  rw [hf, if_neg (by linarith), if_pos (by linarith)]

theorem roundHalfEven_tie (y : ℚ) (f : Int) (h : y = f + 1 / 2) :
    roundHalfEven y = if f % 2 = 0 then f else f + 1 := by
  have hf : ⌊y⌋ = f := by
    rw [Int.floor_eq_iff]
    constructor <;> linarith
  unfold roundHalfEven
  rw [hf, if_neg (by linarith), if_neg (by linarith)]

theorem ulpExponent_eq (x : ℚ) (t : Int) (hx : 0 < x) (h1 : (2 : ℚ) ^ t ≤ x)
    (h2 : x < (2 : ℚ) ^ (t + 1)) (ht : -1022 ≤ t) : ulpExponent x = t - 52 := by
  have hlog : Int.log 2 x = t := by
    apply le_antisymm
    · have := (Int.lt_zpow_iff_log_lt (b := 2) (by norm_num) hx (x := t + 1)).1 (by exact_mod_cast h2)
      omega
    · exact (Int.zpow_le_iff_le_log (b := 2) (by norm_num) hx).1 (by exact_mod_cast h1)
  unfold ulpExponent
  rw [hlog]
  omega

theorem roundDouble_eval (x : ℚ) (t m : Int) (hx : 0 < x) (h1 : (2 : ℚ) ^ t ≤ x)
    (h2 : x < (2 : ℚ) ^ (t + 1)) (ht : -1022 ≤ t)
    (hm : roundHalfEven (x / 2 ^ (t - 52)) = m) : roundDouble x = (m : ℚ) * 2 ^ (t - 52) := by
  unfold roundDouble
  rw [if_neg (ne_of_gt hx), if_pos hx, ulpExponent_eq x t hx h1 h2 ht, hm]

theorem roundDouble_zero : roundDouble 0 = 0 := by
  unfold roundDouble
  rw [if_pos rfl]

theorem roundDouble_nonneg (x : ℚ) (hx : 0 ≤ x) : 0 ≤ roundDouble x := by
  unfold roundDouble
  split_ifs with h0 hp
  · exact le_refl _
  · have hy : 0 ≤ x / 2 ^ ulpExponent x := div_nonneg hx (le_of_lt (zpow_pos (by norm_num) _))
    have hf : (0 : Int) ≤ ⌊x / 2 ^ ulpExponent x⌋ := Int.floor_nonneg.2 hy
    have hm := roundHalfEven_floor_le (x / 2 ^ ulpExponent x)
    have : (0 : ℚ) ≤ (roundHalfEven (x / 2 ^ ulpExponent x) : ℚ) := by exact_mod_cast le_trans hf hm
    exact mul_nonneg this (le_of_lt (zpow_pos (by norm_num) _))
  · exact absurd (lt_of_le_of_ne hx (Ne.symm h0)) hp

theorem ulpExponent_nonpos (x : ℚ) (hx : 0 < x) (h : x < 2 ^ 53) : ulpExponent x ≤ 0 := by
  have := (Int.lt_zpow_iff_log_lt (b := 2) (by norm_num) hx (x := 53)).1 (by exact_mod_cast h)
  unfold ulpExponent
  omega

/-- Below `2 ^ 53` rounding to `double` never crosses a natural number from
above. -/
theorem le_roundDouble_small (z : Nat) (x : ℚ) (hx : 0 < x) (h53 : x < 2 ^ 53)
    (h : (z : ℚ) ≤ x) : (z : ℚ) ≤ roundDouble x := by
  have he := ulpExponent_nonpos x hx h53
  unfold roundDouble
  rw [if_neg (ne_of_gt hx), if_pos hx]
  obtain ⟨k, hk⟩ : ∃ k : Nat, ulpExponent x = -(k : Int) := ⟨(-(ulpExponent x)).toNat, by omega⟩
  rw [hk, zpow_neg, zpow_natCast]
  have hpos : (0 : ℚ) < 2 ^ k := pow_pos (by norm_num) _
  rw [div_inv_eq_mul]
  have hzy : ((z * 2 ^ k : Nat) : ℚ) ≤ x * 2 ^ k := by
    push_cast
    exact mul_le_mul_of_nonneg_right h (le_of_lt hpos)
  have hfl : ((z * 2 ^ k : Nat) : Int) ≤ ⌊x * 2 ^ k⌋ := by
    rw [Int.le_floor]
    exact_mod_cast hzy
  have hm := roundHalfEven_floor_le (x * 2 ^ k)
  have hzm : ((z * 2 ^ k : Nat) : ℚ) ≤ (roundHalfEven (x * 2 ^ k) : ℚ) := by
    exact_mod_cast le_trans hfl hm
  rw [← div_eq_mul_inv, le_div_iff₀ hpos]
  push_cast at hzm
  exact hzm

/-- Below `2 ^ 53` rounding to `double` never crosses a natural number from
below. -/
theorem roundDouble_le_small (z : Nat) (x : ℚ) (hx : 0 < x) (h53 : x < 2 ^ 53)
    (h : x ≤ (z : ℚ)) : roundDouble x ≤ (z : ℚ) := by
  have he := ulpExponent_nonpos x hx h53
  unfold roundDouble
  rw [if_neg (ne_of_gt hx), if_pos hx]
  obtain ⟨k, hk⟩ : ∃ k : Nat, ulpExponent x = -(k : Int) := ⟨(-(ulpExponent x)).toNat, by omega⟩
  rw [hk, zpow_neg, zpow_natCast]
  have hpos : (0 : ℚ) < 2 ^ k := pow_pos (by norm_num) _
  rw [div_inv_eq_mul]
  have hyz : x * 2 ^ k ≤ ((z * 2 ^ k : Nat) : ℚ) := by
    push_cast
    exact mul_le_mul_of_nonneg_right h (le_of_lt hpos)
  have hmz : roundHalfEven (x * 2 ^ k) ≤ ((z * 2 ^ k : Nat) : Int) := by
    by_cases hfrac : x * 2 ^ k - ⌊x * 2 ^ k⌋ < 1 / 2
    · rw [roundHalfEven_of_frac_lt _ hfrac]
      have : (⌊x * 2 ^ k⌋ : ℚ) ≤ ((z * 2 ^ k : Nat) : ℚ) := le_trans (Int.floor_le _) hyz
      exact_mod_cast this
    · have hne : x * 2 ^ k ≠ ((z * 2 ^ k : Nat) : ℚ) := by
        intro heq
        apply hfrac
        have : ⌊x * 2 ^ k⌋ = ((z * 2 ^ k : Nat) : Int) := by
          rw [heq]
          exact_mod_cast Int.floor_intCast (α := ℚ) ((z * 2 ^ k : Nat) : Int)
        rw [this, heq]
        norm_num
      have hlt : x * 2 ^ k < (((z * 2 ^ k : Nat) : Int) : ℚ) := by
        exact_mod_cast lt_of_le_of_ne hyz hne
      have hfl : ⌊x * 2 ^ k⌋ < ((z * 2 ^ k : Nat) : Int) := Int.floor_lt.2 hlt
      have := roundHalfEven_le_floor_succ (x * 2 ^ k)
      omega
  have hq : (roundHalfEven (x * 2 ^ k) : ℚ) ≤ ((z * 2 ^ k : Nat) : ℚ) := by exact_mod_cast hmz
  rw [← div_eq_mul_inv, div_le_iff₀ hpos]
  push_cast at hq
  exact hq

theorem roundDouble_natCast (q : Nat) (hq : q < 2 ^ 53) : roundDouble (q : ℚ) = q := by
  rcases Nat.eq_zero_or_pos q with h0 | hpos
  · subst h0
    simpa using roundDouble_zero
  · have hx : (0 : ℚ) < (q : ℚ) := by exact_mod_cast hpos
    have h53 : (q : ℚ) < 2 ^ 53 := by exact_mod_cast hq
    exact le_antisymm (roundDouble_le_small q _ hx h53 le_rfl)
      (le_roundDouble_small q _ hx h53 le_rfl)

/-- A value of at least one does not round below one. -/
theorem one_le_roundDouble (x : ℚ) (h : 1 ≤ x) : 1 ≤ roundDouble x := by
  have hx : 0 < x := lt_of_lt_of_le one_pos h
  by_cases h53 : x < 2 ^ 53
  · have := le_roundDouble_small 1 x hx h53 (by simpa using h)
    simpa using this
  · have h53 : (2 : ℚ) ^ (53 : Int) ≤ x := by
      have : (2 : ℚ) ^ 53 ≤ x := not_lt.1 h53
      exact_mod_cast this
    have hlog : (53 : Int) ≤ Int.log 2 x :=
      (Int.zpow_le_iff_le_log (b := 2) (by norm_num) hx).1 (by exact_mod_cast h53)
    have he : ulpExponent x = Int.log 2 x - 52 := by
      unfold ulpExponent
      omega
    have hself : (2 : ℚ) ^ Int.log 2 x ≤ x := by
      have := Int.zpow_log_le_self (b := 2) (by norm_num) hx
      exact_mod_cast this
    unfold roundDouble
    rw [if_neg (ne_of_gt hx), if_pos hx, he]
    have hpos : (0 : ℚ) < 2 ^ (Int.log 2 x - 52) := zpow_pos (by norm_num) _
    have hy : (2 : ℚ) ^ (52 : Nat) ≤ x / 2 ^ (Int.log 2 x - 52) := by
      rw [le_div_iff₀ hpos, ← zpow_natCast, ← zpow_add₀ (by norm_num)]
      have : ((52 : Nat) : Int) + (Int.log 2 x - 52) = Int.log 2 x := by omega
      rw [this]
      exact hself
    have hfl : ((2 ^ 52 : Nat) : Int) ≤ ⌊x / 2 ^ (Int.log 2 x - 52)⌋ := by
      rw [Int.le_floor]
      exact_mod_cast hy
    have hm := roundHalfEven_floor_le (x / 2 ^ (Int.log 2 x - 52))
    have hmq : (1 : ℚ) ≤ (roundHalfEven (x / 2 ^ (Int.log 2 x - 52)) : ℚ) := by
      have : (1 : Int) ≤ roundHalfEven (x / 2 ^ (Int.log 2 x - 52)) := by
        have : (1 : Int) ≤ ((2 ^ 52 : Nat) : Int) := by norm_num
        omega
      exact_mod_cast this
    have hone : (1 : ℚ) ≤ 2 ^ (Int.log 2 x - 52) := by
      apply one_le_zpow₀ (by norm_num)
      omega
    calc (1 : ℚ) = 1 * 1 := by norm_num
      _ ≤ _ := mul_le_mul hmq hone (by norm_num) (le_trans (by norm_num) hmq)

theorem roundDouble_103 : roundDouble (103 / 100) = 4638707616191611 / 4503599627370496 := by
  have h := roundDouble_eval (103 / 100) 0 4638707616191611 (by norm_num) (by norm_num)
    (by norm_num) (by norm_num)
    (by
      have := roundHalfEven_eq_of_gt ((103 / 100 : ℚ) / 2 ^ ((0 : Int) - 52)) 4638707616191610
        (by norm_num) (by norm_num)
      simpa using this)
  rw [h]
  norm_num

theorem roundDouble_115 : roundDouble (115 / 100) = 2589569785738035 / 2251799813685248 := by
  have h := roundDouble_eval (115 / 100) 0 5179139571476070 (by norm_num) (by norm_num)
    (by norm_num) (by norm_num)
    (by
      have := roundHalfEven_eq_of_lt ((115 / 100 : ℚ) / 2 ^ ((0 : Int) - 52)) 5179139571476070
        (by norm_num) (by norm_num)
      simpa using this)
  rw [h]
  norm_num

theorem roundDouble_three_halves : roundDouble (3 / 2) = 3 / 2 := by
  have h := roundDouble_eval (3 / 2) 0 6755399441055744 (by norm_num) (by norm_num)
    (by norm_num) (by norm_num)
    (by
      have := roundHalfEven_eq_of_lt ((3 / 2 : ℚ) / 2 ^ ((0 : Int) - 52)) 6755399441055744
        (by norm_num) (by norm_num)
      simpa using this)
  rw [h]
  norm_num

theorem roundDouble_103_once : roundDouble (1 * (4638707616191611 / 4503599627370496)) = 4638707616191611 / 4503599627370496 := by
  have h := roundDouble_eval (1 * (4638707616191611 / 4503599627370496)) 0 4638707616191611 (by norm_num) (by norm_num)
    (by norm_num) (by norm_num)
    (by
      have := roundHalfEven_eq_of_lt ((1 * (4638707616191611 / 4503599627370496) : ℚ) / 2 ^ ((0 : Int) - 52)) 4638707616191611
        (by norm_num) (by norm_num)
      simpa using this)
  rw [h]
  norm_num

theorem roundDouble_103_twice : roundDouble (2 * (4638707616191611 / 4503599627370496)) = 4638707616191611 / 2251799813685248 := by
  have h := roundDouble_eval (2 * (4638707616191611 / 4503599627370496)) 1 4638707616191611 (by norm_num) (by norm_num)
    (by norm_num) (by norm_num)
    (by
      have := roundHalfEven_eq_of_lt ((2 * (4638707616191611 / 4503599627370496) : ℚ) / 2 ^ ((1 : Int) - 52)) 4638707616191611
        (by norm_num) (by norm_num)
      simpa using this)
  rw [h]
  norm_num

theorem roundDouble_103_file : roundDouble (17340594 * (4638707616191611 / 4503599627370496)) = 2397237582715945 / 134217728 := by
  have h := roundDouble_eval (17340594 * (4638707616191611 / 4503599627370496)) 24 4794475165431890 (by norm_num) (by norm_num)
    (by norm_num) (by norm_num)
    (by
      have := roundHalfEven_eq_of_lt ((17340594 * (4638707616191611 / 4503599627370496) : ℚ) / 2 ^ ((24 : Int) - 52)) 4794475165431890
        (by norm_num) (by norm_num)
      simpa using this)
  rw [h]
  norm_num

theorem roundDouble_115_hundred : roundDouble (100 * (2589569785738035 / 2251799813685248)) = 8092405580431359 / 70368744177664 := by
  have h := roundDouble_eval (100 * (2589569785738035 / 2251799813685248)) 6 8092405580431359 (by norm_num) (by norm_num)
    (by norm_num) (by norm_num)
    (by
      have := roundHalfEven_eq_of_lt ((100 * (2589569785738035 / 2251799813685248) : ℚ) / 2 ^ ((6 : Int) - 52)) 8092405580431359
        (by norm_num) (by norm_num)
      simpa using this)
  rw [h]
  norm_num

theorem roundDouble_115_twenty : roundDouble (20 * (2589569785738035 / 2251799813685248)) = 23 := by
  have h := roundDouble_eval (20 * (2589569785738035 / 2251799813685248)) 4 6473924464345088 (by norm_num) (by norm_num)
    (by norm_num) (by norm_num)
    (by
      have := roundHalfEven_tie ((20 * (2589569785738035 / 2251799813685248) : ℚ) / 2 ^ ((4 : Int) - 52)) 6473924464345087
        (by norm_num)
      simpa using this)
  rw [h]
  norm_num

theorem capacityProduct_eval (W k q : Nat) (b B P : ℚ) (hq : W / k = q) (hq53 : q < 2 ^ 53)
    (hB : roundDouble b = B) (hP : roundDouble ((q : ℚ) * B) = P) :
    capacityProduct W k b = P := by
  unfold capacityProduct
  rw [hq, roundDouble_natCast q hq53, hB, hP]

theorem roundDouble_one : roundDouble 1 = 1 := by
  simpa using roundDouble_natCast 1 (by norm_num)

theorem computeMaxComponent_ok (W k : Nat) (b : ℚ) (hk : k ≠ 0)
    (h1 : -1 < capacityProduct W k b) (h2 : capacityProduct W k b < 2 ^ 64) :
    computeMaxComponent W k b = .ok (maxComponent W k b) := by
  unfold computeMaxComponent
  rw [if_neg hk, if_neg]
  rintro (h | h)
  · exact absurd h (not_le.2 h1)
  · exact absurd h (not_le.2 h2)

theorem capacityProduct_unit_103 (W k : Nat) (hq : W / k = 1) :
    capacityProduct W k (103 / 100) = 4638707616191611 / 4503599627370496 :=
  capacityProduct_eval W k 1 _ _ _ hq (by norm_num) roundDouble_103
    (by simpa using roundDouble_103_once)

theorem maxComponent_unit_103 (W k : Nat) (hq : W / k = 1) :
    maxComponent W k (103 / 100) = 1 := by
  unfold maxComponent
  rw [capacityProduct_unit_103 W k hq]
  norm_num [Nat.floor_eq_iff]

theorem capacityProduct_one (W k : Nat) (hq : W / k < 2 ^ 53) :
    capacityProduct W k 1 = ((W / k : Nat) : ℚ) := by
  unfold capacityProduct
  rw [roundDouble_one, roundDouble_natCast _ hq, mul_one, roundDouble_natCast _ hq]

theorem maxComponent_one (W k : Nat) (hq : W / k < 2 ^ 53) : maxComponent W k 1 = W / k := by
  unfold maxComponent
  rw [capacityProduct_one W k hq, Nat.floor_natCast]

theorem capacityProduct_three_halves :
    capacityProduct 3 2 (3 / 2) = 3 / 2 :=
  capacityProduct_eval 3 2 1 _ _ _ (by norm_num) (by norm_num) roundDouble_three_halves
    (by simpa using roundDouble_three_halves)

theorem capacityProduct_hundred :
    capacityProduct 100 1 (115 / 100) = 8092405580431359 / 70368744177664 :=
  capacityProduct_eval 100 1 100 _ _ _ (by norm_num) (by norm_num) roundDouble_115
    (by simpa using roundDouble_115_hundred)

theorem capacityProduct_twenty : capacityProduct 20 1 (115 / 100) = 23 :=
  capacityProduct_eval 20 1 20 _ _ _ (by norm_num) (by norm_num) roundDouble_115
    (by simpa using roundDouble_115_twenty)

theorem capacityProduct_file :
    capacityProduct fileEdgeCount 2 (103 / 100) = 2397237582715945 / 134217728 :=
  capacityProduct_eval fileEdgeCount 2 17340594 _ _ _ (by unfold fileEdgeCount; norm_num)
    (by norm_num) roundDouble_103 (by simpa using roundDouble_103_file)

theorem roundDouble_above_53 : roundDouble (9007199254740993) = 9007199254740992 := by
  have h := roundDouble_eval (9007199254740993) 53 4503599627370496 (by norm_num) (by norm_num)
    (by norm_num) (by norm_num)
    (by
      have := roundHalfEven_tie ((9007199254740993 : ℚ) / 2 ^ ((53 : Int) - 52)) 4503599627370496
        (by norm_num)
      simpa using this)
  rw [h]
  norm_num

theorem roundDouble_at_53 : roundDouble (9007199254740992) = 9007199254740992 := by
  have h := roundDouble_eval (9007199254740992) 53 4503599627370496 (by norm_num) (by norm_num)
    (by norm_num) (by norm_num)
    (by
      have := roundHalfEven_eq_of_lt ((9007199254740992 : ℚ) / 2 ^ ((53 : Int) - 52)) 4503599627370496
        (by norm_num) (by norm_num)
      simpa using this)
  rw [h]
  norm_num

theorem le_roundDouble_of_le (z : Nat) (x : ℚ) (hx : 0 ≤ x) (h53 : x < 2 ^ 53)
    (h : (z : ℚ) ≤ x) : (z : ℚ) ≤ roundDouble x := by
  rcases eq_or_lt_of_le hx with h0 | hpos
  · rw [← h0, roundDouble_zero]
    rw [← h0] at h
    exact h
  · exact le_roundDouble_small z x hpos h53 h

theorem roundDouble_le_of_le (z : Nat) (x : ℚ) (hx : 0 ≤ x) (h53 : x < 2 ^ 53)
    (h : x ≤ (z : ℚ)) : roundDouble x ≤ (z : ℚ) := by
  rcases eq_or_lt_of_le hx with h0 | hpos
  · rw [← h0, roundDouble_zero]
    exact Nat.cast_nonneg z
  · exact roundDouble_le_small z x hpos h53 h

theorem computeMaxComponent_unit_103 (W k : Nat) (hq : W / k = 1) :
    computeMaxComponent W k (103 / 100) = .ok 1 := by
  have hk : k ≠ 0 := by
    rintro rfl
    simp at hq
  rw [computeMaxComponent_ok W k _ hk (by rw [capacityProduct_unit_103 W k hq]; norm_num)
    (by rw [capacityProduct_unit_103 W k hq]; norm_num), maxComponent_unit_103 W k hq]

theorem computeMaxComponent_one (W k : Nat) (hk : k ≠ 0) (hq : W / k < 2 ^ 53) :
    computeMaxComponent W k 1 = .ok (W / k) := by
  have hq64 : ((W / k : Nat) : ℚ) < 2 ^ 64 := by
    have : ((W / k : Nat) : ℚ) < 2 ^ 53 := by exact_mod_cast hq
    linarith
  have h0 : (0 : ℚ) ≤ ((W / k : Nat) : ℚ) := Nat.cast_nonneg _
  rw [computeMaxComponent_ok W k _ hk (by rw [capacityProduct_one W k hq]; linarith)
    (by rw [capacityProduct_one W k hq]; exact hq64), maxComponent_one W k hq]

theorem maxComponent_zero_quotient (W k : Nat) (b : ℚ) (hq : W / k = 0) :
    maxComponent W k b = 0 := by
  unfold maxComponent capacityProduct
  rw [hq, Nat.cast_zero, roundDouble_zero, zero_mul, roundDouble_zero, Nat.floor_zero]

theorem maxComponent_double_103 (W k : Nat) (hq : W / k = 2) :
    maxComponent W k (103 / 100) = 2 := by
  unfold maxComponent
  rw [capacityProduct_eval W k 2 _ _ _ hq (by norm_num) roundDouble_103
    (by simpa using roundDouble_103_twice)]
  norm_num [Nat.floor_eq_iff]

theorem computeMaxComponent_file :
    computeMaxComponent fileEdgeCount 2 (103 / 100) =
      .ok (maxComponent fileEdgeCount 2 (103 / 100)) :=
  computeMaxComponent_ok fileEdgeCount 2 _ (by norm_num)
    (by rw [capacityProduct_file]; norm_num) (by rw [capacityProduct_file]; norm_num)

theorem capacityProduct_above_53 :
    capacityProduct (2 ^ 53 + 1) 1 1 = 9007199254740992 := by
  have hq : (2 ^ 53 + 1) / 1 = 9007199254740993 := by norm_num
  unfold capacityProduct
  rw [hq, roundDouble_one]
  have h1 : ((9007199254740993 : Nat) : ℚ) = 9007199254740993 := by norm_num
  rw [h1, roundDouble_above_53, mul_one, roundDouble_at_53]

/-- The capacity on operands below `2 ^ 53`: the integer quotient and the
nearest `double` of the slack are multiplied, the product is rounded to the
nearest `double` and truncated; rounding never crosses an integer. -/
theorem maxComponent_bounds (W k : Nat) (b : ℚ) (hk : 1 ≤ k) (hb : 1 ≤ b)
    (hsmall : ((W / k : Nat) : ℚ) * roundDouble b < 2 ^ 53) :
    computeMaxComponent W k b = .ok (maxComponent W k b) ∧
      maxComponent W k b = ⌊roundDouble (((W / k : Nat) : ℚ) * roundDouble b)⌋₊ ∧
      W / k ≤ maxComponent W k b ∧
      ⌊((W / k : Nat) : ℚ) * roundDouble b⌋₊ ≤ maxComponent W k b ∧
      maxComponent W k b ≤ ⌊((W / k : Nat) : ℚ) * roundDouble b⌋₊ + 1 ∧
      (∀ n : Nat, ((W / k : Nat) : ℚ) * roundDouble b = n → maxComponent W k b = n) ∧
      (b = 1 → maxComponent W k b = W / k) := by
  have hB1 : 1 ≤ roundDouble b := one_le_roundDouble b hb
  have hq0 : (0 : ℚ) ≤ ((W / k : Nat) : ℚ) := Nat.cast_nonneg _
  have hx0 : 0 ≤ ((W / k : Nat) : ℚ) * roundDouble b := mul_nonneg hq0 (le_trans zero_le_one hB1)
  have hqx : ((W / k : Nat) : ℚ) ≤ ((W / k : Nat) : ℚ) * roundDouble b := by nlinarith
  have hq53 : W / k < 2 ^ 53 := by
    have : ((W / k : Nat) : ℚ) < 2 ^ 53 := lt_of_le_of_lt hqx hsmall
    exact_mod_cast this
  have hcp : capacityProduct W k b = roundDouble (((W / k : Nat) : ℚ) * roundDouble b) := by
    unfold capacityProduct
    rw [roundDouble_natCast _ hq53]
  have hlow := fun z h => le_roundDouble_of_le z _ hx0 hsmall h
  have hupp := fun z h => roundDouble_le_of_le z _ hx0 hsmall h
  have hfl : ((⌊((W / k : Nat) : ℚ) * roundDouble b⌋₊ : Nat) : ℚ) ≤
      ((W / k : Nat) : ℚ) * roundDouble b := Nat.floor_le hx0
  have hcl : ((W / k : Nat) : ℚ) * roundDouble b ≤
      ((⌊((W / k : Nat) : ℚ) * roundDouble b⌋₊ + 1 : Nat) : ℚ) := by
    push_cast
    exact le_of_lt (Nat.lt_floor_add_one _)
  have hr0 : 0 ≤ roundDouble (((W / k : Nat) : ℚ) * roundDouble b) := roundDouble_nonneg _ hx0
  have hmc : maxComponent W k b = ⌊roundDouble (((W / k : Nat) : ℚ) * roundDouble b)⌋₊ := by
    unfold maxComponent
    rw [hcp]
  refine ⟨?_, hmc, ?_, ?_, ?_, ?_, ?_⟩
  · apply computeMaxComponent_ok W k b (by omega)
    · rw [hcp]
      linarith
    · rw [hcp]
      have h1 := hupp _ hcl
      have h2 : ((⌊((W / k : Nat) : ℚ) * roundDouble b⌋₊ + 1 : Nat) : ℚ) ≤ 2 ^ 53 + 1 := by
        push_cast
        linarith
      have h3 : (2 : ℚ) ^ 53 + 1 < 2 ^ 64 := by norm_num
      linarith
  · rw [hmc]
    exact Nat.le_floor (hlow _ hqx)
  · rw [hmc]
    exact Nat.le_floor (hlow _ hfl)
  · rw [hmc]
    have h1 := hupp _ hcl
    exact Nat.floor_le_of_le h1
  · intro n hn
    rw [hmc]
    have h1 : roundDouble (((W / k : Nat) : ℚ) * roundDouble b) = n :=
      le_antisymm (hupp n (le_of_eq hn)) (hlow n (le_of_eq hn.symm))
    rw [h1, Nat.floor_natCast]
  · intro h1
    subst h1
    exact maxComponent_one W k hq53

theorem foldl_step_eq_fennelLoop (cost : Nat → Nat → ℚ) (graph : GraphWrapper) (num_parts : Nat)
    (eb : Bool) (mc : Nat) (order : List Nat) (r : Except Err FennelState) :
    order.foldl (greedyStep cost graph num_parts eb mc) r =
      match r with
      | .error e => .error e
      | .ok s => fennelLoop cost graph num_parts eb mc order s := by
  induction order generalizing r with
  | nil => cases r <;> rfl
  | cons X rest ih =>
    rw [List.foldl_cons, ih]
    cases r with
    | error e => rfl
    | ok s =>
      cases h : fennelStep cost graph num_parts eb mc s X <;>
        simp only [fennelLoop, greedyStep, h]

theorem fennel_ignores_seq (cost : Nat → Nat → ℚ) (graph : GraphWrapper) (seq : List Nat)
    (num_parts : Nat) (eb : Bool) (mc : Nat) :
    fennel cost graph seq num_parts eb mc = greedyAlong cost graph graph.nodeItr num_parts eb mc := by
  unfold fennel greedyAlong
  rw [foldl_step_eq_fennelLoop]

theorem isolated2_runs :
    List.Perm [1, 0] isolated2.nodeItr ∧
    fennel (fun _ _ => 0) isolated2 [1, 0] 2 false 1 = .ok ⟨[0, 1], [1, 1]⟩ ∧
      greedyAlong (fun _ _ => 0) isolated2 [1, 0] 2 false 1 = .ok ⟨[1, 0], [1, 1]⟩ := by
  refine ⟨by decide, rfl, rfl⟩

theorem fennel_isolated3 (cost : Nat → Nat → ℚ) :
    fennel cost isolated3 [0, 1, 2] 2 false 1 = .ok ⟨[0, 1, 0], [2, 1]⟩ := by
  rfl

theorem maxComponent_isolated3 : maxComponent 3 2 (103 / 100) = 1 :=
  maxComponent_unit_103 3 2 (by norm_num)

theorem ofGraph_isolated3 (cost : Nat → Nat → ℚ) :
    ∃ P, Partition.ofGraph cost isolated3 [0, 1, 2] 2 false (103 / 100) = .ok P ∧
      P.max_component = 1 ∧ P.parts = [0, 1, 0] ∧
      1 < (([0, 1, 2] : List Nat).filter (fun X => P.parts.getD X INVALID_PART = 0)).length := by
  have h : (if false = true then 2 * isolated3.getEdges else isolated3.getNodes) = 3 := rfl
  simp only [Partition.ofGraph, h, computeMaxComponent_unit_103 3 2 (by norm_num),
    fennel_isolated3]
  exact ⟨_, rfl, rfl, rfl, by decide⟩

/-- The scan returns a best-scoring part among all fitting parts, the lowest
such index, as soon as parts behind an empty fitting part cannot score
higher than it. -/
theorem fennelScan_best (cost : Nat → Nat → ℚ) (mc w : Nat) (pv ps : List Nat) (np : Nat)
    (hempty : ∀ q, q < np → ps.getD q 0 + w ≤ mc → ps.getD q 0 = 0 →
      ∀ r, q < r → r < np → ps.getD r 0 + w ≤ mc → score cost pv ps w r ≤ score cost pv ps w q)
    (k p mp : Nat) (mv : Option ℚ) (hk : p + k = np)
    (hQ : (mv = none ∧ ∀ q, q < p → ¬ ps.getD q 0 + w ≤ mc) ∨
      (mv = some (score cost pv ps w mp) ∧ mp < p ∧ ps.getD mp 0 + w ≤ mc ∧
        ∀ q, q < p → ps.getD q 0 + w ≤ mc →
          score cost pv ps w q ≤ score cost pv ps w mp ∧
            (q < mp → score cost pv ps w q < score cost pv ps w mp)))
    (hex : ∃ q, q < np ∧ ps.getD q 0 + w ≤ mc) :
    fennelScan cost mc w pv ps k p mp mv < np ∧
      ps.getD (fennelScan cost mc w pv ps k p mp mv) 0 + w ≤ mc ∧
      (∀ q, q < np → ps.getD q 0 + w ≤ mc →
        score cost pv ps w q ≤ score cost pv ps w (fennelScan cost mc w pv ps k p mp mv)) ∧
      (∀ q, q < fennelScan cost mc w pv ps k p mp mv → ps.getD q 0 + w ≤ mc →
        score cost pv ps w q < score cost pv ps w (fennelScan cost mc w pv ps k p mp mv)) := by
  induction k generalizing p mp mv with
  | zero =>
    simp only [fennelScan]
    have hp : p = np := by omega
    subst hp
    rcases hQ with ⟨_, hnone⟩ | ⟨_, hlt, hfit, hbest⟩
    · obtain ⟨q, hq, hqf⟩ := hex
      exact absurd hqf (hnone q hq)
    · exact ⟨hlt, hfit, fun q hq hqf => (hbest q hq hqf).1, fun q hq hqf => (hbest q (by omega) hqf).2 hq⟩
  | succ k ih =>
    rw [fennelScan]
    by_cases hfp : ps.getD p 0 + w > mc
    · rw [if_pos hfp]
      apply ih (p + 1) mp mv (by omega)
      rcases hQ with ⟨hmv, hnone⟩ | ⟨hmv, hlt, hfit, hbest⟩
      · left
        refine ⟨hmv, fun q hq => ?_⟩
        rcases Nat.lt_succ_iff_lt_or_eq.mp hq with h | h
        · exact hnone q h
        · subst h; omega
      · right
        refine ⟨hmv, by omega, hfit, fun q hq hqf => ?_⟩
        rcases Nat.lt_succ_iff_lt_or_eq.mp hq with h | h
        · exact hbest q h hqf
        · subst h; omega
    · rw [if_neg hfp]
      have hfp' : ps.getD p 0 + w ≤ mc := by omega
      -- the state after looking at part `p`
      have hQ1 : ∃ mp1 mv1,
          (if beats (score cost pv ps w p) mv = true then p else mp) = mp1 ∧
          (if beats (score cost pv ps w p) mv = true then some (score cost pv ps w p) else mv) = mv1 ∧
          mv1 = some (score cost pv ps w mp1) ∧ mp1 < p + 1 ∧ ps.getD mp1 0 + w ≤ mc ∧
          score cost pv ps w p ≤ score cost pv ps w mp1 ∧
          ∀ q, q < p + 1 → ps.getD q 0 + w ≤ mc →
            score cost pv ps w q ≤ score cost pv ps w mp1 ∧
              (q < mp1 → score cost pv ps w q < score cost pv ps w mp1) := by
        rcases hQ with ⟨hmv, hnone⟩ | ⟨hmv, hlt, hfit, hbest⟩
        · subst hmv
          refine ⟨p, some (score cost pv ps w p), by simp [beats], by simp [beats], rfl, by omega, hfp', le_refl _, ?_⟩
          intro q hq hqf
          rcases Nat.lt_succ_iff_lt_or_eq.mp hq with h | h
          · exact absurd hqf (hnone q h)
          · subst h; exact ⟨le_refl _, fun h => absurd h (lt_irrefl _)⟩
        · subst hmv
          by_cases hb : score cost pv ps w p > score cost pv ps w mp
          · refine ⟨p, some (score cost pv ps w p), by simp [beats, hb], by simp [beats, hb], rfl, by omega, hfp',
              le_refl _, ?_⟩
            intro q hq hqf
            rcases Nat.lt_succ_iff_lt_or_eq.mp hq with h | h
            · have := hbest q h hqf
              exact ⟨le_of_lt (lt_of_le_of_lt this.1 hb), fun _ => lt_of_le_of_lt this.1 hb⟩
            · subst h; exact ⟨le_refl _, fun h => absurd h (lt_irrefl _)⟩
          · refine ⟨mp, some (score cost pv ps w mp), by simp [beats, hb], by simp [beats, hb], rfl, by omega, hfit,
              not_lt.mp hb, ?_⟩
            intro q hq hqf
            rcases Nat.lt_succ_iff_lt_or_eq.mp hq with h | h
            · exact hbest q h hqf
            · subst h; exact ⟨not_lt.mp hb, fun h => by omega⟩
      obtain ⟨mp1, mv1, hmp1, hmv1, hmv1', hlt1, hfit1, hple, hbest1⟩ := hQ1
      simp only [hmp1, hmv1]
      by_cases hz : ps.getD p 0 = 0
      · rw [if_pos hz]
        refine ⟨by omega, hfit1, fun q hq hqf => ?_, fun q hq hqf => (hbest1 q (by omega) hqf).2 hq⟩
        by_cases hqp : q < p + 1
        · exact (hbest1 q hqp hqf).1
        · exact le_trans (hempty p (by omega) hfp' hz q (by omega) hq hqf) hple
      · rw [if_neg hz]
        exact ih (p + 1) mp1 mv1 (by omega) (Or.inr ⟨hmv1', hlt1, hfit1, hbest1⟩)

/-- Every part in front of the scan's result is non-empty. -/
theorem fennelScan_front (cost : Nat → Nat → ℚ) (mc w : Nat) (pv ps : List Nat)
    (k p mp : Nat) (mv : Option ℚ)
    (hscanned : ∀ q, q < p → ps.getD q 0 + w ≤ mc → ps.getD q 0 ≠ 0)
    (hmp : ∀ q, q < mp → ps.getD q 0 ≠ 0) (hmpk : mp < p + k ∨ mp = 0) :
    (∀ q, q < fennelScan cost mc w pv ps k p mp mv → ps.getD q 0 ≠ 0) ∧
      (fennelScan cost mc w pv ps k p mp mv < p + k ∨ fennelScan cost mc w pv ps k p mp mv = 0) := by
  induction k generalizing p mp mv with
  | zero => exact ⟨hmp, hmpk⟩
  | succ k ih =>
    rw [fennelScan]
    by_cases hfp : ps.getD p 0 + w > mc
    · rw [if_pos hfp]
      have := ih (p + 1) mp mv (fun q hq hqf => by
        rcases Nat.lt_succ_iff_lt_or_eq.mp hq with h | h
        · exact hscanned q h hqf
        · subst h; omega) hmp (by omega)
      exact ⟨this.1, by omega⟩
    · rw [if_neg hfp]
      have hp : ∀ q, q < p → ps.getD q 0 ≠ 0 := by
        intro q hq
        by_cases hqf : ps.getD q 0 + w ≤ mc
        · exact hscanned q hq hqf
        · omega
      have hmp1 : ∀ q, q < (if beats (score cost pv ps w p) mv = true then p else mp) → ps.getD q 0 ≠ 0 := by
        split
        · exact hp
        · exact hmp
      have hmpk1 : (if beats (score cost pv ps w p) mv = true then p else mp) < p + (k + 1) ∨ (if beats (score cost pv ps w p) mv = true then p else mp) = 0 := by
        split
        · left; omega
        · exact hmpk
      by_cases hz : ps.getD p 0 = 0
      · rw [if_pos hz]
        exact ⟨hmp1, hmpk1⟩
      · rw [if_neg hz]
        have := ih (p + 1) _ (if beats (score cost pv ps w p) mv = true then some (score cost pv ps w p) else mv) (fun q hq _ => by
          rcases Nat.lt_succ_iff_lt_or_eq.mp hq with h | h
          · exact hp q h
          · subst h; exact hz) hmp1 (by omega)
        exact ⟨this.1, by omega⟩


theorem tally_spec (parts : List Int) (nbrs : List Nat) (pv0 pv : List Nat)
    (h : tally parts nbrs pv0 = .ok pv) :
    pv.length = pv0.length ∧
      ∀ r : Nat, (∀ Y ∈ nbrs, parts[Y]? ≠ some (r : Int)) → pv.getD r 0 = pv0.getD r 0 := by
  induction nbrs generalizing pv0 with
  | nil =>
    simp only [tally, Except.ok.injEq] at h
    subst h
    exact ⟨rfl, fun _ _ => rfl⟩
  | cons Y rest ih =>
    rw [tally] at h
    cases hq : parts[Y]? with
    | none => rw [hq] at h; simp at h
    | some q =>
      rw [hq] at h
      simp only at h
      by_cases hinv : q ≠ INVALID_PART
      · rw [if_pos hinv] at h
        by_cases hr : 0 ≤ q ∧ q.toNat < pv0.length
        · rw [if_pos hr] at h
          obtain ⟨h1, h2⟩ := ih _ h
          refine ⟨by simpa using h1, fun r hr' => ?_⟩
          rw [h2 r (fun Z hZ => hr' Z (List.mem_cons_of_mem _ hZ))]
          have hne : q.toNat ≠ r := by
            intro heq
            apply hr' Y (List.mem_cons_self _ _)
            rw [hq, ← heq, Int.toNat_of_nonneg hr.1]
          simp [List.getD_eq_getElem?_getD, List.getElem?_set_ne hne]
        · rw [if_neg hr] at h; simp at h
      · rw [if_neg hinv] at h
        obtain ⟨h1, h2⟩ := ih _ h
        exact ⟨h1, fun r hr' => h2 r (fun Z hZ => hr' Z (List.mem_cons_of_mem _ hZ))⟩

theorem fennelInv_init (np n : Nat) :
    FennelInv np { parts := List.replicate n INVALID_PART, part_size := List.replicate np 0 } := by
  refine ⟨by simp, ?_, ?_⟩
  · intro q r _ _
    simp [List.getD_eq_getElem?_getD, List.getElem?_replicate]
    split <;> simp
  · intro v r hv
    simp only [List.getElem?_replicate] at hv
    split at hv
    · simp only [Option.some.injEq] at hv
      have hv' : (-1 : Int) = (r : Int) := hv
      omega
    · simp at hv

theorem getD_set_self (l : List Nat) (i a : Nat) (h : i < l.length) :
    (l.set i a).getD i 0 = a := by
  simp [List.getD_eq_getElem?_getD, List.getElem?_set_self h]

theorem getD_set_ne (l : List Nat) (i j a : Nat) (h : i ≠ j) :
    (l.set i a).getD j 0 = l.getD j 0 := by
  simp [List.getD_eq_getElem?_getD, List.getElem?_set_ne h]

theorem fennelStep_spec (cost : Nat → Nat → ℚ) (graph : GraphWrapper) (np : Nat) (eb : Bool)
    (mc : Nat) (s s1 : FennelState) (X : Nat) (hinv : FennelInv np s)
    (h : fennelStep cost graph np eb mc s X = .ok s1) :
    ∃ pv, tally s.parts (graph.edgeItr X) (List.replicate np 0) = .ok pv ∧
      X < s.parts.length ∧
      choosePart cost np mc (vertexWeight graph eb X) pv s.part_size < np ∧
      s1 = { parts := s.parts.set X (choosePart cost np mc (vertexWeight graph eb X) pv s.part_size : Int)
             part_size := s.part_size.set (choosePart cost np mc (vertexWeight graph eb X) pv s.part_size)
               (s.part_size.getD (choosePart cost np mc (vertexWeight graph eb X) pv s.part_size) 0 +
                 vertexWeight graph eb X) } ∧
      FennelInv np s1 := by
  obtain ⟨hlen, hpre, hass⟩ := hinv
  unfold fennelStep at h
  cases ht : tally s.parts (graph.edgeItr X) (List.replicate np 0) with
  | error e => rw [ht] at h; simp at h
  | ok pv =>
    rw [ht] at h
    simp only at h
    set c := choosePart cost np mc (vertexWeight graph eb X) pv s.part_size with hc
    by_cases hb : X < s.parts.length ∧ c < s.part_size.length
    · rw [if_pos hb] at h
      simp only [Except.ok.injEq] at h
      have hcpre : ∀ q, q < c → s.part_size.getD q 0 ≠ 0 :=
        (fennelScan_front cost mc (vertexWeight graph eb X) pv s.part_size np 0 0 none
          (fun q hq => absurd hq (Nat.not_lt_zero q)) (fun q hq => absurd hq (Nat.not_lt_zero q))
          (Or.inr rfl)).1
      refine ⟨pv, rfl, hb.1, by omega, h.symm, ?_⟩
      subst h
      refine ⟨by simpa using hlen, ?_, ?_⟩
      · intro q r hqr hq0
        simp only at hq0 ⊢
        have hq0' : s.part_size.getD q 0 = 0 := by
          by_cases hqc : c = q
          · subst hqc; rw [getD_set_self _ _ _ hb.2] at hq0; omega
          · rwa [getD_set_ne _ _ _ _ hqc] at hq0
        have hrc : c ≠ r := by
          intro heq
          exact hcpre q (by omega) hq0'
        rw [getD_set_ne _ _ _ _ hrc]
        exact hpre q r hqr hq0'
      · intro v r hv q hqr
        simp only at hv ⊢
        have hmono : s.part_size.getD q 0 ≠ 0 →
            (s.part_size.set c (s.part_size.getD c 0 + vertexWeight graph eb X)).getD q 0 ≠ 0 := by
          intro hne
          by_cases hqc : c = q
          · subst hqc; rw [getD_set_self _ _ _ hb.2]; omega
          · rwa [getD_set_ne _ _ _ _ hqc]
        apply hmono
        by_cases hvX : X = v
        · subst hvX
          rw [List.getElem?_set_self hb.1] at hv
          simp only [Option.some.injEq, Nat.cast_inj] at hv
          exact hcpre q (by omega)
        · rw [List.getElem?_set_ne hvX] at hv
          exact hass v r hv q hqr
    · rw [if_neg hb] at h; simp at h

theorem fennelLoop_inv (cost : Nat → Nat → ℚ) (graph : GraphWrapper) (np : Nat) (eb : Bool)
    (mc : Nat) (l : List Nat) (s s1 : FennelState) (hinv : FennelInv np s)
    (h : fennelLoop cost graph np eb mc l s = .ok s1) : FennelInv np s1 := by
  induction l generalizing s with
  | nil =>
    simp only [fennelLoop, Except.ok.injEq] at h
    exact h ▸ hinv
  | cons X rest ih =>
    rw [fennelLoop] at h
    cases hs : fennelStep cost graph np eb mc s X with
    | error e => rw [hs] at h; simp at h
    | ok s2 =>
      rw [hs] at h
      exact ih s2 (fennelStep_spec cost graph np eb mc s s2 X hinv hs).choose_spec.2.2.2.2 h

/-- Under the run invariant, a part behind an empty fitting part never scores
higher than that part. -/
theorem fennelInv_empty_dominates (cost : Nat → Nat → ℚ) (np : Nat) (s : FennelState)
    (nbrs : List Nat) (pv : List Nat) (w : Nat) (hinv : FennelInv np s)
    (ht : tally s.parts nbrs (List.replicate np 0) = .ok pv)
    (q r : Nat) (hqr : q < r) (hq0 : s.part_size.getD q 0 = 0) :
    score cost pv s.part_size w r ≤ score cost pv s.part_size w q := by
  obtain ⟨_, hpre, hass⟩ := hinv
  obtain ⟨_, hpv⟩ := tally_spec _ _ _ _ ht
  have hr0 : s.part_size.getD r 0 = 0 := hpre q r hqr hq0
  have hpvr : pv.getD r 0 = 0 := by
    rw [hpv r (fun Y _ hY => hass Y r hY q hqr hq0)]
    simp [List.getD_eq_getElem?_getD, List.getElem?_replicate]
    split <;> simp
  unfold score
  rw [hr0, hq0, hpvr]
  have : (0 : ℚ) ≤ (pv.getD q 0 : ℚ) := Nat.cast_nonneg _
  simp only [Nat.cast_zero, zero_sub, ge_iff_le]
  linarith

theorem chosen_part_best (cost : Nat → Nat → ℚ) (graph : GraphWrapper)
    (np : Nat) (eb : Bool) (mc : Nat) (pre : List Nat) (X : Nat) (s s1 : FennelState)
    (hrun : fennelLoop cost graph np eb mc pre
      { parts := List.replicate (graph.getMaxVid + 1) INVALID_PART
        part_size := List.replicate np 0 } = .ok s)
    (hstep : fennelStep cost graph np eb mc s X = .ok s1)
    (hfit : ∃ p, p < np ∧ s.part_size.getD p 0 + vertexWeight graph eb X ≤ mc) :
    ∃ (pv : List Nat) (c : Nat), tally s.parts (graph.edgeItr X) (List.replicate np 0) = .ok pv ∧
      s1.parts = s.parts.set X (c : Int) ∧
      s1.part_size = s.part_size.set c (s.part_size.getD c 0 + vertexWeight graph eb X) ∧
      c < np ∧ s.part_size.getD c 0 + vertexWeight graph eb X ≤ mc ∧
      (∀ p, p < np → s.part_size.getD p 0 + vertexWeight graph eb X ≤ mc →
        score cost pv s.part_size (vertexWeight graph eb X) p ≤
          score cost pv s.part_size (vertexWeight graph eb X) c) ∧
      (∀ p, p < c → s.part_size.getD p 0 + vertexWeight graph eb X ≤ mc →
        score cost pv s.part_size (vertexWeight graph eb X) p <
          score cost pv s.part_size (vertexWeight graph eb X) c) := by
  have hinv : FennelInv np s := fennelLoop_inv cost graph np eb mc pre _ s (fennelInv_init np _) hrun
  obtain ⟨pv, ht, _, hcl, hs1, _⟩ := fennelStep_spec cost graph np eb mc s s1 X hinv hstep
  have hbest := fennelScan_best cost mc (vertexWeight graph eb X) pv s.part_size np
    (fun q _ _ hq0 r hqr _ _ =>
      fennelInv_empty_dominates cost np s (graph.edgeItr X) pv _ hinv ht q r hqr hq0)
    np 0 0 none (by omega) (Or.inl ⟨rfl, fun q hq => absurd hq (Nat.not_lt_zero q)⟩) hfit
  refine ⟨pv, choosePart cost np mc (vertexWeight graph eb X) pv s.part_size, ht, ?_, ?_, hcl,
    hbest.2.1, hbest.2.2.1, hbest.2.2.2⟩
  · rw [hs1]
  · rw [hs1]

theorem foldl_max_ge (xs : List Nat) (x : Nat) :
    x ≤ xs.foldl max x ∧ (∀ v ∈ xs, v ≤ xs.foldl max x) ∧
      (xs.foldl max x = x ∨ xs.foldl max x ∈ xs) := by
  induction xs generalizing x with
  | nil => simp
  | cons y ys ih =>
    obtain ⟨h1, h2, h3⟩ := ih (max x y)
    simp only [List.foldl_cons, List.mem_cons]
    refine ⟨le_trans (le_max_left x y) h1, ?_, ?_⟩
    · intro v hv
      rcases hv with rfl | hv
      · exact le_trans (le_max_right x v) h1
      · exact h2 v hv
    · rcases h3 with h3 | h3
      · rw [h3]
        rcases max_choice x y with h | h
        · left; exact h
        · right; left; exact h
      · right; right; exact h3

theorem maxElement_spec (seq : List Nat) (hne : seq ≠ []) :
    ∃ m, maxElement seq = some m ∧ m ∈ seq ∧ ∀ v ∈ seq, v ≤ m := by
  cases seq with
  | nil => exact absurd rfl hne
  | cons x xs =>
    obtain ⟨h1, h2, h3⟩ := foldl_max_ge xs x
    refine ⟨xs.foldl max x, rfl, ?_, ?_⟩
    · rcases h3 with h3 | h3
      · rw [h3]; exact List.mem_cons_self _ _
      · exact List.mem_cons_of_mem _ h3
    · intro v hv
      rcases List.mem_cons.mp hv with rfl | hv
      · exact h1
      · exact h2 v hv

theorem remapLoop_spec (parts : List Int) (seq : List Nat) (i : Nat) (tmp : List Int)
    (hnd : seq.Nodup) (hlen : i + seq.length ≤ parts.length) (hin : ∀ v ∈ seq, v < tmp.length) :
    ∃ R, remapLoop parts seq i tmp = .ok R ∧ R.length = tmp.length ∧
      (∀ j, j < seq.length → R[seq.getD j 0]? = parts[i + j]?) ∧
      (∀ v, v ∉ seq → R[v]? = tmp[v]?) := by
  induction seq generalizing i tmp with
  | nil => exact ⟨tmp, rfl, rfl, by simp, by simp⟩
  | cons v rest ih =>
    have hv : v < tmp.length := hin v (List.mem_cons_self _ _)
    have hi : i < parts.length := by simp at hlen; omega
    obtain ⟨hvn, hnd'⟩ := List.nodup_cons.mp hnd
    obtain ⟨R, hR, hRl, hRs, hRo⟩ := ih (i + 1) (tmp.set v parts[i]) hnd'
      (by simp at hlen ⊢; omega)
      (by intro u hu; simp; exact hin u (List.mem_cons_of_mem _ hu))
    refine ⟨R, ?_, ?_, ?_, ?_⟩
    · simp only [remapLoop, List.getElem?_eq_getElem hi, hv, if_true]
      exact hR
    · simpa using hRl
    · intro j hj
      cases j with
      | zero =>
        simp only [List.getD_cons_zero, Nat.add_zero]
        rw [hRo v hvn, List.getElem?_set_self hv, List.getElem?_eq_getElem hi]
      | succ j =>
        simp only [List.getD_cons_succ]
        have := hRs j (by simpa using hj)
        rw [this]; congr 1; omega
    · intro u hu
      have hu1 : u ≠ v := fun h => hu (h ▸ List.mem_cons_self _ _)
      have hu2 : u ∉ rest := fun h => hu (List.mem_cons_of_mem _ h)
      rw [hRo u hu2, List.getElem?_set_ne (Ne.symm hu1)]

theorem remap_spec (seq : List Nat) (P : List Int) (hne : seq ≠ []) (hnd : seq.Nodup)
    (hlen : seq.length ≤ P.length) :
    ∃ R m, remap seq P = .ok R ∧ m ∈ seq ∧ (∀ v ∈ seq, v ≤ m) ∧ R.length = m + 1 ∧
      (∀ i, i < seq.length → R[seq.getD i 0]? = P[i]?) ∧
      (∀ v, v < R.length → v ∉ seq → R[v]? = some INVALID_PART) := by
  obtain ⟨m, hm, hmem, hmax⟩ := maxElement_spec seq hne
  obtain ⟨R, hR, hRl, hRs, hRo⟩ := remapLoop_spec P seq 0 (List.replicate (m + 1) INVALID_PART) hnd
    (by omega) (by intro v hv; have := hmax v hv; simp; omega)
  refine ⟨R, m, ?_, hmem, hmax, ?_, ?_, ?_⟩
  · simp only [remap, hm]; exact hR
  · simpa using hRl
  · intro i hi
    simpa using hRs i hi
  · intro v hv hvn
    rw [hRo v hvn]
    have : v < m + 1 := by simpa [hRl] using hv
    simp [List.getElem?_replicate, this]

theorem remap_scenarioD :
    remap [0, 1, 2, 3] [0, 0, 1, 1] = .ok [0, 0, 1, 1] := by rfl

theorem evalEdges_cut (parts : List Int) (X : Nat) (X_part : Int) (nbrs : List Nat)
    (acc : VertexAcc)
    (hp : ∀ Y ∈ nbrs, ∃ q, parts[Y]? = some q ∧ q ≠ INVALID_PART) :
    ∃ acc1, evalEdges parts X X_part nbrs acc = .ok acc1 ∧
      acc1.edges_cut = acc.edges_cut +
        nbrs.countP (fun Y => decide (X < Y ∧ X_part ≠ parts.getD Y INVALID_PART)) := by
  induction nbrs generalizing acc with
  | nil => exact ⟨acc, rfl, by simp⟩
  | cons Y rest ih =>
    obtain ⟨q, hq, hqv⟩ := hp Y (List.mem_cons_self _ _)
    have hget : parts.getD Y INVALID_PART = q := by
      simp [List.getD_eq_getElem?_getD, hq]
    simp only [evalEdges, hq, hqv, if_false]
    obtain ⟨acc1, h1, h2⟩ := ih
      { edges_cut := if X < Y ∧ X_part ≠ q then acc.edges_cut + 1 else acc.edges_cut
        Vcom_vol_nbrs := insert q acc.Vcom_vol_nbrs
        ECV_hash_nbrs := insert (if knuth_hash X < knuth_hash Y then X_part else q) acc.ECV_hash_nbrs }
      (fun Z hZ => hp Z (List.mem_cons_of_mem _ hZ))
    refine ⟨acc1, h1, ?_⟩
    rw [h2, List.countP_cons, hget]
    by_cases hc : X < Y ∧ X_part ≠ q
    · simp [hc]; omega
    · simp [hc]

theorem evalNodes_cut (graph : GraphWrapper) (parts : List Int) (nodes : List Nat) (m : Metrics)
    (hX : ∀ X ∈ nodes, ∃ q, parts[X]? = some q ∧ q ≠ INVALID_PART)
    (hY : ∀ X ∈ nodes, ∀ Y ∈ graph.edgeItr X, ∃ q, parts[Y]? = some q ∧ q ≠ INVALID_PART) :
    ∃ m1, evalNodes graph parts nodes m = .ok m1 ∧
      m1.edges_cut = m.edges_cut +
        (nodes.map (fun X => (graph.edgeItr X).countP
          (fun Y => decide (X < Y ∧ parts.getD X INVALID_PART ≠ parts.getD Y INVALID_PART)))).sum := by
  induction nodes generalizing m with
  | nil => exact ⟨m, rfl, by simp⟩
  | cons X rest ih =>
    obtain ⟨q, hq, hqv⟩ := hX X (List.mem_cons_self _ _)
    have hget : parts.getD X INVALID_PART = q := by
      simp [List.getD_eq_getElem?_getD, hq]
    obtain ⟨acc1, h1, h2⟩ := evalEdges_cut parts X q (graph.edgeItr X)
      { edges_cut := m.edges_cut, Vcom_vol_nbrs := {q}, ECV_hash_nbrs := ∅ }
      (hY X (List.mem_cons_self _ _))
    obtain ⟨m1, h3, h4⟩ := ih
      { edges_cut := acc1.edges_cut
        Vcom_vol := wrap64 (m.Vcom_vol + wrap64 ((acc1.Vcom_vol_nbrs.card : Int) - 1))
        ECV_hash := wrap64 (m.ECV_hash + wrap64 ((acc1.ECV_hash_nbrs.card : Int) - 1)) }
      (fun Z hZ => hX Z (List.mem_cons_of_mem _ hZ))
      (fun Z hZ => hY Z (List.mem_cons_of_mem _ hZ))
    refine ⟨m1, ?_, ?_⟩
    · simp only [evalNodes, evalVertex, hq, hqv, if_false, h1]
      exact h3
    · rw [h4, h2, List.map_cons, List.sum_cons, hget]
      simp only []
      omega

theorem countP_eq_sum_ite (l : List Nat) (hnd : l.Nodup) (V : Finset Nat) (hV : ∀ y ∈ l, y ∈ V)
    (p : Nat → Prop) [DecidablePred p] :
    l.countP (fun y => decide (p y)) = ∑ y ∈ V, if y ∈ l ∧ p y then 1 else 0 := by
  have h1 : l.countP (fun y => decide (p y)) = (l.toFinset.filter p).card := by
    induction l with
    | nil => simp
    | cons a l ih =>
      obtain ⟨ha, hl⟩ := List.nodup_cons.mp hnd
      have ih' := ih hl (fun y hy => hV y (List.mem_cons_of_mem _ hy))
      rw [List.countP_cons, ih', List.toFinset_cons, Finset.filter_insert]
      by_cases hpa : p a
      · have : a ∉ Finset.filter p l.toFinset := by simp [ha]
        simp [hpa, Finset.card_insert_of_not_mem this]
      · simp [hpa]
  have hsub : l.toFinset ⊆ V := fun y hy => hV y (List.mem_toFinset.mp hy)
  have hzero : ∀ y ∈ V, y ∉ l.toFinset → (if y ∈ l ∧ p y then 1 else 0) = 0 := by
    intro y _ hy
    have : y ∉ l := fun h => hy (List.mem_toFinset.mpr h)
    simp [this]
  rw [h1, Finset.card_filter, ← Finset.sum_subset hsub hzero]
  apply Finset.sum_congr rfl
  intro y hy
  have : y ∈ l := List.mem_toFinset.mp hy
  simp [this]

theorem cutEdgeSet_card (graph : GraphWrapper) (parts : List Int)
    (hnodes : graph.nodeItr.Nodup)
    (hadj : ∀ X ∈ graph.nodeItr, (graph.edgeItr X).Nodup)
    (hsym : ∀ X ∈ graph.nodeItr, ∀ Y ∈ graph.edgeItr X, Y ∈ graph.nodeItr ∧ X ∈ graph.edgeItr Y) :
    (cutEdgeSet graph parts).card =
      (graph.nodeItr.map (fun X => (graph.edgeItr X).countP
          (fun Y => decide (X < Y ∧ parts.getD X INVALID_PART ≠ parts.getD Y INVALID_PART)))).sum := by
  classical
  set V := graph.nodeItr.toFinset with hVdef
  set A := (V ×ˢ V).filter
    (fun e : Nat × Nat => e.1 < e.2 ∧ e.2 ∈ graph.edgeItr e.1 ∧
      parts.getD e.1 INVALID_PART ≠ parts.getD e.2 INVALID_PART) with hA
  have himg : cutEdgeSet graph parts = A.image (fun e => s(e.1, e.2)) := by
    ext z
    simp only [cutEdgeSet, Finset.mem_image, Finset.mem_filter, Finset.mem_product, hA]
    constructor
    · rintro ⟨⟨x, y⟩, ⟨⟨hx, hy⟩, hxy, hp⟩, rfl⟩
      simp only at hx hy hxy hp
      have hne : x ≠ y := fun h => hp (by rw [h])
      rcases lt_or_gt_of_ne hne with hlt | hgt
      · exact ⟨(x, y), ⟨⟨hx, hy⟩, hlt, hxy, hp⟩, rfl⟩
      · refine ⟨(y, x), ⟨⟨hy, hx⟩, hgt, ?_, fun h => hp h.symm⟩, Sym2.eq_swap⟩
        exact (hsym x (List.mem_toFinset.mp hx) y hxy).2
    · rintro ⟨⟨x, y⟩, ⟨⟨hx, hy⟩, _, hxy, hp⟩, rfl⟩
      exact ⟨(x, y), ⟨⟨hx, hy⟩, hxy, hp⟩, rfl⟩
  have hinj : Set.InjOn (fun e : Nat × Nat => s(e.1, e.2)) (A : Set (Nat × Nat)) := by
    rintro ⟨x, y⟩ hxy ⟨u, v⟩ huv h
    simp only [hA, Finset.coe_filter, Set.mem_setOf_eq] at hxy huv
    simp only [Sym2.eq_iff] at h
    rcases h with ⟨h1, h2⟩ | ⟨h1, h2⟩
    · simp [h1, h2]
    · have := hxy.2.1; have := huv.2.1; omega
  rw [himg, Finset.card_image_of_injOn hinj, hA, Finset.card_filter, Finset.sum_product,
    ← List.sum_toFinset _ hnodes]
  apply Finset.sum_congr rfl
  intro x hx
  have hx' : x ∈ graph.nodeItr := List.mem_toFinset.mp hx
  rw [countP_eq_sum_ite (graph.edgeItr x) (hadj x hx') V
    (fun y hy => List.mem_toFinset.mpr (hsym x hx' y hy).1)
    (fun y => x < y ∧ parts.getD x INVALID_PART ≠ parts.getD y INVALID_PART)]
  apply Finset.sum_congr rfl
  intro y _
  by_cases h1 : y ∈ graph.edgeItr x <;> by_cases h2 : x < y <;>
    by_cases h3 : parts.getD x INVALID_PART = parts.getD y INVALID_PART <;> simp [h1, h2, h3]

theorem fennelLoop_cons_ok (cost : Nat → Nat → ℚ) (graph : GraphWrapper) (np : Nat) (eb : Bool)
    (mc X : Nat) (rest : List Nat) (s s1 : FennelState)
    (h : fennelStep cost graph np eb mc s X = .ok s1) :
    fennelLoop cost graph np eb mc (X :: rest) s = fennelLoop cost graph np eb mc rest s1 := by
  rw [fennelLoop, h]

/-- Scenario B with the penalty switched off: both parts end at the capacity 4. -/
theorem fennel_cycle4_zero :
    fennel (fun _ _ => 0) cycle4 [0, 1, 2, 3] 2 true 4 = .ok ⟨[0, 0, 1, 1], [4, 4]⟩ := by
  have h1 : fennelStep (fun _ _ => 0) cycle4 2 true 4 ⟨[-1,-1,-1,-1],[0,0]⟩ 0 =
      .ok ⟨[0,-1,-1,-1],[2,0]⟩ := rfl
  have h2 : fennelStep (fun _ _ => 0) cycle4 2 true 4 ⟨[0,-1,-1,-1],[2,0]⟩ 1 =
      .ok ⟨[0,0,-1,-1],[4,0]⟩ := by
    have ht : tally [0,-1,-1,-1] (cycle4.edgeItr 1) (List.replicate 2 0) = .ok [1, 0] := rfl
    have hw : vertexWeight cycle4 true 1 = 2 := rfl
    have hc : choosePart (fun _ _ => 0) 2 4 2 [1, 0] [2, 0] = 0 := by
      simp only [choosePart, fennelScan, List.getD_cons_zero, List.getD_cons_succ]
      norm_num [beats, score]
    simp only [fennelStep, ht, hw, hc]
    rfl
  have h3 : fennelStep (fun _ _ => 0) cycle4 2 true 4 ⟨[0,0,-1,-1],[4,0]⟩ 2 =
      .ok ⟨[0,0,1,-1],[4,2]⟩ := rfl
  have h4 : fennelStep (fun _ _ => 0) cycle4 2 true 4 ⟨[0,0,1,-1],[4,2]⟩ 3 =
      .ok ⟨[0,0,1,1],[4,4]⟩ := rfl
  show fennelLoop (fun _ _ => 0) cycle4 2 true 4 [0, 1, 2, 3] ⟨[-1,-1,-1,-1],[0,0]⟩ = _
  rw [fennelLoop_cons_ok _ _ _ _ _ _ _ _ _ h1, fennelLoop_cons_ok _ _ _ _ _ _ _ _ _ h2,
    fennelLoop_cons_ok _ _ _ _ _ _ _ _ _ h3, fennelLoop_cons_ok _ _ _ _ _ _ _ _ _ h4]
  rfl

/-! ## The claims -/

theorem sortDesc_perm : ∀ (key : Nat → Nat) (l : List Nat), (sortDesc key l).Perm l :=
  fun key l => List.perm_insertionSort (fun a b => key b ≤ key a) l

theorem isForest_scenarioA : IsForest scenarioA where
  child_before_parent := by
    intro id p h
    rcases id with _ | _ | _ | id <;> simp [scenarioA, JNodeTable.ofList] at h <;> omega
  parent_lt := by
    intro id p _ h
    rcases id with _ | _ | _ | id <;> simp [scenarioA, JNodeTable.ofList] at h <;>
      simp [scenarioA, JNodeTable.ofList] <;> omega
  kids_parent := by
    intro id k _ h
    rcases id with _ | _ | _ | id <;> simp [scenarioA, JNodeTable.ofList] at h
    rcases h with rfl | rfl <;> rfl
  kids_complete := by
    intro id k _ h
    rcases k with _ | _ | _ | k <;> simp [scenarioA, JNodeTable.ofList] at h <;> subst h <;>
      simp [scenarioA, JNodeTable.ofList]

/-- Scenario A with capacity 1: the two kids are packed into parts 0 and 1, the
root opens part 2. -/
theorem scenarioA_run :
    forwardPartition sortDesc scenarioA false 1 10 = .ok ⟨[0, 1, 2], [1, 1, 1], [1, 1, 1]⟩ := by
  with_unfolding_all rfl

theorem scenarioA_weights : ∀ id, id < scenarioA.size → ownWeight scenarioA false id ≤ 1 :=
  fun _ _ => le_refl 1

theorem scenarioA_maxComponent : maxComponent (forestCount scenarioA false) 2 1 = 1 := by
  have h : forestCount scenarioA false = 3 := rfl
  rw [h, maxComponent_one 3 2 (by norm_num)]

/-- C1: for every forest with child-before-parent ids, after a completed
`forwardPartition` the own weights of the nodes assigned to any one part `p` sum
to at most `max_component`. (A completed run has passed the assertion of line
182, so every own weight is at most `max_component`.) -/
theorem forwardPartition_balanced (sortKids : (Nat → Nat) → List Nat → List Nat)
    (hsort : ∀ key l, (sortKids key l).Perm l) (jnodes : JNodeTable) (edge_balanced : Bool)
    (max_component fuel : Nat) (hforest : IsForest jnodes) (s : FwdState)
    (hrun : forwardPartition sortKids jnodes edge_balanced max_component fuel = .ok s) (p : Int) :
    (∑ c ∈ Finset.range jnodes.size,
      if s.parts.getD c INVALID_PART = p then ownWeight jnodes edge_balanced c else 0) ≤
      max_component :=
  part_weight_le_capacity sortKids hsort jnodes edge_balanced max_component fuel hforest s
    hrun p

/-- Witness of C1: Scenario A with capacity 1, part 0. -/
theorem forwardPartition_balanced_witness :
    forwardPartition sortDesc scenarioA false 1 10 = .ok ⟨[0, 1, 2], [1, 1, 1], [1, 1, 1]⟩ ∧
      (∑ c ∈ Finset.range scenarioA.size,
        if ([0, 1, 2] : List Int).getD c INVALID_PART = 0 then ownWeight scenarioA false c else 0) ≤ 1 :=
  ⟨scenarioA_run,
    forwardPartition_balanced sortDesc sortDesc_perm scenarioA false 1 10 isForest_scenarioA
      ⟨[0, 1, 2], [1, 1, 1], [1, 1, 1]⟩ scenarioA_run 0⟩

/-- C2 (amended): for every forest with child-before-parent ids in which every
own weight is at most `max_component`, `forwardPartition` terminates (with
`jnodes.size + 2` rounds for each of its two open-ended loops): either it
completes and leaves no node with the sentinel `INVALID_PART`, or it ends in
`std::out_of_range` (thrown by `part_size.at` on a `short` part index that has
overflowed) at a moment when more than 32768 parts are open.
`forwardPartitionTraced` is `forwardPartition` reporting, with a failure, the
number of parts open at that moment. A forest of at most 32768 nodes always
completes. -/
theorem forwardPartition_terminates (sortKids : (Nat → Nat) → List Nat → List Nat)
    (hsort : ∀ key l, (sortKids key l).Perm l) (jnodes : JNodeTable) (edge_balanced : Bool)
    (max_component fuel : Nat) (hforest : IsForest jnodes)
    (hweights : ∀ id, id < jnodes.size → ownWeight jnodes edge_balanced id ≤ max_component)
    (hfuel : jnodes.size + 2 ≤ fuel) :
    forwardPartition sortKids jnodes edge_balanced max_component fuel =
        dropTrace (forwardPartitionTraced sortKids jnodes edge_balanced max_component fuel) ∧
      ((∃ s, forwardPartition sortKids jnodes edge_balanced max_component fuel = .ok s ∧
          forwardPartitionTraced sortKids jnodes edge_balanced max_component fuel = .ok s ∧
          s.parts.length = jnodes.size ∧
          ∀ c, c < jnodes.size → s.parts.getD c INVALID_PART ≠ INVALID_PART) ∨
        ∃ P, forwardPartition sortKids jnodes edge_balanced max_component fuel =
            .error .outOfRange ∧
          forwardPartitionTraced sortKids jnodes edge_balanced max_component fuel =
            .error (.outOfRange, P) ∧
          32768 < P) ∧
      (jnodes.size ≤ 32768 →
        ∃ s, forwardPartition sortKids jnodes edge_balanced max_component fuel = .ok s) := by
  have hagree := dropTrace_forwardPartition sortKids jnodes edge_balanced max_component fuel
  refine ⟨hagree.symm, ?_, fun hsize => forwardPartition_total sortKids hsort jnodes edge_balanced
    max_component fuel hforest hsize hweights hfuel⟩
  rcases forwardPartitionTraced_any sortKids hsort jnodes edge_balanced max_component fuel hforest
    hweights hfuel with ⟨s, hs⟩ | ⟨P, hP, hwide⟩
  · left
    have hrun := ok_of_traced hagree hs
    have inv := forwardPartition_final sortKids hsort jnodes edge_balanced max_component fuel
      hforest s hrun
    refine ⟨s, hrun, hs, inv.len_parts, fun c hc hbad => ?_⟩
    have h0 := (inv.resolved c (Nat.zero_le c) hc).1
    have hbad' : partAt s c = INVALID_PART := hbad
    rw [hbad'] at h0
    exact absurd h0 (by decide)
  · right
    refine ⟨P, ?_, hP, hwide⟩
    rw [← hagree, hP]
    rfl

/-- Witness of C2: Scenario A with capacity 1; the run completes with three
parts. -/
theorem forwardPartition_terminates_witness :
    forwardPartition sortDesc scenarioA false 1 10 = .ok ⟨[0, 1, 2], [1, 1, 1], [1, 1, 1]⟩ ∧
      forwardPartition sortDesc scenarioA false 1 10 =
        dropTrace (forwardPartitionTraced sortDesc scenarioA false 1 10) ∧
      ((∃ s, forwardPartition sortDesc scenarioA false 1 10 = .ok s ∧
          forwardPartitionTraced sortDesc scenarioA false 1 10 = .ok s ∧
          s.parts.length = scenarioA.size ∧
          ∀ c, c < scenarioA.size → s.parts.getD c INVALID_PART ≠ INVALID_PART) ∨
        ∃ P, forwardPartition sortDesc scenarioA false 1 10 = .error .outOfRange ∧
          forwardPartitionTraced sortDesc scenarioA false 1 10 = .error (.outOfRange, P) ∧
          32768 < P) ∧
      (scenarioA.size ≤ 32768 → ∃ s, forwardPartition sortDesc scenarioA false 1 10 = .ok s) :=
  ⟨scenarioA_run,
    forwardPartition_terminates sortDesc sortDesc_perm scenarioA false 1 10 isForest_scenarioA
      scenarioA_weights (by decide)⟩

/-- Counterexample to C2 as stated: 32769 isolated roots of weight 1, cut into
32767 parts with slack 1.03, have capacity 1 and need 32769 parts; the part
counter of the fallback scan is a `short`, the run ends in `std::out_of_range`
with more than 32768 parts open and returns no assignment. -/
theorem forwardPartition_short_overflow :
    IsForest (isolatedForest 32769) ∧
      (∀ id, id < (isolatedForest 32769).size → ownWeight (isolatedForest 32769) false id ≤ 1) ∧
      maxComponent (forestCount (isolatedForest 32769) false) 32767 (103 / 100) = 1 ∧
      (∀ fuel, 2 ≤ fuel →
        forwardPartition sortDesc (isolatedForest 32769) false 1 fuel = .error .outOfRange) ∧
      (∀ fuel s, forwardPartition sortDesc (isolatedForest 32769) false 1 fuel ≠ .ok s) ∧
      ∀ fuel, 32771 ≤ fuel →
        ∃ P, forwardPartitionTraced sortDesc (isolatedForest 32769) false 1 fuel =
          .error (.outOfRange, P) ∧ 32768 < P := by
  refine ⟨isForest_isolated 32769, fun id _ => le_of_eq (ownWeight_isolated 32769 false id), ?_,
    fun fuel hfuel => (forwardPartition_isolated_fails sortDesc 32769 false (le_refl _) fuel).1 hfuel,
    fun fuel s => (forwardPartition_isolated_fails sortDesc 32769 false (le_refl _) fuel).2 s, ?_⟩
  · have h : forestCount (isolatedForest 32769) false = 32769 := rfl
    rw [h]
    exact maxComponent_unit_103 32769 32767 (by norm_num)
  · intro fuel hfuel
    rcases forwardPartitionTraced_any sortDesc sortDesc_perm (isolatedForest 32769) false 1 fuel
      (isForest_isolated 32769) (fun id _ => le_of_eq (ownWeight_isolated 32769 false id))
      hfuel with ⟨s, hs⟩ | h
    · exact absurd (ok_of_traced
        (dropTrace_forwardPartition sortDesc (isolatedForest 32769) false 1 fuel) hs)
        ((forwardPartition_isolated_fails sortDesc 32769 false (le_refl _) fuel).2 s)
    · exact h

/-- C3 (amended): every part identifier a completed `forwardPartition` assigns
lies in `[0, P)`, where `P` is the number of parts the run has opened (`P` is
not bounded by `num_parts`), and no node is left unassigned. -/
theorem forwardPartition_parts_opened (sortKids : (Nat → Nat) → List Nat → List Nat)
    (hsort : ∀ key l, (sortKids key l).Perm l) (jnodes : JNodeTable) (edge_balanced : Bool)
    (max_component fuel : Nat) (hforest : IsForest jnodes) (s : FwdState)
    (hrun : forwardPartition sortKids jnodes edge_balanced max_component fuel = .ok s) :
    s.parts.length = jnodes.size ∧
      ∀ c, c < jnodes.size →
        0 ≤ s.parts.getD c INVALID_PART ∧ s.parts.getD c INVALID_PART < s.part_size.length := by
  have inv := forwardPartition_final sortKids hsort jnodes edge_balanced max_component fuel
    hforest s hrun
  exact ⟨inv.len_parts, fun c hc => inv.resolved c (Nat.zero_le c) hc⟩

/-- Witness of C3: Scenario A, `num_parts = 2`, vertex-balanced, slack 1.0. The
capacity is 1, the run opens three parts of weight 1 each and the assignment
is `[0, 1, 2]`. -/
theorem forwardPartition_parts_opened_witness :
    maxComponent (forestCount scenarioA false) 2 1 = 1 ∧
      forwardPartition sortDesc scenarioA false 1 10 = .ok ⟨[0, 1, 2], [1, 1, 1], [1, 1, 1]⟩ ∧
      ([0, 1, 2] : List Int).length = scenarioA.size ∧
      ∀ c, c < scenarioA.size →
        0 ≤ ([0, 1, 2] : List Int).getD c INVALID_PART ∧
          ([0, 1, 2] : List Int).getD c INVALID_PART < (([1, 1, 1] : List Nat).length : Int) :=
  ⟨scenarioA_maxComponent, scenarioA_run,
    forwardPartition_parts_opened sortDesc sortDesc_perm scenarioA false 1 10 isForest_scenarioA
      ⟨[0, 1, 2], [1, 1, 1], [1, 1, 1]⟩ scenarioA_run⟩

/-- Counterexample to C3 as stated: on Scenario A the constructor with
`num_parts = 2`, vertex-balanced, slack 1.0 computes capacity 1 and assigns the
root the part identifier 2, which is not below `num_parts`. -/
theorem ofForest_scenarioA_three_parts :
    ∃ P, Partition.ofForest sortDesc 10 [0, 1, 2] scenarioA 2 false 1 = .ok P ∧
      P.num_parts = 2 ∧ P.max_component = 1 ∧ P.parts = [0, 1, 2] ∧
      ¬ P.parts.getD 2 INVALID_PART < P.num_parts := by
  have hre : remap [0, 1, 2] [0, 1, 2] = .ok [0, 1, 2] := rfl
  refine ⟨⟨2, [0, 1, 2], false, 1, 1⟩, ?_, rfl, rfl, rfl, by decide⟩
  have hcap : computeMaxComponent (forestCount scenarioA false) 2 1 = .ok 1 :=
    computeMaxComponent_one 3 2 (by norm_num) (by norm_num)
  unfold Partition.ofForest
  simp only [hcap, scenarioA_run, hre]
  rfl

/-- C4 (amended): for every total weight `W`, part count `k ≥ 1` and slack
`b ≥ 1` with `(W div k) * B < 2 ^ 53`, where `W div k` is the integer quotient
(rounded down before the multiplication) and `B` is the `double` nearest to
`b`, the constructors compute the capacity `floor (fl ((W div k) * B))`, `fl`
being rounding to the nearest `double`. It is `floor ((W div k) * B)` or that
plus one, it is `(W div k) * B` when that is an integer, it is at least
`W div k`, and for `b = 1` it is `W div k`. -/
theorem maxComponent_floor_of_quotient (W k : Nat) (b : ℚ) (hk : 1 ≤ k) (hb : 1 ≤ b)
    (hsmall : ((W / k : Nat) : ℚ) * roundDouble b < 2 ^ 53) :
    computeMaxComponent W k b = .ok (maxComponent W k b) ∧
      maxComponent W k b = ⌊roundDouble (((W / k : Nat) : ℚ) * roundDouble b)⌋₊ ∧
      W / k ≤ maxComponent W k b ∧
      ⌊((W / k : Nat) : ℚ) * roundDouble b⌋₊ ≤ maxComponent W k b ∧
      maxComponent W k b ≤ ⌊((W / k : Nat) : ℚ) * roundDouble b⌋₊ + 1 ∧
      (∀ n : Nat, ((W / k : Nat) : ℚ) * roundDouble b = n → maxComponent W k b = n) ∧
      (b = 1 → maxComponent W k b = W / k) :=
  maxComponent_bounds W k b hk hb hsmall

/-- Witness of C4: `W = 20`, `k = 1`, slack 1.15. The `double` nearest to 1.15
is below 1.15, the exact product with 20 is below 23 and rounds to the
`double` 23: the capacity is 23, one more than `floor (20 * B) = 22`. -/
theorem maxComponent_floor_of_quotient_witness :
    maxComponent 20 1 (115 / 100) = 23 ∧
      ⌊((20 / 1 : Nat) : ℚ) * roundDouble (115 / 100)⌋₊ = 22 ∧
      (computeMaxComponent 20 1 (115 / 100) = .ok (maxComponent 20 1 (115 / 100)) ∧
        maxComponent 20 1 (115 / 100) =
          ⌊roundDouble (((20 / 1 : Nat) : ℚ) * roundDouble (115 / 100))⌋₊ ∧
        20 / 1 ≤ maxComponent 20 1 (115 / 100) ∧
        ⌊((20 / 1 : Nat) : ℚ) * roundDouble (115 / 100)⌋₊ ≤ maxComponent 20 1 (115 / 100) ∧
        maxComponent 20 1 (115 / 100) ≤ ⌊((20 / 1 : Nat) : ℚ) * roundDouble (115 / 100)⌋₊ + 1 ∧
        (∀ n : Nat, ((20 / 1 : Nat) : ℚ) * roundDouble (115 / 100) = n →
          maxComponent 20 1 (115 / 100) = n) ∧
        ((115 / 100 : ℚ) = 1 → maxComponent 20 1 (115 / 100) = 20 / 1)) :=
  ⟨by unfold maxComponent; rw [capacityProduct_twenty]; norm_num,
    by rw [roundDouble_115]; norm_num [Nat.floor_eq_iff],
    maxComponent_floor_of_quotient 20 1 (115 / 100) (by norm_num) (by norm_num)
      (by rw [roundDouble_115]; norm_num)⟩

/-- Counterexample to C4 as stated. For `W = 3`, `k = 2`, slack `3 / 2` the
capacity is 1 while `floor (W / k * b) = floor (9 / 4) = 2`: the quotient is
the integer quotient. For `W = 100`, `k = 1`, slack 1.15 the capacity is 114
while `floor (W / k * b) = 115`: the product is taken with the `double`
nearest to 1.15. For `W = 2 ^ 53 + 1`, `k = 1`, slack 1 the capacity is
`2 ^ 53` while `floor (W / k * b) = 2 ^ 53 + 1`: the quotient itself is rounded
to a `double`. -/
theorem maxComponent_not_exact :
    maxComponent 3 2 (3 / 2) ≠ ⌊((3 : Nat) : ℚ) / ((2 : Nat) : ℚ) * (3 / 2 : ℚ)⌋₊ ∧
      maxComponent 100 1 (115 / 100) ≠
        ⌊((100 : Nat) : ℚ) / ((1 : Nat) : ℚ) * (115 / 100 : ℚ)⌋₊ ∧
      maxComponent (2 ^ 53 + 1) 1 1 ≠
        ⌊((2 ^ 53 + 1 : Nat) : ℚ) / ((1 : Nat) : ℚ) * (1 : ℚ)⌋₊ := by
  have h1 : maxComponent 3 2 (3 / 2) = 1 := by
    unfold maxComponent
    rw [capacityProduct_three_halves]
    norm_num [Nat.floor_eq_iff]
  have h2 : maxComponent 100 1 (115 / 100) = 114 := by
    unfold maxComponent
    rw [capacityProduct_hundred]
    norm_num [Nat.floor_eq_iff]
  have h3 : maxComponent (2 ^ 53 + 1) 1 1 = 9007199254740992 := by
    unfold maxComponent
    rw [capacityProduct_above_53]
    exact Nat.floor_natCast 9007199254740992
  have e1 : ⌊((3 : Nat) : ℚ) / ((2 : Nat) : ℚ) * (3 / 2 : ℚ)⌋₊ = 2 := by
    norm_num [Nat.floor_eq_iff]
  have e2 : ⌊((100 : Nat) : ℚ) / ((1 : Nat) : ℚ) * (115 / 100 : ℚ)⌋₊ = 115 := by
    norm_num [Nat.floor_eq_iff]
  have e3 : ⌊((2 ^ 53 + 1 : Nat) : ℚ) / ((1 : Nat) : ℚ) * (1 : ℚ)⌋₊ = 9007199254740993 := by
    norm_num [Nat.floor_eq_iff]
  rw [h1, h2, h3, e1, e2, e3]
  decide

/-- C5 (amended): `fennel(graph, seq)` does not read `seq`; it visits and
irrevocably assigns the vertices in the order of the graph's node iterator: its
result is the greedy assignment step applied to the vertices of
`graph.getNodeItr()` in that order. -/
theorem fennel_follows_node_iterator (cost : Nat → Nat → ℚ) (graph : GraphWrapper)
    (seq : List Nat) (num_parts : Nat) (edge_balanced : Bool) (max_component : Nat) :
    fennel cost graph seq num_parts edge_balanced max_component =
      greedyAlong cost graph graph.nodeItr num_parts edge_balanced max_component :=
  fennel_ignores_seq cost graph seq num_parts edge_balanced max_component

/-- Counterexample to C5 as stated: on two isolated vertices, two parts,
vertex-balanced with capacity 1, the sequence `[1, 0]` lists each vertex once,
yet `fennel` assigns vertex 0 first (parts `[0, 1]`) while the greedy step
applied along `[1, 0]` gives parts `[1, 0]`. -/
theorem fennel_not_along_sequence :
    List.Perm [1, 0] isolated2.nodeItr ∧
      fennel (fun _ _ => 0) isolated2 [1, 0] 2 false 1 ≠
        greedyAlong (fun _ _ => 0) isolated2 [1, 0] 2 false 1 := by
  refine ⟨isolated2_runs.1, ?_⟩
  rw [isolated2_runs.2.1, isolated2_runs.2.2]
  intro h
  simp at h

/-- C6: at every step of the graph-backed streaming partitioner (the run has
processed the vertices `pre` and now assigns `X`) at which some part in
`[0, num_parts)` satisfies the cap, the chosen part `c` satisfies the cap, its
score is maximal among all cap-satisfying parts in `[0, num_parts)`, also those
behind the empty part at which the scan stops, and every cap-satisfying part in
front of `c` scores strictly less; `cost` is any function of the part size and
the vertex weight. -/
theorem fennel_choice_optimal (cost : Nat → Nat → ℚ) (graph : GraphWrapper)
    (num_parts : Nat) (edge_balanced : Bool) (max_component : Nat) (pre : List Nat) (X : Nat)
    (s s1 : FennelState)
    (hrun : fennelLoop cost graph num_parts edge_balanced max_component pre
      { parts := List.replicate (graph.getMaxVid + 1) INVALID_PART
        part_size := List.replicate num_parts 0 } = .ok s)
    (hstep : fennelStep cost graph num_parts edge_balanced max_component s X = .ok s1)
    (hfit : ∃ p, p < num_parts ∧
      s.part_size.getD p 0 + vertexWeight graph edge_balanced X ≤ max_component) :
    ∃ (part_value : List Nat) (c : Nat),
      tally s.parts (graph.edgeItr X) (List.replicate num_parts 0) = .ok part_value ∧
      s1.parts = s.parts.set X (c : Int) ∧
      s1.part_size = s.part_size.set c (s.part_size.getD c 0 + vertexWeight graph edge_balanced X) ∧
      c < num_parts ∧
      s.part_size.getD c 0 + vertexWeight graph edge_balanced X ≤ max_component ∧
      (∀ p, p < num_parts →
        s.part_size.getD p 0 + vertexWeight graph edge_balanced X ≤ max_component →
        score cost part_value s.part_size (vertexWeight graph edge_balanced X) p ≤
          score cost part_value s.part_size (vertexWeight graph edge_balanced X) c) ∧
      (∀ p, p < c →
        s.part_size.getD p 0 + vertexWeight graph edge_balanced X ≤ max_component →
        score cost part_value s.part_size (vertexWeight graph edge_balanced X) p <
          score cost part_value s.part_size (vertexWeight graph edge_balanced X) c) :=
  chosen_part_best cost graph num_parts edge_balanced max_component pre X s s1 hrun hstep
    hfit

/-- Witness of C6: the first vertex of the 4-cycle, two parts, edge-balanced,
capacity 4; the scan stops at the empty part 0 although part 1 fits as well. -/
theorem fennel_choice_optimal_witness :
    ∃ (part_value : List Nat) (c : Nat),
      tally (List.replicate (cycle4.getMaxVid + 1) INVALID_PART) (cycle4.edgeItr 0)
        (List.replicate 2 0) = .ok part_value ∧
      ([0, -1, -1, -1] : List Int) =
        (List.replicate (cycle4.getMaxVid + 1) INVALID_PART).set 0 (c : Int) ∧
      ([2, 0] : List Nat) =
        (List.replicate 2 0).set c ((List.replicate 2 0).getD c 0 + vertexWeight cycle4 true 0) ∧
      c < 2 ∧
      (List.replicate 2 0).getD c 0 + vertexWeight cycle4 true 0 ≤ 4 ∧
      (∀ p, p < 2 → (List.replicate 2 0).getD p 0 + vertexWeight cycle4 true 0 ≤ 4 →
        score (fun _ _ => 0) part_value (List.replicate 2 0) (vertexWeight cycle4 true 0) p ≤
          score (fun _ _ => 0) part_value (List.replicate 2 0) (vertexWeight cycle4 true 0) c) ∧
      (∀ p, p < c → (List.replicate 2 0).getD p 0 + vertexWeight cycle4 true 0 ≤ 4 →
        score (fun _ _ => 0) part_value (List.replicate 2 0) (vertexWeight cycle4 true 0) p <
          score (fun _ _ => 0) part_value (List.replicate 2 0) (vertexWeight cycle4 true 0) c) :=
  fennel_choice_optimal (fun _ _ => 0) cycle4 2 true 4 [] 0
    ⟨List.replicate (cycle4.getMaxVid + 1) INVALID_PART, List.replicate 2 0⟩
    ⟨[0, -1, -1, -1], [2, 0]⟩ rfl rfl ⟨0, by decide, by decide⟩

/-- C7 (failing input): three vertices without edges, two parts, vertex-balanced,
slack 1.03. The capacity is 1; the third vertex fits nowhere, `max_part` keeps
its initial value 0, and part 0 ends with two vertices, above the capacity. -/
theorem fennel_overfills_part (cost : Nat → Nat → ℚ) :
    ∃ P, Partition.ofGraph cost isolated3 [0, 1, 2] 2 false (103 / 100) = .ok P ∧
      P.max_component = 1 ∧ P.parts = [0, 1, 0] ∧
      P.max_component <
        (([0, 1, 2] : List Nat).filter (fun X => P.parts.getD X INVALID_PART = 0)).length := by
  obtain ⟨P, h1, h2, h3, h4⟩ := ofGraph_isolated3 cost
  exact ⟨P, h1, h2, h3, by rw [h2]; exact h4⟩

/-- C8: for every sequence `seq` of pairwise distinct vertex ids (not empty, so
that its maximum `m` exists) and every forest-indexed assignment `P` with
`|seq| ≤ |P|`, the remapped assignment `R` has length `m + 1`, satisfies
`R[seq[i]] = P[i]` for every `i < |seq|`, and holds the sentinel at every index
that does not occur in `seq`; the file constructor stores exactly `R`. -/
theorem remap_through_sequence (seq : List Nat) (P : List Int) (hne : seq ≠ [])
    (hdistinct : seq.Nodup) (hlen : seq.length ≤ P.length) :
    ∃ R m, remap seq P = .ok R ∧ m ∈ seq ∧ (∀ v ∈ seq, v ≤ m) ∧ R.length = m + 1 ∧
      (∀ i (hi : i < seq.length), R[seq[i]]? = P[i]?) ∧
      (∀ v, v < R.length → v ∉ seq → R[v]? = some INVALID_PART) ∧
      (∃ Q, Partition.ofFile seq P = .ok Q ∧ Q.parts = R) := by
  obtain ⟨R, m, hR, hm, hmax, hRl, hRs, hRo⟩ := remap_spec seq P hne hdistinct hlen
  refine ⟨R, m, hR, hm, hmax, hRl, ?_, hRo, ?_⟩
  · intro i hi
    have := hRs i hi
    rwa [List.getD_eq_getElem _ _ hi] at this
  · cases P with
    | nil =>
      cases seq with
      | nil => exact absurd rfl hne
      | cons _ _ => simp at hlen
    | cons p ps =>
      unfold Partition.ofFile
      simp only [hR]
      exact ⟨_, rfl, rfl⟩

/-- Witness of C8 (Scenario D): loaded values `[0, 0, 1, 1]` with the sequence
`[0, 1, 2, 3]` give `[0, 0, 1, 1]`. -/
theorem remap_through_sequence_witness :
    remap [0, 1, 2, 3] [0, 0, 1, 1] = .ok [0, 0, 1, 1] ∧
      ∃ R m, remap [0, 1, 2, 3] [0, 0, 1, 1] = .ok R ∧ m ∈ [0, 1, 2, 3] ∧
        (∀ v ∈ [0, 1, 2, 3], v ≤ m) ∧ R.length = m + 1 ∧
        (∀ i (hi : i < [0, 1, 2, 3].length), R[[0, 1, 2, 3][i]]? = ([0, 0, 1, 1] : List Int)[i]?) ∧
        (∀ v, v < R.length → v ∉ [0, 1, 2, 3] → R[v]? = some INVALID_PART) ∧
        (∃ Q, Partition.ofFile [0, 1, 2, 3] [0, 0, 1, 1] = .ok Q ∧ Q.parts = R) :=
  ⟨remap_scenarioD,
    remap_through_sequence [0, 1, 2, 3] [0, 0, 1, 1] (by decide) (by decide) (by decide)⟩

/-- C9: for every undirected graph given as symmetric adjacency lists without
duplicate entries (and a node iterator without repetition) and every assignment
with no sentinel on its vertices, `evaluate` completes and its edge cut is the
number of unordered pairs `{X, Y}` of adjacent vertices with different parts. -/
theorem evaluate_edges_cut (graph : GraphWrapper) (parts : List Int)
    (hnodes : graph.nodeItr.Nodup)
    (hadj : ∀ X ∈ graph.nodeItr, (graph.edgeItr X).Nodup)
    (hsym : ∀ X ∈ graph.nodeItr, ∀ Y ∈ graph.edgeItr X,
      Y ∈ graph.nodeItr ∧ X ∈ graph.edgeItr Y)
    (hparts : ∀ X ∈ graph.nodeItr,
      X < parts.length ∧ parts.getD X INVALID_PART ≠ INVALID_PART) :
    ∃ m, evaluate graph parts = .ok m ∧ m.edges_cut = (cutEdgeSet graph parts).card := by
  have hX : ∀ X ∈ graph.nodeItr, ∃ q, parts[X]? = some q ∧ q ≠ INVALID_PART := by
    intro X hXm
    obtain ⟨h1, h2⟩ := hparts X hXm
    refine ⟨parts.getD X INVALID_PART, ?_, h2⟩
    rw [List.getD_eq_getElem?_getD, List.getElem?_eq_getElem h1]
    rfl
  obtain ⟨m, hm, hcut⟩ := evalNodes_cut graph parts graph.nodeItr ⟨0, 0, 0⟩ hX
    (fun X hXm Y hY => hX Y (hsym X hXm Y hY).1)
  refine ⟨m, hm, ?_⟩
  rw [hcut, cutEdgeSet_card graph parts hnodes hadj hsym]
  simp

/-- Witness of C9 (Scenario C): the path 0-1-2 with assignment `[0, 0, 1]` has
edge cut 1. -/
theorem evaluate_edges_cut_witness :
    (cutEdgeSet path3 [0, 0, 1]).card = 1 ∧
      ∃ m, evaluate path3 [0, 0, 1] = .ok m ∧ m.edges_cut = (cutEdgeSet path3 [0, 0, 1]).card :=
  ⟨by decide,
    evaluate_edges_cut path3 [0, 0, 1] (by decide) (by decide) (by decide) (by decide)⟩

/-- C10 (amended): evaluating the path 0-1-2 with assignment `[0, 0, 1]` yields
edge cut 1 and vertex communication volume 2: vertex 0 sees only its own part
and contributes 0, vertex 1 sees parts 0 and 1 and contributes 1, and vertex 2
(part 1, neighbour 1 in part 0) sees two parts as well and contributes 1. -/
theorem evaluate_path3_volume :
    evaluate path3 [0, 0, 1] = .ok ⟨1, 2, 1⟩ ∧
      (evalVertex path3 [0, 0, 1] 0 0).map (fun a => a.Vcom_vol_nbrs.card - 1) = .ok 0 ∧
      (evalVertex path3 [0, 0, 1] 0 1).map (fun a => a.Vcom_vol_nbrs.card - 1) = .ok 1 ∧
      (evalVertex path3 [0, 0, 1] 0 2).map (fun a => a.Vcom_vol_nbrs.card - 1) = .ok 1 :=
  ⟨rfl, rfl, rfl, rfl⟩

/-- Counterexample to C10 as stated: the vertex communication volume of the
path 0-1-2 under `[0, 0, 1]` is not 1, and vertex 2 does not contribute 0. -/
theorem path3_volume_is_not_one :
    (evaluate path3 [0, 0, 1]).map (fun m => m.Vcom_vol) ≠ .ok 1 ∧
      (evalVertex path3 [0, 0, 1] 0 2).map (fun a => a.Vcom_vol_nbrs.card - 1) ≠ .ok 0 := by
  have h1 : (evaluate path3 [0, 0, 1]).map (fun m => m.Vcom_vol) = .ok 2 := rfl
  have h2 : (evalVertex path3 [0, 0, 1] 0 2).map (fun a => a.Vcom_vol_nbrs.card - 1) = .ok 1 := rfl
  rw [h1, h2]
  constructor <;> intro h <;> simp at h

/-! ### A single part (C11) -/

theorem evalEdges_single (parts : List Int) (X : Nat) (q : Int) (nbrs : List Nat)
    (acc : VertexAcc) (hq : q ≠ INVALID_PART) (hp : ∀ Y ∈ nbrs, parts[Y]? = some q)
    (hacc : acc.Vcom_vol_nbrs = {q}) :
    ∃ acc1, evalEdges parts X q nbrs acc = .ok acc1 ∧ acc1.edges_cut = acc.edges_cut ∧
      acc1.Vcom_vol_nbrs = {q} := by
  induction nbrs generalizing acc with
  | nil => exact ⟨acc, rfl, rfl, hacc⟩
  | cons Y rest ih =>
    have hY : parts[Y]? = some q := hp Y (List.mem_cons_self _ _)
    simp only [evalEdges, hY, hq, if_false]
    obtain ⟨acc1, h1, h2, h3⟩ := ih
      { edges_cut := if X < Y ∧ q ≠ q then acc.edges_cut + 1 else acc.edges_cut
        Vcom_vol_nbrs := insert q acc.Vcom_vol_nbrs
        ECV_hash_nbrs := insert (if knuth_hash X < knuth_hash Y then q else q) acc.ECV_hash_nbrs }
      (fun Z hZ => hp Z (List.mem_cons_of_mem _ hZ)) (by simp [hacc])
    refine ⟨acc1, h1, ?_, h3⟩
    rw [h2]
    simp

theorem evalNodes_single (graph : GraphWrapper) (parts : List Int) (q : Int) (nodes : List Nat)
    (m : Metrics) (hq : q ≠ INVALID_PART) (hX : ∀ X ∈ nodes, parts[X]? = some q)
    (hY : ∀ X ∈ nodes, ∀ Y ∈ graph.edgeItr X, parts[Y]? = some q)
    (hm : m.edges_cut = 0 ∧ m.Vcom_vol = 0) :
    ∃ m1, evalNodes graph parts nodes m = .ok m1 ∧ m1.edges_cut = 0 ∧ m1.Vcom_vol = 0 := by
  induction nodes generalizing m with
  | nil => exact ⟨m, rfl, hm⟩
  | cons X rest ih =>
    have hXq : parts[X]? = some q := hX X (List.mem_cons_self _ _)
    obtain ⟨acc1, h1, h2, h3⟩ := evalEdges_single parts X q (graph.edgeItr X)
      { edges_cut := m.edges_cut, Vcom_vol_nbrs := {q}, ECV_hash_nbrs := ∅ } hq
      (hY X (List.mem_cons_self _ _)) rfl
    simp only [evalNodes, evalVertex, hXq, hq, if_false, h1]
    apply ih
    · intro Z hZ; exact hX Z (List.mem_cons_of_mem _ hZ)
    · intro Z hZ; exact hY Z (List.mem_cons_of_mem _ hZ)
    · refine ⟨by rw [h2]; exact hm.1, ?_⟩
      show wrap64 (m.Vcom_vol + wrap64 ((acc1.Vcom_vol_nbrs.card : Int) - 1)) = 0
      rw [h3, hm.2, Finset.card_singleton]
      decide

/-! ### The maximum of the loaded parts (C14) -/

theorem foldl_max_int (xs : List Int) (x : Int) :
    x ≤ xs.foldl max x ∧ (∀ v ∈ xs, v ≤ xs.foldl max x) ∧
      (xs.foldl max x = x ∨ xs.foldl max x ∈ xs) := by
  induction xs generalizing x with
  | nil => simp
  | cons y ys ih =>
    obtain ⟨h1, h2, h3⟩ := ih (max x y)
    simp only [List.foldl_cons, List.mem_cons]
    refine ⟨le_trans (le_max_left x y) h1, ?_, ?_⟩
    · intro v hv
      rcases hv with rfl | hv
      · exact le_trans (le_max_right x v) h1
      · exact h2 v hv
    · rcases h3 with h3 | h3
      · rcases max_choice x y with hxy | hxy
        · left; rw [h3, hxy]
        · right; left; rw [h3, hxy]
      · right; right; exact h3

theorem remapLoop_total (parts : List Int) (seq : List Nat) (i : Nat) (tmp : List Int)
    (hlen : i + seq.length ≤ parts.length) (hin : ∀ v ∈ seq, v < tmp.length) :
    ∃ R, remapLoop parts seq i tmp = .ok R := by
  induction seq generalizing i tmp with
  | nil => exact ⟨tmp, rfl⟩
  | cons v rest ih =>
    have hv : v < tmp.length := hin v (List.mem_cons_self _ _)
    have hi : i < parts.length := by simp at hlen; omega
    simp only [remapLoop, List.getElem?_eq_getElem hi, hv, if_true]
    apply ih
    · simp at hlen ⊢; omega
    · intro u hu; simp; exact hin u (List.mem_cons_of_mem _ hu)

theorem remap_total (seq : List Nat) (P : List Int) (hne : seq ≠ [])
    (hlen : seq.length ≤ P.length) : ∃ R, remap seq P = .ok R := by
  obtain ⟨m, hm, _, hmax⟩ := maxElement_spec seq hne
  simp only [remap, hm]
  apply remapLoop_total
  · omega
  · intro v hv; have := hmax v hv; simp; omega

/-! ### The multiplicative hash (C20) -/

theorem knuth_hash_inverse (k : Nat) (hk : k < 4294967296) :
    knuth_hash k * 244002641 % 4294967296 = k := by
  unfold knuth_hash
  rw [Nat.mod_eq_of_lt hk, Nat.mod_mul_mod, Nat.mul_assoc]
  have h : 2654435761 * 244002641 = 150801925 * 4294967296 + 1 := by norm_num
  rw [h]
  have h2 : k * (150801925 * 4294967296 + 1) = k + 4294967296 * (k * 150801925) := by ring
  rw [h2, Nat.add_mul_mod_self_left, Nat.mod_eq_of_lt hk]

theorem knuth_hash_cancel (X Y : Nat) (hX : X < 4294967296) (hY : Y < 4294967296)
    (h : knuth_hash X = knuth_hash Y) : X = Y := by
  rw [← knuth_hash_inverse X hX, ← knuth_hash_inverse Y hY, h]

/-! ### A node heavier than the capacity (C13) -/

theorem packLoop_heavy_leaf (fuel : Nat) (s : FwdState) (h : s.component_below = [1]) :
    packLoop 0 0 [] fuel s = .error .outOfFuel := by
  induction fuel generalizing s with
  | zero => rfl
  | succ n ih =>
    have hk : packKids 0 0 [] s = .ok s := by simp [packKids, h]
    rw [packLoop, hk]
    simp only [h, List.getElem?_cons_zero]
    exact ih _ rfl

theorem isolated1_heavy (fuel : Nat) :
    forwardPartition sortDesc (isolatedForest 1) false 0 fuel = .error .outOfFuel := by
  have h := packLoop_heavy_leaf fuel
    { parts := [INVALID_PART], component_below := [1], part_size := [] } rfl
  simp only [forwardPartition, firstPass, forwardStep, packPhase, isolatedForest, ownWeight,
    sortDesc, List.replicate]
  simp [h]

/-! ### The file-backed tally (C19) -/

theorem fileTally_skipped (touches_part : List Bool) (num_parts X Y : Nat) (pv : List Nat) :
    fileTally touches_part num_parts num_parts X Y shortPeriod 0 pv = .ok pv := by
  rw [shortPeriod_eq]
  simp [fileTally]

theorem fileCapacity_two : maxComponent fileEdgeCount 2 (103 / 100) = 17860811 := by
  unfold maxComponent
  rw [capacityProduct_file]
  norm_num [Nat.floor_eq_iff]

theorem choosePart_fresh2 (cost : Nat → Nat → ℚ) (mc : Nat) (hmc : 1 ≤ mc) (pv : List Nat) :
    choosePart cost 2 mc 1 pv [0, 0] = 0 := by
  have h : ¬ (0 + 1 > mc) := by omega
  simp only [choosePart, fennelScan, List.getD_cons_zero, h, if_false, if_true, ite_self]

theorem fileStep_first (cost : Nat → Nat → ℚ) (X Y : Nat) (hX : X ≤ fileMaxVid) :
    fileStep cost 2 2 (maxComponent fileEdgeCount 2 (103 / 100))
        { parts := List.replicate (fileEdgeCount + 1) INVALID_PART
          part_size := List.replicate 2 0
          touches_part := List.replicate (2 * (fileMaxVid + 1)) false } 0 (X, Y) =
      .ok { parts := (List.replicate (fileEdgeCount + 1) INVALID_PART).set 0 0
            part_size := [1, 0]
            touches_part :=
              ((List.replicate (2 * (fileMaxVid + 1)) false).set (2 * X + 0) true).set
                (2 * X + 0) true } := by
  have hc : choosePart cost 2 (maxComponent fileEdgeCount 2 (103 / 100)) 1 (List.replicate 2 0)
      (List.replicate 2 0) = 0 :=
    choosePart_fresh2 cost _ (by rw [fileCapacity_two]; omega) _
  have h1 : 0 < (List.replicate (fileEdgeCount + 1) INVALID_PART).length ∧
      0 < (List.replicate 2 0).length := by simp
  have h2 : 2 * X + 0 < (List.replicate (2 * (fileMaxVid + 1)) false).length := by
    simp only [List.length_replicate]; omega
  simp only [fileStep, fileTally_skipped, hc, h1, h2, and_self, if_true]
  rfl

/-! ### The output writer (C12) -/

theorem maxPart_spec (parts : List Int) (hne : parts ≠ []) :
    ∃ m, maxPart parts = some m ∧ m ∈ parts ∧ ∀ z ∈ parts, z ≤ m := by
  cases parts with
  | nil => exact absurd rfl hne
  | cons x xs =>
    obtain ⟨h1, h2, h3⟩ := foldl_max_int xs x
    refine ⟨xs.foldl max x, rfl, ?_, ?_⟩
    · rcases h3 with h3 | h3
      · rw [h3]; exact List.mem_cons_self _ _
      · exact List.mem_cons_of_mem _ h3
    · intro v hv
      rcases List.mem_cons.mp hv with rfl | hv
      · exact h1
      · exact h2 v hv

theorem openStreams_spec (max_part : Int) (m : Nat) (hm : max_part + 1 = (m : Int))
    (hm100 : m ≤ 100) (fuel i : Nat) (streams : List EdgeLines) (hi : i ≤ m)
    (hfuel : m - i < fuel) :
    openStreams max_part fuel (i : Int) streams = .ok (streams ++ List.replicate (m - i) []) := by
  induction fuel generalizing i streams with
  | zero => omega
  | succ n ih =>
    rw [openStreams]
    by_cases him : i = m
    · subst him
      rw [if_pos hm.symm]
      simp
    · have hne : ¬ ((i : Int) = max_part + 1) := by omega
      rw [if_neg hne]
      have hs : toShort ((i : Int) + 1) = ((i + 1 : Nat) : Int) := by
        unfold toShort; omega
      rw [hs, ih (i + 1) _ (by omega) (by omega)]
      have hr : m - i = (m - (i + 1)) + 1 := by omega
      rw [hr, List.replicate_succ]
      simp

theorem posLoop_spec (seq : List Nat) (i : Nat) (pos : List (Option Nat)) (hnd : seq.Nodup)
    (hin : ∀ v ∈ seq, v < pos.length) :
    (posLoop seq i pos).length = pos.length ∧
      (∀ v ∈ seq, (posLoop seq i pos)[v]? = some (some (i + seq.indexOf v))) ∧
      (∀ v, v ∉ seq → (posLoop seq i pos)[v]? = pos[v]?) := by
  induction seq generalizing i pos with
  | nil => exact ⟨rfl, by simp, by simp [posLoop]⟩
  | cons v rest ih =>
    have hv : v < pos.length := hin v (List.mem_cons_self _ _)
    obtain ⟨hvn, hnd'⟩ := List.nodup_cons.mp hnd
    obtain ⟨h1, h2, h3⟩ := ih (i + 1) (pos.set v (some i)) hnd'
      (by intro u hu; simp; exact hin u (List.mem_cons_of_mem _ hu))
    rw [posLoop]
    refine ⟨by rw [h1]; simp, ?_, ?_⟩
    · intro u hu
      rcases List.mem_cons.mp hu with rfl | hu'
      · rw [h3 u hvn, List.getElem?_set_self hv, List.indexOf_cons_self]
        rfl
      · have hne : v ≠ u := fun h => hvn (h ▸ hu')
        rw [h2 u hu', List.indexOf_cons_ne _ hne]
        congr 2
        omega
    · intro u hu
      have hu1 : u ≠ v := fun h => hu (h ▸ List.mem_cons_self _ _)
      have hu2 : u ∉ rest := fun h => hu (List.mem_cons_of_mem _ h)
      rw [h3 u hu2, List.getElem?_set_ne (Ne.symm hu1)]

theorem buildPos_spec (seq : List Nat) (hne : seq ≠ []) (hnd : seq.Nodup) :
    ∃ pos, buildPos seq = .ok pos ∧ ∀ v ∈ seq, pos[v]? = some (some (seq.indexOf v)) := by
  obtain ⟨m, hm, _, hmax⟩ := maxElement_spec seq hne
  obtain ⟨_, h2, _⟩ := posLoop_spec seq 0 (List.replicate (m + 1) none) hnd
    (by intro v hv; have := hmax v hv; simp; omega)
  refine ⟨posLoop seq 0 (List.replicate (m + 1) none), by simp only [buildPos, hm], ?_⟩
  intro v hv
  rw [h2 v hv, Nat.zero_add]

theorem writeEdges_spec (parts : List Int) (pos : List (Option Nat)) (X : Nat)
    (X_pos : Option Nat) (X_part : Int) (own : Nat → Int) (nbrs : List Nat)
    (streams : List EdgeLines)
    (h : ∀ Y ∈ nbrs, X < Y → ∃ Yp Ypart, pos[Y]? = some Yp ∧ parts[Y]? = some Ypart ∧
      Ypart ≠ INVALID_PART ∧ (if posLt X_pos Yp = true then X_part else Ypart) = own Y ∧
      0 ≤ own Y ∧ (own Y).toNat < streams.length) :
    ∃ st, writeEdges parts pos X X_pos X_part nbrs streams = .ok st ∧
      st.length = streams.length ∧
      ∀ p : Nat, p < streams.length → st.getD p [] = streams.getD p [] ++
        (nbrs.filter (fun Y => decide (X < Y ∧ own Y = (p : Int)))).map (fun Y => (X, Y)) := by
  induction nbrs generalizing streams with
  | nil => exact ⟨streams, rfl, rfl, by simp⟩
  | cons Y rest ih =>
    rw [writeEdges]
    by_cases hXY : X ≥ Y
    · rw [if_pos hXY]
      obtain ⟨st, h1, h2, h3⟩ := ih streams
        (fun Z hZ hXZ => h Z (List.mem_cons_of_mem _ hZ) hXZ)
      refine ⟨st, h1, h2, ?_⟩
      intro p hp
      rw [h3 p hp, List.filter_cons_of_neg (by simp; omega)]
    · rw [if_neg hXY]
      obtain ⟨Yp, Ypart, hYp, hYpart, hYinv, hown, hown0, hownL⟩ :=
        h Y (List.mem_cons_self _ _) (by omega)
      simp only [hYp, hYpart, hYinv, if_false, hown, hown0, hownL, and_self, if_true]
      obtain ⟨st, h1, h2, h3⟩ := ih
        (streams.set (own Y).toNat (streams.getD (own Y).toNat [] ++ [(X, Y)]))
        (by
          intro Z hZ hXZ
          obtain ⟨a, b, c1, c2, c3, c4, c5, c6⟩ := h Z (List.mem_cons_of_mem _ hZ) hXZ
          exact ⟨a, b, c1, c2, c3, c4, c5, by simpa using c6⟩)
      refine ⟨st, h1, by rw [h2]; simp, ?_⟩
      intro p hp
      rw [h3 p (by simpa using hp)]
      by_cases hpk : own Y = (p : Int)
      · have hk : (own Y).toNat = p := by omega
        rw [hk, getD_set_self' _ _ _ _ hp,
          List.filter_cons_of_pos (by simp; exact ⟨by omega, hpk⟩)]
        simp
      · have hk : (own Y).toNat ≠ p := by omega
        rw [getD_set_ne' _ _ _ _ _ hk, List.filter_cons_of_neg (by simp; intro _; exact hpk)]

theorem writeNodes_spec (graph : GraphWrapper) (parts : List Int) (pos : List (Option Nat))
    (own : Nat → Nat → Int) (nodes : List Nat) (streams : List EdgeLines)
    (hX : ∀ X ∈ nodes, ∃ Xp Xpart, pos[X]? = some Xp ∧ parts[X]? = some Xpart ∧
      Xpart ≠ INVALID_PART ∧
      ∀ Y ∈ graph.edgeItr X, X < Y → ∃ Yp Ypart, pos[Y]? = some Yp ∧ parts[Y]? = some Ypart ∧
        Ypart ≠ INVALID_PART ∧ (if posLt Xp Yp = true then Xpart else Ypart) = own X Y ∧
        0 ≤ own X Y ∧ (own X Y).toNat < streams.length) :
    ∃ st, writeNodes graph parts pos nodes streams = .ok st ∧
      st.length = streams.length ∧
      ∀ p : Nat, p < streams.length → st.getD p [] = streams.getD p [] ++
        nodes.flatMap (fun X =>
          ((graph.edgeItr X).filter (fun Y => decide (X < Y ∧ own X Y = (p : Int)))).map
            (fun Y => (X, Y))) := by
  induction nodes generalizing streams with
  | nil => exact ⟨streams, rfl, rfl, by simp⟩
  | cons X rest ih =>
    obtain ⟨Xp, Xpart, hXp, hXpart, hXinv, hY⟩ := hX X (List.mem_cons_self _ _)
    obtain ⟨st1, e1, e2, e3⟩ := writeEdges_spec parts pos X Xp Xpart (own X) (graph.edgeItr X)
      streams hY
    simp only [writeNodes, hXp, hXpart, hXinv, if_false, e1]
    obtain ⟨st, h1, h2, h3⟩ := ih st1 (by
      intro Z hZ
      obtain ⟨a, b, c1, c2, c3, c4⟩ := hX Z (List.mem_cons_of_mem _ hZ)
      refine ⟨a, b, c1, c2, c3, ?_⟩
      intro Y hYm hZY
      obtain ⟨d1, d2, d3, d4, d5, d6, d7, d8⟩ := c4 Y hYm hZY
      exact ⟨d1, d2, d3, d4, d5, d6, d7, by rw [e2]; exact d8⟩)
    refine ⟨st, h1, by rw [h2, e2], ?_⟩
    intro p hp
    rw [h3 p (by rw [e2]; exact hp), e3 p hp, List.flatMap_cons, List.append_assoc]

theorem mem_linesOf (graph : GraphWrapper) (seq : List Nat) (parts : List Int) (p : Nat)
    (e : Nat × Nat) :
    e ∈ linesOf graph seq parts p ↔
      e.1 ∈ graph.nodeItr ∧ e.2 ∈ graph.edgeItr e.1 ∧ e.1 < e.2 ∧
        ownerPart seq parts e.1 e.2 = (p : Int) := by
  unfold linesOf
  simp only [List.mem_flatMap, List.mem_map, List.mem_filter, decide_eq_true_eq]
  constructor
  · rintro ⟨X, hX, Y, ⟨hY, hlt, hown⟩, rfl⟩
    exact ⟨hX, hY, hlt, hown⟩
  · rintro ⟨h1, h2, h3, h4⟩
    exact ⟨e.1, h1, e.2, ⟨h2, h3, h4⟩, rfl⟩

theorem nodup_linesOf (graph : GraphWrapper) (seq : List Nat) (parts : List Int) (p : Nat)
    (hnodes : graph.nodeItr.Nodup) (hadj : ∀ X ∈ graph.nodeItr, (graph.edgeItr X).Nodup) :
    (linesOf graph seq parts p).Nodup := by
  unfold linesOf
  rw [List.nodup_flatMap]
  refine ⟨?_, ?_⟩
  · intro X hX
    apply List.Nodup.map
    · intro a b hab
      exact (Prod.mk.injEq _ _ _ _ ▸ hab : X = X ∧ a = b).2
    · exact (hadj X hX).filter _
  · apply List.Pairwise.imp _ hnodes
    intro a b hab
    intro e he1 he2
    simp only [List.mem_map] at he1 he2
    obtain ⟨y1, _, rfl⟩ := he1
    obtain ⟨y2, _, h2⟩ := he2
    exact hab (Prod.mk.inj h2).1.symm

/-! ### Subtree weights of `backwardPartition` -/

theorem subtreeInv_init (jn : JNodeTable) (eb : Bool) :
    SubtreeInv jn eb 0 (List.replicate jn.size 0) := by
  refine ⟨by simp, ?_⟩
  intro k hk
  simp [List.getD_eq_getElem?_getD, List.getElem?_replicate, hk]

theorem subtreeInv_step (jn : JNodeTable) (eb : Bool) (b : Nat) (cb cb1 : List Nat)
    (hF : IsForest jn) (hb : b < jn.size) (inv : SubtreeInv jn eb b cb)
    (hlen : cb1.length = jn.size)
    (hb1 : cb1.getD b 0 = cb.getD b 0 + ownWeight jn eb b)
    (hp1 : ∀ p, jn.parent b = some p → p < jn.size →
      cb1.getD p 0 = cb.getD p 0 + (cb.getD b 0 + ownWeight jn eb b))
    (hother : ∀ k, k ≠ b → jn.parent b ≠ some k → cb1.getD k 0 = cb.getD k 0) :
    SubtreeInv jn eb (b + 1) cb1 := by
  obtain ⟨_, hcb⟩ := inv
  refine ⟨hlen, ?_⟩
  intro k hk
  have hnb : jn.parent b ≠ some b := fun h => by
    have := hF.child_before_parent b b h
    omega
  have hsum : ∑ c ∈ Finset.range b, (if jn.parent c = some k then cb1.getD c 0 else 0) =
      ∑ c ∈ Finset.range b, (if jn.parent c = some k then cb.getD c 0 else 0) := by
    apply sum_range_congr
    intro c hc
    have hcb' : jn.parent b ≠ some c := fun h => by
      have := hF.child_before_parent b c h
      omega
    rw [hother c (by omega) hcb']
  rw [Finset.sum_range_succ, hsum]
  by_cases hkb : k = b
  · subst hkb
    rw [hb1, hcb k hk, if_neg hnb, if_neg (by omega), if_pos (by omega)]
    omega
  · by_cases hpk : jn.parent b = some k
    · have hbk : b < k := hF.child_before_parent b k hpk
      rw [hp1 k hpk hk, hcb k hk, if_pos hpk, hb1, if_neg (by omega), if_neg (by omega)]
      omega
    · rw [hother k hkb hpk, hcb k hk, if_neg hpk]
      have h1 : (k < b) ↔ (k < b + 1) := by omega
      simp only [h1, Nat.add_zero]

theorem subtreeWeights_inv (jn : JNodeTable) (eb : Bool) (hF : IsForest jn) (k b : Nat)
    (cb cb1 : List Nat) (inv : SubtreeInv jn eb b cb) (hbk : b + k = jn.size)
    (h : subtreeWeights jn eb k b cb = .ok cb1) : SubtreeInv jn eb jn.size cb1 := by
  induction k generalizing b cb with
  | zero =>
    simp only [subtreeWeights, Except.ok.injEq] at h
    have hb : b = jn.size := by omega
    rw [← h, ← hb]
    exact inv
  | succ n ih =>
    have hb : b < jn.size := by omega
    have hbl : b < cb.length := by rw [inv.1]; exact hb
    rw [subtreeWeights] at h
    simp only [List.getElem?_eq_getElem hbl] at h
    have hgb : cb[b] = cb.getD b 0 := by
      rw [List.getD_eq_getElem?_getD, List.getElem?_eq_getElem hbl]; rfl
    rw [hgb] at h
    cases hp : jn.parent b with
    | none =>
      simp only [hp] at h
      refine ih (b + 1) _ ?_ (by omega) h
      apply subtreeInv_step jn eb b cb _ hF hb inv
      · simp [inv.1]
      · exact getD_set_self' _ _ _ _ hbl
      · intro p hp'; rw [hp] at hp'; simp at hp'
      · intro k hk _
        exact getD_set_ne' _ _ _ _ _ (Ne.symm hk)
    | some p =>
      simp only [hp] at h
      have hbp : b < p := hF.child_before_parent b p hp
      have hpn : p < jn.size := hF.parent_lt b p hb hp
      have hpl : p < (cb.set b (cb.getD b 0 + ownWeight jn eb b)).length := by
        simp [inv.1]; exact hpn
      simp only [List.getElem?_eq_getElem hpl] at h
      refine ih (b + 1) _ ?_ (by omega) h
      have e1 : (cb.set b (cb.getD b 0 + ownWeight jn eb b)).getD b 0 =
          cb.getD b 0 + ownWeight jn eb b := getD_set_self' _ _ _ _ hbl
      have e2 : (cb.set b (cb.getD b 0 + ownWeight jn eb b))[p] = cb.getD p 0 := by
        rw [List.getElem_set_ne (by omega)]
        exact (List.getD_eq_getElem cb 0 (by rw [inv.1]; exact hpn)).symm
      apply subtreeInv_step jn eb b cb _ hF hb inv
      · simp [inv.1]
      · rw [getD_set_ne' _ _ _ _ _ (by omega : p ≠ b), e1]
      · intro q hq _
        rw [hp] at hq
        have hqp : p = q := Option.some.inj hq
        subst hqp
        rw [getD_set_self' _ _ _ _ hpl, e1, e2]
      · intro k hk hkp
        have hkp' : p ≠ k := fun h => hkp (by rw [hp, h])
        rw [getD_set_ne' _ _ _ _ _ hkp', getD_set_ne' _ _ _ _ _ (Ne.symm hk)]

/-! ### Descent along the critical chain -/

theorem argMax_foldl_mem (key : Nat → Nat) (xs : List Nat) (x : Nat) :
    xs.foldl (fun best y => if key best < key y then y else best) x ∈ x :: xs := by
  induction xs generalizing x with
  | nil => simp
  | cons y ys ih =>
    simp only [List.foldl_cons]
    have := ih (if key x < key y then y else x)
    rcases List.mem_cons.mp this with h | h
    · rw [h]
      split
      · exact List.mem_cons_of_mem _ (List.mem_cons_self _ _)
      · exact List.mem_cons_self _ _
    · exact List.mem_cons_of_mem _ (List.mem_cons_of_mem _ h)

theorem argMax_mem (key : Nat → Nat) (l : List Nat) (c : Nat) (h : argMax key l = some c) :
    c ∈ l := by
  cases l with
  | nil => simp [argMax] at h
  | cons x xs =>
    simp only [argMax, Option.some.injEq] at h
    rw [← h]
    exact argMax_foldl_mem key xs x

theorem descend_inv (jn : JNodeTable) (eb : Bool) (hF : IsForest jn) (cb0 : List Nat)
    (h0 : SubtreeInv jn eb jn.size cb0) (fuel critical : Nat) (cb cb1 : List Nat) (leaf : Nat)
    (hlen : cb.length = jn.size) (hcrit : critical < jn.size)
    (hw : ∀ k, k < jn.size → ownWeight jn eb k ≤ cb.getD k 0)
    (hsame : ∀ k, k ≤ critical → cb.getD k 0 = cb0.getD k 0)
    (h : descend jn fuel critical cb = .ok (leaf, cb1)) :
    cb1.length = jn.size ∧ leaf < jn.size ∧ ∀ k, k < jn.size → ownWeight jn eb k ≤ cb1.getD k 0 := by
  induction fuel generalizing critical cb with
  | zero => simp [descend] at h
  | succ n ih =>
    rw [descend] at h
    cases ha : argMax (fun k => cb.getD k 0) (jn.kids critical) with
    | none =>
      simp only [ha, Except.ok.injEq, Prod.mk.injEq] at h
      rw [← h.1, ← h.2]
      exact ⟨hlen, hcrit, hw⟩
    | some c =>
      simp only [ha] at h
      split at h
      · simp at h
      · have hc : c ∈ jn.kids critical := argMax_mem _ _ _ ha
        have hpar : jn.parent c = some critical := hF.kids_parent critical c hcrit hc
        have hcc : c < critical := hF.child_before_parent c critical hpar
        have hcl : c < cb.length := by omega
        have hcrl : critical < cb.length := by omega
        simp only [hpar, List.getElem?_eq_getElem hcl, List.getElem?_eq_getElem hcrl] at h
        have e1 : cb[critical] = cb0.getD critical 0 := by
          rw [← hsame critical (le_refl _), List.getD_eq_getElem?_getD,
            List.getElem?_eq_getElem hcrl]; rfl
        have e2 : cb[c] = cb0.getD c 0 := by
          rw [← hsame c (by omega), List.getD_eq_getElem?_getD,
            List.getElem?_eq_getElem hcl]; rfl
        rw [e1, e2] at h
        refine ih c _ (by simp [hlen]) (by omega) ?_ ?_ h
        · intro k hk
          by_cases hkc : k = critical
          · subst hkc
            rw [getD_set_self' _ _ _ _ hcrl, h0.2 k hk, if_pos hk]
            have hs := single_le_sum_range jn.size c
              (fun x => if jn.parent x = some k then cb0.getD x 0 else 0) (by omega)
            simp only [hpar, if_true] at hs
            omega
          · rw [getD_set_ne' _ _ _ _ _ (Ne.symm hkc)]
            exact hw k hk
        · intro k hk
          rw [getD_set_ne' _ _ _ _ _ (by omega : critical ≠ k)]
          exact hsame k (by omega)

/-! ### The final sweep -/

theorem inheritSweep_keeps (jn : JNodeTable) (cur : Int) (id : Nat) (parts parts2 : List Int)
    (h : inheritSweep jn cur id parts = .ok parts2) :
    ∀ c, parts.getD c INVALID_PART ≠ INVALID_PART →
      parts2.getD c INVALID_PART = parts.getD c INVALID_PART := by
  induction id generalizing parts with
  | zero =>
    simp only [inheritSweep, Except.ok.injEq] at h
    intro c _
    rw [h]
  | succ n ih =>
    rw [inheritSweep] at h
    cases hp : parts[n]? with
    | none => simp [hp] at h
    | some pid =>
      simp only [hp] at h
      have hpv : parts.getD n INVALID_PART = pid := getD_of_getElem? _ _ _ _ hp
      by_cases hinv : pid = INVALID_PART
      · simp only [hinv, if_true] at h
        have hkeep : ∀ v c, parts.getD c INVALID_PART ≠ INVALID_PART →
            (parts.set n v).getD c INVALID_PART = parts.getD c INVALID_PART := by
          intro v c hc
          have hcn : n ≠ c := by
            intro hcn
            rw [← hcn, hpv] at hc
            exact hc hinv
          exact getD_set_ne' _ _ _ _ _ hcn
        cases hq : jn.parent n with
        | none =>
          simp only [hq] at h
          intro c hc
          rw [ih _ h c (by rw [hkeep _ c hc]; exact hc), hkeep _ c hc]
        | some q =>
          simp only [hq] at h
          cases hpq : parts[q]? with
          | none => simp [hpq] at h
          | some pq =>
            simp only [hpq] at h
            intro c hc
            rw [ih _ h c (by rw [hkeep _ c hc]; exact hc), hkeep _ c hc]
      · simp only [hinv, if_false] at h
        exact ih _ h

/-! ### Completion of `backwardPartition` -/

theorem subtreeWeights_total (jn : JNodeTable) (eb : Bool) (hF : IsForest jn) (k b : Nat)
    (cb : List Nat) (hlen : cb.length = jn.size) (hbk : b + k = jn.size) :
    ∃ cb1, subtreeWeights jn eb k b cb = .ok cb1 := by
  induction k generalizing b cb with
  | zero => exact ⟨cb, rfl⟩
  | succ n ih =>
    have hb : b < jn.size := by omega
    have hbl : b < cb.length := by omega
    rw [subtreeWeights]
    simp only [List.getElem?_eq_getElem hbl]
    cases hp : jn.parent b with
    | none =>
      simp only []
      exact ih (b + 1) _ (by simp [hlen]) (by omega)
    | some p =>
      have hpn : p < jn.size := hF.parent_lt b p hb hp
      have hpl : p < (cb.set b (cb[b] + ownWeight jn eb b)).length := by
        simp [hlen]; exact hpn
      simp only [List.getElem?_eq_getElem hpl]
      exact ih (b + 1) _ (by simp [hlen]) (by omega)

theorem descend_total (jn : JNodeTable) (hF : IsForest jn) (fuel critical : Nat) (cb : List Nat)
    (hlen : cb.length = jn.size) (hcrit : critical < jn.size) (hfuel : critical < fuel) :
    ∃ leaf cb1, descend jn fuel critical cb = .ok (leaf, cb1) := by
  induction fuel generalizing critical cb with
  | zero => omega
  | succ n ih =>
    rw [descend]
    cases ha : argMax (fun k => cb.getD k 0) (jn.kids critical) with
    | none => exact ⟨critical, cb, rfl⟩
    | some c =>
      have hkid : ∀ k ∈ jn.kids critical, k < critical := fun k hk =>
        hF.child_before_parent k critical (hF.kids_parent critical k hcrit hk)
      have hany : (jn.kids critical).any (fun k => decide (cb.length ≤ k)) = false := by
        rw [List.any_eq_false]
        intro k hk
        have := hkid k hk
        simp only [decide_eq_true_eq]
        omega
      have hc : c ∈ jn.kids critical := argMax_mem _ _ _ ha
      have hpar : jn.parent c = some critical := hF.kids_parent critical c hcrit hc
      have hcc : c < critical := hkid c hc
      have hcl : c < cb.length := by omega
      have hcrl : critical < cb.length := by omega
      simp only [hany, hpar, List.getElem?_eq_getElem hcl, List.getElem?_eq_getElem hcrl]
      simp only [Bool.false_eq_true, and_false, if_false]
      exact ih c _ (by simp [hlen]) (by omega) (by omega)

theorem chainWalk_total (jn : JNodeTable) (mc : Nat) (hF : IsForest jn) (cb : List Nat)
    (hcb : cb.length = jn.size) (fuel : Nat) (critical : Option Nat) (cur : Int) (ps : Nat)
    (parts : List Int) (hlen : parts.length = jn.size)
    (hcrit : ∀ c, critical = some c → c < jn.size ∧ jn.size ≤ fuel + c) :
    ∃ r, chainWalk jn mc cb fuel critical cur ps parts = .ok r := by
  induction fuel generalizing critical cur ps parts with
  | zero =>
    cases critical with
    | none => exact ⟨_, rfl⟩
    | some c =>
      have := hcrit c rfl
      omega
  | succ n ih =>
    cases critical with
    | none => exact ⟨_, rfl⟩
    | some c =>
      obtain ⟨hcn, hfuel⟩ := hcrit c rfl
      have hcl : c < cb.length := by omega
      have hpl : c < parts.length := by omega
      have hnext : ∀ q, jn.parent c = some q → q < jn.size ∧ jn.size ≤ n + q := by
        intro q hq
        have h1 := hF.child_before_parent c q hq
        have h2 := hF.parent_lt c q hcn hq
        omega
      rw [chainWalk]
      simp only [List.getElem?_eq_getElem hcl, hpl, if_true]
      split
      · exact ih _ _ _ _ (by simp [hlen]) hnext
      · exact ih _ _ _ _ (by simp [hlen]) hnext

theorem inheritSweep_total (jn : JNodeTable) (hF : IsForest jn) (cur : Int) (id : Nat)
    (parts : List Int) (hlen : parts.length = jn.size) (hid : id ≤ jn.size) :
    ∃ parts2, inheritSweep jn cur id parts = .ok parts2 := by
  induction id generalizing parts with
  | zero => exact ⟨parts, rfl⟩
  | succ n ih =>
    have hn : n < parts.length := by omega
    rw [inheritSweep]
    simp only [List.getElem?_eq_getElem hn]
    split
    · cases hq : jn.parent n with
      | none =>
        simp only []
        exact ih _ (by simp [hlen]) (by omega)
      | some q =>
        have hql : q < parts.length := by
          have := hF.parent_lt n q (by omega) hq
          omega
        simp only [List.getElem?_eq_getElem hql]
        exact ih _ (by simp [hlen]) (by omega)
    · exact ih _ hlen (by omega)

theorem argMax_range (key : Nat → Nat) (n : Nat) (hn : 0 < n) :
    ∃ c, argMax key (List.range n) = some c ∧ c < n := by
  cases hr : List.range n with
  | nil =>
    have := congrArg List.length hr
    simp at this
    omega
  | cons x xs =>
    refine ⟨_, rfl, ?_⟩
    have hm := argMax_foldl_mem key xs x
    rw [← hr] at hm
    exact List.mem_range.mp hm

/-! ### Accounting of `backwardPartition` -/

theorem above_parent (jn : JNodeTable) (c k a : Nat) (h : Above jn c k)
    (hp : jn.parent k = some a) : Above jn c a := by
  induction h with
  | refl c => exact Above.step c a a hp (Above.refl a)
  | step c q k hq _ ih => exact Above.step c q a hq (ih hp)

/-- The descent: `leaf` lies below the start, and a node whose weight has
changed has lost the subtree weight of one kid on the chain. -/
theorem descend_chain (jn : JNodeTable) (eb : Bool) (hF : IsForest jn) (cb0 : List Nat)
    (h0 : SubtreeInv jn eb jn.size cb0) (fuel critical : Nat) (cb cb1 : List Nat) (leaf : Nat)
    (hlen : cb.length = jn.size) (hcrit : critical < jn.size)
    (hsame : ∀ k, k ≤ critical → cb.getD k 0 = cb0.getD k 0)
    (h : descend jn fuel critical cb = .ok (leaf, cb1)) :
    cb1.length = jn.size ∧ leaf < jn.size ∧ Above jn leaf critical ∧
      ∀ c, c < jn.size → cb1.getD c 0 = cb.getD c 0 ∨
        ∃ k, jn.parent k = some c ∧ Above jn leaf k ∧ cb1.getD c 0 + cb0.getD k 0 = cb0.getD c 0 := by
  induction fuel generalizing critical cb with
  | zero => simp [descend] at h
  | succ n ih =>
    rw [descend] at h
    cases ha : argMax (fun k => cb.getD k 0) (jn.kids critical) with
    | none =>
      simp only [ha, Except.ok.injEq, Prod.mk.injEq] at h
      rw [← h.1, ← h.2]
      exact ⟨hlen, hcrit, Above.refl _, fun c _ => Or.inl rfl⟩
    | some c =>
      simp only [ha] at h
      split at h
      · simp at h
      · have hc : c ∈ jn.kids critical := argMax_mem _ _ _ ha
        have hpar : jn.parent c = some critical := hF.kids_parent critical c hcrit hc
        have hcc : c < critical := hF.child_before_parent c critical hpar
        have hcl : c < cb.length := by omega
        have hcrl : critical < cb.length := by omega
        simp only [hpar, List.getElem?_eq_getElem hcl, List.getElem?_eq_getElem hcrl] at h
        have e1 : cb[critical] = cb0.getD critical 0 := by
          rw [← hsame critical (le_refl _), List.getD_eq_getElem?_getD,
            List.getElem?_eq_getElem hcrl]; rfl
        have e2 : cb[c] = cb0.getD c 0 := by
          rw [← hsame c (by omega), List.getD_eq_getElem?_getD,
            List.getElem?_eq_getElem hcl]; rfl
        rw [e1, e2] at h
        have hle : cb0.getD c 0 ≤ cb0.getD critical 0 := by
          rw [h0.2 critical hcrit]
          have hs := single_le_sum_range jn.size c
            (fun x => if jn.parent x = some critical then cb0.getD x 0 else 0) (by omega)
          simp only [hpar, if_true] at hs
          omega
        obtain ⟨hl1, hleaf, habove, hch⟩ := ih c _ (by simp [hlen]) (by omega)
          (by
            intro k hk
            rw [getD_set_ne' _ _ _ _ _ (by omega : critical ≠ k)]
            exact hsame k (by omega)) h
        refine ⟨hl1, hleaf, above_parent jn leaf c critical habove hpar, ?_⟩
        intro x hx
        rcases hch x hx with hx1 | hx1
        · by_cases hxc : x = critical
          · right
            refine ⟨c, by rw [hxc]; exact hpar, habove, ?_⟩
            rw [hx1, hxc, getD_set_self' _ _ _ _ hcrl]
            omega
          · left
            rw [hx1, getD_set_ne' _ _ _ _ _ (Ne.symm hxc)]
        · exact Or.inr hx1

theorem chainWalk_frame (jn : JNodeTable) (mc : Nat) (hF : IsForest jn) (cb : List Nat)
    (fuel : Nat) (critical : Option Nat) (cur : Int) (ps : Nat) (parts parts1 : List Int)
    (cur1 : Int) (h : chainWalk jn mc cb fuel critical cur ps parts = .ok (parts1, cur1))
    (c : Nat) (hc : ∀ q, critical = some q → c < q) :
    parts1.getD c INVALID_PART = parts.getD c INVALID_PART := by
  induction fuel generalizing critical cur ps parts with
  | zero =>
    cases critical with
    | none =>
      simp only [chainWalk, Except.ok.injEq, Prod.mk.injEq] at h
      rw [← h.1]
    | some q => simp [chainWalk] at h
  | succ n ih =>
    cases critical with
    | none =>
      simp only [chainWalk, Except.ok.injEq, Prod.mk.injEq] at h
      rw [← h.1]
    | some q =>
      have hcq : c < q := hc q rfl
      have hnext : ∀ q', jn.parent q = some q' → c < q' := by
        intro q' hq'
        have := hF.child_before_parent q q' hq'
        omega
      rw [chainWalk] at h
      cases hw : cb[q]? with
      | none => simp [hw] at h
      | some w =>
        simp only [hw] at h
        by_cases hcl : q < parts.length
        · simp only [hcl, if_true] at h
          split at h
          · rw [ih _ _ _ _ h hnext, getD_set_ne' _ _ _ _ _ (by omega : q ≠ c)]
          · rw [ih _ _ _ _ h hnext, getD_set_ne' _ _ _ _ _ (by omega : q ≠ c)]
        · simp [hcl] at h

theorem chainLoad_set (jn : JNodeTable) (cb : List Nat) (parts : List Int) (q : Nat) (v p : Int)
    (hq : q < jn.size) (hlen : parts.length = jn.size)
    (hold : parts.getD q INVALID_PART = INVALID_PART) (hp : p ≠ INVALID_PART) :
    chainLoad jn cb (parts.set q v) p =
      chainLoad jn cb parts p + (if v = p then cb.getD q 0 else 0) := by
  unfold chainLoad
  have h := sum_range_update jn.size q
    (fun x => if parts.getD x INVALID_PART = p then cb.getD x 0 else 0)
    (fun x => if (parts.set q v).getD x INVALID_PART = p then cb.getD x 0 else 0) hq
    (by
      intro x _ hx
      simp only [getD_set_ne' _ _ _ _ _ (Ne.symm hx)])
  simp only [getD_set_self' _ _ _ _ (by omega : q < parts.length), hold,
    if_neg (Ne.symm hp)] at h
  omega

theorem chainLoad_fresh (jn : JNodeTable) (cb : List Nat) (parts : List Int) (cur p : Int)
    (hp : cur < p) (hcur : 0 ≤ cur)
    (hr : ∀ c, c < jn.size → parts.getD c INVALID_PART = INVALID_PART ∨
      (0 ≤ parts.getD c INVALID_PART ∧ parts.getD c INVALID_PART ≤ cur)) :
    chainLoad jn cb parts p = 0 := by
  unfold chainLoad
  apply sum_range_zero
  intro c hc
  have hne : parts.getD c INVALID_PART ≠ p := by
    rcases hr c hc with h | h
    · rw [h]; simp only [INVALID_PART]; omega
    · omega
  simp only [hne, if_false]

theorem walkAcc_init (jn : JNodeTable) (mc : Nat) (cb : List Nat) (leaf : Nat) :
    WalkAcc jn mc cb (some leaf) 0 0 (List.replicate jn.size INVALID_PART) := by
  have hz : ∀ p : Int, p ≠ INVALID_PART →
      chainLoad jn cb (List.replicate jn.size INVALID_PART) p = 0 := by
    intro p hp
    unfold chainLoad
    apply sum_range_zero
    intro c hc
    have : (List.replicate jn.size INVALID_PART).getD c INVALID_PART = INVALID_PART := by
      simp [List.getD_eq_getElem?_getD, List.getElem?_replicate, hc]
    rw [this, if_neg (Ne.symm hp)]
  have hall : ∀ c, c < jn.size →
      (List.replicate jn.size INVALID_PART).getD c INVALID_PART = INVALID_PART := by
    intro c hc
    simp [List.getD_eq_getElem?_getD, List.getElem?_replicate, hc]
  exact {
    len := by simp
    cur_nonneg := le_refl _
    cur_le := by omega
    range := fun c hc => Or.inl (hall c hc)
    load_cur := hz 0 (by simp only [INVALID_PART]; omega)
    loads := fun p hp => Or.inr (Or.inl (hz p hp))
    untouched := fun _ _ c _ hc => hall c hc }

theorem walkAcc_visit (jn : JNodeTable) (mc : Nat) (hF : IsForest jn) (cb : List Nat) (q : Nat)
    (cur cur2 : Int) (ps : Nat) (parts : List Int) (hq : q < jn.size)
    (inv : WalkAcc jn mc cb (some q) cur ps parts) (hc0 : cur ≤ cur2) (hc1 : cur2 ≤ 32767)
    (hload : chainLoad jn cb (parts.set q cur2) cur2 < mc ∨
      chainLoad jn cb (parts.set q cur2) cur2 = cb.getD q 0) :
    WalkAcc jn mc cb (jn.parent q) cur2 (chainLoad jn cb (parts.set q cur2) cur2)
      (parts.set q cur2) := by
  have hql : q < parts.length := by rw [inv.len]; exact hq
  have hold : parts.getD q INVALID_PART = INVALID_PART := inv.untouched q rfl q (le_refl _) hq
  have h0 := inv.cur_nonneg
  exact {
    len := by simp [inv.len]
    cur_nonneg := by omega
    cur_le := hc1
    range := by
      intro x hx
      by_cases hxq : x = q
      · right
        rw [hxq, getD_set_self' _ _ _ _ hql]
        omega
      · rw [getD_set_ne' _ _ _ _ _ (Ne.symm hxq)]
        rcases inv.range x hx with h1 | h1
        · exact Or.inl h1
        · right; omega
    load_cur := rfl
    loads := by
      intro p hp
      by_cases hpc : cur2 = p
      · rw [← hpc]
        rcases hload with h1 | h1
        · exact Or.inl h1
        · exact Or.inr (Or.inr ⟨q, hq, getD_set_self' _ _ _ _ hql, h1⟩)
      · rw [chainLoad_set jn cb parts q cur2 p hq inv.len hold hp, if_neg hpc, Nat.add_zero]
        rcases inv.loads p hp with h1 | h1 | ⟨c, hc, hcp, h1⟩
        · exact Or.inl h1
        · exact Or.inr (Or.inl h1)
        · refine Or.inr (Or.inr ⟨c, hc, ?_, h1⟩)
          have hcq : q ≠ c := by
            intro hcq
            rw [← hcq, hold] at hcp
            exact hp hcp.symm
          rw [getD_set_ne' _ _ _ _ _ hcq]
          exact hcp
    untouched := by
      intro q' hq' c hc hcn
      have := hF.child_before_parent q q' hq'
      rw [getD_set_ne' _ _ _ _ _ (by omega : q ≠ c)]
      exact inv.untouched q rfl c (by omega) hcn }

/-- The walk while the counter does not overflow: the invariant holds at the
end, and every node from `critical` up to the root has a part. -/
theorem chainWalk_account (jn : JNodeTable) (mc : Nat) (hF : IsForest jn) (cb : List Nat)
    (fuel : Nat) (critical : Option Nat) (cur : Int) (ps : Nat) (parts parts1 : List Int)
    (cur1 : Int) (inv : WalkAcc jn mc cb critical cur ps parts)
    (h : chainWalk jn mc cb fuel critical cur ps parts = .ok (parts1, cur1))
    (hnowrap : ∀ c, c < jn.size → parts1.getD c INVALID_PART ≠ -32768) :
    WalkAcc jn mc cb none cur1 (chainLoad jn cb parts1 cur1) parts1 ∧
      ∀ q, critical = some q → ∀ a, Above jn q a →
        parts1.getD a INVALID_PART ≠ INVALID_PART := by
  induction fuel generalizing critical cur ps parts with
  | zero =>
    cases critical with
    | none =>
      simp only [chainWalk, Except.ok.injEq, Prod.mk.injEq] at h
      rw [← h.1, ← h.2, inv.load_cur]
      exact ⟨inv, fun q hq => by simp at hq⟩
    | some c => simp [chainWalk] at h
  | succ n ih =>
    cases critical with
    | none =>
      simp only [chainWalk, Except.ok.injEq, Prod.mk.injEq] at h
      rw [← h.1, ← h.2, inv.load_cur]
      exact ⟨inv, fun q hq => by simp at hq⟩
    | some q =>
      rw [chainWalk] at h
      cases hw : cb[q]? with
      | none => simp [hw] at h
      | some w =>
        simp only [hw] at h
        have hwv : cb.getD q 0 = w := getD_of_getElem? _ _ _ _ hw
        by_cases hcl : q < parts.length
        · simp only [hcl, if_true] at h
          have hq : q < jn.size := by rw [← inv.len]; exact hcl
          have hold : parts.getD q INVALID_PART = INVALID_PART :=
            inv.untouched q rfl q (le_refl _) hq
          have h0 := inv.cur_nonneg
          have h1 := inv.cur_le
          have hfin : ∀ (v cur2 : Int) (ps2 : Nat),
              chainWalk jn mc cb n (jn.parent q) cur2 ps2 (parts.set q v) = .ok (parts1, cur1) →
              parts1.getD q INVALID_PART = v := by
            intro v cur2 ps2 hrun
            rw [chainWalk_frame jn mc hF cb n _ _ _ _ _ _ hrun q
              (fun q' hq' => hF.child_before_parent q q' hq'), getD_set_self' _ _ _ _ hcl]
          have hup : ∀ (cur2 : Int) (ps2 : Nat), 0 ≤ cur2 →
              chainWalk jn mc cb n (jn.parent q) cur2 ps2 (parts.set q cur2) = .ok (parts1, cur1) →
              (WalkAcc jn mc cb none cur1 (chainLoad jn cb parts1 cur1) parts1 ∧
                ∀ q', jn.parent q = some q' → ∀ a, Above jn q' a →
                  parts1.getD a INVALID_PART ≠ INVALID_PART) →
              ∀ q0, some q = some q0 → ∀ a, Above jn q0 a →
                parts1.getD a INVALID_PART ≠ INVALID_PART := by
            intro cur2 ps2 hc2 hrun hpost q0 hq0 a ha
            have hqq : q = q0 := Option.some.inj hq0
            subst hqq
            cases ha with
            | refl =>
              rw [hfin cur2 cur2 ps2 hrun]
              simp only [INVALID_PART]
              omega
            | step _ q' _ hp hab => exact hpost.2 q' hp a hab
          by_cases hfit : ps + w < mc
          · simp only [hfit, if_true] at h
            have hl : chainLoad jn cb (parts.set q cur) cur = ps + w := by
              rw [chainLoad_set jn cb parts q cur cur hq inv.len hold
                (by simp only [INVALID_PART]; omega), if_pos rfl, inv.load_cur, hwv]
            have inv2 := walkAcc_visit jn mc hF cb q cur cur ps parts hq inv (le_refl _) h1
              (Or.inl (by rw [hl]; exact hfit))
            rw [hl] at inv2
            have hpost := ih _ _ _ _ inv2 h
            exact ⟨hpost.1, hup cur (ps + w) h0 h hpost⟩
          · simp only [hfit, if_false] at h
            have hlt : cur + 1 ≤ 32767 := by
              by_contra hge
              have hcur : cur = 32767 := by omega
              have hv : toShort (cur + 1) = -32768 := by
                rw [hcur]; unfold toShort; omega
              have := hfin _ _ _ h
              rw [hv] at this
              exact hnowrap q hq this
            have hs : toShort (cur + 1) = cur + 1 := by
              unfold toShort; omega
            rw [hs] at h
            have hl : chainLoad jn cb (parts.set q (cur + 1)) (cur + 1) = w := by
              rw [chainLoad_set jn cb parts q (cur + 1) (cur + 1) hq inv.len hold
                (by simp only [INVALID_PART]; omega), if_pos rfl,
                chainLoad_fresh jn cb parts cur (cur + 1) (by omega) h0 inv.range, hwv]
              omega
            have inv2 := walkAcc_visit jn mc hF cb q cur (cur + 1) ps parts hq inv (by omega) hlt
              (Or.inr (by rw [hl, hwv]))
            rw [hl] at inv2
            have hpost := ih _ _ _ _ inv2 h
            exact ⟨hpost.1, hup (cur + 1) w (by omega) h hpost⟩
        · simp [hcl] at h

theorem sum_range_ite_const (n : Nat) (P : Prop) [Decidable P] (f : Nat → Nat) :
    ∑ c ∈ Finset.range n, (if P then f c else 0) =
      if P then ∑ c ∈ Finset.range n, f c else 0 := by
  by_cases h : P
  · simp only [h, if_true]
  · simp only [h, if_false, Finset.sum_const_zero]

theorem sweepShare_step (jn : JNodeTable) (eb : Bool) (hF : IsForest jn) (cb0 cb1 : List Nat)
    (parts1 : List Int) (cur p : Int) (h0 : SubtreeInv jn eb jn.size cb0)
    (hQ : ∀ c, c < jn.size → parts1.getD c INVALID_PART ≠ INVALID_PART →
      ownWeight jn eb c + ∑ k ∈ Finset.range jn.size,
        (if jn.parent k = some c ∧ parts1.getD k INVALID_PART = INVALID_PART then cb0.getD k 0
          else 0) ≤ cb1.getD c 0)
    (j : Nat) (parts parts2 : List Int) (hj : j < jn.size)
    (hother : ∀ x, x ≠ j → parts2.getD x INVALID_PART = parts.getD x INVALID_PART)
    (hdest : (parts1.getD j INVALID_PART ≠ INVALID_PART ∧
        parts2.getD j INVALID_PART = parts1.getD j INVALID_PART) ∨
      (parts1.getD j INVALID_PART = INVALID_PART ∧
        (jn.parent j = none → parts2.getD j INVALID_PART = cur) ∧
        ∀ q, jn.parent j = some q →
          parts2.getD j INVALID_PART = parts.getD q INVALID_PART)) :
    ∑ c ∈ Finset.range jn.size, sweepShare jn eb cb0 cb1 parts1 cur p j parts2 c ≤
      ∑ c ∈ Finset.range jn.size, sweepShare jn eb cb0 cb1 parts1 cur p (j + 1) parts c := by
  have hupd := sum_range_update jn.size j
    (fun c => sweepShare jn eb cb0 cb1 parts1 cur p (j + 1) parts c +
      (if jn.parent c = some j ∧ parts1.getD c INVALID_PART = INVALID_PART then
        (if parts2.getD j INVALID_PART = p then cb0.getD c 0 else 0) else 0))
    (fun c => sweepShare jn eb cb0 cb1 parts1 cur p j parts2 c) hj
    (by
      intro c hc hcj
      have hnj : jn.parent c = some j → c < j := fun h => hF.child_before_parent c j h
      unfold sweepShare
      by_cases hlt : j < c
      · have h1 : j ≤ c := by omega
        have h2 : j + 1 ≤ c := by omega
        have h3 : ¬ (jn.parent c = some j ∧ parts1.getD c INVALID_PART = INVALID_PART) := by
          rintro ⟨h, _⟩
          have := hnj h
          omega
        simp only [h1, h2, h3, if_true, if_false, hother c hcj, Nat.add_zero]
      · have h1 : ¬ j ≤ c := by omega
        have h2 : ¬ j + 1 ≤ c := by omega
        by_cases hch : parts1.getD c INVALID_PART ≠ INVALID_PART
        · have h3 : ¬ (jn.parent c = some j ∧ parts1.getD c INVALID_PART = INVALID_PART) :=
            fun h => hch h.2
          simp only [h1, h2, hch, if_true, if_false, Nat.add_zero, ne_eq, not_false_eq_true,
            and_false]
        · have hch' : parts1.getD c INVALID_PART = INVALID_PART := not_not.1 hch
          simp only [h1, h2, hch', if_false, ne_eq, not_true_eq_false, and_true]
          cases hp : jn.parent c with
          | none => simp
          | some q =>
            by_cases hqj : q = j
            · subst hqj
              simp
            · have hcq := hF.child_before_parent c q hp
              have h4 : (j ≤ q) ↔ (j + 1 ≤ q) := by omega
              have h5 : ¬ (some q = some j) := fun h => hqj (Option.some.inj h)
              simp only [h4, hother q hqj, h5, if_false, Nat.add_zero])
  simp only [Finset.sum_add_distrib] at hupd
  have hnjj : ¬ (jn.parent j = some j) := fun h => by
    have := hF.child_before_parent j j h
    omega
  simp only [hnjj, false_and, if_false, Nat.add_zero] at hupd
  have hK : ∑ c ∈ Finset.range jn.size,
      (if jn.parent c = some j ∧ parts1.getD c INVALID_PART = INVALID_PART then
        (if parts2.getD j INVALID_PART = p then cb0.getD c 0 else 0) else 0) =
      if parts2.getD j INVALID_PART = p then ∑ c ∈ Finset.range jn.size,
        (if jn.parent c = some j ∧ parts1.getD c INVALID_PART = INVALID_PART then cb0.getD c 0
          else 0) else 0 := by
    rw [← sum_range_ite_const]
    apply Finset.sum_congr rfl
    intro c _
    split_ifs <;> rfl
  rw [hK] at hupd
  have hS0 : sweepShare jn eb cb0 cb1 parts1 cur p j parts2 j =
      if parts2.getD j INVALID_PART = p then ownWeight jn eb j else 0 := by
    unfold sweepShare
    simp only [le_refl, if_true]
  have hkids : ∑ c ∈ Finset.range jn.size,
      (if jn.parent c = some j ∧ parts1.getD c INVALID_PART = INVALID_PART then cb0.getD c 0
        else 0) ≤ ∑ c ∈ Finset.range jn.size,
      (if jn.parent c = some j then cb0.getD c 0 else 0) := by
    apply Finset.sum_le_sum
    intro c _
    split_ifs with h1 h2 h2
    · exact le_refl _
    · exact absurd h1.1 h2
    · exact Nat.zero_le _
    · exact le_refl _
  have hsub := h0.2 j hj
  rw [if_pos hj] at hsub
  have hgoal : sweepShare jn eb cb0 cb1 parts1 cur p j parts2 j +
      (if parts2.getD j INVALID_PART = p then ∑ c ∈ Finset.range jn.size,
        (if jn.parent c = some j ∧ parts1.getD c INVALID_PART = INVALID_PART then cb0.getD c 0
          else 0) else 0) ≤ sweepShare jn eb cb0 cb1 parts1 cur p (j + 1) parts j := by
    rw [hS0]
    by_cases hd : parts2.getD j INVALID_PART = p
    · simp only [hd, if_true]
      have h2 : ¬ j + 1 ≤ j := by omega
      unfold sweepShare
      rcases hdest with ⟨hch, hval⟩ | ⟨hun, hroot, hpar⟩
      · have hp1 : parts1.getD j INVALID_PART = p := by rw [← hval]; exact hd
        rw [if_neg h2, if_pos hch, if_pos hp1]
        exact hQ j hj hch
      · simp only [h2, hun, if_false, ne_eq, not_true_eq_false]
        cases hp : jn.parent j with
        | none =>
          have hc : cur = p := by rw [← hroot hp]; exact hd
          simp only [hc, if_true]
          omega
        | some q =>
          have hjq := hF.child_before_parent j q hp
          have hq : parts.getD q INVALID_PART = p := by rw [← hpar q hp]; exact hd
          have h3 : j + 1 ≤ q := by omega
          simp only [h3, hq, and_self, if_true]
          omega
    · simp only [hd, if_false, Nat.add_zero, Nat.zero_le]
  omega

theorem inheritSweep_account (jn : JNodeTable) (eb : Bool) (hF : IsForest jn)
    (cb0 cb1 : List Nat) (parts1 : List Int) (cur p : Int) (h0 : SubtreeInv jn eb jn.size cb0)
    (hQ : ∀ c, c < jn.size → parts1.getD c INVALID_PART ≠ INVALID_PART →
      ownWeight jn eb c + ∑ k ∈ Finset.range jn.size,
        (if jn.parent k = some c ∧ parts1.getD k INVALID_PART = INVALID_PART then cb0.getD k 0
          else 0) ≤ cb1.getD c 0)
    (j : Nat) (parts parts2 : List Int) (hj : j ≤ jn.size) (hlen : parts.length = jn.size)
    (hlow : ∀ c, c < j → parts.getD c INVALID_PART = parts1.getD c INVALID_PART)
    (h : inheritSweep jn cur j parts = .ok parts2) :
    partWeight jn eb parts2 p ≤
      ∑ c ∈ Finset.range jn.size, sweepShare jn eb cb0 cb1 parts1 cur p j parts c := by
  induction j generalizing parts with
  | zero =>
    simp only [inheritSweep, Except.ok.injEq] at h
    rw [← h]
    unfold partWeight sweepShare
    simp only [Nat.zero_le, if_true, le_refl]
  | succ j ih =>
    have hjn : j < jn.size := by omega
    have hjl : j < parts.length := by omega
    rw [inheritSweep] at h
    simp only [List.getElem?_eq_getElem hjl] at h
    have hpj : parts[j] = parts1.getD j INVALID_PART := by
      rw [← hlow j (by omega)]
      exact (List.getD_eq_getElem parts INVALID_PART hjl).symm
    rw [hpj] at h
    have hlow2 : ∀ (v : Int) c, c < j →
        (parts.set j v).getD c INVALID_PART = parts1.getD c INVALID_PART := by
      intro v c hc
      rw [getD_set_ne' _ _ _ _ _ (by omega : j ≠ c)]
      exact hlow c (by omega)
    have hoth : ∀ (v : Int) x, x ≠ j →
        (parts.set j v).getD x INVALID_PART = parts.getD x INVALID_PART :=
      fun v x hx => getD_set_ne' _ _ _ _ _ (Ne.symm hx)
    by_cases hinv : parts1.getD j INVALID_PART = INVALID_PART
    · simp only [hinv, if_true] at h
      cases hq : jn.parent j with
      | none =>
        simp only [hq] at h
        refine le_trans (ih _ (by omega) (by simp [hlen]) (hlow2 _) h) ?_
        apply sweepShare_step jn eb hF cb0 cb1 parts1 cur p h0 hQ j parts _ hjn (hoth _)
        right
        refine ⟨hinv, fun _ => getD_set_self' _ _ _ _ hjl, ?_⟩
        intro q hq'
        rw [hq] at hq'
        exact absurd hq' (by simp)
      | some q =>
        simp only [hq] at h
        cases hpq : parts[q]? with
        | none => simp [hpq] at h
        | some pq =>
          simp only [hpq] at h
          have hpqv : parts.getD q INVALID_PART = pq := getD_of_getElem? _ _ _ _ hpq
          refine le_trans (ih _ (by omega) (by simp [hlen]) (hlow2 _) h) ?_
          apply sweepShare_step jn eb hF cb0 cb1 parts1 cur p h0 hQ j parts _ hjn (hoth _)
          right
          refine ⟨hinv, ?_, ?_⟩
          · intro hq'
            rw [hq] at hq'
            exact absurd hq' (by simp)
          · intro q' hq'
            rw [hq] at hq'
            have : q = q' := Option.some.inj hq'
            rw [← this, getD_set_self' _ _ _ _ hjl, hpqv]
    · simp only [hinv, if_false] at h
      refine le_trans (ih _ (by omega) hlen (fun c hc => hlow c (by omega)) h) ?_
      apply sweepShare_step jn eb hF cb0 cb1 parts1 cur p h0 hQ j parts _ hjn (fun _ _ => rfl)
      left
      exact ⟨hinv, hlow j (by omega)⟩

theorem sweepShare_start (jn : JNodeTable) (eb : Bool) (hF : IsForest jn) (cb0 cb1 : List Nat)
    (parts1 : List Int) (cur p : Int) (hp : p ≠ INVALID_PART) :
    ∑ c ∈ Finset.range jn.size, sweepShare jn eb cb0 cb1 parts1 cur p jn.size parts1 c =
      chainLoad jn cb1 parts1 p + (if cur = p then strayLoad jn cb0 parts1 else 0) := by
  unfold chainLoad strayLoad
  rw [← sum_range_ite_const, ← Finset.sum_add_distrib]
  apply Finset.sum_congr rfl
  intro c hc
  have hcn : c < jn.size := Finset.mem_range.mp hc
  have h1 : ¬ jn.size ≤ c := by omega
  unfold sweepShare
  rw [if_neg h1]
  by_cases hch : parts1.getD c INVALID_PART ≠ INVALID_PART
  · have h2 : ¬ (jn.parent c = none ∧ parts1.getD c INVALID_PART = INVALID_PART) :=
      fun h => hch h.2
    rw [if_pos hch, if_neg h2]
    simp only [ite_self, Nat.add_zero]
  · have hch' : parts1.getD c INVALID_PART = INVALID_PART := not_not.1 hch
    have h3 : ¬ parts1.getD c INVALID_PART = p := by
      rw [hch']
      exact Ne.symm hp
    rw [if_neg hch, if_neg h3, Nat.zero_add]
    cases hq : jn.parent c with
    | none =>
      simp only [hch', and_self, if_true]
    | some q =>
      have hqn := hF.parent_lt c q hcn hq
      have h4 : ¬ jn.size ≤ q := by omega
      simp only [h4, false_and, if_false, ite_self, reduceCtorEq]

/-- The chain weight of a node with a part covers its own weight and the
subtree weights of its kids without a part. -/
theorem chain_weight_covers (jn : JNodeTable) (eb : Bool) (cb0 cb1 : List Nat)
    (parts1 : List Int) (h0 : SubtreeInv jn eb jn.size cb0) (c : Nat) (hc : c < jn.size)
    (hch : cb1.getD c 0 = cb0.getD c 0 ∨
      ∃ k, jn.parent k = some c ∧ k < jn.size ∧ parts1.getD k INVALID_PART ≠ INVALID_PART ∧
        cb1.getD c 0 + cb0.getD k 0 = cb0.getD c 0) :
    ownWeight jn eb c + ∑ k ∈ Finset.range jn.size,
      (if jn.parent k = some c ∧ parts1.getD k INVALID_PART = INVALID_PART then cb0.getD k 0
        else 0) ≤ cb1.getD c 0 := by
  have hsub := h0.2 c hc
  rw [if_pos hc] at hsub
  rcases hch with h1 | ⟨k, hk, hkn, hka, h1⟩
  · have hle : ∑ k ∈ Finset.range jn.size,
        (if jn.parent k = some c ∧ parts1.getD k INVALID_PART = INVALID_PART then cb0.getD k 0
          else 0) ≤ ∑ k ∈ Finset.range jn.size,
        (if jn.parent k = some c then cb0.getD k 0 else 0) := by
      apply Finset.sum_le_sum
      intro x _
      split_ifs with a b b
      · exact le_refl _
      · exact absurd a.1 b
      · exact Nat.zero_le _
      · exact le_refl _
    omega
  · have hupd := sum_range_update jn.size k
      (fun x => if jn.parent x = some c then cb0.getD x 0 else 0)
      (fun x => if jn.parent x = some c ∧ ¬ x = k then cb0.getD x 0 else 0) hkn
      (by
        intro x _ hx
        simp only [hx, not_false_eq_true, and_true])
    have hfk : (if jn.parent k = some c then cb0.getD k 0 else 0) = cb0.getD k 0 := if_pos hk
    have hgk : (if jn.parent k = some c ∧ ¬ k = k then cb0.getD k 0 else 0) = 0 :=
      if_neg (fun h => h.2 rfl)
    dsimp only at hupd
    rw [hfk, hgk] at hupd
    have hle : ∑ x ∈ Finset.range jn.size,
        (if jn.parent x = some c ∧ parts1.getD x INVALID_PART = INVALID_PART then cb0.getD x 0
          else 0) ≤ ∑ x ∈ Finset.range jn.size,
        (if jn.parent x = some c ∧ ¬ x = k then cb0.getD x 0 else 0) := by
      apply Finset.sum_le_sum
      intro x _
      split_ifs with a b b
      · exact le_refl _
      · exfalso
        apply b
        refine ⟨a.1, ?_⟩
        intro hxk
        rw [hxk] at a
        exact hka a.2
      · exact Nat.zero_le _
      · exact le_refl _
    omega

theorem above_lt (jn : JNodeTable) (hF : IsForest jn) (c a : Nat) (h : Above jn c a)
    (hc : c < jn.size) : a < jn.size := by
  induction h with
  | refl c => exact hc
  | step c q a hq _ ih => exact ih (hF.parent_lt c q hc hq)

theorem backwardPartition_account (jnodes : JNodeTable) (edge_balanced : Bool)
    (max_component fuel : Nat) (hF : IsForest jnodes) (hpos : 0 < jnodes.size)
    (hfuel : jnodes.size ≤ fuel) :
    ∃ cb0 critical leaf cb1 parts1 cur_part parts,
      subtreeWeights jnodes edge_balanced jnodes.size 0 (List.replicate jnodes.size 0) = .ok cb0 ∧
      argMax (fun k => cb0.getD k 0) (List.range jnodes.size) = some critical ∧
      descend jnodes fuel critical cb0 = .ok (leaf, cb1) ∧
      criticalChain jnodes edge_balanced max_component fuel = .ok (parts1, cur_part) ∧
      backwardPartition jnodes edge_balanced max_component fuel = .ok parts ∧
      ((∀ c, c < jnodes.size → parts1.getD c INVALID_PART ≠ -32768) →
        (∀ c, c < jnodes.size → parts1.getD c INVALID_PART ≠ INVALID_PART →
          ownWeight jnodes edge_balanced c ≤ cb1.getD c 0) ∧
        (∀ p : Int, p ≠ INVALID_PART →
          partWeight jnodes edge_balanced parts p ≤ chainLoad jnodes cb1 parts1 p +
            (if cur_part = p then strayLoad jnodes cb0 parts1 else 0)) ∧
        (∀ p : Int, p ≠ INVALID_PART →
          chainLoad jnodes cb1 parts1 p < max_component ∨ chainLoad jnodes cb1 parts1 p = 0 ∨
            ∃ c, c < jnodes.size ∧ parts1.getD c INVALID_PART = p ∧
              chainLoad jnodes cb1 parts1 p = cb1.getD c 0) ∧
        ((∀ c, c < jnodes.size → parts1.getD c INVALID_PART ≠ INVALID_PART →
            cb1.getD c 0 ≤ max_component) →
          (strayLoad jnodes cb0 parts1 = 0 ∨
            chainLoad jnodes cb1 parts1 cur_part + strayLoad jnodes cb0 parts1 ≤ max_component) →
          ∀ p : Int, p ≠ INVALID_PART →
            partWeight jnodes edge_balanced parts p ≤ max_component)) := by
  obtain ⟨cb0, hsub⟩ := subtreeWeights_total jnodes edge_balanced hF jnodes.size 0
    (List.replicate jnodes.size 0) (by simp) (by omega)
  have inv0 := subtreeWeights_inv jnodes edge_balanced hF jnodes.size 0 _ cb0
    (subtreeInv_init jnodes edge_balanced) (by omega) hsub
  obtain ⟨crit, hcrit, hcn⟩ := argMax_range (fun k => cb0.getD k 0) jnodes.size hpos
  obtain ⟨leaf, cb1, hd⟩ := descend_total jnodes hF fuel crit cb0 inv0.1 hcn (by omega)
  obtain ⟨hl1, hleaf, _, hch⟩ := descend_chain jnodes edge_balanced hF cb0 inv0 fuel crit cb0 cb1
    leaf inv0.1 hcn (fun _ _ => rfl) hd
  obtain ⟨r, hr⟩ := chainWalk_total jnodes max_component hF cb1 hl1 fuel (some leaf) 0 0
    (List.replicate jnodes.size INVALID_PART) (by simp)
    (by
      intro c hc
      have : leaf = c := Option.some.inj hc
      omega)
  obtain ⟨parts1, cur⟩ := r
  have hchain : criticalChain jnodes edge_balanced max_component fuel = .ok (parts1, cur) := by
    simp only [criticalChain, hsub, hcrit, hd]
    exact hr
  have hlen1 : parts1.length = jnodes.size := by
    have hkeep : ∀ (fuel : Nat) (critical : Option Nat) (c : Int) (ps : Nat) (parts : List Int),
        parts.length = jnodes.size →
        chainWalk jnodes max_component cb1 fuel critical c ps parts = .ok (parts1, cur) →
        parts1.length = jnodes.size := by
      intro fuel
      induction fuel with
      | zero =>
        intro critical c ps parts hl h
        cases critical with
        | none =>
          simp only [chainWalk, Except.ok.injEq, Prod.mk.injEq] at h
          rw [← h.1]; exact hl
        | some q => simp [chainWalk] at h
      | succ n ih =>
        intro critical c ps parts hl h
        cases critical with
        | none =>
          simp only [chainWalk, Except.ok.injEq, Prod.mk.injEq] at h
          rw [← h.1]; exact hl
        | some q =>
          rw [chainWalk] at h
          cases hw : cb1[q]? with
          | none => simp [hw] at h
          | some w =>
            simp only [hw] at h
            by_cases hcl : q < parts.length
            · simp only [hcl, if_true] at h
              split at h
              · exact ih _ _ _ _ (by simp [hl]) h
              · exact ih _ _ _ _ (by simp [hl]) h
            · simp [hcl] at h
    exact hkeep fuel (some leaf) 0 0 _ (by simp) hr
  obtain ⟨parts2, hsweep⟩ := inheritSweep_total jnodes hF cur jnodes.size parts1 hlen1 (le_refl _)
  refine ⟨cb0, crit, leaf, cb1, parts1, cur, parts2, hsub, hcrit, hd, hchain, ?_, ?_⟩
  · simp only [backwardPartition, hchain]
    exact hsweep
  · intro hnowrap
    obtain ⟨acc, habove⟩ := chainWalk_account jnodes max_component hF cb1 fuel (some leaf) 0 0
      _ parts1 cur (walkAcc_init jnodes max_component cb1 leaf) hr hnowrap
    have hQ : ∀ c, c < jnodes.size → parts1.getD c INVALID_PART ≠ INVALID_PART →
        ownWeight jnodes edge_balanced c + ∑ k ∈ Finset.range jnodes.size,
          (if jnodes.parent k = some c ∧ parts1.getD k INVALID_PART = INVALID_PART then
            cb0.getD k 0 else 0) ≤ cb1.getD c 0 := by
      intro c hc _
      apply chain_weight_covers jnodes edge_balanced cb0 cb1 parts1 inv0 c hc
      rcases hch c hc with h1 | ⟨k, hk, hka, h1⟩
      · exact Or.inl h1
      · exact Or.inr ⟨k, hk, above_lt jnodes hF leaf k hka hleaf, habove leaf rfl k hka, h1⟩
    have hA : ∀ p : Int, p ≠ INVALID_PART →
        partWeight jnodes edge_balanced parts2 p ≤ chainLoad jnodes cb1 parts1 p +
          (if cur = p then strayLoad jnodes cb0 parts1 else 0) := by
      intro p hp
      rw [← sweepShare_start jnodes edge_balanced hF cb0 cb1 parts1 cur p hp]
      exact inheritSweep_account jnodes edge_balanced hF cb0 cb1 parts1 cur p inv0 hQ jnodes.size
        parts1 parts2 (le_refl _) hlen1 (fun _ _ => rfl) hsweep
    refine ⟨fun c hc ha => le_trans (Nat.le_add_right _ _) (hQ c hc ha), hA, acc.loads, ?_⟩
    intro hH1 hH2 p hp
    have hload : chainLoad jnodes cb1 parts1 p ≤ max_component := by
      rcases acc.loads p hp with h1 | h1 | ⟨c, hc, hcp, h1⟩
      · omega
      · omega
      · rw [h1]
        exact hH1 c hc (by rw [hcp]; exact hp)
    have h1 := hA p hp
    by_cases hpc : cur = p
    · rw [if_pos hpc] at h1
      rcases hH2 with h2 | h2
      · omega
      · rw [hpc] at h2
        omega
    · rw [if_neg hpc] at h1
      omega

theorem isForest_path (n : Nat) : IsForest (pathForest n) where
  child_before_parent := by
    intro id p h
    simp only [pathForest] at h
    split at h
    · have := Option.some.inj h
      omega
    · simp at h
  parent_lt := by
    intro id p _ h
    simp only [pathForest] at h ⊢
    split at h
    · have := Option.some.inj h
      omega
    · simp at h
  kids_parent := by
    intro id k hid hk
    simp only [pathForest] at hid hk ⊢
    split at hk
    · rename_i hpos
      have hk' : k = id - 1 := by simpa using hk
      have h1 : k + 1 < n := by omega
      rw [if_pos h1]
      congr 1
      omega
    · simp at hk
  kids_complete := by
    intro id k hk h
    simp only [pathForest] at hk h ⊢
    split at h
    · have hid := Option.some.inj h
      have h1 : 0 < id ∧ id < n := by omega
      rw [if_pos h1]
      have : k = id - 1 := by omega
      simp [this]
    · simp at h

theorem descend_leaf (jn : JNodeTable) (fuel critical : Nat) (cb cb1 : List Nat) (leaf : Nat)
    (h : descend jn fuel critical cb = .ok (leaf, cb1)) : jn.kids leaf = [] := by
  induction fuel generalizing critical cb with
  | zero => simp [descend] at h
  | succ n ih =>
    rw [descend] at h
    cases ha : argMax (fun k => cb.getD k 0) (jn.kids critical) with
    | none =>
      simp only [ha, Except.ok.injEq, Prod.mk.injEq] at h
      rw [← h.1]
      cases hk : jn.kids critical with
      | nil => rfl
      | cons x xs => simp [hk, argMax] at ha
    | some c =>
      simp only [ha] at h
      split at h
      · simp at h
      · cases hp : jn.parent c with
        | none => simp [hp] at h
        | some p =>
          simp only [hp] at h
          split at h
          · exact ih _ _ h
          · simp at h

/-- The walk on a path with capacity 1: every chain weight is at least 1, so
every node opens a part, and node `i` gets the `short` value of `i + 1`. -/
theorem chainWalk_path (n : Nat) (cb : List Nat) (hcb : ∀ i, i < n → 1 ≤ cb.getD i 0)
    (fuel q : Nat) (cur : Int) (ps : Nat) (parts parts1 : List Int) (cur1 : Int)
    (hq : q < n) (hcur : cur = toShort (q : Int))
    (h : chainWalk (pathForest n) 1 cb fuel (some q) cur ps parts = .ok (parts1, cur1)) :
    ∀ i, q ≤ i → i < n → parts1.getD i INVALID_PART = toShort ((i : Int) + 1) := by
  induction fuel generalizing q cur ps parts with
  | zero => simp [chainWalk] at h
  | succ m ih =>
    rw [chainWalk] at h
    cases hw : cb[q]? with
    | none => simp [hw] at h
    | some w =>
      simp only [hw] at h
      have hwv : cb.getD q 0 = w := getD_of_getElem? _ _ _ _ hw
      have hw1 : 1 ≤ w := by rw [← hwv]; exact hcb q hq
      by_cases hcl : q < parts.length
      · have hfit : ¬ ps + w < 1 := by omega
        simp only [hcl, if_true, hfit, if_false] at h
        have hval : toShort (cur + 1) = toShort ((q : Int) + 1) := by
          rw [hcur]; unfold toShort; omega
        intro i hqi hin
        by_cases hiq : i = q
        · rw [hiq, chainWalk_frame (pathForest n) 1 (isForest_path n) cb m _ _ _ _ _ _ h q
            (fun q' hq' => (isForest_path n).child_before_parent q q' hq'),
            getD_set_self' _ _ _ _ hcl, hval]
        · have hq1 : q + 1 < n := by omega
          have hpar : (pathForest n).parent q = some (q + 1) := by
            simp only [pathForest, hq1, if_true]
          rw [hpar] at h
          exact ih (q + 1) _ _ _ hq1 (by rw [hval]; push_cast; rfl) h i (by omega) hin
      · simp [hcl] at h

theorem partWeight_two (jn : JNodeTable) (eb : Bool) (parts : List Int) (p : Int) (a b : Nat)
    (hab : a ≠ b) (ha : a < jn.size) (hb : b < jn.size)
    (hpa : parts.getD a INVALID_PART = p) (hpb : parts.getD b INVALID_PART = p) :
    ownWeight jn eb a + ownWeight jn eb b ≤ partWeight jn eb parts p := by
  unfold partWeight
  have hsub : ({a, b} : Finset Nat) ⊆ Finset.range jn.size := by
    intro x hx
    rw [Finset.mem_insert, Finset.mem_singleton] at hx
    rw [Finset.mem_range]
    rcases hx with h | h <;> omega
  have h := Finset.sum_le_sum_of_subset (f := fun c =>
    if parts.getD c INVALID_PART = p then ownWeight jn eb c else 0) hsub
  rw [Finset.sum_pair hab] at h
  simp only [hpa, hpb, if_true] at h
  exact h

theorem criticalChain_walk (jn : JNodeTable) (eb : Bool) (mc fuel : Nat) (cb0 : List Nat)
    (crit leaf : Nat) (cb1 : List Nat) (r : List Int × Int)
    (hsub : subtreeWeights jn eb jn.size 0 (List.replicate jn.size 0) = .ok cb0)
    (hcrit : argMax (fun k => cb0.getD k 0) (List.range jn.size) = some crit)
    (hd : descend jn fuel crit cb0 = .ok (leaf, cb1))
    (h : criticalChain jn eb mc fuel = .ok r) :
    chainWalk jn mc cb1 fuel (some leaf) 0 0 (List.replicate jn.size INVALID_PART) = .ok r := by
  simp only [criticalChain, hsub, hcrit, hd] at h
  exact h

theorem backwardPartition_sweep (jn : JNodeTable) (eb : Bool) (mc fuel : Nat)
    (parts1 : List Int) (cur : Int) (parts : List Int)
    (hchain : criticalChain jn eb mc fuel = .ok (parts1, cur))
    (h : backwardPartition jn eb mc fuel = .ok parts) :
    inheritSweep jn cur jn.size parts1 = .ok parts := by
  simp only [backwardPartition, hchain] at h
  exact h

/-- On the path of 65537 unit-weight nodes with capacity 1 the part counter
wraps: the leaf and the root both get part 1. -/
theorem backwardPartition_path_wraps :
    ∃ parts, backwardPartition (pathForest 65537) false 1 65537 = .ok parts ∧
      parts.getD 0 INVALID_PART = 1 ∧ parts.getD 65536 INVALID_PART = 1 ∧
      2 ≤ partWeight (pathForest 65537) false parts 1 := by
  obtain ⟨cb0, crit, leaf, cb1, parts1, cur, parts, hsub, hcrit, hd, hchain, hrun, _⟩ :=
    backwardPartition_account (pathForest 65537) false 1 65537 (isForest_path 65537)
      (by simp [pathForest]) (by simp [pathForest])
  have hn : (pathForest 65537).size = 65537 := rfl
  have inv0 := subtreeWeights_inv (pathForest 65537) false (isForest_path 65537)
    (pathForest 65537).size 0 _ cb0 (subtreeInv_init _ false) (by omega) hsub
  have hcn : crit < 65537 := by
    have := argMax_mem _ _ _ hcrit
    simpa [pathForest] using this
  have hw0 : ∀ k, k < (pathForest 65537).size →
      ownWeight (pathForest 65537) false k ≤ cb0.getD k 0 := by
    intro k hk
    rw [inv0.2 k hk, if_pos hk]
    omega
  obtain ⟨hl1, hleaf, hw1⟩ := descend_inv (pathForest 65537) false (isForest_path 65537) cb0 inv0
    65537 crit cb0 cb1 leaf inv0.1 hcn hw0 (fun _ _ => rfl) hd
  have hleaf0 : leaf = 0 := by
    have hk := descend_leaf _ _ _ _ _ _ hd
    simp only [pathForest] at hk hleaf
    by_contra hne
    rw [if_pos ⟨by omega, hleaf⟩] at hk
    simp at hk
  have hwalk := criticalChain_walk _ _ _ _ _ _ _ _ _ hsub hcrit hd hchain
  rw [hleaf0] at hwalk
  have hp1 := chainWalk_path 65537 cb1
    (fun i hi => by
      have := hw1 i hi
      simpa [ownWeight] using this)
    65537 0 0 0 _ parts1 cur (by omega) (by unfold toShort; omega) hwalk
  have hsweep := backwardPartition_sweep _ _ _ _ _ _ _ hchain hrun
  have hkeep := inheritSweep_keeps _ _ _ _ _ hsweep
  have e0 : parts1.getD 0 INVALID_PART = 1 := by
    rw [hp1 0 (le_refl _) (by omega)]; unfold toShort; omega
  have e1 : parts1.getD 65536 INVALID_PART = 1 := by
    rw [hp1 65536 (by omega) (by omega)]; unfold toShort; omega
  have f0 : parts.getD 0 INVALID_PART = 1 := by
    rw [hkeep 0 (by rw [e0]; simp only [INVALID_PART]; omega), e0]
  have f1 : parts.getD 65536 INVALID_PART = 1 := by
    rw [hkeep 65536 (by rw [e1]; simp only [INVALID_PART]; omega), e1]
  refine ⟨parts, hrun, f0, f1, ?_⟩
  have := partWeight_two (pathForest 65537) false parts 1 0 65536 (by omega) (by rw [hn]; omega)
    (by rw [hn]; omega) f0 f1
  simpa [ownWeight] using this

/-! ## Evaluation of a single part, loaded part counts, the hash -/

/-- C11: for every graph whose neighbours are vertices of the graph and every
assignment that gives all its vertices the same part `q` (not the sentinel),
`evaluate` completes with edge cut 0 and vertex communication volume 0. -/
theorem evaluate_single_part (graph : GraphWrapper) (parts : List Int) (q : Int)
    (hq : q ≠ INVALID_PART)
    (hparts : ∀ X ∈ graph.nodeItr, parts[X]? = some q)
    (hnbrs : ∀ X ∈ graph.nodeItr, ∀ Y ∈ graph.edgeItr X, Y ∈ graph.nodeItr) :
    ∃ m, evaluate graph parts = .ok m ∧ m.edges_cut = 0 ∧ m.Vcom_vol = 0 :=
  evalNodes_single graph parts q graph.nodeItr ⟨0, 0, 0⟩ hq hparts
    (fun X hX Y hY => hparts Y (hnbrs X hX Y hY)) ⟨rfl, rfl⟩

/-- Witness of C11: the complete graph on three vertices, all in part 0. -/
theorem evaluate_single_part_witness :
    ∃ m, evaluate complete3 [0, 0, 0] = .ok m ∧ m.edges_cut = 0 ∧ m.Vcom_vol = 0 :=
  evaluate_single_part complete3 [0, 0, 0] 0 (by decide)
    (by
      intro X hX
      have hX' : X < 3 := by simpa [complete3, GraphWrapper.ofAdj] using hX
      interval_cases X <;> rfl)
    (by
      intro X hX Y hY
      have hX' : X < 3 := by simpa [complete3, GraphWrapper.ofAdj] using hX
      have hr : complete3.nodeItr = [0, 1, 2] := rfl
      rw [hr]
      interval_cases X <;> simp [complete3, GraphWrapper.ofAdj] at hY ⊢ <;> omega)

/-- C13: a single forest node, vertex-balanced, two parts, slack 1.03: the
capacity is 0, below the weight 1 of the node. `forwardPartition` neither
returns nor reaches its assertion (line 182): the `do ... while` loop of lines
157-180 opens one part after the other and uses up every fuel. -/
theorem forwardPartition_heavy_node_runs_on (fuel : Nat) :
    maxComponent (forestCount (isolatedForest 1) false) 2 (103 / 100) = 0 ∧
      forwardPartition sortDesc (isolatedForest 1) false 0 fuel = .error .outOfFuel :=
  ⟨maxComponent_zero_quotient _ 2 _ rfl, isolated1_heavy fuel⟩

/-- C14: for every list of loaded part ids and every non-empty sequence not
longer than it, the file constructor completes and its `num_parts` is a loaded
value that no loaded value exceeds: the maximum, not the maximum plus one. -/
theorem ofFile_num_parts (seq : List Nat) (loaded : List Int) (hseq : seq ≠ [])
    (hlen : seq.length ≤ loaded.length) :
    ∃ Q, Partition.ofFile seq loaded = .ok Q ∧ Q.num_parts ∈ loaded ∧
      ∀ v ∈ loaded, v ≤ Q.num_parts := by
  obtain ⟨R, hR⟩ := remap_total seq loaded hseq hlen
  cases loaded with
  | nil =>
    cases seq with
    | nil => exact absurd rfl hseq
    | cons a l => simp at hlen
  | cons p ps =>
    obtain ⟨h1, h2, h3⟩ := foldl_max_int ps p
    refine ⟨{ num_parts := ps.foldl max p, parts := R, edge_balanced := false
              balance_factor := 0, max_component := 0 },
      by simp only [Partition.ofFile, hR], ?_, ?_⟩
    · rcases h3 with h3 | h3
      · show ps.foldl max p ∈ p :: ps
        rw [h3]; exact List.mem_cons_self _ _
      · exact List.mem_cons_of_mem _ h3
    · intro v hv
      rcases List.mem_cons.mp hv with rfl | hv
      · exact h1
      · exact h2 v hv

/-- Witness of C14: loading 0, 0, 1, 1 gives `num_parts = 1`. -/
theorem ofFile_num_parts_witness :
    (Partition.ofFile [0, 1, 2, 3] [0, 0, 1, 1]).map (fun Q => Q.num_parts) = .ok 1 ∧
      ∃ Q, Partition.ofFile [0, 1, 2, 3] [0, 0, 1, 1] = .ok Q ∧ Q.num_parts ∈ [0, 0, 1, 1] ∧
        ∀ v ∈ ([0, 0, 1, 1] : List Int), v ≤ Q.num_parts :=
  ⟨rfl, ofFile_num_parts [0, 1, 2, 3] [0, 0, 1, 1] (by decide) (by decide)⟩

/-- C15: in every state the graph-backed streaming partitioner reaches (the run
has committed the vertices `pre`), the parts of non-zero running size come
first: if `part_size[p] = 0` then `part_size[q] = 0` for every `q > p`. -/
theorem fennel_nonempty_parts_first (cost : Nat → Nat → ℚ) (graph : GraphWrapper)
    (num_parts : Nat) (edge_balanced : Bool) (max_component : Nat) (pre : List Nat)
    (s : FennelState)
    (hrun : fennelLoop cost graph num_parts edge_balanced max_component pre
      { parts := List.replicate (graph.getMaxVid + 1) INVALID_PART
        part_size := List.replicate num_parts 0 } = .ok s) :
    ∀ p q, p < q → s.part_size.getD p 0 = 0 → s.part_size.getD q 0 = 0 :=
  (fennelLoop_inv cost graph num_parts edge_balanced max_component pre _ s
    (fennelInv_init num_parts _) hrun).2.1

/-- Witness of C15: the 4-cycle after its first vertex is committed (two parts,
edge-balanced, capacity 4): the sizes are 2 and 0. -/
theorem fennel_nonempty_parts_first_witness :
    fennelLoop (fun _ _ => 0) cycle4 2 true 4 [0]
        { parts := List.replicate (cycle4.getMaxVid + 1) INVALID_PART
          part_size := List.replicate 2 0 } = .ok ⟨[0, -1, -1, -1], [2, 0]⟩ ∧
      ∀ p q, p < q → ([2, 0] : List Nat).getD p 0 = 0 → ([2, 0] : List Nat).getD q 0 = 0 :=
  ⟨rfl, fennel_nonempty_parts_first (fun _ _ => 0) cycle4 2 true 4 [0] ⟨[0, -1, -1, -1], [2, 0]⟩ rfl⟩

/-- C16: the chain of two unit-weight nodes with capacity 2 (vertex-balanced,
one part, slack 1.03). At the root the running part size is 1 and the chain
weight is 1: the sum equals the capacity, and the walk opens a new part
(`part_size + component_below.at(critical) < max_component` is strict). -/
theorem backwardPartition_splits_at_capacity :
    maxComponent (forestCount chain2 false) 1 (103 / 100) = 2 ∧
      chainWalk chain2 2 [1, 1] 1 (some 1) 0 1 [0, INVALID_PART] = .ok ([0, 1], 1) ∧
      criticalChain chain2 false 2 2 = .ok ([0, 1], 1) ∧
      backwardPartition chain2 false 2 2 = .ok [0, 1] :=
  ⟨maxComponent_double_103 _ 1 rfl, rfl, rfl, rfl⟩

/-- C18: four roots, vertex-balanced. With capacity 2 `naivePartition` gives
every node a part of its own, with capacity 3 it puts all four nodes into
part 0: the running size grows by the weight and by one more in the test
`++cur_size == max_component`, and the test is an equality. -/
theorem naivePartition_counts_twice :
    naivePartition (isolatedForest 4) false 2 = .ok [0, 1, 2, 3] ∧
      naivePartition (isolatedForest 4) false 3 = .ok [0, 0, 0, 0] :=
  ⟨rfl, rfl⟩

/-- C20: `knuth_hash` is injective on 32-bit ids; so for distinct 32-bit ids
`X` and `Y` the owner `knuth_hash(X) < knuth_hash(Y) ? X_part : Y_part` chosen
at `X` is the owner chosen at `Y`, where the roles are exchanged. -/
theorem knuth_hash_injective (X Y : Nat) (X_part Y_part : Int) (hX : X < 4294967296)
    (hY : Y < 4294967296) (hne : X ≠ Y) :
    knuth_hash X ≠ knuth_hash Y ∧
      (if knuth_hash X < knuth_hash Y then X_part else Y_part) =
        (if knuth_hash Y < knuth_hash X then Y_part else X_part) := by
  have h : knuth_hash X ≠ knuth_hash Y := fun h => hne (knuth_hash_cancel X Y hX hY h)
  refine ⟨h, ?_⟩
  rcases Nat.lt_or_gt_of_ne h with h1 | h1
  · rw [if_pos h1, if_neg (by omega)]
  · rw [if_neg (by omega), if_pos h1]

/-- Witness of C20: the ids 0 and 1 with the parts 5 and 7. -/
theorem knuth_hash_injective_witness :
    knuth_hash 0 ≠ knuth_hash 1 ∧
      (if knuth_hash 0 < knuth_hash 1 then (5 : Int) else 7) =
        (if knuth_hash 1 < knuth_hash 0 then 7 else 5) :=
  knuth_hash_injective 0 1 5 7 (by decide) (by decide) (by decide)

/-- C19: a file of two records `(0, 1)` and `(0, 2)`, two parts. The first
record is given part 0 and sets the touched-bit of vertex 0 for part 0; the run
goes on with the record `(0, 2)`, for which one endpoint has touched part 0,
but the tally used to score the parts is `[0, 0]`, as it is for every record:
the loop `for (short p = 0; k != num_parts; ++p)` of line 522 never runs. -/
theorem fennelFile_tally_stays_zero (cost : Nat → Nat → ℚ) :
    ∃ s1, fileStep cost 2 2 (maxComponent fileEdgeCount 2 (103 / 100))
          { parts := List.replicate (fileEdgeCount + 1) INVALID_PART
            part_size := List.replicate 2 0
            touches_part := List.replicate (2 * (fileMaxVid + 1)) false } 0 (0, 1) = .ok s1 ∧
      fennelFile cost 2 [(0, 1), (0, 2)] =
        fileLoop cost 2 2 (maxComponent fileEdgeCount 2 (103 / 100)) [(0, 2), (0, 2)] 1 s1 ∧
      touchedCount s1.touches_part 2 0 2 0 = 1 ∧
      ∀ X Y, fileTally s1.touches_part 2 2 X Y shortPeriod 0 (List.replicate 2 0) = .ok [0, 0] := by
  have h := fileStep_first cost 0 1 (by unfold fileMaxVid; omega)
  refine ⟨_, h, ?_, ?_, ?_⟩
  · have hr : recordsRead [(0, 1), (0, 2)] = some [(0, 1), (0, 2), (0, 2)] := rfl
    rw [fennelFile, computeMaxComponent_file]
    simp only [hr]
    rw [fileLoop, h]
  · have hl : 0 < 2 * (fileMaxVid + 1) := by omega
    have h4 : 4 < 2 * (fileMaxVid + 1) := by unfold fileMaxVid; omega
    simp [touchedCount, List.getD_eq_getElem?_getD, List.getElem?_set, hl, h4]
  · intro X Y
    exact fileTally_skipped _ 2 X Y _

/-- C12: for every graph with at least one vertex given as symmetric adjacency
lists without repetition, every assignment whose entries are part ids below
100 or the sentinel, with no sentinel on a vertex, and every sequence without
repetition that lists every vertex, `writePartitionedGraph` completes, opens
`max_part + 1` streams, and stream `p` holds exactly the lines `X Y` of the
edges with `X < Y` owned by part `p`, the part of the endpoint that comes
first in the sequence: every undirected edge is written once, to the stream of
its owner and to no other stream, and nothing else is written. -/
theorem writePartitionedGraph_each_edge_once (graph : GraphWrapper) (seq : List Nat)
    (parts : List Int)
    (hne : graph.nodeItr ≠ [])
    (hnodes : graph.nodeItr.Nodup)
    (hadj : ∀ X ∈ graph.nodeItr, (graph.edgeItr X).Nodup)
    (hsym : ∀ X ∈ graph.nodeItr, ∀ Y ∈ graph.edgeItr X,
      Y ∈ graph.nodeItr ∧ X ∈ graph.edgeItr Y)
    (hseq : seq.Nodup) (hcover : ∀ X ∈ graph.nodeItr, X ∈ seq)
    (hparts : ∀ X ∈ graph.nodeItr,
      X < parts.length ∧ parts.getD X INVALID_PART ≠ INVALID_PART)
    (hrange : ∀ z ∈ parts, -1 ≤ z ∧ z < 100) :
    ∃ streams max_part, writePartitionedGraph graph seq parts = .ok streams ∧
      maxPart parts = some max_part ∧ (streams.length : Int) = max_part + 1 ∧
      (∀ p, p < streams.length → streams.getD p [] = linesOf graph seq parts p) ∧
      (∀ X ∈ graph.nodeItr, ∀ Y ∈ graph.nodeItr, X < Y →
        (Y ∈ graph.edgeItr X ∨ X ∈ graph.edgeItr Y) →
        ∃ p, p < streams.length ∧ ownerPart seq parts X Y = (p : Int) ∧
          (streams.getD p []).countP (fun e => decide (e = (X, Y))) = 1 ∧
          ∀ r, r ≠ p → (X, Y) ∉ streams.getD r []) ∧
      (∀ p, ∀ e ∈ streams.getD p [],
        e.1 ∈ graph.nodeItr ∧ e.2 ∈ graph.edgeItr e.1 ∧ e.1 < e.2) := by
  -- the vertices have a part id
  have hpart : ∀ X ∈ graph.nodeItr, parts[X]? = some (parts.getD X INVALID_PART) ∧
      parts.getD X INVALID_PART ∈ parts := by
    intro X hX
    obtain ⟨h1, _⟩ := hparts X hX
    have : parts.getD X INVALID_PART = parts[X] := by
      rw [List.getD_eq_getElem?_getD, List.getElem?_eq_getElem h1]; rfl
    rw [this]
    exact ⟨List.getElem?_eq_getElem h1, List.getElem_mem h1⟩
  obtain ⟨X0, hX0⟩ := List.exists_mem_of_ne_nil _ hne
  have hpne : parts ≠ [] := List.ne_nil_of_mem (hpart X0 hX0).2
  have hsne : seq ≠ [] := List.ne_nil_of_mem (hcover X0 hX0)
  obtain ⟨mp, hmp, hmpm, hmpmax⟩ := maxPart_spec parts hpne
  have hmp0 : 0 ≤ mp := by
    have h1 := hmpmax _ (hpart X0 hX0).2
    have h2 := (hrange _ (hpart X0 hX0).2).1
    have h3 : parts.getD X0 INVALID_PART ≠ -1 := (hparts X0 hX0).2
    omega
  have hmp100 : mp < 100 := (hrange mp hmpm).2
  have hopen : openStreams mp shortPeriod 0 [] =
      .ok ([] ++ List.replicate ((mp + 1).toNat - 0) []) :=
    openStreams_spec mp (mp + 1).toNat (by omega) (by omega) shortPeriod 0 []
      (by omega) (by rw [shortPeriod_eq]; omega)
  obtain ⟨pos, hpos, hposv⟩ := buildPos_spec seq hsne hseq
  have howner : ∀ X ∈ graph.nodeItr, ∀ Y ∈ graph.nodeItr,
      0 ≤ ownerPart seq parts X Y ∧ ownerPart seq parts X Y ≤ mp := by
    intro X hX Y hY
    have hx1 := hmpmax _ (hpart X hX).2
    have hx2 := (hrange _ (hpart X hX).2).1
    have hx3 : parts.getD X INVALID_PART ≠ -1 := (hparts X hX).2
    have hy1 := hmpmax _ (hpart Y hY).2
    have hy2 := (hrange _ (hpart Y hY).2).1
    have hy3 : parts.getD Y INVALID_PART ≠ -1 := (hparts Y hY).2
    unfold ownerPart
    split <;> constructor <;> omega
  obtain ⟨st, hst, hlen, hcontent⟩ := writeNodes_spec graph parts pos (ownerPart seq parts)
    graph.nodeItr ([] ++ List.replicate ((mp + 1).toNat - 0) []) (by
      intro X hX
      refine ⟨some (seq.indexOf X), parts.getD X INVALID_PART, hposv X (hcover X hX),
        (hpart X hX).1, (hparts X hX).2, ?_⟩
      intro Y hY _
      have hYn : Y ∈ graph.nodeItr := (hsym X hX Y hY).1
      refine ⟨some (seq.indexOf Y), parts.getD Y INVALID_PART, hposv Y (hcover Y hYn),
        (hpart Y hYn).1, (hparts Y hYn).2, ?_, (howner X hX Y hYn).1, ?_⟩
      · simp only [posLt, decide_eq_true_eq, ownerPart]
      · have := (howner X hX Y hYn).2
        simp only [List.nil_append, List.length_replicate]
        omega)
  have hlen' : st.length = (mp + 1).toNat := by
    rw [hlen]; simp
  have hlines : ∀ p, p < st.length → st.getD p [] = linesOf graph seq parts p := by
    intro p hp
    have hp' : p < ([] ++ List.replicate ((mp + 1).toNat - 0) ([] : EdgeLines)).length := by
      rw [← hlen]; exact hp
    rw [hcontent p hp']
    have hz : ([] ++ List.replicate ((mp + 1).toNat - 0) ([] : EdgeLines)).getD p [] = [] := by
      simp only [List.nil_append, List.getD_eq_getElem?_getD, List.getElem?_replicate]
      split <;> rfl
    rw [hz, List.nil_append]
    rfl
  have hout : ∀ r, st.length ≤ r → st.getD r [] = [] := by
    intro r hr
    rw [List.getD_eq_getElem?_getD, List.getElem?_eq_none hr]
    rfl
  refine ⟨st, mp, ?_, hmp, by rw [hlen']; omega, hlines, ?_, ?_⟩
  · have h100 : ¬ ¬ mp < 100 := by omega
    simp only [writePartitionedGraph, hmp, h100, if_false, hopen, hpos]
    exact hst
  · intro X hX Y hY hlt hedge
    have hYX : Y ∈ graph.edgeItr X := by
      rcases hedge with h | h
      · exact h
      · exact (hsym Y hY X h).2
    obtain ⟨ho0, hom⟩ := howner X hX Y hY
    refine ⟨(ownerPart seq parts X Y).toNat, by rw [hlen']; omega, by omega, ?_, ?_⟩
    · rw [hlines _ (by rw [hlen']; omega)]
      have hmem : (X, Y) ∈ linesOf graph seq parts (ownerPart seq parts X Y).toNat := by
        rw [mem_linesOf]
        have ho : ownerPart seq parts X Y = ((ownerPart seq parts X Y).toNat : Int) := by omega
        exact ⟨hX, hYX, hlt, ho⟩
      exact List.count_eq_one_of_mem (nodup_linesOf graph seq parts _ hnodes hadj) hmem
    · intro r hr hmem
      by_cases hrl : r < st.length
      · rw [hlines r hrl, mem_linesOf] at hmem
        have := hmem.2.2.2
        simp only at this
        omega
      · rw [hout r (by omega)] at hmem
        simp at hmem
  · intro p e he
    by_cases hpl : p < st.length
    · rw [hlines p hpl, mem_linesOf] at he
      exact ⟨he.1, he.2.1, he.2.2.1⟩
    · rw [hout p (by omega)] at he
      simp at he

/-- Witness of C12: the 4-cycle with the sequence `[2, 1, 0, 3]` and the
assignment `[0, 1, 2, 1]`: three streams, holding `0 3`, `0 1`, and `1 2`,
`2 3`. -/
theorem writePartitionedGraph_each_edge_once_witness :
    writePartitionedGraph cycle4 [2, 1, 0, 3] [0, 1, 2, 1] =
        .ok [[(0, 3)], [(0, 1)], [(1, 2), (2, 3)]] ∧
      ∃ streams max_part, writePartitionedGraph cycle4 [2, 1, 0, 3] [0, 1, 2, 1] = .ok streams ∧
        maxPart [0, 1, 2, 1] = some max_part ∧ (streams.length : Int) = max_part + 1 ∧
        (∀ p, p < streams.length →
          streams.getD p [] = linesOf cycle4 [2, 1, 0, 3] [0, 1, 2, 1] p) ∧
        (∀ X ∈ cycle4.nodeItr, ∀ Y ∈ cycle4.nodeItr, X < Y →
          (Y ∈ cycle4.edgeItr X ∨ X ∈ cycle4.edgeItr Y) →
          ∃ p, p < streams.length ∧ ownerPart [2, 1, 0, 3] [0, 1, 2, 1] X Y = (p : Int) ∧
            (streams.getD p []).countP (fun e => decide (e = (X, Y))) = 1 ∧
            ∀ r, r ≠ p → (X, Y) ∉ streams.getD r []) ∧
        (∀ p, ∀ e ∈ streams.getD p [],
          e.1 ∈ cycle4.nodeItr ∧ e.2 ∈ cycle4.edgeItr e.1 ∧ e.1 < e.2) :=
  ⟨by with_unfolding_all rfl,
    writePartitionedGraph_each_edge_once cycle4 [2, 1, 0, 3] [0, 1, 2, 1] (by decide) (by decide)
      (by decide) (by decide) (by decide) (by decide) (by decide) (by decide)⟩

/-- C17 (amended): for every non-empty forest with child-before-parent ids,
`backwardPartition` completes (fuel: the node count). Write `cb1` for
`component_below` as the descent of lines 109-114 leaves it (the chain weight
of a node: its subtree weight less that of its kid on the chain), `parts1` and
`cur_part` for the state after the walk of lines 116-127. If the `short` part
counter has not overflowed (no node has part `-32768`), then for every part
`p`: the own weights of all nodes assigned to `p` sum to at most the chain
weights of the chain nodes in `p`, plus, for the last part opened, the subtree
weights of the roots off the chain; the chain weights in `p` sum to less than
`max_component`, or to 0, or to the chain weight of one chain node of `p`
(line 124 starts a part at the chain weight of its first node, whatever it
is). So the own weights in every part sum to at most `max_component` when
every chain weight is at most `max_component` and the last part has room for
the roots off the chain. -/
theorem backwardPartition_part_weights_bounded (jnodes : JNodeTable) (edge_balanced : Bool)
    (max_component fuel : Nat) (hF : IsForest jnodes) (hpos : 0 < jnodes.size)
    (hfuel : jnodes.size ≤ fuel) :
    ∃ cb0 critical leaf cb1 parts1 cur_part parts,
      subtreeWeights jnodes edge_balanced jnodes.size 0 (List.replicate jnodes.size 0) = .ok cb0 ∧
      argMax (fun k => cb0.getD k 0) (List.range jnodes.size) = some critical ∧
      descend jnodes fuel critical cb0 = .ok (leaf, cb1) ∧
      criticalChain jnodes edge_balanced max_component fuel = .ok (parts1, cur_part) ∧
      backwardPartition jnodes edge_balanced max_component fuel = .ok parts ∧
      ((∀ c, c < jnodes.size → parts1.getD c INVALID_PART ≠ -32768) →
        (∀ c, c < jnodes.size → parts1.getD c INVALID_PART ≠ INVALID_PART →
          ownWeight jnodes edge_balanced c ≤ cb1.getD c 0) ∧
        (∀ p : Int, p ≠ INVALID_PART →
          partWeight jnodes edge_balanced parts p ≤ chainLoad jnodes cb1 parts1 p +
            (if cur_part = p then strayLoad jnodes cb0 parts1 else 0)) ∧
        (∀ p : Int, p ≠ INVALID_PART →
          chainLoad jnodes cb1 parts1 p < max_component ∨ chainLoad jnodes cb1 parts1 p = 0 ∨
            ∃ c, c < jnodes.size ∧ parts1.getD c INVALID_PART = p ∧
              chainLoad jnodes cb1 parts1 p = cb1.getD c 0) ∧
        ((∀ c, c < jnodes.size → parts1.getD c INVALID_PART ≠ INVALID_PART →
            cb1.getD c 0 ≤ max_component) →
          (strayLoad jnodes cb0 parts1 = 0 ∨
            chainLoad jnodes cb1 parts1 cur_part + strayLoad jnodes cb0 parts1 ≤ max_component) →
          ∀ p : Int, p ≠ INVALID_PART →
            partWeight jnodes edge_balanced parts p ≤ max_component)) :=
  backwardPartition_account jnodes edge_balanced max_component fuel hF hpos hfuel

/-- Witness of C17 (amended): Scenario A with capacity 2. The chain is the kid
0 and the root, with chain weights 1 and 2; the walk gives them the parts 0
and 1, the kid 1 inherits part 1, and every part holds own weight at most 2. -/
theorem backwardPartition_part_weights_bounded_witness :
    descend scenarioA 3 2 [1, 1, 3] = .ok (0, [1, 1, 2]) ∧
      criticalChain scenarioA false 2 3 = .ok ([0, INVALID_PART, 1], 1) ∧
      backwardPartition scenarioA false 2 3 = .ok [0, 1, 1] ∧
      ∀ p : Int, p ≠ INVALID_PART → partWeight scenarioA false [0, 1, 1] p ≤ 2 := by
  have hd : descend scenarioA 3 2 [1, 1, 3] = .ok (0, [1, 1, 2]) := rfl
  have hc : criticalChain scenarioA false 2 3 = .ok ([0, INVALID_PART, 1], 1) := rfl
  have hb : backwardPartition scenarioA false 2 3 = .ok [0, 1, 1] := rfl
  refine ⟨hd, hc, hb, ?_⟩
  obtain ⟨cb0, crit, leaf, cb1, parts1, cur, parts, hsub, hcrit, hd', hchain, hrun, himp⟩ :=
    backwardPartition_part_weights_bounded scenarioA false 2 3 isForest_scenarioA (by decide)
      (by decide)
  have e0 : cb0 = [1, 1, 3] := by
    have h : subtreeWeights scenarioA false scenarioA.size 0 (List.replicate scenarioA.size 0) =
        .ok [1, 1, 3] := rfl
    rw [h] at hsub
    exact (Except.ok.inj hsub).symm
  subst e0
  have e1 : crit = 2 := by
    have h : argMax (fun k => ([1, 1, 3] : List Nat).getD k 0) (List.range scenarioA.size) =
        some 2 := rfl
    rw [h] at hcrit
    exact (Option.some.inj hcrit).symm
  subst e1
  rw [hd] at hd'
  have e2 := Except.ok.inj hd'
  have e3 : leaf = 0 := (congrArg Prod.fst e2).symm
  have e4 : cb1 = [1, 1, 2] := (congrArg Prod.snd e2).symm
  subst e3 e4
  rw [hc] at hchain
  have e5 := Except.ok.inj hchain
  have e6 : parts1 = [0, INVALID_PART, 1] := (congrArg Prod.fst e5).symm
  have e7 : cur = 1 := (congrArg Prod.snd e5).symm
  subst e6 e7
  rw [hb] at hrun
  have e8 : parts = [0, 1, 1] := (Except.ok.inj hrun).symm
  subst e8
  have hsz : scenarioA.size = 3 := rfl
  refine (himp ?_).2.2.2 ?_ ?_
  · intro c hc'
    rw [hsz] at hc'
    interval_cases c <;> decide
  · intro c hc' _
    rw [hsz] at hc'
    interval_cases c <;> decide
  · left
    rfl

/-- Counterexample to C17 as stated. Scenario A (a root with two kids, unit
weights), vertex-balanced, two parts, slack 1.03, so capacity 1: the chain
weight of the root is 2, the walk gives the kid 0 part 1 and the root part 2,
the kid 1, off the chain, takes the part of the root, and part 2 holds own
weight 2. Two isolated roots with capacity 1: the walk gives the first root
part 1, the second root, off the chain, takes the last part opened, and part 1
holds own weight 2. The path of 65537 unit-weight nodes with capacity 1: the
part counter wraps, the leaf and the root both get part 1. On the empty forest
the method reads past the end of an empty range. -/
theorem backwardPartition_exceeds_capacity :
    (IsForest scenarioA ∧
      maxComponent (forestCount scenarioA false) 2 (103 / 100) = 1 ∧
      (∀ id, id < scenarioA.size → ownWeight scenarioA false id ≤ 1) ∧
      descend scenarioA 3 2 [1, 1, 3] = .ok (0, [1, 1, 2]) ∧
      criticalChain scenarioA false 1 3 = .ok ([1, INVALID_PART, 2], 2) ∧
      backwardPartition scenarioA false 1 3 = .ok [1, 2, 2] ∧
      partWeight scenarioA false [1, 2, 2] 2 = 2) ∧
    (IsForest (isolatedForest 2) ∧
      (∀ id, id < (isolatedForest 2).size → ownWeight (isolatedForest 2) false id ≤ 1) ∧
      criticalChain (isolatedForest 2) false 1 2 = .ok ([1, INVALID_PART], 1) ∧
      backwardPartition (isolatedForest 2) false 1 2 = .ok [1, 1] ∧
      partWeight (isolatedForest 2) false [1, 1] 1 = 2) ∧
    (IsForest (pathForest 65537) ∧
      (∀ id, id < (pathForest 65537).size → ownWeight (pathForest 65537) false id ≤ 1) ∧
      ∃ parts, backwardPartition (pathForest 65537) false 1 65537 = .ok parts ∧
        parts.getD 0 INVALID_PART = 1 ∧ parts.getD 65536 INVALID_PART = 1 ∧
        2 ≤ partWeight (pathForest 65537) false parts 1) ∧
    ∀ fuel, backwardPartition (isolatedForest 0) false 1 fuel = .error .undefinedBehaviour := by
  refine ⟨⟨isForest_scenarioA, ?_, ?_, rfl, rfl, rfl, rfl⟩,
    ⟨isForest_isolated 2, fun id _ => le_of_eq (ownWeight_isolated 2 false id), rfl, rfl, rfl⟩,
    ⟨isForest_path 65537, fun id _ => le_refl _, backwardPartition_path_wraps⟩, fun _ => rfl⟩
  · exact maxComponent_unit_103 _ 2 rfl
  · intro id _; simp [ownWeight]

/-! ### Volumes of a single part (C21) -/

theorem wrap64_step_edge (h : Nat) (k : Nat) :
    wrap64 ((wrap64 ((h : Int) + (wrap64 (((1 : Nat) : Int) - 1) : Int)) : Int) - (k : Int)) =
      wrap64 ((h : Int) - (k : Int)) := by
  unfold wrap64
  omega

theorem wrap64_step_loner (h : Nat) (k : Nat) :
    wrap64 ((wrap64 ((h : Int) + (wrap64 (((0 : Nat) : Int) - 1) : Int)) : Int) - (k : Int)) =
      wrap64 ((h : Int) - ((k + 1 : Nat) : Int)) := by
  unfold wrap64
  omega

theorem wrap64_lt (z : Int) : wrap64 z < 18446744073709551616 := by
  unfold wrap64
  omega

theorem insert_of_subset_singleton (q : Int) (s : Finset Int) (h : s ⊆ {q}) :
    insert q s = {q} := by
  apply Finset.Subset.antisymm
  · intro x hx
    rcases Finset.mem_insert.mp hx with hx | hx
    · rw [hx]; exact Finset.mem_singleton_self q
    · exact h hx
  · intro x hx
    rw [Finset.mem_singleton.mp hx]
    exact Finset.mem_insert_self q s

theorem evalEdges_one_part (parts : List Int) (X : Nat) (q : Int) (nbrs : List Nat)
    (acc : VertexAcc) (hq : q ≠ INVALID_PART) (hp : ∀ Y ∈ nbrs, parts[Y]? = some q)
    (hv : acc.Vcom_vol_nbrs = {q}) (hh : acc.ECV_hash_nbrs ⊆ {q}) :
    ∃ acc1, evalEdges parts X q nbrs acc = .ok acc1 ∧ acc1.edges_cut = acc.edges_cut ∧
      acc1.Vcom_vol_nbrs = {q} ∧
      acc1.ECV_hash_nbrs = (if nbrs = [] then acc.ECV_hash_nbrs else {q}) := by
  induction nbrs generalizing acc with
  | nil => exact ⟨acc, rfl, rfl, hv, by simp⟩
  | cons Y rest ih =>
    have hY : parts[Y]? = some q := hp Y (List.mem_cons_self _ _)
    simp only [evalEdges, hY, hq, if_false]
    obtain ⟨acc1, h1, h2, h3, h4⟩ := ih
      { edges_cut := if X < Y ∧ q ≠ q then acc.edges_cut + 1 else acc.edges_cut
        Vcom_vol_nbrs := insert q acc.Vcom_vol_nbrs
        ECV_hash_nbrs := insert (if knuth_hash X < knuth_hash Y then q else q) acc.ECV_hash_nbrs }
      (fun Z hZ => hp Z (List.mem_cons_of_mem _ hZ)) (by simp [hv])
      (by simp only [ite_self]; rw [insert_of_subset_singleton q _ hh])
    refine ⟨acc1, h1, ?_, h3, ?_⟩
    · rw [h2]; simp
    · rw [h4]
      simp only [ite_self, insert_of_subset_singleton q _ hh, reduceCtorEq, if_false]

theorem orderEdges_one_part (parts : List Int) (pos : List (Option Nat)) (X_pos : Option Nat)
    (q : Int) (nbrs : List Nat) (acc : OrderAcc) (hq : q ≠ INVALID_PART)
    (hp : ∀ Y ∈ nbrs, parts[Y]? = some q ∧ ∃ Yp, pos[Y]? = some Yp)
    (hd : acc.ECV_down_nbrs ⊆ {q}) (hu : acc.ECV_up_nbrs ⊆ {q}) :
    ∃ acc1, orderEdges parts pos X_pos q nbrs acc = .ok acc1 ∧
      acc1.ECV_down_nbrs = (if nbrs = [] then acc.ECV_down_nbrs else {q}) ∧
      acc1.ECV_up_nbrs = (if nbrs = [] then acc.ECV_up_nbrs else {q}) := by
  induction nbrs generalizing acc with
  | nil => exact ⟨acc, rfl, by simp, by simp⟩
  | cons Y rest ih =>
    obtain ⟨hY, Yp, hYp⟩ := hp Y (List.mem_cons_self _ _)
    simp only [orderEdges, hY, hYp, hq, if_false, ite_self]
    obtain ⟨acc1, h1, h2, h3⟩ := ih
      { ECV_down_nbrs := insert q acc.ECV_down_nbrs, ECV_up_nbrs := insert q acc.ECV_up_nbrs }
      (fun Z hZ => hp Z (List.mem_cons_of_mem _ hZ))
      (by rw [insert_of_subset_singleton q _ hd])
      (by rw [insert_of_subset_singleton q _ hu])
    refine ⟨acc1, h1, ?_, ?_⟩
    · rw [h2]
      simp only [ite_self, insert_of_subset_singleton q _ hd, reduceCtorEq, if_false]
    · rw [h3]
      simp only [ite_self, insert_of_subset_singleton q _ hu, reduceCtorEq, if_false]

theorem lonerCount_cons_loner (graph : GraphWrapper) (X : Nat) (rest : List Nat)
    (h : graph.edgeItr X = []) : lonerCount graph (X :: rest) = lonerCount graph rest + 1 := by
  simp [lonerCount, List.filter_cons, h]

theorem lonerCount_cons_edge (graph : GraphWrapper) (X : Nat) (rest : List Nat)
    (h : graph.edgeItr X ≠ []) : lonerCount graph (X :: rest) = lonerCount graph rest := by
  simp [lonerCount, List.filter_cons, h]

theorem evalNodes_one_part (graph : GraphWrapper) (parts : List Int) (q : Int) (nodes : List Nat)
    (m : Metrics) (hq : q ≠ INVALID_PART) (hX : ∀ X ∈ nodes, parts[X]? = some q)
    (hY : ∀ X ∈ nodes, ∀ Y ∈ graph.edgeItr X, parts[Y]? = some q)
    (hm : m.edges_cut = 0 ∧ m.Vcom_vol = 0) (hh : m.ECV_hash < 18446744073709551616) :
    ∃ m1, evalNodes graph parts nodes m = .ok m1 ∧ m1.edges_cut = 0 ∧ m1.Vcom_vol = 0 ∧
      m1.ECV_hash = wrap64 ((m.ECV_hash : Int) - (lonerCount graph nodes : Int)) := by
  induction nodes generalizing m with
  | nil =>
    refine ⟨m, rfl, hm.1, hm.2, ?_⟩
    simp only [lonerCount, List.filter_nil, List.length_nil]
    unfold wrap64
    omega
  | cons X rest ih =>
    have hXq : parts[X]? = some q := hX X (List.mem_cons_self _ _)
    obtain ⟨acc1, h1, h2, h3, h4⟩ := evalEdges_one_part parts X q (graph.edgeItr X)
      { edges_cut := m.edges_cut, Vcom_vol_nbrs := {q}, ECV_hash_nbrs := ∅ } hq
      (hY X (List.mem_cons_self _ _)) rfl (Finset.empty_subset _)
    simp only [evalNodes, evalVertex, hXq, hq, if_false, h1]
    obtain ⟨m1, e1, e2, e3, e4⟩ := ih
      { edges_cut := acc1.edges_cut
        Vcom_vol := wrap64 (m.Vcom_vol + wrap64 ((acc1.Vcom_vol_nbrs.card : Int) - 1))
        ECV_hash := wrap64 (m.ECV_hash + wrap64 ((acc1.ECV_hash_nbrs.card : Int) - 1)) }
      (fun Z hZ => hX Z (List.mem_cons_of_mem _ hZ))
      (fun Z hZ => hY Z (List.mem_cons_of_mem _ hZ))
      (by
        refine ⟨by rw [h2]; exact hm.1, ?_⟩
        show wrap64 (m.Vcom_vol + wrap64 ((acc1.Vcom_vol_nbrs.card : Int) - 1)) = 0
        rw [h3, hm.2, Finset.card_singleton]
        decide)
      (by dsimp only; exact wrap64_lt _)
    refine ⟨m1, e1, e2, e3, ?_⟩
    rw [e4]
    show wrap64 ((wrap64 (m.ECV_hash + wrap64 ((acc1.ECV_hash_nbrs.card : Int) - 1)) : Int) -
      (lonerCount graph rest : Int)) = _
    rw [h4]
    by_cases hn : graph.edgeItr X = []
    · rw [if_pos hn, lonerCount_cons_loner graph X rest hn, Finset.card_empty]
      exact wrap64_step_loner _ _
    · rw [if_neg hn, lonerCount_cons_edge graph X rest hn, Finset.card_singleton]
      exact wrap64_step_edge _ _

theorem orderNodes_one_part (graph : GraphWrapper) (parts : List Int) (pos : List (Option Nat))
    (q : Int) (nodes : List Nat) (m : OrderMetrics) (hq : q ≠ INVALID_PART)
    (hX : ∀ X ∈ nodes, parts[X]? = some q ∧ ∃ Xp, pos[X]? = some Xp)
    (hY : ∀ X ∈ nodes, ∀ Y ∈ graph.edgeItr X, parts[Y]? = some q ∧ ∃ Yp, pos[Y]? = some Yp)
    (hd : m.ECV_down < 18446744073709551616) (hu : m.ECV_up < 18446744073709551616) :
    ∃ m1, orderNodes graph parts pos nodes m = .ok m1 ∧
      m1.ECV_down = wrap64 ((m.ECV_down : Int) - (lonerCount graph nodes : Int)) ∧
      m1.ECV_up = wrap64 ((m.ECV_up : Int) - (lonerCount graph nodes : Int)) := by
  induction nodes generalizing m with
  | nil =>
    refine ⟨m, rfl, ?_, ?_⟩ <;>
    · simp only [lonerCount, List.filter_nil, List.length_nil]
      unfold wrap64
      omega
  | cons X rest ih =>
    obtain ⟨hXq, Xp, hXp⟩ := hX X (List.mem_cons_self _ _)
    obtain ⟨acc1, h1, h2, h3⟩ := orderEdges_one_part parts pos Xp q (graph.edgeItr X)
      { ECV_down_nbrs := ∅, ECV_up_nbrs := ∅ } hq (hY X (List.mem_cons_self _ _))
      (Finset.empty_subset _) (Finset.empty_subset _)
    simp only [orderNodes, hXq, hXp, hq, if_false, h1]
    obtain ⟨m1, e1, e2, e3⟩ := ih
      { ECV_down := wrap64 (m.ECV_down + wrap64 ((acc1.ECV_down_nbrs.card : Int) - 1))
        ECV_up := wrap64 (m.ECV_up + wrap64 ((acc1.ECV_up_nbrs.card : Int) - 1)) }
      (fun Z hZ => hX Z (List.mem_cons_of_mem _ hZ))
      (fun Z hZ => hY Z (List.mem_cons_of_mem _ hZ))
      (by dsimp only; exact wrap64_lt _) (by dsimp only; exact wrap64_lt _)
    refine ⟨m1, e1, ?_, ?_⟩
    · rw [e2]
      show wrap64 ((wrap64 (m.ECV_down + wrap64 ((acc1.ECV_down_nbrs.card : Int) - 1)) : Int) -
        (lonerCount graph rest : Int)) = _
      rw [h2]
      by_cases hn : graph.edgeItr X = []
      · rw [if_pos hn, lonerCount_cons_loner graph X rest hn, Finset.card_empty]
        exact wrap64_step_loner _ _
      · rw [if_neg hn, lonerCount_cons_edge graph X rest hn, Finset.card_singleton]
        exact wrap64_step_edge _ _
    · rw [e3]
      show wrap64 ((wrap64 (m.ECV_up + wrap64 ((acc1.ECV_up_nbrs.card : Int) - 1)) : Int) -
        (lonerCount graph rest : Int)) = _
      rw [h3]
      by_cases hn : graph.edgeItr X = []
      · rw [if_pos hn, lonerCount_cons_loner graph X rest hn, Finset.card_empty]
        exact wrap64_step_loner _ _
      · rw [if_neg hn, lonerCount_cons_edge graph X rest hn, Finset.card_singleton]
        exact wrap64_step_edge _ _

theorem posLoop_length (seq : List Nat) (i : Nat) (pos : List (Option Nat)) :
    (posLoop seq i pos).length = pos.length := by
  induction seq generalizing i pos with
  | nil => rfl
  | cons v rest ih =>
    rw [posLoop, ih]
    simp

theorem buildPos_covers (seq : List Nat) (hne : seq ≠ []) :
    ∃ pos, buildPos seq = .ok pos ∧ ∀ v ∈ seq, ∃ p, pos[v]? = some p := by
  obtain ⟨m, hm, _, hmax⟩ := maxElement_spec seq hne
  refine ⟨posLoop seq 0 (List.replicate (m + 1) none), by simp only [buildPos, hm], ?_⟩
  intro v hv
  have hlt : v < (posLoop seq 0 (List.replicate (m + 1) none)).length := by
    rw [posLoop_length]
    have := hmax v hv
    simp
    omega
  exact ⟨_, List.getElem?_eq_getElem hlt⟩

/-- The volumes of a single part: for every graph whose neighbours are
vertices, every assignment that gives all vertices the part `q`, and every
sequence that contains the vertices, `evaluate(graph, seq)` completes with edge
cut 0 and vertex communication volume 0, and each of `ECV(hash)`, `ECV(down)`
and `ECV(up)` is `-k` reduced modulo `2 ^ 64`, where `k` is the number of
vertices without incident edge: 0 exactly when every vertex has a neighbour
(for fewer than `2 ^ 64` such vertices). -/
theorem single_part_volumes (graph : GraphWrapper) (seq : List Nat) (parts : List Int) (q : Int)
    (hq : q ≠ INVALID_PART) (hne : seq ≠ [])
    (hparts : ∀ X ∈ graph.nodeItr, parts[X]? = some q)
    (hnbrs : ∀ X ∈ graph.nodeItr, ∀ Y ∈ graph.edgeItr X, Y ∈ graph.nodeItr)
    (hseq : ∀ X ∈ graph.nodeItr, X ∈ seq) :
    ∃ m om, evaluate graph parts = .ok m ∧ evaluateSeq graph seq parts = .ok (m, om) ∧
      m.edges_cut = 0 ∧ m.Vcom_vol = 0 ∧
      m.ECV_hash = wrap64 (-(lonerCount graph graph.nodeItr : Int)) ∧
      om.ECV_down = wrap64 (-(lonerCount graph graph.nodeItr : Int)) ∧
      om.ECV_up = wrap64 (-(lonerCount graph graph.nodeItr : Int)) := by
  obtain ⟨m, h1, h2, h3, h4⟩ := evalNodes_one_part graph parts q graph.nodeItr ⟨0, 0, 0⟩ hq hparts
    (fun X hX Y hY => hparts Y (hnbrs X hX Y hY)) ⟨rfl, rfl⟩ (by decide)
  obtain ⟨pos, hpos, hcov⟩ := buildPos_covers seq hne
  obtain ⟨om, e1, e2, e3⟩ := orderNodes_one_part graph parts pos q graph.nodeItr ⟨0, 0⟩ hq
    (fun X hX => ⟨hparts X hX, hcov X (hseq X hX)⟩)
    (fun X hX Y hY => ⟨hparts Y (hnbrs X hX Y hY), hcov Y (hseq Y (hnbrs X hX Y hY))⟩)
    (by decide) (by decide)
  have h1' : evaluate graph parts = .ok m := h1
  refine ⟨m, om, h1', ?_, h2, h3, ?_, ?_, ?_⟩
  · simp only [evaluateSeq, h1', hpos, e1]
  · rw [h4]; simp
  · rw [e2]; simp
  · rw [e3]; simp

/-- C21: an edge between the vertices 0 and 1 and a vertex 2 without incident
edge, all three in part 0, sequence `[0, 1, 2]`. The vertices 0 and 1
contribute 0 to `ECV(hash)`; for vertex 2 the set `ECV_hash_nbrs` stays empty
and `size() - 1` wraps to `2 ^ 64 - 1`, and so do `ECV_down_nbrs` and
`ECV_up_nbrs`: `ECV(hash)`, `ECV(down)` and `ECV(up)` end at
18446744073709551615, while edge cut and vertex communication volume (whose set
starts as `{X_part}`) are 0. -/
theorem evaluate_loner_wraps :
    (evalVertex edgeAndLoner [0, 0, 0] 0 0).map
        (fun a => wrap64 ((a.ECV_hash_nbrs.card : Int) - 1)) = .ok 0 ∧
      (evalVertex edgeAndLoner [0, 0, 0] 0 2).map
        (fun a => wrap64 ((a.ECV_hash_nbrs.card : Int) - 1)) = .ok 18446744073709551615 ∧
      evaluate edgeAndLoner [0, 0, 0] = .ok ⟨0, 0, 18446744073709551615⟩ ∧
      evaluateSeq edgeAndLoner [0, 1, 2] [0, 0, 0] =
        .ok (⟨0, 0, 18446744073709551615⟩, ⟨18446744073709551615, 18446744073709551615⟩) :=
  ⟨rfl, rfl, rfl, rfl⟩

end Sheep
